import Mathlib

/-!
Repeat resolution core of the assembler (`src/repeat_graph/repeat_resolver.cpp`).

A shallow embedding of `RepeatResolver` and the properties proved about it.

Conventions of the embedding

* Graph edges are addressed by handles of a type `E` with decidable equality
  (the C++ code compares `GraphEdge*` pointers); graph nodes are addressed by
  natural numbers.
* The mutable attributes of an edge (`repetitive`, `meanCoverage`) are fields of
  `RepeatGraph`, updated by record update; every procedure that mutates the graph
  is a function returning the new graph.
* `int`, `int32_t` and `size_t` values are integers / naturals; the coordinates
  handled here are read and edge coordinates, far below the machine limits.
* Collaborators that live outside this source file (the graph container, the
  unbranching-path extractor, the aligner, the matcher, the configuration) enter
  as parameters.
-/

namespace Flye

/-! ## Data model -/

/-- Modelled from the spec: `FastaRecord::Id`, declared outside this source file, is a
signed identifier, a positive id and its reverse-complement partner. `num` is the
magnitude, `fwd` the strand; `rc` switches strand and is an involution without fixed
point. -/
structure Id where
  num : Nat
  fwd : Bool
deriving DecidableEq

/-- The reverse-complement partner `id.rc()`. -/
def Id.rc (i : Id) : Id := ⟨i.num, !i.fwd⟩

/-- The strand test `id.strand()`: true on the forward strand. -/
def Id.strand (i : Id) : Bool := i.fwd

/-- The fields of `OverlapRange` read by the resolver: read (`cur`) and edge (`ext`)
coordinates of one hit. -/
structure OverlapRange where
  curId : Id
  curBegin : Int
  curEnd : Int
  curLen : Int
  extBegin : Int
  extEnd : Int
  extLen : Int
deriving DecidableEq

/-- One record of a read-to-graph alignment: the edge hit and the overlap. -/
structure EdgeAlignment (E : Type) where
  edge : E
  overlap : OverlapRange
deriving DecidableEq

/-- A read-to-graph alignment (`GraphAlignment`): the hits ordered along the read. -/
abbrev GraphAlignment (E : Type) := List (EdgeAlignment E)

/-- A walk in the graph (`GraphPath`). -/
abbrev GraphPath (E : Type) := List E

/-- The assembly graph as seen by the resolver. The fields are the attributes of
`GraphEdge` and `GraphNode` that this source file reads or writes; `repetitive` and
`meanCoverage` are the ones it writes. -/
structure RepeatGraph (E : Type) where
  iterEdges : List E
  iterNodes : List Nat
  edgeId : E → Id
  nodeLeft : E → Nat
  nodeRight : E → Nat
  inEdges : Nat → List E
  outEdges : Nat → List E
  repetitive : E → Bool
  resolved : E → Bool
  selfComplement : E → Bool
  altHaplotype : E → Bool
  unreliable : E → Bool
  rightLink : E → Option E
  leftLink : E → Option E
  meanCoverage : E → Int

/-- The fields of `UnbranchingPath` read by the resolver. -/
structure UnbranchingPath (E : Type) where
  id : Id
  path : GraphPath E
  length : Int
  meanCoverage : Int
  isLooped : Bool
deriving DecidableEq

/-! ## `checkForTandemCopies` -/

/-- The constant `NEEDED_READS` of `checkForTandemCopies`. -/
def NEEDED_READS : Nat := 5

/-- The inner loop of `checkForTandemCopies`,
`for (size_t i = 1; i < aln.size() - 1; ++i) if (aln[i].edge == checkEdge) ++numCopies;`
for a non-empty alignment (on an empty one the unsigned bound `aln.size() - 1` wraps
around; the alignment index holds no empty alignment). -/
def numCopies {E : Type} [DecidableEq E] (checkEdge : E) (aln : GraphAlignment E) : Nat :=
  (List.range' 1 (aln.length - 1 - 1)).foldl
    (fun n i => if (aln[i]?).map (fun h => h.edge) = some checkEdge then n + 1 else n) 0

/-- The outer loop of `checkForTandemCopies`: the number of alignments with
`numCopies > 1`. -/
def readEvidence {E : Type} [DecidableEq E] (checkEdge : E) (alignments : List (GraphAlignment E)) :
    Nat :=
  alignments.foldl (fun ev aln => if 1 < numCopies checkEdge aln then ev + 1 else ev) 0

/-- `RepeatResolver::checkForTandemCopies`. -/
def checkForTandemCopies {E : Type} [DecidableEq E] (checkEdge : E)
    (alignments : List (GraphAlignment E)) : Bool :=
  decide (NEEDED_READS ≤ readEvidence checkEdge alignments)

/-- The tandem evidence of one alignment in the words of the specification: the number
of interior positions `1..size-2` (first and last hit excluded) at which the alignment
holds `checkEdge`. -/
def interiorCopies {E : Type} [DecidableEq E] (checkEdge : E) (aln : GraphAlignment E) : Nat :=
  ((List.range aln.length).filter (fun i =>
    decide (1 ≤ i ∧ i + 2 ≤ aln.length ∧ (aln[i]?).map (fun h => h.edge) = some checkEdge))).length

/-! ## `checkByReadExtension` -/

/-- The container `std::unordered_map<GraphEdge*, std::vector<int>>` used for
`outFlanks` and `outSpans`: one entry per key, in order of first insertion. -/
abbrev FlankMap (E : Type) := List (E × List Int)

/-- The statement `m[e].push_back(v)`: appends to the entry of `e`, creating it when
absent. -/
def FlankMap.pushBack {E : Type} [DecidableEq E] : FlankMap E → E → Int → FlankMap E
  | [], e, v => [(e, [v])]
  | (k, vs) :: rest, e, v =>
    if k = e then (k, vs ++ [v]) :: rest else (k, vs) :: FlankMap.pushBack rest e v

/-- How the scan of one alignment by `checkByReadExtension` ends:
`credited e flank span` when it stops on an edge that is recorded in `outFlanks` and
`outSpans`, `blocked` when it stops (`foundUnique = true`) without recording, and
`unfinished leftCoord` when the alignment ends with `foundUnique = false`. -/
inductive ScanResult (E : Type) where
  | credited (e : E) (flank span : Int)
  | blocked
  | unfinished (leftCoord : Int)
deriving DecidableEq

/-- The loop `for (size_t i = 0; i < aln.size(); ++i)` of `checkByReadExtension` over
the remaining hits, with the loop variables `passedStart`, `leftFlank`, `leftCoord`;
`first` and `last` are `aln[0].overlap` and `aln.back().overlap`. -/
def scanHits {E : Type} [DecidableEq E] (g : RepeatGraph E) (checkEdge : E)
    (first last : OverlapRange) :
    List (EdgeAlignment E) → Bool → Int → Int → ScanResult E
  | [], _, _, leftCoord => ScanResult.unfinished leftCoord
  | h :: rest, passedStart, leftFlank, leftCoord =>
    if !passedStart && decide (h.edge = checkEdge) then
      scanHits g checkEdge first last rest true (h.overlap.curEnd - first.curBegin)
        h.overlap.curEnd
    else if passedStart && !g.repetitive h.edge then
      if g.edgeId h.edge ≠ g.edgeId checkEdge ∧ g.edgeId h.edge ≠ (g.edgeId checkEdge).rc then
        ScanResult.credited h.edge (min leftFlank (last.curEnd - h.overlap.curBegin))
          (h.overlap.curBegin - leftCoord)
      else ScanResult.blocked
    else scanHits g checkEdge first last rest passedStart leftFlank leftCoord

/-- The scan of one whole alignment (an empty alignment has no hit to scan). -/
def scanAlignment {E : Type} [DecidableEq E] (g : RepeatGraph E) (checkEdge : E)
    (aln : GraphAlignment E) : ScanResult E :=
  match aln.head?, aln.getLast? with
  | some first, some last => scanHits g checkEdge first.overlap last.overlap aln false 0 0
  | _, _ => ScanResult.blocked

/-- The local variables `outFlanks`, `outSpans`, `lowerBound` of
`checkByReadExtension`. -/
structure ExtensionState (E : Type) where
  outFlanks : FlankMap E
  outSpans : FlankMap E
  lowerBound : Int

/-- One iteration of `for (auto& aln : alignments)` in `checkByReadExtension`. -/
def extensionStep {E : Type} [DecidableEq E] (g : RepeatGraph E) (checkEdge : E)
    (st : ExtensionState E) (aln : GraphAlignment E) : ExtensionState E :=
  match scanAlignment g checkEdge aln with
  | ScanResult.credited e flank span =>
    { outFlanks := st.outFlanks.pushBack e flank,
      outSpans := st.outSpans.pushBack e span,
      lowerBound := st.lowerBound }
  | ScanResult.blocked => st
  | ScanResult.unfinished leftCoord =>
    match aln.getLast? with
    | some last => { st with lowerBound := max st.lowerBound (last.overlap.curBegin - leftCoord) }
    | none => st

/-- The first loop of `checkByReadExtension`: all alignments scanned. -/
def collectExtensions {E : Type} [DecidableEq E] (g : RepeatGraph E) (checkEdge : E)
    (alignments : List (GraphAlignment E)) : ExtensionState E :=
  alignments.foldl (extensionStep g checkEdge) ⟨[], [], 0⟩

/-- The loop computing `maxSupport`, the largest `outConn.second.size()`. -/
def maxSupport {E : Type} (outFlanks : FlankMap E) : Int :=
  outFlanks.foldl (fun m outConn => if m < (outConn.2.length : Int) then outConn.2.length else m) 0

/-- The value of `minSupport`: `maxSupport / out_paths_ratio` in C++ integer division,
raised to at least 1 when `maxSupport > 1`. -/
def minSupport (maxSup outPathsRatio : Int) : Int :=
  let m := Int.tdiv maxSup outPathsRatio
  if maxSup > 1 then max m 1 else m

/-- The loop computing `uniqueMult`, the number of entries of `outFlanks` with more than
`minSupport` elements. -/
def uniqueMult {E : Type} (outFlanks : FlankMap E) (minSup : Int) : Int :=
  outFlanks.foldl (fun u outConn => if (outConn.2.length : Int) > minSup then u + 1 else u) 0

/-- `RepeatResolver::checkByReadExtension`; `outPathsRatio` is
`(int)Config::get("out_paths_ratio")`. The logging in the `true` branch is left out. -/
def checkByReadExtension {E : Type} [DecidableEq E] (g : RepeatGraph E) (outPathsRatio : Int)
    (checkEdge : E) (alignments : List (GraphAlignment E)) : Bool :=
  let outFlanks := (collectExtensions g checkEdge alignments).outFlanks
  decide (uniqueMult outFlanks (minSupport (maxSupport outFlanks) outPathsRatio) > 1)

/-- The edge an alignment is credited to by the scan of `checkByReadExtension`, if
any. -/
def creditedEdge {E : Type} [DecidableEq E] (g : RepeatGraph E) (checkEdge : E)
    (aln : GraphAlignment E) : Option E :=
  match scanAlignment g checkEdge aln with
  | ScanResult.credited e _ _ => some e
  | _ => none

/-- The number `n(e)` of alignments that the scan credits to the edge `e`. -/
def support {E : Type} [DecidableEq E] (g : RepeatGraph E) (checkEdge : E)
    (alignments : List (GraphAlignment E)) (e : E) : Nat :=
  alignments.countP (fun aln => decide (creditedEdge g checkEdge aln = some e))

/-- The edges credited with at least one alignment. -/
def creditedEdges {E : Type} [DecidableEq E] (g : RepeatGraph E) (checkEdge : E)
    (alignments : List (GraphAlignment E)) : Finset E :=
  (alignments.filterMap (creditedEdge g checkEdge)).toFinset

/-- The threshold in the words of the specification: the largest `n(e)` (0 if no edge is
credited) divided by `out_paths_ratio`, raised to at least 1 when the largest `n(e)`
exceeds 1. -/
def specMinSupport {E : Type} [DecidableEq E] (g : RepeatGraph E) (outPathsRatio : Int)
    (checkEdge : E) (alignments : List (GraphAlignment E)) : Nat :=
  let maxSup := (creditedEdges g checkEdge alignments).sup (support g checkEdge alignments)
  let m := maxSup / outPathsRatio.toNat
  if maxSup > 1 then max m 1 else m

/-! ## `findRepeats` -/

/-- The process-wide settings read by the resolver: `Parameters::get().unevenCoverage`,
`_multInf.getUniqueCovThreshold()`, `(int)Config::get("out_paths_ratio")` and
`(int)Config::get("unique_edge_length")`. -/
structure Settings where
  unevenCoverage : Bool
  uniqueCovThreshold : Int
  outPathsRatio : Int
  uniqueEdgeLength : Int

/-- The constant `MIN_RELIABLE_LOOP` of `findRepeats`. -/
def MIN_RELIABLE_LOOP : Int := 5000

/-- The first loop of `findRepeats`: `edge->repetitive = false` for every edge of
`iterEdges()`. The procedures of this section pass the `repetitive` flags of all edges
along as a function `rep`; the assignment `edge->repetitive = b` is
`Function.update rep edge b`. -/
def resetRepetitive {E : Type} [DecidableEq E] (g : RepeatGraph E) (rep : E → Bool) : E → Bool :=
  g.iterEdges.foldl (fun r e => Function.update r e false) rep

/-- The map `idToPath` of `findRepeats`, filled by `idToPath[path.id] = &path` in the
order of `unbranchingPaths` (a later path with the same id replaces an earlier one). -/
def idToPath {E : Type} (unbranchingPaths : List (UnbranchingPath E)) (i : Id) :
    Option (UnbranchingPath E) :=
  unbranchingPaths.reverse.find? (fun p => decide (p.id = i))

/-- The lambda `complPath` of `findRepeats`: the path registered under `path->id.rc()`,
or the path itself when there is none (self-complement). -/
def complPath {E : Type} (unbranchingPaths : List (UnbranchingPath E)) (path : UnbranchingPath E) :
    UnbranchingPath E :=
  match idToPath unbranchingPaths path.id.rc with
  | some q => q
  | none => path

/-- The lambda `markRepetitive` of `findRepeats`. -/
def markRepetitive {E : Type} [DecidableEq E] (rep : E → Bool) (path : UnbranchingPath E) :
    E → Bool :=
  path.path.foldl (fun r e => Function.update r e true) rep

/-- The pair of calls `markRepetitive(&path); markRepetitive(complPath(&path));`. -/
def markBoth {E : Type} [DecidableEq E] (unbranchingPaths : List (UnbranchingPath E))
    (rep : E → Bool) (path : UnbranchingPath E) : E → Bool :=
  markRepetitive (markRepetitive rep path) (complPath unbranchingPaths path)

/-- The high-coverage condition
`!Parameters::get().unevenCoverage && path.meanCoverage > _multInf.getUniqueCovThreshold()`. -/
def highCovRule {E : Type} (cfg : Settings) (path : UnbranchingPath E) : Bool :=
  !cfg.unevenCoverage && decide (path.meanCoverage > cfg.uniqueCovThreshold)

/-- The short-loop condition `path.isLooped() && path.length < MIN_RELIABLE_LOOP`. -/
def shortLoop {E : Type} (path : UnbranchingPath E) : Bool :=
  path.isLooped && decide (path.length < MIN_RELIABLE_LOOP)

/-- The tandem condition: the loop over `path.path` testing
`!edge->repetitive && this->checkForTandemCopies(edge, alnIndex[edge])`. -/
def tandemRule {E : Type} [DecidableEq E] (alnIndex : E → List (GraphAlignment E))
    (rep : E → Bool) (path : UnbranchingPath E) : Bool :=
  path.path.any (fun e => !rep e && checkForTandemCopies e (alnIndex e))

/-- The six conditions of the topology/coverage loop of `findRepeats` in source order
(high coverage, short loop, self-complement, alternative haplotype, unreliable, tandem),
each as a test on the current flags and the path. -/
def sweepRules {E : Type} [DecidableEq E] (cfg : Settings) (alnIndex : E → List (GraphAlignment E))
    (g : RepeatGraph E) : List ((E → Bool) → UnbranchingPath E → Bool) :=
  [fun _ path => highCovRule cfg path,
   fun _ path => shortLoop path,
   fun _ path => path.path.any (fun e => g.selfComplement e),
   fun _ path => path.path.any (fun e => g.altHaplotype e),
   fun _ path => path.path.any (fun e => g.unreliable e),
   fun rep path => tandemRule alnIndex rep path]

/-- The body of the topology/coverage loop of `findRepeats` for one path: a path of the
reverse strand is skipped; otherwise the six conditions are tested one after the other
and each one that holds marks the path and its complement. -/
def sweepPath {E : Type} [DecidableEq E] (cfg : Settings) (alnIndex : E → List (GraphAlignment E))
    (unbranchingPaths : List (UnbranchingPath E)) (g : RepeatGraph E) (rep : E → Bool)
    (path : UnbranchingPath E) : E → Bool :=
  if !path.id.strand then rep else
  (sweepRules cfg alnIndex g).foldl
    (fun r rule => if rule r path then markBoth unbranchingPaths r path else r) rep

/-- The call `std::sort(sortedPaths ...)` by ascending `length`. `std::sort` leaves the
relative order of paths of equal length open; here they keep their order. -/
def sortedPaths {E : Type} (unbranchingPaths : List (UnbranchingPath E)) :
    List (UnbranchingPath E) :=
  unbranchingPaths.insertionSort (fun p q => p.length ≤ q.length)

/-- The body of the read-extension loop of `findRepeats` for one path. A path without
edges has no `front()` and is skipped. -/
def extensionPath {E : Type} [DecidableEq E] (cfg : Settings)
    (alnIndex : E → List (GraphAlignment E)) (unbranchingPaths : List (UnbranchingPath E))
    (g : RepeatGraph E) (rep : E → Bool) (path : UnbranchingPath E) : E → Bool :=
  if !path.id.strand then rep else
  match path.path.head?, path.path.getLast?,
      (complPath unbranchingPaths path).path.getLast? with
  | some front, some back, some complBack =>
    if rep front then rep else
    let rightRepeat :=
      checkByReadExtension { g with repetitive := rep } cfg.outPathsRatio back (alnIndex back)
    let leftRepeat :=
      checkByReadExtension { g with repetitive := rep } cfg.outPathsRatio complBack
        (alnIndex complBack)
    if rightRepeat || leftRepeat then markBoth unbranchingPaths rep path else rep
  | _, _, _ => rep

/-- The number of read-extension passes, `numIters`. -/
def numIters (cfg : Settings) : Nat := if !cfg.unevenCoverage then 1 else 2

/-- The read-extension passes of `findRepeats`. -/
def extensionSweep {E : Type} [DecidableEq E] (cfg : Settings)
    (alnIndex : E → List (GraphAlignment E)) (unbranchingPaths : List (UnbranchingPath E))
    (g : RepeatGraph E) (rep : E → Bool) : E → Bool :=
  (List.range (numIters cfg)).foldl
    (fun r _ => (sortedPaths unbranchingPaths).foldl
      (extensionPath cfg alnIndex unbranchingPaths g) r) rep

/-- The test `link && !link->repetitive` on `rightLink` or `leftLink`. -/
def viaLink {E : Type} (rep : E → Bool) (link : Option E) : Option E :=
  link.filter (fun l => !rep l)

/-- The edge the rightward walk of the propagation step moves to from `curEdge`, or
`none` when the walk ends (`break`): the only outgoing edge of a right node with one
incoming and one outgoing edge if it is not repetitive, else `rightLink` if present and
not repetitive. -/
def nextRight {E : Type} (g : RepeatGraph E) (rep : E → Bool) (curEdge : E) : Option E :=
  match g.inEdges (g.nodeRight curEdge), g.outEdges (g.nodeRight curEdge) with
  | [_], [out] => if !rep out then some out else viaLink rep (g.rightLink curEdge)
  | _, _ => viaLink rep (g.rightLink curEdge)

/-- The edge the leftward walk of the propagation step moves to from `curEdge`, or
`none` when the walk ends. -/
def nextLeft {E : Type} (g : RepeatGraph E) (rep : E → Bool) (curEdge : E) : Option E :=
  match g.inEdges (g.nodeLeft curEdge), g.outEdges (g.nodeLeft curEdge) with
  | [inc], [_] => if !rep inc then some inc else viaLink rep (g.leftLink curEdge)
  | _, _ => viaLink rep (g.leftLink curEdge)

/-- A `for (;;)` loop of the propagation step: mark `curEdge`, then move to the next edge
or stop. Every move goes to an edge that is not yet repetitive and marks it, so the loop
ends; `fuel` bounds the number of iterations and `none` means the bound was reached. -/
def walk {E : Type} [DecidableEq E] (next : (E → Bool) → E → Option E) :
    Nat → (E → Bool) → E → Option (E → Bool)
  | 0, _, _ => none
  | fuel + 1, rep, curEdge =>
    let rep1 := Function.update rep curEdge true
    match next rep1 curEdge with
    | some e => walk next fuel rep1 e
    | none => some rep1

/-- The body of the propagation loop for one edge of `iterEdges()`: skipped when the
edge is not repetitive, else the walk to the right followed by the walk to the left. -/
def propagateFrom {E : Type} [DecidableEq E] (g : RepeatGraph E) (fuel : Nat) (rep : E → Bool)
    (edge : E) : Option (E → Bool) :=
  if !rep edge then some rep
  else (walk (nextRight g) fuel rep edge).bind (fun rep1 => walk (nextLeft g) fuel rep1 edge)

/-- The propagation loop of `findRepeats` over `iterEdges()`. Each walk marks a new edge
at every move, so one more iteration than there are edges is enough fuel. -/
def propagate {E : Type} [DecidableEq E] (g : RepeatGraph E) (rep : E → Bool) :
    Option (E → Bool) :=
  g.iterEdges.foldlM (propagateFrom g (g.iterEdges.length + 1)) rep

/-- The `repetitive` flags left by `RepeatResolver::findRepeats`. `alnIndex` is the value
of `_aligner.makeAlignmentIndex()` and `unbranchingPaths` the value of
`proc.getUnbranchingPaths()`. -/
def findRepeatsFlags {E : Type} [DecidableEq E] (cfg : Settings)
    (alnIndex : E → List (GraphAlignment E)) (unbranchingPaths : List (UnbranchingPath E))
    (g : RepeatGraph E) : Option (E → Bool) :=
  let rep0 := resetRepetitive g g.repetitive
  let rep1 := unbranchingPaths.foldl (sweepPath cfg alnIndex unbranchingPaths g) rep0
  let rep2 := extensionSweep cfg alnIndex unbranchingPaths g rep1
  propagate g rep2

/-- `RepeatResolver::findRepeats`: the graph with the new `repetitive` flags. -/
def findRepeats {E : Type} [DecidableEq E] (cfg : Settings)
    (alnIndex : E → List (GraphAlignment E)) (unbranchingPaths : List (UnbranchingPath E))
    (g : RepeatGraph E) : Option (RepeatGraph E) :=
  (findRepeatsFlags cfg alnIndex unbranchingPaths g).map (fun rep => { g with repetitive := rep })

/-- The conditions of the topology/coverage sweep in the words of the specification: the
path qualifies when the assembly is uniform-coverage and the mean coverage exceeds the
threshold, or it is looped and shorter than 5000, or one of its edges is self-complement,
an alternative haplotype, unreliable, or tandem by `checkForTandemCopies`. -/
def qualifies {E : Type} [DecidableEq E] (cfg : Settings) (alnIndex : E → List (GraphAlignment E))
    (g : RepeatGraph E) (path : UnbranchingPath E) : Prop :=
  (cfg.unevenCoverage = false ∧ path.meanCoverage > cfg.uniqueCovThreshold) ∨
  (path.isLooped = true ∧ path.length < 5000) ∨
  (∃ e ∈ path.path, g.selfComplement e = true) ∨
  (∃ e ∈ path.path, g.altHaplotype e = true) ∨
  (∃ e ∈ path.path, g.unreliable e = true) ∨
  (∃ e ∈ path.path, checkForTandemCopies e (alnIndex e) = true)

/-- The invariant of the topology/coverage sweep: a forward-strand path with one
repetitive edge is repetitive throughout, and so is its complement path. -/
def SweepInv {E : Type} (unbranchingPaths : List (UnbranchingPath E)) (rep : E → Bool) : Prop :=
  ∀ q ∈ unbranchingPaths, q.id.strand = true → (∃ e ∈ q.path, rep e = true) →
    (∀ e ∈ q.path, rep e = true) ∧
    (∀ e ∈ (complPath unbranchingPaths q).path, rep e = true)

/-! ## `finalizeGraph` -/

/-- The condition under which `finalizeGraph` clears a path: first edge not
self-complement and repetitive, `length > unique_edge_length`, and uneven coverage or
not `highCoverage`. -/
def fixCondition {E : Type} (cfg : Settings) (g : RepeatGraph E) (rep : E → Bool)
    (path : UnbranchingPath E) (front : E) : Bool :=
  !g.selfComplement front && rep front &&
    decide (path.length > cfg.uniqueEdgeLength) &&
    (cfg.unevenCoverage || !decide (path.meanCoverage > cfg.uniqueCovThreshold))

/-- The body of the first loop of `finalizeGraph` for one path; `complementEdge` is
`_graph.complementEdge`. A path without edges has no `front()` and is skipped. -/
def fixPath {E : Type} [DecidableEq E] (cfg : Settings) (complementEdge : E → E)
    (g : RepeatGraph E) (rep : E → Bool) (path : UnbranchingPath E) : E → Bool :=
  if !path.id.strand then rep else
  match path.path.head? with
  | some front =>
    if fixCondition cfg g rep path front then
      path.path.foldl
        (fun r e => Function.update (Function.update r e false) (complementEdge e) false) rep
    else rep
  | none => rep

/-- The body of the second loop of `finalizeGraph` for one path: the deferred coverage
`_substractedCoverage[edge]` (0 for an edge without entry) is subtracted from
`edge->meanCoverage`, clamped at 0; `cov` holds the `meanCoverage` of all edges. -/
def subtractPath {E : Type} [DecidableEq E] (substractedCoverage : E → Int)
    (cov : E → Int) (path : UnbranchingPath E) : E → Int :=
  if path.isLooped then cov else
  path.path.foldl
    (fun c e => Function.update c e (max 0 (c e - substractedCoverage e))) cov

/-- `RepeatResolver::finalizeGraph`; `unbranchingPaths` is the value of
`proc.getUnbranchingPaths()` at the call. -/
def finalizeGraph {E : Type} [DecidableEq E] (cfg : Settings) (complementEdge : E → E)
    (substractedCoverage : E → Int) (unbranchingPaths : List (UnbranchingPath E))
    (g : RepeatGraph E) : RepeatGraph E :=
  { g with
    repetitive := unbranchingPaths.foldl (fixPath cfg complementEdge g) g.repetitive,
    meanCoverage := unbranchingPaths.foldl (subtractPath substractedCoverage) g.meanCoverage }

/-! ## `getConnections` -/

/-- The structure `ReadSequence`: a read id and the coordinates of the bridging
substring (`end_` is the field `end`). -/
structure ReadSequence where
  readId : Id
  start : Int
  end_ : Int
deriving DecidableEq

/-- The structure `Connection`: the bridged path, the bridging read substring and the
flank score. -/
structure Connection (E : Type) where
  path : GraphPath E
  readSeq : ReadSequence
  flankScore : Int
deriving DecidableEq

/-- The constant `MAGIC_100` of `getConnections`. -/
def MAGIC_100 : Int := 100

/-- Modelled from the spec: `GraphEdge::isRepetitive()` is declared outside this source
file; a safe edge is one whose `isRepetitive()` is false, read here from the
`repetitive` flag. This is the lambda `safeEdge`. -/
def safeEdge {E : Type} (g : RepeatGraph E) (edge : E) : Bool := !g.repetitive edge

/-- The value given to `readStart` at a safe hit:
`min(curEnd + extLen - extEnd, curLen - MAGIC_100)`. -/
def initReadStart (o : OverlapRange) : Int :=
  min (o.curEnd + o.extLen - o.extEnd) (o.curLen - MAGIC_100)

/-- The three reliability tests of `getConnections` on the first hit `front` and the
last hit `back` of `currentAln`; `isBifurcation` is `GraphNode::isBifurcation()`. -/
def reliableConnection {E : Type} (g : RepeatGraph E) (isBifurcation : Nat → Bool)
    (front back : EdgeAlignment E) : Bool :=
  !(!isBifurcation (g.nodeRight front.edge) || !isBifurcation (g.nodeLeft back.edge)) &&
  !(g.resolved front.edge && g.resolved back.edge) &&
  !((g.rightLink front.edge).isSome || (g.leftLink back.edge).isSome)

/-- The loop `for (auto& aln : readPath)` of `getConnections` over the remaining hits of
one read, with the loop variables `currentAln` and `readStart` and the output vector
`readConnections`; `curRange` is `OverlapRange::curRange()` and `complementPath` is
`_graph.complementPath`. The `break` on malformed coordinates returns the output as it
stands. -/
def readLoop {E : Type} [DecidableEq E] (g : RepeatGraph E) (curRange : OverlapRange → Int)
    (isBifurcation : Nat → Bool) (complementPath : GraphPath E → GraphPath E) :
    List (EdgeAlignment E) → GraphAlignment E → Int → List (Connection E) → List (Connection E)
  | [], _, _, readConnections => readConnections
  | aln :: rest, currentAln, readStart, readConnections =>
    if currentAln.isEmpty && !safeEdge g aln.edge then
      readLoop g curRange isBifurcation complementPath rest currentAln readStart readConnections
    else
      let readStart1 := if currentAln.isEmpty then initReadStart aln.overlap else readStart
      let currentAln1 := currentAln ++ [aln]
      let front := (currentAln1.head?).getD aln
      if safeEdge g aln.edge && decide (front.edge ≠ aln.edge) then
        if !reliableConnection g isBifurcation front aln then
          readLoop g curRange isBifurcation complementPath rest [aln]
            (initReadStart aln.overlap) readConnections
        else
          let flankScore := min (curRange front.overlap) (curRange aln.overlap)
          let currentPath := currentAln1.map (fun a => a.edge)
          let complPath := complementPath currentPath
          let readEnd :=
            max (readStart1 + MAGIC_100 - 1) (aln.overlap.curBegin - aln.overlap.extBegin)
          if decide (readStart1 < 0) || decide (readEnd ≥ aln.overlap.curLen) then
            readConnections
          else
            let readSeq : ReadSequence := ⟨aln.overlap.curId, readStart1, readEnd⟩
            let complRead : ReadSequence :=
              ⟨aln.overlap.curId.rc, aln.overlap.curLen - readEnd - 1,
                aln.overlap.curLen - readStart1 - 1⟩
            readLoop g curRange isBifurcation complementPath rest [aln]
              (initReadStart aln.overlap)
              (readConnections ++ [⟨currentPath, readSeq, flankScore⟩,
                ⟨complPath, complRead, flankScore⟩])
      else
        readLoop g curRange isBifurcation complementPath rest currentAln1 readStart1
          readConnections

/-- `RepeatResolver::getConnections`; `alignments` is `_aligner.getAlignments()`. The
count `totalSafe` is only logged and is left out. -/
def getConnections {E : Type} [DecidableEq E] (g : RepeatGraph E) (curRange : OverlapRange → Int)
    (isBifurcation : Nat → Bool) (complementPath : GraphPath E → GraphPath E)
    (alignments : List (GraphAlignment E)) : List (Connection E) :=
  alignments.foldl
    (fun readConnections readPath =>
      readLoop g curRange isBifurcation complementPath readPath [] 0 readConnections) []

/-- The Connection `d` is the reverse-complement twin of `c`, both built from hits of
one read of `alignments`: `first` is the hit on the first edge of the path of `c` and
`last` the closing hit on its last edge; `d` has the complement path, the complemented
read id, the coordinates mirrored by `curLen - x - 1` with `curLen` of the closing hit, and
the same flank score `min(curRange(first), curRange(last))`. -/
def TwinPair {E : Type} (curRange : OverlapRange → Int)
    (complementPath : GraphPath E → GraphPath E) (alignments : List (GraphAlignment E))
    (c d : Connection E) : Prop :=
  ∃ readPath ∈ alignments, ∃ first ∈ readPath, ∃ last ∈ readPath,
    c.path.head? = some first.edge ∧ c.path.getLast? = some last.edge ∧
    c.readSeq.readId = last.overlap.curId ∧
    c.flankScore = min (curRange first.overlap) (curRange last.overlap) ∧
    d.path = complementPath c.path ∧
    d.readSeq.readId = c.readSeq.readId.rc ∧
    d.readSeq.start = last.overlap.curLen - c.readSeq.end_ - 1 ∧
    d.readSeq.end_ = last.overlap.curLen - c.readSeq.start - 1 ∧
    d.flankScore = c.flankScore

/-- A list of Connections made of consecutive twin pairs. -/
inductive PairedList {E : Type} (curRange : OverlapRange → Int)
    (complementPath : GraphPath E → GraphPath E) (alignments : List (GraphAlignment E)) :
    List (Connection E) → Prop where
  | nil : PairedList curRange complementPath alignments []
  | snoc (l : List (Connection E)) (c d : Connection E) :
      PairedList curRange complementPath alignments l →
      TwinPair curRange complementPath alignments c d →
      PairedList curRange complementPath alignments (l ++ [c, d])

/-! ## `resolveConnections` -/

/-- Modelled from the spec: `ReadSequence::length()` is declared outside this source
file; the bridging substring spans `[readSeq.start, readSeq.end)`, so its length is
`end - start`. -/
def ReadSequence.length (r : ReadSequence) : Int := r.end_ - r.start

/-- The ids `path.front()->edgeId` and `path.back()->edgeId` of a Connection (a
Connection without edges has neither). -/
def anchors {E : Type} (g : RepeatGraph E) (c : Connection E) : Option (Id × Id) :=
  match c.path.head?, c.path.getLast? with
  | some f, some b => some (g.edgeId f, g.edgeId b)
  | _, _ => none

/-- The vector `connectIndex[key]` after the first loop of `resolveConnections`: every
Connection is pushed under `front.edgeId`, `front.edgeId.rc()`, `back.edgeId` and
`back.edgeId.rc()`, in this order, so it stands under `key` once for each of the four
that equals `key`. -/
def connectIndex {E : Type} (g : RepeatGraph E) (connections : List (Connection E)) (key : Id) :
    List (Connection E) :=
  connections.flatMap (fun c =>
    match anchors g c with
    | some (f, b) => ([f, f.rc, b, b.rc].filter (fun k => decide (k = key))).map (fun _ => c)
    | none => [])

/-- The transition graph of `resolveConnections` with its bookkeeping: the node with
lemon id `n` carries the identity `lemonToAsm[n]` (nodes are numbered in order of
creation, `asmToLemon` is the inverse lookup), `edges` lists the undirected edges as
`(endpoint, endpoint, weight)`, and `leftCoverage`, `rightCoverage` are the two counter
maps (0 for an absent key). -/
structure TransitionGraph where
  lemonToAsm : List Id
  edges : List (Nat × Nat × Int)
  leftCoverage : Id → Int
  rightCoverage : Id → Int

/-- The lookup `asmToLemon[id]` of a node that exists. -/
def TransitionGraph.asmToLemon (tg : TransitionGraph) (i : Id) : Nat :=
  tg.lemonToAsm.indexOf i

/-- The statement `if (!asmToLemon.count(id)) { addNode ... }`. -/
def TransitionGraph.ensureNode (tg : TransitionGraph) (i : Id) : TransitionGraph :=
  if i ∈ tg.lemonToAsm then tg else { tg with lemonToAsm := tg.lemonToAsm ++ [i] }

/-- The test of the lambda `getEdge`: the edge joins `n1` and `n2` (in either
direction, the graph being undirected). -/
def joins (n1 n2 : Nat) (e : Nat × Nat × Int) : Bool :=
  (decide (e.1 = n1) && decide (e.2.1 = n2)) || (decide (e.1 = n2) && decide (e.2.1 = n1))

/-- The lambda `getEdge`: an edge between the two nodes, if there is one. -/
def getEdge (edges : List (Nat × Nat × Int)) (n1 n2 : Nat) : Option (Nat × Nat × Int) :=
  edges.find? (joins n1 n2)

/-- The statement `++edgeWeights[edge]` on the edge found by `getEdge`. -/
def incrementEdge (n1 n2 : Nat) : List (Nat × Nat × Int) → List (Nat × Nat × Int)
  | [] => []
  | e :: rest =>
    if joins n1 n2 e then (e.1, e.2.1, e.2.2 + 1) :: rest else e :: incrementEdge n1 n2 rest

/-- The last statements of the build loop: add the edge with weight 0 if `getEdge` finds
none, then increment its weight. -/
def bumpEdge (edges : List (Nat × Nat × Int)) (n1 n2 : Nat) : List (Nat × Nat × Int) :=
  if (getEdge edges n1 n2).isSome then incrementEdge n1 n2 edges
  else incrementEdge n1 n2 (edges ++ [(n1, n2, 0)])

/-- The body of the build loop of `resolveConnections` for one Connection: skipped when
the anchors have the same or complementary ids; otherwise both counters are incremented,
the nodes of `leftEdge->edgeId` and `rightEdge->edgeId.rc()` are created if absent and the
weight of the edge between them is incremented. -/
def addConnection {E : Type} (g : RepeatGraph E) (tg : TransitionGraph) (c : Connection E) :
    TransitionGraph :=
  match anchors g c with
  | none => tg
  | some (leftId, rightId) =>
    if leftId = rightId ∨ leftId = rightId.rc then tg else
    let tg1 : TransitionGraph :=
      { tg with
        leftCoverage := Function.update tg.leftCoverage leftId (tg.leftCoverage leftId + 1),
        rightCoverage :=
          Function.update tg.rightCoverage rightId.rc (tg.rightCoverage rightId.rc + 1) }
    let tg2 := (tg1.ensureNode leftId).ensureNode rightId.rc
    { tg2 with edges := bumpEdge tg2.edges (tg2.asmToLemon leftId) (tg2.asmToLemon rightId.rc) }

/-- The build loop of `resolveConnections`. -/
def buildTransitions {E : Type} (g : RepeatGraph E) (connections : List (Connection E)) :
    TransitionGraph :=
  connections.foldl (addConnection g) ⟨[], [], fun _ => 0, fun _ => 0⟩

/-- The local variables `usedEdges`, `uniqueConnections`, `unresolvedLinks` of
`resolveConnections`. -/
structure EmitState (E : Type) where
  usedEdges : List Id
  uniqueConnections : List (Connection E)
  unresolvedLinks : Nat

/-- The vector `spanningConnections`: the Connections under `connectIndex[leftId]` whose
anchors are `(leftId, rightId.rc())` or `(rightId, leftId.rc())`. -/
def spanning {E : Type} (g : RepeatGraph E) (connections : List (Connection E))
    (leftId rightId : Id) : List (Connection E) :=
  (connectIndex g connections leftId).filter (fun c =>
    match anchors g c with
    | some (f, b) =>
      (decide (f = leftId) && decide (b = rightId.rc)) ||
        (decide (f = rightId) && decide (b = leftId.rc))
    | none => false)

/-- A finite value of the C++ type `float` (IEEE 754 single precision): the number
`mant * 2 ^ exp`. The exponent range is not modelled: the values formed here are `int`
values and quotients of two of them, which lie far inside it. -/
structure F32 where
  mant : Int
  exp : Int
deriving DecidableEq

/-- The rational number a `float` stands for. -/
def F32.toRat (x : F32) : ℚ := (x.mant : ℚ) * (2 : ℚ) ^ x.exp

/-- The number of halvings that bring `n` below 2, which is `⌊log2 n⌋` for `0 < n ≤ fuel`. -/
def bitsBelow : Nat → Nat → Nat
  | 0, _ => 0
  | fuel + 1, n => if n < 2 then 0 else bitsBelow fuel (n / 2) + 1

/-- The binary exponent `⌊log2 (n / d)⌋` of a positive quotient: the difference `k` of the
bit lengths or `k - 1`, whichever satisfies `2 ^ k ≤ n / d`. -/
def floorLog2 (n d : Nat) : Int :=
  let k : Int := (bitsBelow n n : Int) - (bitsBelow d d : Int)
  if d * 2 ^ k.toNat ≤ n * 2 ^ (-k).toNat then k else k - 1

/-- The integer nearest to `n / d`, a tie going to the even one (the default rounding
mode of floating-point arithmetic). -/
def roundHalfEven (n d : Nat) : Nat :=
  if 2 * (n % d) < d then n / d
  else if d < 2 * (n % d) then n / d + 1
  else if n / d % 2 = 0 then n / d else n / d + 1

/-- The `float` nearest to `n / d` for positive `n` and `d`: the quotient is scaled by a
power of two into `[2 ^ 23, 2 ^ 24)`, so that the significand has 24 bits, and rounded
there. -/
def f32Quot (n d : Nat) : F32 :=
  let e := floorLog2 n d - 23
  ⟨(roundHalfEven (n * 2 ^ (-e).toNat) (d * 2 ^ e.toNat) : Nat), e⟩

/-- The conversion of an `int` to `float`, as in `(float)support` and in the implicit
conversion of the `int` divisor: the nearest `float` (exact below `2 ^ 24`). -/
def f32OfInt (x : Int) : F32 :=
  if x = 0 then ⟨0, 0⟩
  else ⟨x.sign * (f32Quot x.natAbs 1).mant, (f32Quot x.natAbs 1).exp⟩

/-- The quotient `a / b` of two `float` values, `b` not zero: the `float` nearest to the
exact quotient. -/
def f32Div (a b : F32) : F32 :=
  if a.mant = 0 then ⟨0, 0⟩
  else ⟨a.mant.sign * b.mant.sign * (f32Quot a.mant.natAbs b.mant.natAbs).mant,
    (f32Quot a.mant.natAbs b.mant.natAbs).exp + a.exp - b.exp⟩

/-- The local variable
`float confidence = (float)support / (leftCoverage[leftId] + rightCoverage[rightId])` for
a non-zero divisor `denom = leftCoverage[leftId] + rightCoverage[rightId]`: both `int`
values are converted to `float` and the quotient, computed in single precision, is
rounded to `float`. -/
def confidence (support denom : Int) : F32 := f32Div (f32OfInt support) (f32OfInt denom)

/-- The test `confidence < minSupport`; `minSup` is the value of the `float` parameter
`minSupport`. A zero divisor makes the quotient of a non-negative `support` infinite or
undefined, and then the comparison is false. -/
def belowFloor (sup denom : Int) (minSup : ℚ) : Bool :=
  decide (denom ≠ 0 ∧ (confidence sup denom).toRat < minSup)

/-- The body of the loop `for (auto lemonAsm : lemonToAsm)` of `resolveConnections` for
the node with lemon id `n`; `mate` is the answer of the matcher, `sortConns` the call of
`std::sort` on `spanningConnections`. -/
def emitStep {E : Type} (g : RepeatGraph E) (connections : List (Connection E))
    (sortConns : List (Connection E) → List (Connection E)) (tg : TransitionGraph)
    (mate : Nat → Option Nat) (minSup : ℚ) (st : EmitState E) (n : Nat) : EmitState E :=
  match mate n with
  | none => st
  | some m =>
    match tg.lemonToAsm[n]?, tg.lemonToAsm[m]? with
    | some leftId, some rightId =>
      let sup : Int := match getEdge tg.edges n m with
        | some e => e.2.2
        | none => 0
      if leftId ∈ st.usedEdges then st else
      let st1 : EmitState E := { st with usedEdges := rightId :: st.usedEdges }
      if belowFloor sup (tg.leftCoverage leftId + tg.rightCoverage rightId) minSup then
        { st1 with unresolvedLinks := st1.unresolvedLinks + 1 }
      else
        let spanningConnections := spanning g connections leftId rightId
        if spanningConnections.isEmpty then st1 else
        match (sortConns spanningConnections)[spanningConnections.length / 2]? with
        | some c => { st1 with uniqueConnections := st1.uniqueConnections ++ [c] }
        | none => st1
    | _, _ => st

/-- The requests made to collaborators that change the graph or the alignments. -/
inductive GraphOp (E : Type) where
  | newEdgeId
  | addEdgeSequence (readId : Id) (start length : Int)
  | separatePath (path : GraphPath E) (complement : Bool)
  | removeNode (node : Nat)
  | fixChimericJunctions
  | updateAlignments
deriving DecidableEq

/-- The last loop of `resolveConnections` (and of `resolveSimpleRepeats`): for every
selected Connection a new edge id, an edge sequence cut from the read, and
`separatePath` on the path and on its complement. -/
def rewire {E : Type} (complementPath : GraphPath E → GraphPath E)
    (uniqueConnections : List (Connection E)) : List (GraphOp E) :=
  uniqueConnections.flatMap (fun c =>
    [GraphOp.newEdgeId,
     GraphOp.addEdgeSequence c.readSeq.readId c.readSeq.start c.readSeq.length,
     GraphOp.separatePath c.path false,
     GraphOp.separatePath (complementPath c.path) true])

/-- What `resolveConnections` leaves behind: the transition graph it built, the final
loop variables, the requests it made, and the value it returns. -/
structure ResolveOutcome (E : Type) where
  transitions : TransitionGraph
  emitted : EmitState E
  operations : List (GraphOp E)
  returned : Nat

/-- `RepeatResolver::resolveConnections`. `mate` is the matching computed by
`lemon::MaxWeightedMatching` on the transition graph, `order` the order in which the loop
over `lemonToAsm` (an unordered map) visits the lemon ids, `sortConns` the call of
`std::sort`. -/
def resolveConnections {E : Type} (g : RepeatGraph E)
    (complementPath : GraphPath E → GraphPath E)
    (sortConns : List (Connection E) → List (Connection E))
    (mate : Nat → Option Nat) (order : List Nat)
    (connections : List (Connection E)) (minSup : ℚ) : ResolveOutcome E :=
  let tg := buildTransitions g connections
  let st := order.foldl (emitStep g connections sortConns tg mate minSup) ⟨[], [], 0⟩
  { transitions := tg,
    emitted := st,
    operations := rewire complementPath st.uniqueConnections,
    returned := st.uniqueConnections.length }

/-- The call of `std::sort` by ascending `readSeq.length()`; Connections of equal
length keep their order (`std::sort` leaves it open). -/
def sortByLength {E : Type} (l : List (Connection E)) : List (Connection E) :=
  l.insertionSort (fun c d => c.readSeq.length ≤ d.readSeq.length)

/-- The matching pairs only nodes joined by an edge of the transition graph, and
symmetrically. -/
def IsMatching (tg : TransitionGraph) (mate : Nat → Option Nat) : Prop :=
  ∀ n m, mate n = some m →
    mate m = some n ∧ n < tg.lemonToAsm.length ∧ m < tg.lemonToAsm.length ∧
      (getEdge tg.edges n m).isSome = true

/-- The weight of a matching: the sum of the weights of the matched edges. -/
def matchingWeight (tg : TransitionGraph) (mate : Nat → Option Nat) : Int :=
  ((tg.edges.filter (fun e => decide (mate e.1 = some e.2.1))).map (fun e => e.2.2)).sum

/-- The matching is one of maximum weight, as `lemon::MaxWeightedMatching` computes. -/
def IsMaxWeightMatching (tg : TransitionGraph) (mate : Nat → Option Nat) : Prop :=
  IsMatching tg mate ∧
    ∀ other, IsMatching tg other → matchingWeight tg other ≤ matchingWeight tg mate

/-- The two transition-graph nodes of a Connection: `front.edgeId` and
`back.edgeId.rc()`. -/
def nodeIds {E : Type} (g : RepeatGraph E) (c : Connection E) : List Id :=
  match anchors g c with
  | some (f, b) => [f, b.rc]
  | none => []

/-! ## `clearResolvedRepeats` and `resolveRepeats` -/

/-- The graph together with the answers of the `GraphNode` and `GraphEdge` methods that
are declared outside this source file: `neighbors()`, `isEnd()`, `isResolved()` of a node
and `isLooped()` of an edge. -/
structure GraphView (E : Type) where
  graph : RepeatGraph E
  neighbors : Nat → List Nat
  isEnd : Nat → Bool
  isResolved : Nat → Bool
  isLooped : E → Bool

/-- The lambda `nextEdge` of `clearResolvedRepeats`: the first outgoing edge that is not
looped, if any. -/
def nextEdge {E : Type} (view : GraphView E) (node : Nat) : Option E :=
  (view.graph.outEdges node).find? (fun e => !view.isLooped e)

/-- The lambda `shouldRemove` of `clearResolvedRepeats`. -/
def shouldRemove {E : Type} (view : GraphView E) (edge : E) : Bool := view.graph.resolved edge

/-- The statement `toRemove.insert(node)` on the set `toRemove`. -/
def insertNode (toRemove : List Nat) (node : Nat) : List Nat :=
  if node ∈ toRemove then toRemove else toRemove ++ [node]

/-- The loop `while (curNode->isResolved())` of `clearResolvedRepeats`: returns the
traversal and the node it stops at. `fuel` bounds the number of iterations; `none` means
that the bound was reached or that `nextEdge` found no edge to follow. -/
def traverse {E : Type} (view : GraphView E) :
    Nat → Nat → GraphPath E → Option (GraphPath E × Nat)
  | 0, _, _ => none
  | fuel + 1, curNode, traversed =>
    if view.isResolved curNode then
      match nextEdge view curNode with
      | some e => traverse view fuel (view.graph.nodeRight e) (traversed ++ [e])
      | none => none
    else some (traversed, curNode)

/-- The insertions made for a traversal of resolved edges: the left node of its first
edge, the right nodes of all edges but the last on both strands, the right node of the
last edge of the complement, and, if `removeLast`, the left node of the first edge of the
complement and the right node of the last edge. -/
def removeChain {E : Type} (view : GraphView E) (traversed complPath : GraphPath E)
    (removeLast : Bool) (toRemove : List Nat) : List Nat :=
  let r1 := match traversed.head? with
    | some e => insertNode toRemove (view.graph.nodeLeft e)
    | none => toRemove
  let r2 := match removeLast, complPath.head? with
    | true, some e => insertNode r1 (view.graph.nodeLeft e)
    | _, _ => r1
  let r3 := (List.range (traversed.length - 1)).foldl
    (fun r i =>
      let ra := match traversed[i]? with
        | some e => insertNode r (view.graph.nodeRight e)
        | none => r
      match complPath[i]? with
      | some e => insertNode ra (view.graph.nodeRight e)
      | none => ra) r2
  let r4 := match removeLast, traversed.getLast? with
    | true, some e => insertNode r3 (view.graph.nodeRight e)
    | _, _ => r3
  match complPath.getLast? with
  | some e => insertNode r4 (view.graph.nodeRight e)
  | none => r4

/-- The body of the loop `for (auto& node : _graph.iterNodes())` of
`clearResolvedRepeats`; `complementPath` is `_graph.complementPath`. -/
def scanNode {E : Type} (view : GraphView E) (complementPath : GraphPath E → GraphPath E)
    (fuel : Nat) (toRemove : List Nat) (node : Nat) : Option (List Nat) :=
  let toRemove1 :=
    if (view.neighbors node).isEmpty && (view.graph.outEdges node).all (shouldRemove view) then
      insertNode toRemove node
    else toRemove
  if !view.isEnd node then some toRemove1 else
  match nextEdge view node with
  | none => some toRemove1
  | some direction =>
    match traverse view fuel (view.graph.nodeRight direction) [direction] with
    | none => none
    | some (traversed, curNode) =>
      if traversed.all (shouldRemove view) then
        some (removeChain view traversed (complementPath traversed) (view.isEnd curNode)
          toRemove1)
      else some toRemove1

/-- The set `toRemove` computed by `RepeatResolver::clearResolvedRepeats`, in order of
insertion. A traversal passes through each node at most once, so one more iteration than
there are nodes is enough fuel. -/
def nodesToRemove {E : Type} (view : GraphView E) (complementPath : GraphPath E → GraphPath E) :
    Option (List Nat) :=
  view.graph.iterNodes.foldlM (scanNode view complementPath (view.graph.iterNodes.length + 1)) []

/-- `RepeatResolver::clearResolvedRepeats`: the requests it makes. -/
def clearResolvedRepeats {E : Type} (view : GraphView E)
    (complementPath : GraphPath E → GraphPath E) : Option (List (GraphOp E)) :=
  (nodesToRemove view complementPath).map
    (fun toRemove => toRemove.map GraphOp.removeNode ++ [GraphOp.updateAlignments])

/-- What `resolveRepeats` leaves behind: the value it returns and the requests made. -/
structure RepeatsOutcome (E : Type) where
  returned : Nat
  operations : List (GraphOp E)
deriving DecidableEq

/-- `RepeatResolver::resolveRepeats`. `rewired` gives the graph as the collaborators
leave it after the requests of `resolveConnections` (for no request, the graph as it
was); `minSup` is `Config::get("min_repeat_res_support")`. -/
def resolveRepeats {E : Type} [DecidableEq E] (view : GraphView E)
    (curRange : OverlapRange → Int) (isBifurcation : Nat → Bool)
    (complementPath : GraphPath E → GraphPath E)
    (sortConns : List (Connection E) → List (Connection E))
    (mate : Nat → Option Nat) (order : List Nat)
    (rewired : List (GraphOp E) → GraphView E)
    (alignments : List (GraphAlignment E)) (minSup : ℚ) : Option (RepeatsOutcome E) :=
  let connections := getConnections view.graph curRange isBifurcation complementPath alignments
  let resolved := resolveConnections view.graph complementPath sortConns mate order
    connections minSup
  (clearResolvedRepeats (rewired resolved.operations) complementPath).map
    (fun cleared =>
      { returned := resolved.returned,
        operations := resolved.operations ++ cleared ++
          [GraphOp.fixChimericJunctions, GraphOp.updateAlignments] })

/-- Two unbranching-path records describe the same walk: same id, edges, length and
loop status (only `meanCoverage` may differ). -/
def SameWalk {E : Type} (p q : UnbranchingPath E) : Prop :=
  q.id = p.id ∧ q.path = p.path ∧ q.length = p.length ∧ q.isLooped = p.isLooped

/-- Two unbranching-path records get the same `highCoverage` verdict in
`finalizeGraph`. -/
def SameVerdict {E : Type} (cfg : Settings) (p q : UnbranchingPath E) : Prop :=
  q.meanCoverage > cfg.uniqueCovThreshold ↔ p.meanCoverage > cfg.uniqueCovThreshold

/-- The part of `fixCondition` that does not read the `repetitive` flag. -/
def staticFix {E : Type} (cfg : Settings) (g : RepeatGraph E) (path : UnbranchingPath E)
    (front : E) : Bool :=
  !g.selfComplement front && decide (path.length > cfg.uniqueEdgeLength) &&
    (cfg.unevenCoverage || !decide (path.meanCoverage > cfg.uniqueCovThreshold))

/-- The value of `support` in the emit loop: the weight of the edge between the node and
its mate. -/
def pairSupport (tg : TransitionGraph) (n m : Nat) : Int :=
  match getEdge tg.edges n m with
  | some e => e.2.2
  | none => 0

/-- The loop variables `currentAln` and `readStart` of `getConnections` after the loop
over one read has gone through `hits`; `none` once the loop has been left through
`break`. The tests are those of the loop itself. -/
def readState {E : Type} [DecidableEq E] (g : RepeatGraph E) (isBifurcation : Nat → Bool) :
    List (EdgeAlignment E) → GraphAlignment E → Int → Option (GraphAlignment E × Int)
  | [], currentAln, readStart => some (currentAln, readStart)
  | aln :: rest, currentAln, readStart =>
    if currentAln.isEmpty && !safeEdge g aln.edge then
      readState g isBifurcation rest currentAln readStart
    else
      let readStart1 := if currentAln.isEmpty then initReadStart aln.overlap else readStart
      let currentAln1 := currentAln ++ [aln]
      let front := (currentAln1.head?).getD aln
      if safeEdge g aln.edge && decide (front.edge ≠ aln.edge) then
        if !reliableConnection g isBifurcation front aln then
          readState g isBifurcation rest [aln] (initReadStart aln.overlap)
        else
          let readEnd :=
            max (readStart1 + MAGIC_100 - 1) (aln.overlap.curBegin - aln.overlap.extBegin)
          if decide (readStart1 < 0) || decide (readEnd ≥ aln.overlap.curLen) then none
          else readState g isBifurcation rest [aln] (initReadStart aln.overlap)
      else readState g isBifurcation rest currentAln1 readStart1

/-- The hit `aln` closes a reliable Connection with malformed coordinates: with the loop
variables `currentAln` and `readStart` it reaches the test
`readStart < 0 || readEnd >= aln.overlap.curLen` and the test holds. -/
def offendingHit {E : Type} [DecidableEq E] (g : RepeatGraph E) (isBifurcation : Nat → Bool)
    (currentAln : GraphAlignment E) (readStart : Int) (aln : EdgeAlignment E) : Bool :=
  match currentAln with
  | [] => false
  | front :: _ =>
    safeEdge g aln.edge && decide (front.edge ≠ aln.edge) &&
      reliableConnection g isBifurcation front aln &&
      (decide (readStart < 0) ||
        decide (max (readStart + MAGIC_100 - 1) (aln.overlap.curBegin - aln.overlap.extBegin)
          ≥ aln.overlap.curLen))

/-- The Connection `c` and its twin `d` as `getConnections` pushes them: `currentAln` is
`front :: mid ++ [last]`, a run of consecutive hits of one read; `front` and `last` lie on
safe edges that differ, every hit in between lies on a repetitive edge or on the edge of
`front`, the three reliability tests hold, `readStart` is the value set at `front`,
`readEnd` the value computed at `last`, and both passed the range test. -/
def EmittedPair {E : Type} (g : RepeatGraph E) (curRange : OverlapRange → Int)
    (isBifurcation : Nat → Bool) (complementPath : GraphPath E → GraphPath E)
    (alignments : List (GraphAlignment E)) (c d : Connection E) : Prop :=
  ∃ readPath ∈ alignments, ∃ (front : EdgeAlignment E) (mid : List (EdgeAlignment E))
      (last : EdgeAlignment E) (readStart readEnd : Int),
    (front :: mid ++ [last]) <:+: readPath ∧
    safeEdge g front.edge = true ∧ safeEdge g last.edge = true ∧ front.edge ≠ last.edge ∧
    (∀ a ∈ mid, safeEdge g a.edge = true → a.edge = front.edge) ∧
    reliableConnection g isBifurcation front last = true ∧
    readStart = initReadStart front.overlap ∧
    readEnd = max (readStart + MAGIC_100 - 1) (last.overlap.curBegin - last.overlap.extBegin) ∧
    0 ≤ readStart ∧ readEnd < last.overlap.curLen ∧
    c = ⟨(front :: mid ++ [last]).map (fun a => a.edge),
      ⟨last.overlap.curId, readStart, readEnd⟩,
      min (curRange front.overlap) (curRange last.overlap)⟩ ∧
    d = ⟨complementPath ((front :: mid ++ [last]).map (fun a => a.edge)),
      ⟨last.overlap.curId.rc, last.overlap.curLen - readEnd - 1,
        last.overlap.curLen - readStart - 1⟩,
      min (curRange front.overlap) (curRange last.overlap)⟩

/-- A list made of consecutive pairs that satisfy `P`. -/
inductive PairsOf {α : Type} (P : α → α → Prop) : List α → Prop where
  | nil : PairsOf P []
  | snoc (l : List α) (c d : α) : PairsOf P l → P c d → PairsOf P (l ++ [c, d])

/-- What the loop of `getConnections` keeps true of `currentAln` and `readStart`: a
non-empty `currentAln` starts with a hit on a safe edge, `readStart` is the value set at
that hit, and every later hit lies on a repetitive edge or on the edge of the first. -/
def CurOk {E : Type} (g : RepeatGraph E) (currentAln : GraphAlignment E) (readStart : Int) :
    Prop :=
  match currentAln with
  | [] => True
  | front :: mid =>
    safeEdge g front.edge = true ∧ readStart = initReadStart front.overlap ∧
      ∀ a ∈ mid, safeEdge g a.edge = true → a.edge = front.edge

/-- The qualifying paths of `finalizeGraph` in the words of its description: the path is
on the forward strand, its first edge is not self-complement and is repetitive under the
flags `rep`, its length is greater than `unique_edge_length`, and the assembly is
uneven-coverage or the mean coverage is not above the unique-coverage threshold. -/
def specQualifies {E : Type} (cfg : Settings) (g : RepeatGraph E) (rep : E → Bool)
    (p : UnbranchingPath E) : Bool :=
  p.id.strand &&
    match p.path.head? with
    | some front =>
      !g.selfComplement front && rep front && decide (p.length > cfg.uniqueEdgeLength) &&
        (cfg.unevenCoverage || !decide (p.meanCoverage > cfg.uniqueCovThreshold))
    | none => false

/-- The edge `x` lies on the path `p` or is the complement of an edge on it. -/
def specTouches {E : Type} [DecidableEq E] (complementEdge : E → E) (p : UnbranchingPath E)
    (x : E) : Bool :=
  decide (x ∈ p.path) || decide (x ∈ p.path.map complementEdge)

/-- The `repetitive` flags after `finalizeGraph` in the words of its description: false
on every edge touched by a qualifying path, the previous flag elsewhere. -/
def specFinalFlags {E : Type} [DecidableEq E] (cfg : Settings) (complementEdge : E → E)
    (paths : List (UnbranchingPath E)) (g : RepeatGraph E) (rep : E → Bool) (x : E) : Bool :=
  if paths.any (fun p => specQualifies cfg g rep p && specTouches complementEdge p x) then false
  else rep x

/-- Two forward-strand paths are independent when no edge of the first, and no
complement of an edge of the first, lies on the second (unbranching paths do not share
edges, and the complement of a forward path is a reverse path). -/
def Independent {E : Type} (complementEdge : E → E) (p q : UnbranchingPath E) : Prop :=
  p.id.strand = true → q.id.strand = true →
    ∀ e ∈ p.path, e ∉ q.path ∧ complementEdge e ∉ q.path

instance Independent.decidable {E : Type} [DecidableEq E] (complementEdge : E → E)
    (p q : UnbranchingPath E) : Decidable (Independent complementEdge p q) := by
  unfold Independent
  exact inferInstance

/-! ## `resolveSimpleRepeats` -/

/-- The constant `MIN_JCT_SUPPORT` of `resolveSimpleRepeats`. -/
def MIN_JCT_SUPPORT : Nat := 2

/-- The evidence recorded for `inEdge` from one alignment of `alnIndex[inEdge]`: for every
index `i` with `aln[i].edge == inEdge` the first later hit `aln[j]` on an edge of `outputs`
gives one record, the output edge with the read substring
`{aln[i].overlap.curId, aln[i].overlap.curEnd, aln[j].overlap.curBegin}`; the inner loop
ends there (`break`). -/
def bridgeRecords {E : Type} [DecidableEq E] (outputs : List E) (inEdge : E) :
    GraphAlignment E → List (E × ReadSequence)
  | [] => []
  | a :: rest =>
    (if a.edge = inEdge then
      match rest.find? (fun b => decide (b.edge ∈ outputs)) with
      | some b => [(b.edge, ⟨a.overlap.curId, a.overlap.curEnd, b.overlap.curBegin⟩)]
      | none => []
    else []) ++ bridgeRecords outputs inEdge rest

/-- All records made for `inEdge`, in the order in which the loops make them. -/
def evidence {E : Type} [DecidableEq E] (alnIndex : E → List (GraphAlignment E))
    (outputs : List E) (inEdge : E) : List (E × ReadSequence) :=
  (alnIndex inEdge).flatMap (bridgeRecords outputs inEdge)

/-- The counter `connections[inEdge][outEdge]` after the evidence loops: one increment per
record. -/
def connections {E : Type} [DecidableEq E] (alnIndex : E → List (GraphAlignment E))
    (outputs : List E) (inEdge outEdge : E) : Nat :=
  ((evidence alnIndex outputs inEdge).filter (fun r => decide (r.1 = outEdge))).length

/-- The entry `bridgingReads[inEdge][outEdge]` after the evidence loops: every record
overwrites it, so the last one stays. A pair without record has the value-initialised
entry that `operator[]` creates, written here as the read `+0` with coordinates 0. -/
def bridgingReads {E : Type} [DecidableEq E] (alnIndex : E → List (GraphAlignment E))
    (outputs : List E) (inEdge outEdge : E) : ReadSequence :=
  match ((evidence alnIndex outputs inEdge).filter (fun r => decide (r.1 = outEdge))).getLast? with
  | some r => r.2
  | none => ⟨⟨0, true⟩, 0, 0⟩

/-- One of the two loops that fill `allElements` and `edgeToElement`: the edges are
pushed at the positions `start`, `start + 1`, ... and `edgeToElement[edge]` is set to the
position just pushed. -/
def assignElements {E : Type} [DecidableEq E] :
    (E → Nat) → Nat → List E → (E → Nat)
  | m, _, [] => m
  | m, start, edge :: rest => assignElements (Function.update m edge start) (start + 1) rest

/-- The map `edgeToElement` as a position in `allElements = inputs ++ outputs`: first the
loop over `inputs`, then the loop over `outputs`, which overwrites the entry of an edge
that is in both. -/
def edgeToElement {E : Type} [DecidableEq E] (inputs outputs : List E) : E → Nat :=
  assignElements (assignElements (fun _ => 0) 0 inputs) inputs.length outputs

/-- Modelled from the spec: `SetNode` and `unionSet` come from `disjoint_set.h`, which is
not part of this source file. The disjoint sets over the positions of `allElements` are
kept as a labelling (two positions are in one set when they carry the same label;
at the start every position is its own label, a singleton set), and `unionSet(a, b)`
merges the set of `b` into the set of `a`. -/
def unionSet (label : Nat → Nat) (a b : Nat) : Nat → Nat :=
  fun x => if label x = label b then label a else label x

/-- The calls of `unionSet` made by the grouping loop, as pairs of positions: for every
`inEdge` of `inputs` and every `outEdge` with `connections[inEdge][outEdge] >=
MIN_JCT_SUPPORT` the pair `(edgeToElement[inEdge], edgeToElement[outEdge])`. The keys of
`connections[inEdge]` are edges of `outputs`; they are visited here in the order of
`outputs` (the sets that result do not depend on the order of the calls). -/
def unionPairs {E : Type} [DecidableEq E] (alnIndex : E → List (GraphAlignment E))
    (inputs outputs : List E) : List (Nat × Nat) :=
  inputs.flatMap (fun inEdge =>
    (outputs.filter (fun outEdge =>
      decide (connections alnIndex outputs inEdge outEdge ≥ MIN_JCT_SUPPORT))).map
      (fun outEdge => (edgeToElement inputs outputs inEdge, edgeToElement inputs outputs outEdge)))

/-- The disjoint sets after the calls `pairs` of `unionSet`, from singletons. -/
def labelsAfter (pairs : List (Nat × Nat)) : Nat → Nat :=
  pairs.foldl (fun label ab => unionSet label ab.1 ab.2) (fun p => p)

/-- Modelled from the spec: `groupBySet` comes from `disjoint_set.h`, which is not part of
this source file. It returns, for every set, the vector of the data of its elements in the
order of `allElements`. -/
def groupBySet {E : Type} (allElements : List E) (label : Nat → Nat) : List (List E) :=
  (((List.range allElements.length).map label).dedup).map (fun r =>
    ((List.range allElements.length).filter (fun p => decide (label p = r))).filterMap
      (fun p => allElements[p]?))

/-- The values of `inputConn` and `outputConn` after the scan of one cluster: for a
cluster of size 2 each of its two edges in turn sets `inputConn` if it is in `inputs` and
`outputConn` if it is in `outputs`; otherwise both stay null. -/
def clusterEnds {E : Type} [DecidableEq E] (inputs outputs : List E) (cl : List E) :
    Option E × Option E :=
  if cl.length = 2 then
    cl.foldl (fun io e =>
      (if e ∈ inputs then some e else io.1, if e ∈ outputs then some e else io.2)) (none, none)
  else (none, none)

/-- The body of the loop over `clusters` for one cluster: with `inputConn` and
`outputConn` both set and different, the Connection
`{[inputConn] ++ pathToResolve.path ++ [outputConn], bridgingReads[inputConn][outputConn], 0}`
is pushed. -/
def clusterConnection {E : Type} [DecidableEq E] (alnIndex : E → List (GraphAlignment E))
    (inputs outputs : List E) (pathToResolve : UnbranchingPath E) (cl : List E) :
    Option (Connection E) :=
  match clusterEnds inputs outputs cl with
  | (some inputConn, some outputConn) =>
    if inputConn ≠ outputConn then
      some ⟨[inputConn] ++ pathToResolve.path ++ [outputConn],
        bridgingReads alnIndex outputs inputConn outputConn, 0⟩
    else none
  | _ => none

/-- The candidate test of `resolveSimpleRepeats` with the sets `inputs` and `outputs` of
a candidate. Modelled from the spec: `UnbranchingPath::nodeLeft()` and `nodeRight()` are
declared outside this source file; the left node of a path is the left node of its first
edge and the right node the right node of its last edge (a path without edges is
skipped). `setOrder` turns a vector into the `std::unordered_set` built from it, listed
in its iteration order. -/
def candidate {E : Type} (g : RepeatGraph E) (setOrder : List E → List E)
    (pathToResolve : UnbranchingPath E) : Option (List E × List E) :=
  if !pathToResolve.id.strand then none else
  match pathToResolve.path.head?, pathToResolve.path.getLast? with
  | some front, some back =>
    if g.selfComplement front then none else
    let inputs := setOrder (g.inEdges (g.nodeLeft front))
    let outputs := setOrder (g.outEdges (g.nodeRight back))
    if (g.outEdges (g.nodeLeft front)).length ≠ 1 ∨ (g.inEdges (g.nodeRight back)).length ≠ 1 ∨
        inputs.length ≠ outputs.length ∨ inputs.length ≤ 1 then none
    else some (inputs, outputs)
  | _, _ => none

/-- The body of the loop over `unbranchingPaths` of `resolveSimpleRepeats`: the
Connections pushed to `resolvedConnections` for one path. `mapOrder` gives the order in
which the loop visits `clusters` (an unordered map). -/
def pathConnections {E : Type} [DecidableEq E] (g : RepeatGraph E)
    (alnIndex : E → List (GraphAlignment E)) (setOrder : List E → List E)
    (mapOrder : List (List E) → List (List E)) (pathToResolve : UnbranchingPath E) :
    List (Connection E) :=
  match candidate g setOrder pathToResolve with
  | none => []
  | some (inputs, outputs) =>
    (mapOrder (groupBySet (inputs ++ outputs)
        (labelsAfter (unionPairs alnIndex inputs outputs)))).filterMap
      (clusterConnection alnIndex inputs outputs pathToResolve)

/-- What `resolveSimpleRepeats` leaves behind: the vector `resolvedConnections`, the
requests it made, and the value it returns. -/
structure SimpleOutcome (E : Type) where
  resolvedConnections : List (Connection E)
  operations : List (GraphOp E)
  returned : Nat

/-- `RepeatResolver::resolveSimpleRepeats`; `alnIndex` is `_aligner.makeAlignmentIndex()`
and `unbranchingPaths` is `proc.getUnbranchingPaths()`. The counter `candidateEdges` is
never read and is left out. -/
def resolveSimpleRepeats {E : Type} [DecidableEq E] (g : RepeatGraph E)
    (complementPath : GraphPath E → GraphPath E) (alnIndex : E → List (GraphAlignment E))
    (setOrder : List E → List E) (mapOrder : List (List E) → List (List E))
    (unbranchingPaths : List (UnbranchingPath E)) : SimpleOutcome E :=
  let resolvedConnections :=
    unbranchingPaths.flatMap (pathConnections g alnIndex setOrder mapOrder)
  { resolvedConnections := resolvedConnections,
    operations := rewire complementPath resolvedConnections ++ [GraphOp.updateAlignments],
    returned := resolvedConnections.length }

/-- The iteration order of an `std::unordered_set` built from a vector lists every
element of the vector once. -/
def IsSetOrder {E : Type} (setOrder : List E → List E) : Prop :=
  ∀ l, (setOrder l).Nodup ∧ ∀ x, x ∈ setOrder l ↔ x ∈ l

/-- The two positions have been passed together to `unionSet`, in either order. -/
def linked (pairs : List (Nat × Nat)) (a b : Nat) : Prop :=
  (a, b) ∈ pairs ∨ (b, a) ∈ pairs

/-- The calls of `unionSet` pair the positions off: no position is passed with two
different partners, and no position is passed both as first and as second argument. -/
def IsPairing (pairs : List (Nat × Nat)) : Prop :=
  ∀ ab ∈ pairs, ∀ cd ∈ pairs,
    (ab.1 = cd.1 → ab.2 = cd.2) ∧ (ab.2 = cd.2 → ab.1 = cd.1) ∧ ab.1 ≠ cd.2

/-- The output that the read evidence pairs with `inEdge`: the first edge of `outputs`
with `connections[inEdge][outEdge] >= MIN_JCT_SUPPORT` (`inEdge` itself if there is
none). -/
def pairedOutput {E : Type} [DecidableEq E] (alnIndex : E → List (GraphAlignment E))
    (outputs : List E) (inEdge : E) : E :=
  ((outputs.find? (fun outEdge =>
    decide (connections alnIndex outputs inEdge outEdge ≥ MIN_JCT_SUPPORT))).getD inEdge)

/-- The loop over `clusters` visits every cluster once, in some order. -/
def IsMapOrder {E : Type} (mapOrder : List (List E) → List (List E)) : Prop :=
  ∀ l, (mapOrder l).Perm l

/-- The read evidence is a perfect pairing of `inputs` and `outputs`: the two sets share
no edge, every input has exactly one output with `connections[input][output] >=
MIN_JCT_SUPPORT`, and every output has exactly one such input. -/
def PerfectPairing {E : Type} [DecidableEq E] (alnIndex : E → List (GraphAlignment E))
    (inputs outputs : List E) : Prop :=
  (∀ e ∈ inputs, e ∉ outputs) ∧
  (∀ i ∈ inputs, (outputs.filter (fun o =>
    decide (connections alnIndex outputs i o ≥ MIN_JCT_SUPPORT))).length = 1) ∧
  (∀ o ∈ outputs, (inputs.filter (fun i =>
    decide (connections alnIndex outputs i o ≥ MIN_JCT_SUPPORT))).length = 1)

instance PerfectPairing.decidable {E : Type} [DecidableEq E]
    (alnIndex : E → List (GraphAlignment E)) (inputs outputs : List E) :
    Decidable (PerfectPairing alnIndex inputs outputs) := by
  unfold PerfectPairing
  exact inferInstance

/-- The Connection that `resolveSimpleRepeats` pushes for the input `inEdge` of a
perfectly paired candidate. -/
def pairedConnection {E : Type} [DecidableEq E] (alnIndex : E → List (GraphAlignment E))
    (outputs : List E) (pathToResolve : UnbranchingPath E) (inEdge : E) : Connection E :=
  ⟨[inEdge] ++ pathToResolve.path ++ [pairedOutput alnIndex outputs inEdge],
    bridgingReads alnIndex outputs inEdge (pairedOutput alnIndex outputs inEdge), 0⟩

/-- The call of `std::sort` with the comparator
`c1.readSeq.length() < c2.readSeq.length()` rearranges the vector so that the lengths
ascend. -/
def IsLengthSort {E : Type} (sortConns : List (Connection E) → List (Connection E)) : Prop :=
  ∀ l, (sortConns l).Perm l ∧
    (sortConns l).Sorted (fun c d => c.readSeq.length ≤ d.readSeq.length)

/-- The walk of the loop `while (curNode->isResolved())` of `clearResolvedRepeats` from
`node`: through every resolved node it follows `nextEdge`, and it stops at the first node
that is not resolved. `Follows view node path last` says that the loop started at `node`
appends `path` and stops at `last`. -/
inductive Follows {E : Type} (view : GraphView E) : Nat → GraphPath E → Nat → Prop where
  | stop (node : Nat) : view.isResolved node = false → Follows view node [] node
  | step (node : Nat) (e : E) (rest : GraphPath E) (last : Nat) :
      view.isResolved node = true → nextEdge view node = some e →
      Follows view (view.graph.nodeRight e) rest last → Follows view node (e :: rest) last

/-- The nodes that `clearResolvedRepeats` inserts for a traversal `traversed` with the
complement `complPath`: the left node of the first edge; the right nodes of all edges but
the last, on both paths; the right node of the last edge of the complement; and, only if
`removeLast`, the left node of the first edge of the complement and the right node of the
last edge. -/
def ChainNode {E : Type} (view : GraphView E) (traversed complPath : GraphPath E)
    (removeLast : Bool) (x : Nat) : Prop :=
  (∃ e, traversed.head? = some e ∧ x = view.graph.nodeLeft e) ∨
  (removeLast = true ∧ ∃ e, complPath.head? = some e ∧ x = view.graph.nodeLeft e) ∨
  (∃ i e, i < traversed.length - 1 ∧ traversed[i]? = some e ∧ x = view.graph.nodeRight e) ∨
  (∃ i e, i < traversed.length - 1 ∧ complPath[i]? = some e ∧ x = view.graph.nodeRight e) ∨
  (removeLast = true ∧ ∃ e, traversed.getLast? = some e ∧ x = view.graph.nodeRight e) ∨
  (∃ e, complPath.getLast? = some e ∧ x = view.graph.nodeRight e)

/-- The node `x` is justified by resolved edges: it has no neighbours and all its
outgoing edges are resolved, or it is a node of the chain of a traversal that starts with
`nextEdge` at an end node of `iterNodes()`, follows `nextEdge` through resolved nodes and
consists of resolved edges only. -/
def Justified {E : Type} (view : GraphView E) (complementPath : GraphPath E → GraphPath E)
    (x : Nat) : Prop :=
  ((view.neighbors x).isEmpty = true ∧
    ∀ e ∈ view.graph.outEdges x, view.graph.resolved e = true) ∨
  ∃ start ∈ view.graph.iterNodes, ∃ (direction : E) (rest : GraphPath E) (curNode : Nat),
    view.isEnd start = true ∧ nextEdge view start = some direction ∧
    Follows view (view.graph.nodeRight direction) rest curNode ∧
    (∀ e ∈ direction :: rest, view.graph.resolved e = true) ∧
    ChainNode view (direction :: rest) (complementPath (direction :: rest))
      (view.isEnd curNode) x

/-- The build loop of `resolveConnections` does not skip the Connection, and the
Connection runs from the node `x` to the node `y`: `path.front()->edgeId == x` and
`path.back()->edgeId.rc() == y`. -/
def runsBetween {E : Type} (g : RepeatGraph E) (x y : Id) (c : Connection E) : Bool :=
  match anchors g c with
  | some (f, b) => !(decide (f = b) || decide (f = b.rc)) && (decide (f = x) && decide (b.rc = y))
  | none => false

/-- The build loop increments `leftCoverage[x]` for the Connection. -/
def countsLeft {E : Type} (g : RepeatGraph E) (x : Id) (c : Connection E) : Bool :=
  match anchors g c with
  | some (f, b) => !(decide (f = b) || decide (f = b.rc)) && decide (f = x)
  | none => false

/-- The build loop increments `rightCoverage[y]` for the Connection. -/
def countsRight {E : Type} (g : RepeatGraph E) (y : Id) (c : Connection E) : Bool :=
  match anchors g c with
  | some (f, b) => !(decide (f = b) || decide (f = b.rc)) && decide (b.rc = y)
  | none => false

/-- The build loop increments the weight of the edge between the nodes `x` and `y` for
the Connection. -/
def bridges {E : Type} (g : RepeatGraph E) (x y : Id) (c : Connection E) : Bool :=
  runsBetween g x y c || runsBetween g y x c

/-- The anchors of the reverse-complement twin of a Connection with the anchors `a`: the
twin's path starts with the complement of the last edge and ends with the complement of
the first, so its anchors are `(back.rc(), front.rc())`. -/
def twinAnchors (a : Option (Id × Id)) : Option (Id × Id) :=
  a.map (fun fb => (fb.2.rc, fb.1.rc))

/-- Every Connection of the list is followed by its reverse-complement twin, the way
`getConnections` pushes them. -/
def twinPaired {E : Type} (g : RepeatGraph E) : List (Connection E) → Bool
  | [] => true
  | [_] => false
  | c :: d :: rest => decide (anchors g d = twinAnchors (anchors g c)) && twinPaired g rest

/-! ## Propagation: pass-through nodes and linked edges -/

/-- The test `node->inEdges.size() == 1 && node->outEdges.size() == 1` of the propagation
step: the node is a pass-through node. -/
def passThrough {E : Type} (g : RepeatGraph E) (n : Nat) : Bool :=
  decide ((g.inEdges n).length = 1 ∧ (g.outEdges n).length = 1)

/-- Edge `y` is a neighbour of edge `x` in the propagation step: the only outgoing edge of
the pass-through right node of `x`, the only incoming edge of its pass-through left node,
its `rightLink` or its `leftLink`. -/
def Adjacent {E : Type} (g : RepeatGraph E) (x y : E) : Prop :=
  (∃ a, g.inEdges (g.nodeRight x) = [a] ∧ g.outEdges (g.nodeRight x) = [y]) ∨
  (∃ b, g.inEdges (g.nodeLeft x) = [y] ∧ g.outEdges (g.nodeLeft x) = [b]) ∨
  g.rightLink x = some y ∨ g.leftLink x = some y

/-- The edges reached from the edges flagged in `rep` through neighbours. -/
inductive Reach {E : Type} (g : RepeatGraph E) (rep : E → Bool) : E → Prop where
  | base (e : E) : rep e = true → Reach g rep e
  | step (x y : E) : Reach g rep x → Adjacent g x y → Reach g rep y

/-- The edge and node records agree: every edge stands among the incoming edges of its
right node and the outgoing edges of its left node, the edges leaving the right node of
an edge start there, and the edges entering the left node of an edge end there. -/
def EndsAgree {E : Type} (g : RepeatGraph E) : Prop :=
  (∀ e, e ∈ g.inEdges (g.nodeRight e) ∧ e ∈ g.outEdges (g.nodeLeft e)) ∧
  (∀ e, ∀ x ∈ g.outEdges (g.nodeRight e), g.nodeLeft x = g.nodeRight e) ∧
  (∀ e, ∀ x ∈ g.inEdges (g.nodeLeft e), g.nodeRight x = g.nodeLeft e)

/-- Linked edges flank a bubble: the node at which a link arrives (the left node of a
`rightLink`, the right node of a `leftLink`) is not a pass-through node. -/
def LinksArriveAtBranching {E : Type} (g : RepeatGraph E) : Prop :=
  (∀ x y, g.rightLink x = some y → passThrough g (g.nodeLeft y) = false) ∧
  (∀ x y, g.leftLink x = some y → passThrough g (g.nodeRight y) = false)

/-- Links come in pairs across a bubble: `x.rightLink = y` exactly when `y.leftLink = x`,
and then neither the right node of `x` (where the bubble opens) nor the left node of `y`
(where it closes) is a pass-through node. -/
def LinksFlankBubbles {E : Type} (g : RepeatGraph E) : Prop :=
  (∀ x y, g.rightLink x = some y ↔ g.leftLink y = some x) ∧
  (∀ x y, g.rightLink x = some y →
    passThrough g (g.nodeRight x) = false ∧ passThrough g (g.nodeLeft y) = false)

/-- The graph is closed under reverse complement with partner map `c`: `c` is an
involution, the edges entering (leaving) an end node of the partner of `e` are the
partners of the edges leaving (entering) the other end node of `e`, and the links of the
partner are the partners of the opposite links. -/
def Mirrored {E : Type} (g : RepeatGraph E) (c : E → E) : Prop :=
  (∀ e, c (c e) = e) ∧
  (∀ e, (g.inEdges (g.nodeLeft (c e))).Perm ((g.outEdges (g.nodeRight e)).map c) ∧
    (g.outEdges (g.nodeLeft (c e))).Perm ((g.inEdges (g.nodeRight e)).map c) ∧
    (g.inEdges (g.nodeRight (c e))).Perm ((g.outEdges (g.nodeLeft e)).map c) ∧
    (g.outEdges (g.nodeRight (c e))).Perm ((g.inEdges (g.nodeLeft e)).map c)) ∧
  (∀ e, g.rightLink (c e) = (g.leftLink e).map c ∧ g.leftLink (c e) = (g.rightLink e).map c)

/-- Every unbranching path has its complement: the path that `complPath` finds holds
exactly the partners of the edges of the path. -/
def PathsMirrored {E : Type} (unbranchingPaths : List (UnbranchingPath E)) (c : E → E) : Prop :=
  ∀ p ∈ unbranchingPaths, ∀ e, e ∈ (complPath unbranchingPaths p).path ↔ c e ∈ p.path

/-! ## Worked inputs -/

/-- A hit on edge `e` with all coordinates 0, for inputs where only the edges matter. -/
def plainHit {E : Type} (e : E) : EdgeAlignment E :=
  ⟨e, ⟨⟨0, true⟩, 0, 0, 0, 0, 0, 0⟩⟩

/-- A graph of six edges closed under reverse complement: `x = 0`, `w = 1`, `y = 2` and
their complements `3`, `4`, `5` (edge `i` and edge `i + 3` are partners, node `n` and node
`n + 5` are mirror images). `x` runs from node 0 to node 1; `w` runs from node 2 to
node 3 and `y` from node 3 to node 4, so node 3 has one incoming and one outgoing edge.
`x` and `y` are linked (`x.rightLink = y`, `y.leftLink = x`), mirrored on the partners, and
`x` with its partner is flagged unreliable. `iterEdges()` lists the edges in the order
`y, x, x', y', w, w'`. -/
def linkedGraph : RepeatGraph (Fin 6) where
  iterEdges := [2, 0, 3, 5, 1, 4]
  iterNodes := [0, 1, 2, 3, 4, 5, 6, 7, 8, 9]
  edgeId := fun e => if e.val < 3 then ⟨e.val + 1, true⟩ else ⟨e.val - 2, false⟩
  nodeLeft := fun e => [0, 2, 3, 6, 8, 9].getD e.val 0
  nodeRight := fun e => [1, 3, 4, 5, 7, 8].getD e.val 0
  inEdges := fun n => [[], [0], [], [1], [2], [3], [], [4], [5], []].getD n []
  outEdges := fun n => [[0], [], [1], [2], [], [], [3], [], [4], [5]].getD n []
  repetitive := fun _ => false
  resolved := fun _ => false
  selfComplement := fun _ => false
  altHaplotype := fun _ => false
  unreliable := fun e => decide (e = 0 ∨ e = 3)
  rightLink := fun e => [some 2, none, none, none, none, some 3].getD e.val none
  leftLink := fun e => [none, none, some 0, some 5, none, none].getD e.val none
  meanCoverage := fun _ => 10

/-- The unbranching paths of `linkedGraph`: `[x]` and `[w, y]` on the forward strand and
their complements `[x']` and `[y', w']`. -/
def linkedPaths : List (UnbranchingPath (Fin 6)) :=
  [⟨⟨1, true⟩, [0], 1000, 10, false⟩, ⟨⟨1, false⟩, [3], 1000, 10, false⟩,
   ⟨⟨2, true⟩, [1, 2], 2000, 10, false⟩, ⟨⟨2, false⟩, [5, 4], 2000, 10, false⟩]

/-- The reverse-complement partner of an edge of `linkedGraph`. -/
def linkedComplement (e : Fin 6) : Fin 6 := e + 3

/-- Settings for the worked inputs: uniform coverage, threshold 50, `out_paths_ratio` 5,
`unique_edge_length` 50000. -/
def sampleSettings : Settings := ⟨false, 50, 5, 50000⟩

/-- A graph of one edge `0` and its partner `1`, both repetitive, both of mean
coverage 60. -/
def covGraph : RepeatGraph (Fin 2) where
  iterEdges := [0, 1]
  iterNodes := [0, 1, 2, 3]
  edgeId := fun e => ⟨1, decide (e = 0)⟩
  nodeLeft := fun e => 2 * e.val
  nodeRight := fun e => 2 * e.val + 1
  inEdges := fun n => [[], [0], [], [1]].getD n []
  outEdges := fun n => [[0], [], [1], []].getD n []
  repetitive := fun _ => true
  resolved := fun _ => false
  selfComplement := fun _ => false
  altHaplotype := fun _ => false
  unreliable := fun _ => false
  rightLink := fun _ => none
  leftLink := fun _ => none
  meanCoverage := fun _ => 60

/-- The unbranching paths of a graph with the edges and topology of `covGraph`: the
paths `[0]` and `[1]`, of length 60000, each with the mean coverage of its only edge. -/
def covPaths (g : RepeatGraph (Fin 2)) : List (UnbranchingPath (Fin 2)) :=
  [⟨⟨1, true⟩, [0], 60000, g.meanCoverage 0, false⟩,
   ⟨⟨1, false⟩, [1], 60000, g.meanCoverage 1, false⟩]

/-- The reverse-complement partner of an edge of `covGraph`. -/
def covComplement (e : Fin 2) : Fin 2 := e + 1

/-- A graph of three edges `A = 0`, `B = 1`, `C = 2` with the ids `+1`, `+2`, `+3` and
their partners `3`, `4`, `5` with the ids `-1`, `-2`, `-3`; every edge has its own two
end nodes. -/
def idGraph : RepeatGraph (Fin 6) where
  iterEdges := [0, 1, 2, 3, 4, 5]
  iterNodes := List.range 12
  edgeId := fun e => if e.val < 3 then ⟨e.val + 1, true⟩ else ⟨e.val - 2, false⟩
  nodeLeft := fun e => 2 * e.val
  nodeRight := fun e => 2 * e.val + 1
  inEdges := fun n => if n % 2 = 1 then (List.finRange 6).filter (fun e => 2 * e.val + 1 = n) else []
  outEdges := fun n => if n % 2 = 0 then (List.finRange 6).filter (fun e => 2 * e.val = n) else []
  repetitive := fun _ => false
  resolved := fun _ => false
  selfComplement := fun _ => false
  altHaplotype := fun _ => false
  unreliable := fun _ => false
  rightLink := fun _ => none
  leftLink := fun _ => none
  meanCoverage := fun _ => 10

/-- The complement of a path over the six edges: partners in reverse order. -/
def sixComplementPath (path : GraphPath (Fin 6)) : GraphPath (Fin 6) :=
  (path.map linkedComplement).reverse

/-- The reverse-complement twin of a Connection, as `getConnections` builds it from a
closing hit with read length `curLen`. -/
def twinOf {E : Type} (complementPath : GraphPath E → GraphPath E) (curLen : Int)
    (c : Connection E) : Connection E :=
  ⟨complementPath c.path,
    ⟨c.readSeq.readId.rc, curLen - c.readSeq.end_ - 1, curLen - c.readSeq.start - 1⟩,
    c.flankScore⟩

/-- The Connection of read `k` bridging `A` and `B` through the repeat edge `2`. -/
def bridgeRead (k : Nat) : Connection (Fin 6) :=
  ⟨[0, 2, 1], ⟨⟨k, true⟩, 1000, 2000⟩, 500⟩

/-- Scenario S1: ten reads bridging `A` and `B`, each Connection followed by its twin. -/
def bridgeConnections : List (Connection (Fin 6)) :=
  (List.range 10).flatMap (fun k => [bridgeRead k, twinOf sixComplementPath 5000 (bridgeRead k)])

/-- A read bridging `C` and `A`. -/
def cToA : Connection (Fin 6) := ⟨[2, 0], ⟨⟨1, true⟩, 1000, 2000⟩, 500⟩

/-- A read bridging `A` and `B`. -/
def aToB : Connection (Fin 6) := ⟨[0, 1], ⟨⟨2, true⟩, 1000, 2500⟩, 500⟩

/-- The chain `C -> A -> B`: one read over each junction, each Connection followed by
its twin. -/
def chainConnections : List (Connection (Fin 6)) :=
  [cToA, twinOf sixComplementPath 5000 cToA, aToB, twinOf sixComplementPath 5000 aToB]

/-- The matching of the chain's transition graph that takes both edges: node 0 with
node 1 and node 2 with node 3. -/
def chainMate (n : Nat) : Option Nat := [some 1, some 0, some 3, some 2].getD n none

/-- The matching of a transition graph with the single edge between nodes 0 and 1. -/
def pairMate (n : Nat) : Option Nat := [some 1, some 0].getD n none

/-- The complement of a path over the two edges of `covGraph`. -/
def covComplementPath (path : GraphPath (Fin 2)) : GraphPath (Fin 2) :=
  (path.map covComplement).reverse

/-- The view of `covGraph`: every node is an end node with the other end of its edge as
only neighbour, no node is resolved, no edge is looped. -/
def covView : GraphView (Fin 2) where
  graph := covGraph
  neighbors := fun n => [[1], [0], [3], [2]].getD n []
  isEnd := fun _ => true
  isResolved := fun _ => false
  isLooped := fun _ => false

/-- The same graph after an earlier separation has marked both edges resolved. -/
def resolvedView : GraphView (Fin 2) :=
  { covView with graph := { covGraph with resolved := fun _ => true } }

/-- The mirror image of a node of `linkedGraph`. -/
def linkedMirror (n : Nat) : Nat := (n + 5) % 10

/-- An alignment that holds edge `0` twice in its interior. -/
def tandemAlignment : GraphAlignment (Fin 6) :=
  [plainHit 1, plainHit 0, plainHit 0, plainHit 2]

/-- Two alignments that leave edge `0` towards two different edges. -/
def forkAlignments : List (GraphAlignment (Fin 6)) :=
  [[plainHit 0, plainHit 1], [plainHit 0, plainHit 2]]

/-- A hit of read `+7` (5000 bases long) on edge `e` that covers the read from `curBegin`
to `curEnd` and the whole edge (1000 bases). -/
def hitAt (e : Fin 6) (curBegin curEnd : Int) : EdgeAlignment (Fin 6) :=
  ⟨e, ⟨⟨7, true⟩, curBegin, curEnd, 5000, 0, 1000, 1000⟩⟩

/-- The covered range of the read, `curEnd - curBegin`, standing for
`OverlapRange::curRange()`. -/
def spanOf (o : OverlapRange) : Int := o.curEnd - o.curBegin

/-- A read that hits edge `A = 0` twice in a row and then edge `B = 1`. -/
def copyRead : GraphAlignment (Fin 6) :=
  [hitAt 0 0 1000, hitAt 0 1000 2000, hitAt 1 2500 3500]

/-- A hit on edge `C = 2` whose read coordinates lie beyond the end of the read. -/
def badHit : EdgeAlignment (Fin 6) := ⟨2, ⟨⟨7, true⟩, 6000, 7000, 5000, 0, 1000, 1000⟩⟩

/-- The graph `idGraph` with every edge marked resolved. -/
def allResolved : RepeatGraph (Fin 6) := { idGraph with resolved := fun _ => true }

/-- The graph `linkedGraph` with every edge marked repetitive. -/
def allRepeats : RepeatGraph (Fin 6) := { linkedGraph with repetitive := fun _ => true }

/-- Settings of an uneven-coverage assembly with `unique_edge_length` 500. -/
def unevenSettings : Settings := ⟨true, 50, 5, 500⟩

/-- Scenario S5: the repeat edge `R = 0` runs from node 0 to node 1; the inputs `I1 = 1`,
`I2 = 2`, `I3 = 3` end in node 0 and the outputs `O1 = 4`, `O2 = 5`, `O3 = 6` start in
node 1. -/
def starGraph : RepeatGraph (Fin 7) where
  iterEdges := [0, 1, 2, 3, 4, 5, 6]
  iterNodes := List.range 8
  edgeId := fun e => ⟨e.val + 1, true⟩
  nodeLeft := fun e => [0, 2, 3, 4, 1, 1, 1].getD e.val 0
  nodeRight := fun e => [1, 0, 0, 0, 5, 6, 7].getD e.val 0
  inEdges := fun n => [[1, 2, 3], [0], [], [], [], [4], [5], [6]].getD n []
  outEdges := fun n => [[0], [4, 5, 6], [1], [2], [3], [], [], []].getD n []
  repetitive := fun e => decide (e = 0)
  resolved := fun _ => false
  selfComplement := fun _ => false
  altHaplotype := fun _ => false
  unreliable := fun _ => false
  rightLink := fun _ => none
  leftLink := fun _ => none
  meanCoverage := fun _ => 10

/-- The unbranching path made of the repeat edge of `starGraph`. -/
def starPath : UnbranchingPath (Fin 7) := ⟨⟨1, true⟩, [0], 100, 30, false⟩

/-- The read number `k` (5000 bases) that runs through the input `i`, the repeat edge and
the output `o`. -/
def starRead (k : Nat) (i o : Fin 7) : GraphAlignment (Fin 7) :=
  [⟨i, ⟨⟨k, true⟩, 0, 1000, 5000, 0, 1000, 1000⟩⟩,
   ⟨0, ⟨⟨k, true⟩, 1000, 1100, 5000, 0, 100, 100⟩⟩,
   ⟨o, ⟨⟨k, true⟩, 1100, 2100, 5000, 0, 1000, 1000⟩⟩]

/-- The read evidence of scenario S5: `I1 -> O1`, `I2 -> O2` and `I3 -> O3`, each seen by
five reads. -/
def starReads : List (GraphAlignment (Fin 7)) :=
  (List.range 5).flatMap (fun k => [starRead k 1 4, starRead (5 + k) 2 5, starRead (10 + k) 3 6])

/-- The alignment index of `starReads`: the reads that hit the edge. -/
def starIndex (e : Fin 7) : List (GraphAlignment (Fin 7)) :=
  starReads.filter (fun aln => aln.any (fun a => decide (a.edge = e)))

/-- The three Connections expected in scenario S5. -/
def starConnections : List (Connection (Fin 7)) :=
  [⟨[1, 0, 4], ⟨⟨4, true⟩, 1000, 1100⟩, 0⟩, ⟨[2, 0, 5], ⟨⟨9, true⟩, 1000, 1100⟩, 0⟩,
   ⟨[3, 0, 6], ⟨⟨14, true⟩, 1000, 1100⟩, 0⟩]

/-- A second read bridging `A` and `B`. -/
def aToBAgain : Connection (Fin 6) := ⟨[0, 1], ⟨⟨4, true⟩, 1000, 2400⟩, 500⟩

/-- A read bridging `A` and `C`. -/
def aToC : Connection (Fin 6) := ⟨[0, 2], ⟨⟨5, true⟩, 1000, 2000⟩, 500⟩

/-- The fork at `A`: two reads from `A` to `B` and one read from `A` to `C`, each
Connection followed by its twin. -/
def forkConnections : List (Connection (Fin 6)) :=
  [aToB, twinOf sixComplementPath 5000 aToB, aToBAgain, twinOf sixComplementPath 5000 aToBAgain,
   aToC, twinOf sixComplementPath 5000 aToC]

/-- The value of the `float` nearest to 0.8, which a `minSupport` of 0.8 stands for:
`13421773 * 2 ^ -24`, a little above 4/5. -/
def floatFourFifths : ℚ := 13421773 / 16777216

/-- A graph with a bubble flanked by linked edges. Forward strand: `x = 0` runs from
node 0 to node 1, the two branches `1` and `2` of the bubble from node 1 to node 2,
`y = 3` from node 2 to node 3 and `z = 4` from node 3 to node 4, so node 3 has one
incoming and one outgoing edge. Edge `i` and edge `i + 5` are partners and node `n` and
node `9 - n` are mirror images. `x` and `y` are linked across the bubble
(`x.rightLink = y`, `y.leftLink = x`), mirrored on the partners, and `x` with its partner
is flagged unreliable. `iterEdges()` lists `z, y` before `x`. -/
def bubbleGraph : RepeatGraph (Fin 10) where
  iterEdges := [4, 3, 2, 1, 0, 9, 8, 7, 6, 5]
  iterNodes := [0, 1, 2, 3, 4, 5, 6, 7, 8, 9]
  edgeId := fun e => if e.val < 5 then ⟨e.val + 1, true⟩ else ⟨e.val - 4, false⟩
  nodeLeft := fun e => [0, 1, 1, 2, 3, 8, 7, 7, 6, 5].getD e.val 0
  nodeRight := fun e => [1, 2, 2, 3, 4, 9, 8, 8, 7, 6].getD e.val 0
  inEdges := fun n => [[], [0], [1, 2], [3], [4], [], [9], [8], [6, 7], [5]].getD n []
  outEdges := fun n => [[0], [1, 2], [3], [4], [], [9], [8], [6, 7], [5], []].getD n []
  repetitive := fun _ => false
  resolved := fun _ => false
  selfComplement := fun _ => false
  altHaplotype := fun _ => false
  unreliable := fun e => decide (e = 0 ∨ e = 5)
  rightLink := fun e => [some 3, none, none, none, none, none, none, none, some 5, none].getD e.val none
  leftLink := fun e => [none, none, none, some 0, none, some 8, none, none, none, none].getD e.val none
  meanCoverage := fun _ => 10

/-- The unbranching paths of `bubbleGraph`: `[x]`, the two branches and `[y, z]` on the
forward strand, and their complements. -/
def bubblePaths : List (UnbranchingPath (Fin 10)) :=
  [⟨⟨1, true⟩, [0], 1000, 10, false⟩, ⟨⟨1, false⟩, [5], 1000, 10, false⟩,
   ⟨⟨2, true⟩, [1], 1000, 10, false⟩, ⟨⟨2, false⟩, [6], 1000, 10, false⟩,
   ⟨⟨3, true⟩, [2], 1000, 10, false⟩, ⟨⟨3, false⟩, [7], 1000, 10, false⟩,
   ⟨⟨4, true⟩, [3, 4], 2000, 10, false⟩, ⟨⟨4, false⟩, [9, 8], 2000, 10, false⟩]

/-- The reverse-complement partner of an edge of `bubbleGraph`. -/
def bubbleComplement (e : Fin 10) : Fin 10 := e + 5

/-! ## Theorems -/

/-! ### Counting folds -/

theorem foldl_count_eq {α : Type} (p : α → Prop) [DecidablePred p] (l : List α) (k : Nat) :
    l.foldl (fun n i => if p i then n + 1 else n) k = k + l.countP (fun i => decide (p i)) := by
  induction l generalizing k with
  | nil => simp
  | cons a l ih =>
    simp only [List.foldl_cons, List.countP_cons, ih]
    by_cases h : p a
    · simp [h]; omega
    · simp [h]

/-! ### `checkForTandemCopies` -/

theorem numCopies_eq_interiorCopies {E : Type} [DecidableEq E] (checkEdge : E)
    (aln : GraphAlignment E) : numCopies checkEdge aln = interiorCopies checkEdge aln := by
  unfold numCopies interiorCopies
  rw [foldl_count_eq, Nat.zero_add, ← List.countP_eq_length_filter]
  rcases Nat.lt_or_ge aln.length 2 with hlt | hge
  · have h0 : aln.length - 1 - 1 = 0 := by omega
    rw [h0]
    simp only [List.range'_zero, List.countP_nil]
    symm
    rw [List.countP_eq_zero]
    intro i _ hi
    simp only [decide_eq_true_eq] at hi
    omega
  · have hsplit : List.range aln.length
        = List.range' 0 1 ++ (List.range' 1 (aln.length - 1 - 1) ++ List.range' (aln.length - 1) 1) := by
      rw [List.range_eq_range']
      have h1 : List.range' 1 (aln.length - 1 - 1) ++ List.range' (aln.length - 1) 1
          = List.range' 1 (aln.length - 1) := by
        have := List.range'_append 1 (aln.length - 1 - 1) 1 1
        rw [show 1 + 1 * (aln.length - 1 - 1) = aln.length - 1 by omega,
          show 1 + (aln.length - 1 - 1) = aln.length - 1 by omega] at this
        exact this
      rw [h1]
      have := List.range'_append 0 1 (aln.length - 1) 1
      rw [show 0 + 1 * 1 = 1 by omega, show aln.length - 1 + 1 = aln.length by omega] at this
      exact this.symm
    rw [hsplit, List.countP_append, List.countP_append]
    have hfirst : List.countP (fun i => decide (1 ≤ i ∧ i + 2 ≤ aln.length ∧
        (aln[i]?).map (fun h => h.edge) = some checkEdge)) (List.range' 0 1) = 0 := by
      rw [List.countP_eq_zero]
      intro i hi hp
      rw [List.mem_range'_1] at hi
      simp only [decide_eq_true_eq] at hp
      omega
    have hlast : List.countP (fun i => decide (1 ≤ i ∧ i + 2 ≤ aln.length ∧
        (aln[i]?).map (fun h => h.edge) = some checkEdge)) (List.range' (aln.length - 1) 1) = 0 := by
      rw [List.countP_eq_zero]
      intro i hi hp
      rw [List.mem_range'_1] at hi
      simp only [decide_eq_true_eq] at hp
      omega
    rw [hfirst, hlast, Nat.zero_add, Nat.add_zero]
    apply List.countP_congr
    intro i hi
    rw [List.mem_range'_1] at hi
    simp only [decide_eq_true_eq]
    constructor
    · intro h; exact ⟨by omega, by omega, h⟩
    · intro h; exact h.2.2

theorem readEvidence_eq {E : Type} [DecidableEq E] (checkEdge : E)
    (alignments : List (GraphAlignment E)) :
    readEvidence checkEdge alignments
      = (alignments.filter (fun aln => decide (1 < interiorCopies checkEdge aln))).length := by
  unfold readEvidence
  rw [foldl_count_eq, Nat.zero_add, ← List.countP_eq_length_filter]
  apply List.countP_congr
  intro aln _
  simp [numCopies_eq_interiorCopies]

/-- Claim C8: on non-empty alignments `checkForTandemCopies` answers true exactly when at
least 5 of the alignments hold `checkEdge` at more than one interior position
`1..size-2`; so 5 such alignments give true and 4 give false, and an alignment of at
most two hits is never counted. -/
theorem checkForTandemCopies_iff {E : Type} [DecidableEq E] (checkEdge : E)
    (alignments : List (GraphAlignment E)) (_hne : ∀ aln ∈ alignments, aln ≠ []) :
    (checkForTandemCopies checkEdge alignments = true ↔
      5 ≤ (alignments.filter (fun aln => decide (1 < interiorCopies checkEdge aln))).length) ∧
    ((alignments.filter (fun aln => decide (1 < interiorCopies checkEdge aln))).length = 5 →
      checkForTandemCopies checkEdge alignments = true) ∧
    ((alignments.filter (fun aln => decide (1 < interiorCopies checkEdge aln))).length = 4 →
      checkForTandemCopies checkEdge alignments = false) ∧
    (∀ aln ∈ alignments, aln.length ≤ 2 →
      numCopies checkEdge aln = 0 ∧ interiorCopies checkEdge aln = 0) := by
  have hiff : checkForTandemCopies checkEdge alignments = true ↔
      5 ≤ (alignments.filter (fun aln => decide (1 < interiorCopies checkEdge aln))).length := by
    unfold checkForTandemCopies NEEDED_READS
    rw [readEvidence_eq, decide_eq_true_eq]
  refine ⟨hiff, ?_, ?_, ?_⟩
  · intro h5
    exact hiff.2 (by omega)
  · intro h4
    cases hc : checkForTandemCopies checkEdge alignments with
    | false => rfl
    | true => have := hiff.1 hc; omega
  · intro aln _ hlen
    have hi : interiorCopies checkEdge aln = 0 := by
      unfold interiorCopies
      rw [← List.countP_eq_length_filter, List.countP_eq_zero]
      intro i hi hp
      rw [List.mem_range] at hi
      simp only [decide_eq_true_eq] at hp
      omega
    exact ⟨by rw [numCopies_eq_interiorCopies]; exact hi, hi⟩

/-! ### `checkByReadExtension` -/

theorem pushBack_keys {E : Type} [DecidableEq E] (m : FlankMap E) (e : E) (v : Int) :
    (m.pushBack e v).map Prod.fst
      = if e ∈ m.map Prod.fst then m.map Prod.fst else m.map Prod.fst ++ [e] := by
  induction m with
  | nil => simp [FlankMap.pushBack]
  | cons kv rest ih =>
    obtain ⟨k, vs⟩ := kv
    by_cases hk : k = e
    · subst hk; simp [FlankMap.pushBack]
    · have hk2 : ¬ e = k := fun h => hk h.symm
      simp only [FlankMap.pushBack, hk, if_false, List.map_cons, ih, List.mem_cons, hk2, false_or]
      split <;> simp

theorem pushBack_nodup {E : Type} [DecidableEq E] (m : FlankMap E) (e : E) (v : Int)
    (h : (m.map Prod.fst).Nodup) : ((m.pushBack e v).map Prod.fst).Nodup := by
  rw [pushBack_keys]
  split
  · exact h
  · rename_i hne
    rw [List.nodup_append]
    refine ⟨h, List.nodup_singleton e, ?_⟩
    intro x hx hx2
    rw [List.mem_singleton] at hx2
    subst hx2
    exact hne hx

theorem mem_pushBack {E : Type} [DecidableEq E] (m : FlankMap E) (e : E) (v : Int)
    (h : (m.map Prod.fst).Nodup) (kv : E × List Int) (hkv : kv ∈ m.pushBack e v) :
    (kv.1 ≠ e ∧ kv ∈ m) ∨
    (kv.1 = e ∧ ((∃ vs, (e, vs) ∈ m ∧ kv.2 = vs ++ [v]) ∨ (e ∉ m.map Prod.fst ∧ kv.2 = [v]))) := by
  induction m with
  | nil =>
    simp only [FlankMap.pushBack, List.mem_singleton] at hkv
    subst hkv
    right
    simp
  | cons hd rest ih =>
    obtain ⟨k, vs⟩ := hd
    rw [List.map_cons, List.nodup_cons] at h
    by_cases hk : k = e
    · subst hk
      simp only [FlankMap.pushBack, if_true, List.mem_cons] at hkv
      rcases hkv with rfl | hin
      · right
        exact ⟨rfl, Or.inl ⟨vs, List.mem_cons_self _ _, rfl⟩⟩
      · left
        refine ⟨?_, List.mem_cons_of_mem _ hin⟩
        intro heq
        apply h.1
        exact List.mem_map.2 ⟨kv, hin, heq⟩
    · simp only [FlankMap.pushBack, hk, if_false, List.mem_cons] at hkv
      rcases hkv with rfl | hin
      · left
        exact ⟨hk, List.mem_cons_self _ _⟩
      · rcases ih h.2 hin with ⟨h1, h2⟩ | ⟨h1, h2⟩
        · left; exact ⟨h1, List.mem_cons_of_mem _ h2⟩
        · right
          refine ⟨h1, ?_⟩
          rcases h2 with ⟨ws, hws, heq⟩ | ⟨hnot, heq⟩
          · exact Or.inl ⟨ws, List.mem_cons_of_mem _ hws, heq⟩
          · right
            refine ⟨?_, heq⟩
            simp only [List.map_cons, List.mem_cons, not_or]
            exact ⟨fun h => hk h.symm, hnot⟩

theorem extensionStep_outFlanks {E : Type} [DecidableEq E] (g : RepeatGraph E) (checkEdge : E)
    (st : ExtensionState E) (aln : GraphAlignment E) :
    (creditedEdge g checkEdge aln = none →
      (extensionStep g checkEdge st aln).outFlanks = st.outFlanks) ∧
    (∀ e, creditedEdge g checkEdge aln = some e →
      ∃ v, (extensionStep g checkEdge st aln).outFlanks = st.outFlanks.pushBack e v) := by
  unfold extensionStep creditedEdge
  cases hs : scanAlignment g checkEdge aln with
  | credited e flank span =>
    refine ⟨fun h => by simp at h, fun e2 h => ⟨flank, ?_⟩⟩
    simp only [Option.some.injEq] at h
    subst h
    rfl
  | blocked => exact ⟨fun _ => rfl, fun e h => by simp at h⟩
  | unfinished leftCoord =>
    refine ⟨fun _ => ?_, fun e h => by simp at h⟩
    cases aln.getLast? <;> rfl

theorem support_append {E : Type} [DecidableEq E] (g : RepeatGraph E) (checkEdge : E)
    (l : List (GraphAlignment E)) (a : GraphAlignment E) (e : E) :
    support g checkEdge (l ++ [a]) e
      = support g checkEdge l e + (if creditedEdge g checkEdge a = some e then 1 else 0) := by
  unfold support
  rw [List.countP_append]
  congr 1
  by_cases h : creditedEdge g checkEdge a = some e <;> simp [h]

theorem collectExtensions_inv {E : Type} [DecidableEq E] (g : RepeatGraph E) (checkEdge : E)
    (alignments : List (GraphAlignment E)) :
    (((collectExtensions g checkEdge alignments).outFlanks).map Prod.fst).Nodup ∧
    (∀ kv ∈ (collectExtensions g checkEdge alignments).outFlanks,
      kv.2.length = support g checkEdge alignments kv.1) ∧
    (∀ e, e ∈ ((collectExtensions g checkEdge alignments).outFlanks).map Prod.fst ↔
      0 < support g checkEdge alignments e) := by
  induction alignments using List.reverseRecOn with
  | nil =>
    refine ⟨by simp [collectExtensions], by simp [collectExtensions], ?_⟩
    intro e
    simp [collectExtensions, support]
  | append_singleton l a ih =>
    obtain ⟨hnd, hlen, hkeys⟩ := ih
    have hstep : collectExtensions g checkEdge (l ++ [a])
        = extensionStep g checkEdge (collectExtensions g checkEdge l) a := by
      simp [collectExtensions, List.foldl_append]
    rw [hstep]
    obtain ⟨hnone, hsome⟩ := extensionStep_outFlanks g checkEdge (collectExtensions g checkEdge l) a
    cases hc : creditedEdge g checkEdge a with
    | none =>
      rw [hnone hc]
      refine ⟨hnd, ?_, ?_⟩
      · intro kv hkv
        rw [support_append, hc, hlen kv hkv]
        simp
      · intro e
        rw [support_append, hc, hkeys e]
        simp
    | some e0 =>
      obtain ⟨v, hv⟩ := hsome e0 hc
      rw [hv]
      refine ⟨pushBack_nodup _ e0 v hnd, ?_, ?_⟩
      · intro kv hkv
        rw [support_append, hc]
        rcases mem_pushBack _ e0 v hnd kv hkv with ⟨h1, h2⟩ | ⟨h1, h2⟩
        · have hne : ¬ some e0 = some kv.1 := by
            intro h
            exact h1 (Option.some.inj h).symm
          rw [if_neg hne, hlen kv h2]
          rfl
        · have heq : some e0 = some kv.1 := by rw [h1]
          rw [if_pos heq]
          rcases h2 with ⟨ws, hws, hkv2⟩ | ⟨hnot, hkv2⟩
          · rw [hkv2, List.length_append, hlen _ hws, h1]
            rfl
          · rw [hkeys e0] at hnot
            rw [hkv2, h1]
            simp only [List.length_singleton]
            omega
      · intro e
        rw [pushBack_keys, support_append, hc]
        by_cases he : e0 = e
        · subst he
          simp only [if_true]
          constructor
          · intro _; omega
          · intro _
            split
            · assumption
            · simp
        · have hne : ¬ some e0 = some e := fun h => he (Option.some.inj h)
          rw [if_neg hne, Nat.add_zero, ← hkeys e]
          split
          · rfl
          · simp only [List.mem_append, List.mem_singleton]
            constructor
            · rintro (h | h)
              · exact h
              · exact absurd h.symm he
            · intro h; exact Or.inl h

theorem maxSupport_fold {E : Type} [DecidableEq E] (S : E → Nat) (m : FlankMap E)
    (hlen : ∀ kv ∈ m, kv.2.length = S kv.1) (acc : Nat) :
    m.foldl (fun (a : Int) outConn =>
        if a < (outConn.2.length : Int) then (outConn.2.length : Int) else a) (acc : Int)
      = ((max acc ((m.map Prod.fst).toFinset.sup S) : Nat) : Int) := by
  induction m generalizing acc with
  | nil => simp
  | cons kv rest ih =>
    have hkv : kv.2.length = S kv.1 := hlen kv (List.mem_cons_self _ _)
    have hrest : ∀ x ∈ rest, x.2.length = S x.1 := fun x hx => hlen x (List.mem_cons_of_mem _ hx)
    simp only [List.foldl_cons, List.map_cons, List.toFinset_cons, Finset.sup_insert]
    by_cases hlt : (acc : Int) < (kv.2.length : Int)
    · rw [if_pos hlt, ih hrest]
      have : acc < kv.2.length := by exact_mod_cast hlt
      congr 1
      rw [hkv] at this ⊢
      omega
    · rw [if_neg hlt, ih hrest]
      have : ¬ acc < kv.2.length := by exact_mod_cast hlt
      congr 1
      rw [hkv] at this
      omega

theorem uniqueMult_fold {E : Type} (t : Int) (m : FlankMap E) (acc : Int) :
    m.foldl (fun (u : Int) outConn => if (outConn.2.length : Int) > t then u + 1 else u) acc
      = acc + (m.countP (fun kv => decide (t < (kv.2.length : Int))) : Nat) := by
  induction m generalizing acc with
  | nil => simp
  | cons kv rest ih =>
    simp only [List.foldl_cons, List.countP_cons, ih]
    by_cases h : t < (kv.2.length : Int)
    · simp only [gt_iff_lt, h, if_true, decide_True]
      push_cast
      ring
    · simp [h]

theorem uniqueMult_eq_card {E : Type} [DecidableEq E] (S : E → Nat) (t : Nat) (m : FlankMap E)
    (hnd : (m.map Prod.fst).Nodup) (hlen : ∀ kv ∈ m, kv.2.length = S kv.1) :
    uniqueMult m (t : Int)
      = ((((m.map Prod.fst).toFinset.filter (fun e => t < S e)).card : Nat) : Int) := by
  unfold uniqueMult
  rw [uniqueMult_fold, Int.zero_add]
  congr 1
  have h1 : m.countP (fun kv => decide ((t : Int) < (kv.2.length : Int)))
      = (m.map Prod.fst).countP (fun e => decide (t < S e)) := by
    rw [List.countP_map]
    apply List.countP_congr
    intro kv hkv
    simp only [Function.comp, decide_eq_true_eq, hlen kv hkv]
    exact Nat.cast_lt
  rw [h1, List.countP_eq_length_filter,
    ← List.toFinset_card_of_nodup (hnd.filter _), List.toFinset_filter]
  congr 1
  ext e
  simp

theorem creditedEdges_eq_keys {E : Type} [DecidableEq E] (g : RepeatGraph E) (checkEdge : E)
    (alignments : List (GraphAlignment E)) :
    creditedEdges g checkEdge alignments
      = (((collectExtensions g checkEdge alignments).outFlanks).map Prod.fst).toFinset := by
  ext e
  rw [List.mem_toFinset, (collectExtensions_inv g checkEdge alignments).2.2 e]
  unfold creditedEdges support
  rw [List.mem_toFinset, List.mem_filterMap, List.countP_pos_iff]
  simp

theorem minSupport_cast (M : Nat) (outPathsRatio : Int) (h : 1 ≤ outPathsRatio) :
    minSupport (M : Int) outPathsRatio
      = ((let m := M / outPathsRatio.toNat; if M > 1 then max m 1 else m : Nat) : Int) := by
  unfold minSupport
  have hr : outPathsRatio = (outPathsRatio.toNat : Int) := (Int.toNat_of_nonneg (by omega)).symm
  have hdiv : Int.tdiv (M : Int) outPathsRatio = ((M / outPathsRatio.toNat : Nat) : Int) := by
    rw [Int.tdiv_eq_ediv (by omega) (by omega), Int.natCast_div, ← hr]
  simp only [hdiv]
  by_cases hM : M > 1
  · have hM2 : (M : Int) > 1 := by exact_mod_cast hM
    simp only [hM, hM2, if_true]
    push_cast
    rfl
  · have hM2 : ¬ (M : Int) > 1 := by exact_mod_cast hM
    simp only [hM, hM2, if_false]

/-- Claim C9: with `n(e)` the number of alignments credited to `e`, `maxSupport` the
largest `n(e)` (0 if none) and `minSupport = maxSupport div out_paths_ratio` raised to at
least 1 when `maxSupport > 1`, `checkByReadExtension` answers true exactly when more than
one edge has `n(e) > minSupport`; an edge outside the credited ones has `n(e) = 0`; and
with `out_paths_ratio = 1` the answer is false on every input. -/
theorem checkByReadExtension_iff {E : Type} [DecidableEq E] (g : RepeatGraph E)
    (outPathsRatio : Int) (checkEdge : E) (alignments : List (GraphAlignment E))
    (hratio : 1 ≤ outPathsRatio) :
    (checkByReadExtension g outPathsRatio checkEdge alignments = true ↔
      1 < ((creditedEdges g checkEdge alignments).filter (fun e =>
        specMinSupport g outPathsRatio checkEdge alignments
          < support g checkEdge alignments e)).card) ∧
    (∀ e, e ∉ creditedEdges g checkEdge alignments → support g checkEdge alignments e = 0) ∧
    (outPathsRatio = 1 → checkByReadExtension g outPathsRatio checkEdge alignments = false) := by
  obtain ⟨hnd, hlen, hkeys⟩ := collectExtensions_inv g checkEdge alignments
  have hmax : maxSupport (collectExtensions g checkEdge alignments).outFlanks
      = (((creditedEdges g checkEdge alignments).sup (support g checkEdge alignments) : Nat) : Int) := by
    unfold maxSupport
    have := maxSupport_fold (support g checkEdge alignments) _ hlen 0
    rw [creditedEdges_eq_keys]
    simpa using this
  have hiff : checkByReadExtension g outPathsRatio checkEdge alignments = true ↔
      1 < ((creditedEdges g checkEdge alignments).filter (fun e =>
        specMinSupport g outPathsRatio checkEdge alignments
          < support g checkEdge alignments e)).card := by
    unfold checkByReadExtension
    simp only [decide_eq_true_eq]
    rw [hmax, minSupport_cast _ _ hratio,
      uniqueMult_eq_card (support g checkEdge alignments) _ _ hnd hlen, ← creditedEdges_eq_keys]
    unfold specMinSupport
    exact_mod_cast Iff.rfl
  refine ⟨hiff, ?_, ?_⟩
  · intro e he
    rw [creditedEdges_eq_keys, List.mem_toFinset, hkeys e] at he
    omega
  · intro h1
    cases hc : checkByReadExtension g outPathsRatio checkEdge alignments with
    | false => rfl
    | true =>
      exfalso
      have hcard := hiff.1 hc
      have hempty : (creditedEdges g checkEdge alignments).filter (fun e =>
          specMinSupport g outPathsRatio checkEdge alignments
            < support g checkEdge alignments e) = ∅ := by
        rw [Finset.filter_eq_empty_iff]
        intro e he
        have hle : support g checkEdge alignments e
            ≤ (creditedEdges g checkEdge alignments).sup (support g checkEdge alignments) :=
          Finset.le_sup he
        unfold specMinSupport
        subst h1
        simp only [Int.toNat_one, Nat.div_one]
        split <;> omega
      rw [hempty] at hcard
      simp at hcard

/-! ### `findRepeats`: reset, termination of the propagation walks -/

theorem foldl_update_const {E : Type} [DecidableEq E] {β : Type} (b : β) (l : List E)
    (f : E → β) :
    l.foldl (fun r e => Function.update r e b) f = fun x => if x ∈ l then b else f x := by
  induction l generalizing f with
  | nil => simp
  | cons a l ih =>
    rw [List.foldl_cons, ih]
    funext x
    by_cases hx : x ∈ l
    · simp [hx]
    · by_cases hxa : x = a
      · subst hxa; simp [hx]
      · simp [hx, hxa, Function.update_noteq hxa]

theorem resetRepetitive_eq {E : Type} [DecidableEq E] (g : RepeatGraph E) (rep : E → Bool)
    (hall : ∀ e, e ∈ g.iterEdges) : resetRepetitive g rep = fun _ => false := by
  unfold resetRepetitive
  rw [foldl_update_const]
  funext x
  simp [hall x]

theorem viaLink_not_repetitive {E : Type} (rep : E → Bool) (link : Option E) (n : E)
    (h : viaLink rep link = some n) : rep n = false := by
  unfold viaLink at h
  cases link with
  | none => simp at h
  | some l =>
    simp only [Option.filter] at h
    split at h
    · rename_i hl
      simp only [Option.some.injEq] at h
      subst h
      simpa using hl
    · simp at h

theorem nextRight_not_repetitive {E : Type} (g : RepeatGraph E) (rep : E → Bool) (cur n : E)
    (h : nextRight g rep cur = some n) : rep n = false := by
  unfold nextRight at h
  split at h
  · split at h
    · rename_i hr
      simp only [Option.some.injEq] at h
      subst h
      simpa using hr
    · exact viaLink_not_repetitive rep _ n h
  · exact viaLink_not_repetitive rep _ n h

theorem nextLeft_not_repetitive {E : Type} (g : RepeatGraph E) (rep : E → Bool) (cur n : E)
    (h : nextLeft g rep cur = some n) : rep n = false := by
  unfold nextLeft at h
  split at h
  · split at h
    · rename_i hr
      simp only [Option.some.injEq] at h
      subst h
      simpa using hr
    · exact viaLink_not_repetitive rep _ n h
  · exact viaLink_not_repetitive rep _ n h

theorem countP_lt_of_witness {α : Type} (p q : α → Bool) (l : List α)
    (hpq : ∀ x ∈ l, p x = true → q x = true) (a : α) (ha : a ∈ l) (hq : q a = true)
    (hp : p a = false) : l.countP p < l.countP q := by
  induction l with
  | nil => simp at ha
  | cons b l ih =>
    have hpq2 : ∀ x ∈ l, p x = true → q x = true := fun x hx => hpq x (List.mem_cons_of_mem _ hx)
    have hle : l.countP p ≤ l.countP q := List.countP_mono_left hpq2
    rw [List.countP_cons, List.countP_cons]
    rcases List.mem_cons.1 ha with rfl | hmem
    · simp only [hq, hp, if_true]
      simp only [Bool.false_eq_true, if_false]
      omega
    · have := ih hpq2 hmem
      have hb := hpq b (List.mem_cons_self _ _)
      by_cases hpb : p b = true
      · simp only [hpb, hb hpb, if_true]; omega
      · have hpb2 : p b = false := by simpa using hpb
        by_cases hqb : q b = true
        · simp only [hpb2, hqb, if_true, Bool.false_eq_true, if_false]; omega
        · have hqb2 : q b = false := by simpa using hqb
          simp only [hpb2, hqb2, Bool.false_eq_true, if_false]; omega

theorem walk_isSome {E : Type} [DecidableEq E] (next : (E → Bool) → E → Option E)
    (hnext : ∀ rep cur n, next rep cur = some n → rep n = false)
    (es : List E) (hall : ∀ e, e ∈ es) :
    ∀ (fuel : Nat) (rep : E → Bool) (cur : E),
      es.countP (fun e => !rep e && decide (e ≠ cur)) < fuel →
      (walk next fuel rep cur).isSome = true := by
  intro fuel
  induction fuel with
  | zero => intro rep cur h; omega
  | succ fuel ih =>
    intro rep cur h
    simp only [walk]
    cases hn : next (Function.update rep cur true) cur with
    | none => rfl
    | some n =>
      simp only
      apply ih
      have hrn := hnext _ _ _ hn
      have hncur : n ≠ cur := by
        intro heq
        subst heq
        simp at hrn
      have hrn2 : rep n = false := by
        rw [Function.update_noteq hncur] at hrn
        exact hrn
      have hlt := countP_lt_of_witness
        (fun e => !(Function.update rep cur true) e && decide (e ≠ n))
        (fun e => !rep e && decide (e ≠ cur)) es
        (by
          intro x _ hx
          simp only at hx ⊢
          by_cases hxc : x = cur
          · subst hxc; simp at hx
          · rw [Function.update_noteq hxc] at hx
            simp only [Bool.and_eq_true, Bool.not_eq_true', decide_eq_true_eq] at hx ⊢
            exact ⟨hx.1, hxc⟩)
        n (hall n) (by simp [hrn2, hncur]) (by simp)
      omega

theorem walk_mono {E : Type} [DecidableEq E] (next : (E → Bool) → E → Option E) :
    ∀ (fuel : Nat) (rep rep2 : E → Bool) (cur : E), walk next fuel rep cur = some rep2 →
      rep2 cur = true ∧ ∀ e, rep e = true → rep2 e = true := by
  intro fuel
  induction fuel with
  | zero => intro rep rep2 cur h; simp [walk] at h
  | succ fuel ih =>
    intro rep rep2 cur h
    simp only [walk] at h
    have hup : ∀ e, rep e = true → Function.update rep cur true e = true := by
      intro e he
      by_cases hec : e = cur
      · subst hec; simp
      · rw [Function.update_noteq hec]; exact he
    cases hn : next (Function.update rep cur true) cur with
    | none =>
      rw [hn] at h
      simp only [Option.some.injEq] at h
      subst h
      exact ⟨by simp, hup⟩
    | some n =>
      rw [hn] at h
      obtain ⟨_, h2⟩ := ih _ _ _ h
      exact ⟨h2 cur (by simp), fun e he => h2 e (hup e he)⟩

theorem propagateFrom_some {E : Type} [DecidableEq E] (g : RepeatGraph E)
    (hall : ∀ e, e ∈ g.iterEdges) (rep : E → Bool) (edge : E) :
    ∃ rep2, propagateFrom g (g.iterEdges.length + 1) rep edge = some rep2 ∧
      ∀ e, rep e = true → rep2 e = true := by
  unfold propagateFrom
  by_cases hr : rep edge = true
  · simp only [hr, Bool.not_true, Bool.false_eq_true, if_false]
    have hfuel : ∀ (r : E → Bool) (c : E),
        g.iterEdges.countP (fun e => !r e && decide (e ≠ c)) < g.iterEdges.length + 1 :=
      fun r c => Nat.lt_succ_of_le (List.countP_le_length _)
    have h1 := walk_isSome (nextRight g) (nextRight_not_repetitive g) g.iterEdges hall _ rep edge
      (hfuel rep edge)
    obtain ⟨rep1, hrep1⟩ := Option.isSome_iff_exists.1 h1
    have h2 := walk_isSome (nextLeft g) (nextLeft_not_repetitive g) g.iterEdges hall _ rep1 edge
      (hfuel rep1 edge)
    obtain ⟨rep2, hrep2⟩ := Option.isSome_iff_exists.1 h2
    refine ⟨rep2, ?_, ?_⟩
    · rw [hrep1]
      simpa using hrep2
    · intro e he
      exact (walk_mono _ _ _ _ _ hrep2).2 e ((walk_mono _ _ _ _ _ hrep1).2 e he)
  · refine ⟨rep, ?_, fun _ h => h⟩
    simp [hr]

theorem propagate_fold_some {E : Type} [DecidableEq E] (g : RepeatGraph E)
    (hall : ∀ e, e ∈ g.iterEdges) (l : List E) (rep : E → Bool) :
    ∃ rep2, l.foldlM (propagateFrom g (g.iterEdges.length + 1)) rep = some rep2 ∧
      ∀ e, rep e = true → rep2 e = true := by
  induction l generalizing rep with
  | nil => exact ⟨rep, rfl, fun _ h => h⟩
  | cons a l ih =>
    obtain ⟨rep1, h1, hm1⟩ := propagateFrom_some g hall rep a
    obtain ⟨rep2, h2, hm2⟩ := ih rep1
    refine ⟨rep2, ?_, fun e he => hm2 e (hm1 e he)⟩
    rw [List.foldlM_cons, h1]
    exact h2

theorem propagate_some {E : Type} [DecidableEq E] (g : RepeatGraph E)
    (hall : ∀ e, e ∈ g.iterEdges) (rep : E → Bool) :
    ∃ rep2, propagate g rep = some rep2 ∧ ∀ e, rep e = true → rep2 e = true :=
  propagate_fold_some g hall g.iterEdges rep

theorem findRepeatsFlags_reset {E : Type} [DecidableEq E] (cfg : Settings)
    (alnIndex : E → List (GraphAlignment E)) (unbranchingPaths : List (UnbranchingPath E))
    (g : RepeatGraph E) (hall : ∀ e, e ∈ g.iterEdges) :
    findRepeatsFlags cfg alnIndex unbranchingPaths g
      = propagate g (extensionSweep cfg alnIndex unbranchingPaths g
          (unbranchingPaths.foldl (sweepPath cfg alnIndex unbranchingPaths g)
            (fun _ => false))) := by
  unfold findRepeatsFlags
  rw [resetRepetitive_eq g g.repetitive hall]

theorem findRepeats_independent {E : Type} [DecidableEq E] (cfg : Settings)
    (alnIndex : E → List (GraphAlignment E)) (unbranchingPaths : List (UnbranchingPath E))
    (g : RepeatGraph E) (hall : ∀ e, e ∈ g.iterEdges) (rep : E → Bool) :
    findRepeats cfg alnIndex unbranchingPaths { g with repetitive := rep }
      = findRepeats cfg alnIndex unbranchingPaths g := by
  unfold findRepeats
  rw [findRepeatsFlags_reset cfg alnIndex unbranchingPaths g hall,
    findRepeatsFlags_reset cfg alnIndex unbranchingPaths { g with repetitive := rep } hall]
  rfl

/-- Claim C5: `findRepeats` is idempotent. On a graph whose `iterEdges()` enumerates
every edge the call returns, the flags it produces do not depend on the `repetitive`
flags held before (they are all reset first), and a second call in succession returns the
same graph as the first. -/
theorem findRepeats_idempotent {E : Type} [DecidableEq E] (cfg : Settings)
    (alnIndex : E → List (GraphAlignment E)) (unbranchingPaths : List (UnbranchingPath E))
    (g : RepeatGraph E) (hall : ∀ e, e ∈ g.iterEdges) :
    (∃ g1, findRepeats cfg alnIndex unbranchingPaths g = some g1 ∧
      findRepeats cfg alnIndex unbranchingPaths g1 = some g1) ∧
    (∀ rep : E → Bool, findRepeats cfg alnIndex unbranchingPaths { g with repetitive := rep }
      = findRepeats cfg alnIndex unbranchingPaths g) := by
  refine ⟨?_, findRepeats_independent cfg alnIndex unbranchingPaths g hall⟩
  obtain ⟨rep2, h2, _⟩ := propagate_some g hall
    (extensionSweep cfg alnIndex unbranchingPaths g
      (unbranchingPaths.foldl (sweepPath cfg alnIndex unbranchingPaths g) (fun _ => false)))
  have hfirst : findRepeats cfg alnIndex unbranchingPaths g
      = some { g with repetitive := rep2 } := by
    unfold findRepeats
    rw [findRepeatsFlags_reset cfg alnIndex unbranchingPaths g hall, h2]
    rfl
  refine ⟨{ g with repetitive := rep2 }, hfirst, ?_⟩
  rw [findRepeats_independent cfg alnIndex unbranchingPaths g hall rep2]
  exact hfirst

/-! ### `findRepeats`: the topology/coverage sweep -/

theorem markRepetitive_eq {E : Type} [DecidableEq E] (rep : E → Bool) (path : UnbranchingPath E) :
    markRepetitive rep path = fun x => if x ∈ path.path then true else rep x := by
  unfold markRepetitive
  exact foldl_update_const true path.path rep

theorem markBoth_apply {E : Type} [DecidableEq E] (unbranchingPaths : List (UnbranchingPath E))
    (rep : E → Bool) (path : UnbranchingPath E) (x : E) :
    markBoth unbranchingPaths rep path x
      = (decide (x ∈ (complPath unbranchingPaths path).path) || decide (x ∈ path.path) || rep x) := by
  unfold markBoth
  rw [markRepetitive_eq, markRepetitive_eq]
  by_cases h1 : x ∈ (complPath unbranchingPaths path).path <;>
    by_cases h2 : x ∈ path.path <;> simp [h1, h2]

theorem markBoth_idem {E : Type} [DecidableEq E] (unbranchingPaths : List (UnbranchingPath E))
    (rep : E → Bool) (path : UnbranchingPath E) :
    markBoth unbranchingPaths (markBoth unbranchingPaths rep path) path
      = markBoth unbranchingPaths rep path := by
  funext x
  rw [markBoth_apply, markBoth_apply]
  cases decide (x ∈ (complPath unbranchingPaths path).path) <;>
    cases decide (x ∈ path.path) <;> simp

theorem markBoth_mono {E : Type} [DecidableEq E] (unbranchingPaths : List (UnbranchingPath E))
    (rep : E → Bool) (path : UnbranchingPath E) (x : E) (h : rep x = true) :
    markBoth unbranchingPaths rep path x = true := by
  rw [markBoth_apply, h]
  simp

theorem rules_fold_marked {E : Type} [DecidableEq E] (unbranchingPaths : List (UnbranchingPath E))
    (path : UnbranchingPath E) (rep : E → Bool)
    (rules : List ((E → Bool) → UnbranchingPath E → Bool)) :
    rules.foldl (fun r rule => if rule r path then markBoth unbranchingPaths r path else r)
        (markBoth unbranchingPaths rep path)
      = markBoth unbranchingPaths rep path := by
  induction rules with
  | nil => rfl
  | cons rule rules ih =>
    rw [List.foldl_cons]
    split
    · rw [markBoth_idem]; exact ih
    · exact ih

theorem rules_fold_cases {E : Type} [DecidableEq E] (unbranchingPaths : List (UnbranchingPath E))
    (path : UnbranchingPath E) (rep : E → Bool)
    (rules : List ((E → Bool) → UnbranchingPath E → Bool)) :
    (rules.foldl (fun r rule => if rule r path then markBoth unbranchingPaths r path else r) rep
        = rep ∧ ∀ rule ∈ rules, rule rep path = false) ∨
    rules.foldl (fun r rule => if rule r path then markBoth unbranchingPaths r path else r) rep
        = markBoth unbranchingPaths rep path := by
  induction rules with
  | nil => left; exact ⟨rfl, by simp⟩
  | cons rule rules ih =>
    rw [List.foldl_cons]
    by_cases hr : rule rep path = true
    · right
      rw [if_pos hr]
      exact rules_fold_marked unbranchingPaths path rep rules
    · rw [if_neg hr]
      rcases ih with ⟨h1, h2⟩ | h
      · left
        refine ⟨h1, ?_⟩
        intro r2 hr2
        rcases List.mem_cons.1 hr2 with rfl | hmem
        · simpa using hr
        · exact h2 r2 hmem
      · right; exact h

theorem complPath_cases {E : Type} (unbranchingPaths : List (UnbranchingPath E))
    (path : UnbranchingPath E) :
    complPath unbranchingPaths path = path ∨
    (complPath unbranchingPaths path ∈ unbranchingPaths ∧
      (complPath unbranchingPaths path).id = path.id.rc) := by
  unfold complPath idToPath
  cases h : List.find? (fun p => decide (p.id = path.id.rc)) unbranchingPaths.reverse with
  | none => left; rfl
  | some q =>
    right
    refine ⟨?_, ?_⟩
    · have := List.mem_of_find?_eq_some h
      simpa using this
    · have := List.find?_some h
      simpa using this

theorem Id.rc_strand (i : Id) : i.rc.strand = !i.strand := rfl

theorem sweepRules_false {E : Type} [DecidableEq E] (cfg : Settings)
    (alnIndex : E → List (GraphAlignment E)) (g : RepeatGraph E) (rep : E → Bool)
    (path : UnbranchingPath E)
    (h : ∀ rule ∈ sweepRules cfg alnIndex g, rule rep path = false) :
    highCovRule cfg path = false ∧ shortLoop path = false ∧
    path.path.any (fun e => g.selfComplement e) = false ∧
    path.path.any (fun e => g.altHaplotype e) = false ∧
    path.path.any (fun e => g.unreliable e) = false ∧
    tandemRule alnIndex rep path = false :=
  ⟨h (fun _ path => highCovRule cfg path) (by simp [sweepRules]),
   h (fun _ path => shortLoop path) (by simp [sweepRules]),
   h (fun _ path => path.path.any (fun e => g.selfComplement e)) (by simp [sweepRules]),
   h (fun _ path => path.path.any (fun e => g.altHaplotype e)) (by simp [sweepRules]),
   h (fun _ path => path.path.any (fun e => g.unreliable e)) (by simp [sweepRules]),
   h (fun rep path => tandemRule alnIndex rep path) (by simp [sweepRules])⟩

theorem sweepPath_step {E : Type} [DecidableEq E] (cfg : Settings)
    (alnIndex : E → List (GraphAlignment E)) (unbranchingPaths : List (UnbranchingPath E))
    (g : RepeatGraph E)
    (hdisj : ∀ p ∈ unbranchingPaths, ∀ q ∈ unbranchingPaths, p ≠ q → ∀ e ∈ p.path, e ∉ q.path)
    (rep : E → Bool) (path : UnbranchingPath E) (hp : path ∈ unbranchingPaths)
    (hI : SweepInv unbranchingPaths rep) :
    SweepInv unbranchingPaths (sweepPath cfg alnIndex unbranchingPaths g rep path) ∧
    (∀ x, rep x = true → sweepPath cfg alnIndex unbranchingPaths g rep path x = true) ∧
    (path.id.strand = true → qualifies cfg alnIndex g path →
      (∀ e ∈ path.path, sweepPath cfg alnIndex unbranchingPaths g rep path e = true) ∧
      (∀ e ∈ (complPath unbranchingPaths path).path,
        sweepPath cfg alnIndex unbranchingPaths g rep path e = true)) := by
  unfold sweepPath
  by_cases hs : path.id.strand = true
  swap
  · simp only [Bool.not_eq_true] at hs
    simp only [hs, Bool.not_false, if_true, Bool.false_eq_true, false_implies, and_true]
    exact ⟨hI, fun _ h => h⟩
  simp only [hs, Bool.not_true, Bool.false_eq_true, if_false, true_implies]
  rcases rules_fold_cases unbranchingPaths path rep (sweepRules cfg alnIndex g) with ⟨heq, hf⟩ | heq
  · rw [heq]
    refine ⟨hI, fun _ h => h, ?_⟩
    intro hq
    obtain ⟨h1, h2, h3, h4, h5, h6⟩ := sweepRules_false cfg alnIndex g rep path hf
    have htandem : ∃ e ∈ path.path, checkForTandemCopies e (alnIndex e) = true := by
      rcases hq with hq | hq | hq | hq | hq | hq
      · simp [highCovRule, hq.1, hq.2] at h1
      · simp [shortLoop, MIN_RELIABLE_LOOP, hq.1, hq.2] at h2
      · obtain ⟨e, he, hse⟩ := hq
        rw [List.any_eq_false] at h3
        exact absurd hse (h3 e he)
      · obtain ⟨e, he, hse⟩ := hq
        rw [List.any_eq_false] at h4
        exact absurd hse (h4 e he)
      · obtain ⟨e, he, hse⟩ := hq
        rw [List.any_eq_false] at h5
        exact absurd hse (h5 e he)
      · exact hq
    obtain ⟨e, he, hte⟩ := htandem
    unfold tandemRule at h6
    rw [List.any_eq_false] at h6
    have hre : rep e = true := by
      have := h6 e he
      simpa [hte] using this
    exact hI path hp hs ⟨e, he, hre⟩
  · rw [heq]
    have hmarked : (∀ e ∈ path.path, markBoth unbranchingPaths rep path e = true) ∧
        (∀ e ∈ (complPath unbranchingPaths path).path,
          markBoth unbranchingPaths rep path e = true) := by
      constructor
      · intro e he; rw [markBoth_apply]; simp [he]
      · intro e he; rw [markBoth_apply]; simp [he]
    refine ⟨?_, markBoth_mono unbranchingPaths rep path, fun _ => hmarked⟩
    intro q hq hqs hex
    by_cases hqp : q = path
    · subst hqp; exact hmarked
    · obtain ⟨e, he, hme⟩ := hex
      have hnp : e ∉ path.path := fun h => hdisj q hq path hp hqp e he h
      have hnc : e ∉ (complPath unbranchingPaths path).path := by
        rcases complPath_cases unbranchingPaths path with hc | ⟨hc1, hc2⟩
        · rw [hc]; exact hnp
        · have hne : q ≠ complPath unbranchingPaths path := by
            intro h
            have h2 : q.id.strand = (complPath unbranchingPaths path).id.strand := by rw [h]
            rw [hc2, Id.rc_strand, hqs, hs] at h2
            simp at h2
          exact hdisj q hq _ hc1 hne e he
      rw [markBoth_apply] at hme
      have hre : rep e = true := by simpa [hnp, hnc] using hme
      obtain ⟨ha, hb⟩ := hI q hq hqs ⟨e, he, hre⟩
      exact ⟨fun x hx => markBoth_mono _ _ _ _ (ha x hx),
        fun x hx => markBoth_mono _ _ _ _ (hb x hx)⟩

theorem sweep_fold {E : Type} [DecidableEq E] (cfg : Settings)
    (alnIndex : E → List (GraphAlignment E)) (unbranchingPaths : List (UnbranchingPath E))
    (g : RepeatGraph E)
    (hdisj : ∀ p ∈ unbranchingPaths, ∀ q ∈ unbranchingPaths, p ≠ q → ∀ e ∈ p.path, e ∉ q.path)
    (l : List (UnbranchingPath E)) (hl : ∀ p ∈ l, p ∈ unbranchingPaths) (rep : E → Bool)
    (hI : SweepInv unbranchingPaths rep) :
    SweepInv unbranchingPaths (l.foldl (sweepPath cfg alnIndex unbranchingPaths g) rep) ∧
    (∀ x, rep x = true → l.foldl (sweepPath cfg alnIndex unbranchingPaths g) rep x = true) ∧
    (∀ p ∈ l, p.id.strand = true → qualifies cfg alnIndex g p →
      (∀ e ∈ p.path, l.foldl (sweepPath cfg alnIndex unbranchingPaths g) rep e = true) ∧
      (∀ e ∈ (complPath unbranchingPaths p).path,
        l.foldl (sweepPath cfg alnIndex unbranchingPaths g) rep e = true)) := by
  induction l generalizing rep with
  | nil => exact ⟨hI, fun _ h => h, by simp⟩
  | cons a l ih =>
    obtain ⟨hI1, hm1, hq1⟩ := sweepPath_step cfg alnIndex unbranchingPaths g hdisj rep a
      (hl a (List.mem_cons_self _ _)) hI
    obtain ⟨hI2, hm2, hq2⟩ := ih (fun p hp => hl p (List.mem_cons_of_mem _ hp)) _ hI1
    rw [List.foldl_cons]
    refine ⟨hI2, fun x hx => hm2 x (hm1 x hx), ?_⟩
    intro p hp hps hpq
    rcases List.mem_cons.1 hp with rfl | hmem
    · obtain ⟨ha, hb⟩ := hq1 hps hpq
      exact ⟨fun e he => hm2 e (ha e he), fun e he => hm2 e (hb e he)⟩
    · exact hq2 p hmem hps hpq

theorem extensionPath_cases {E : Type} [DecidableEq E] (cfg : Settings)
    (alnIndex : E → List (GraphAlignment E)) (unbranchingPaths : List (UnbranchingPath E))
    (g : RepeatGraph E) (rep : E → Bool) (path : UnbranchingPath E) :
    extensionPath cfg alnIndex unbranchingPaths g rep path = rep ∨
    extensionPath cfg alnIndex unbranchingPaths g rep path
      = markBoth unbranchingPaths rep path := by
  unfold extensionPath
  split
  · left; rfl
  · split
    · split
      · left; rfl
      · simp only
        split
        · right; rfl
        · left; rfl
    · left; rfl

theorem extensionPath_mono {E : Type} [DecidableEq E] (cfg : Settings)
    (alnIndex : E → List (GraphAlignment E)) (unbranchingPaths : List (UnbranchingPath E))
    (g : RepeatGraph E) (rep : E → Bool) (path : UnbranchingPath E) (x : E)
    (h : rep x = true) :
    extensionPath cfg alnIndex unbranchingPaths g rep path x = true := by
  rcases extensionPath_cases cfg alnIndex unbranchingPaths g rep path with hc | hc
  · rw [hc]; exact h
  · rw [hc]; exact markBoth_mono _ _ _ _ h

theorem foldl_mono {E α : Type} (f : (E → Bool) → α → E → Bool)
    (hf : ∀ rep a x, rep x = true → f rep a x = true) (l : List α) (rep : E → Bool) (x : E)
    (h : rep x = true) : l.foldl f rep x = true := by
  induction l generalizing rep with
  | nil => exact h
  | cons a l ih => exact ih (f rep a) (hf rep a x h)

theorem extensionSweep_mono {E : Type} [DecidableEq E] (cfg : Settings)
    (alnIndex : E → List (GraphAlignment E)) (unbranchingPaths : List (UnbranchingPath E))
    (g : RepeatGraph E) (rep : E → Bool) (x : E) (h : rep x = true) :
    extensionSweep cfg alnIndex unbranchingPaths g rep x = true := by
  unfold extensionSweep
  apply foldl_mono _ _ _ _ _ h
  intro r _ y hy
  exact foldl_mono _ (extensionPath_mono cfg alnIndex unbranchingPaths g) _ _ _ hy

/-- Claim C10: on a graph whose `iterEdges()` enumerates every edge and whose unbranching
paths share no edge, `findRepeats` returns, and in the graph it returns every edge of a
forward-strand path that meets one of the six conditions of the topology/coverage sweep
is repetitive, as is every edge of the path's complement path. The short-loop condition is
strict: a looped path of length 4999 meets it, one of length 5000 does not. -/
theorem findRepeats_marks_qualifying {E : Type} [DecidableEq E] (cfg : Settings)
    (alnIndex : E → List (GraphAlignment E)) (unbranchingPaths : List (UnbranchingPath E))
    (g : RepeatGraph E) (hall : ∀ e, e ∈ g.iterEdges)
    (hdisj : ∀ p ∈ unbranchingPaths, ∀ q ∈ unbranchingPaths, p ≠ q → ∀ e ∈ p.path, e ∉ q.path) :
    (∃ g1, findRepeats cfg alnIndex unbranchingPaths g = some g1 ∧
      ∀ p ∈ unbranchingPaths, p.id.strand = true → qualifies cfg alnIndex g p →
        (∀ e ∈ p.path, g1.repetitive e = true) ∧
        (∀ e ∈ (complPath unbranchingPaths p).path, g1.repetitive e = true)) ∧
    (∀ p : UnbranchingPath E, p.isLooped = true →
      (p.length = 4999 → shortLoop p = true) ∧ (p.length = 5000 → shortLoop p = false)) := by
  constructor
  · obtain ⟨_, _, hq⟩ := sweep_fold cfg alnIndex unbranchingPaths g hdisj unbranchingPaths
      (fun _ h => h) (fun _ => false) (by
        intro q _ _ hex
        obtain ⟨e, _, he⟩ := hex
        simp at he)
    obtain ⟨rep2, h2, hm2⟩ := propagate_some g hall
      (extensionSweep cfg alnIndex unbranchingPaths g
        (unbranchingPaths.foldl (sweepPath cfg alnIndex unbranchingPaths g) (fun _ => false)))
    refine ⟨{ g with repetitive := rep2 }, ?_, ?_⟩
    · unfold findRepeats
      rw [findRepeatsFlags_reset cfg alnIndex unbranchingPaths g hall, h2]
      rfl
    · intro p hp hps hpq
      obtain ⟨ha, hb⟩ := hq p hp hps hpq
      exact ⟨fun e he => hm2 e (extensionSweep_mono _ _ _ _ _ _ (ha e he)),
        fun e he => hm2 e (extensionSweep_mono _ _ _ _ _ _ (hb e he))⟩
  · intro p hl
    constructor
    · intro h
      simp [shortLoop, MIN_RELIABLE_LOOP, hl, h]
    · intro h
      simp [shortLoop, MIN_RELIABLE_LOOP, hl, h]

/-! ### `finalizeGraph` -/

theorem clear_fold_eq {E : Type} [DecidableEq E] (c : E → E) (l : List E) (r : E → Bool) :
    l.foldl (fun r e => Function.update (Function.update r e false) (c e) false) r
      = fun x => if x ∈ l ∨ x ∈ l.map c then false else r x := by
  induction l generalizing r with
  | nil => simp
  | cons a l ih =>
    rw [List.foldl_cons, ih]
    funext x
    by_cases h1 : x ∈ l ∨ x ∈ l.map c
    · have h2 : x ∈ a :: l ∨ x ∈ (a :: l).map c := by
        rcases h1 with h | h
        · exact Or.inl (List.mem_cons_of_mem _ h)
        · exact Or.inr (by rw [List.map_cons]; exact List.mem_cons_of_mem _ h)
      simp only [h1, h2, if_true]
    · rw [if_neg h1]
      by_cases hxc : x = c a
      · have h2 : x ∈ a :: l ∨ x ∈ (a :: l).map c := Or.inr (by simp [hxc])
        rw [if_pos h2, hxc, Function.update_same]
      · rw [Function.update_noteq hxc]
        by_cases hxa : x = a
        · have h2 : x ∈ a :: l ∨ x ∈ (a :: l).map c := Or.inl (by simp [hxa])
          rw [if_pos h2, hxa, Function.update_same]
        · rw [Function.update_noteq hxa]
          have h2 : ¬ (x ∈ a :: l ∨ x ∈ (a :: l).map c) := by
            simp only [List.mem_cons, List.map_cons, not_or] at h1 ⊢
            exact ⟨⟨hxa, h1.1⟩, ⟨hxc, h1.2⟩⟩
          rw [if_neg h2]

theorem fixCondition_eq {E : Type} (cfg : Settings) (g : RepeatGraph E) (rep : E → Bool)
    (path : UnbranchingPath E) (front : E) :
    fixCondition cfg g rep path front = (staticFix cfg g path front && rep front) := by
  unfold fixCondition staticFix
  cases g.selfComplement front <;> cases rep front <;>
    cases decide (path.length > cfg.uniqueEdgeLength) <;> simp

theorem fixPath_cases {E : Type} [DecidableEq E] (cfg : Settings) (c : E → E)
    (g : RepeatGraph E) (rep : E → Bool) (path : UnbranchingPath E) :
    fixPath cfg c g rep path = rep ∨
    fixPath cfg c g rep path
      = fun x => if x ∈ path.path ∨ x ∈ path.path.map c then false else rep x := by
  unfold fixPath
  split
  · left; rfl
  · split
    · split
      · right; exact clear_fold_eq c path.path rep
      · left; rfl
    · left; rfl

theorem fixPath_antitone {E : Type} [DecidableEq E] (cfg : Settings) (c : E → E)
    (g : RepeatGraph E) (rep : E → Bool) (path : UnbranchingPath E) (x : E)
    (h : fixPath cfg c g rep path x = true) : rep x = true := by
  rcases fixPath_cases cfg c g rep path with hc | hc
  · rw [hc] at h; exact h
  · rw [hc] at h
    simp only at h
    by_cases hx : x ∈ path.path ∨ x ∈ path.path.map c
    · rw [if_pos hx] at h; simp at h
    · rw [if_neg hx] at h; exact h

theorem fixPath_front {E : Type} [DecidableEq E] (cfg : Settings) (c : E → E)
    (g : RepeatGraph E) (rep : E → Bool) (path : UnbranchingPath E) (front : E)
    (hs : path.id.strand = true) (hf : path.path.head? = some front)
    (hst : staticFix cfg g path front = true) :
    fixPath cfg c g rep path front = false := by
  unfold fixPath
  simp only [hs, Bool.not_true, Bool.false_eq_true, if_false, hf]
  rw [fixCondition_eq, hst, Bool.true_and]
  by_cases hr : rep front = true
  · rw [if_pos hr, clear_fold_eq]
    have hmem : front ∈ path.path := List.mem_of_mem_head? hf
    simp [hmem]
  · rw [if_neg hr]
    simpa using hr

theorem fix_fold {E : Type} [DecidableEq E] (cfg : Settings) (c : E → E) (g : RepeatGraph E)
    (l : List (UnbranchingPath E)) (rep : E → Bool) :
    (∀ x, l.foldl (fixPath cfg c g) rep x = true → rep x = true) ∧
    (∀ p ∈ l, p.id.strand = true → ∀ front, p.path.head? = some front →
      staticFix cfg g p front = true → l.foldl (fixPath cfg c g) rep front = false) := by
  induction l generalizing rep with
  | nil => exact ⟨fun _ h => h, by simp⟩
  | cons a l ih =>
    obtain ⟨h1, h2⟩ := ih (fixPath cfg c g rep a)
    rw [List.foldl_cons]
    refine ⟨fun x hx => fixPath_antitone cfg c g rep a x (h1 x hx), ?_⟩
    intro p hp hs front hf hst
    rcases List.mem_cons.1 hp with rfl | hmem
    · have hfalse := fixPath_front cfg c g rep p front hs hf hst
      cases hval : l.foldl (fixPath cfg c g) (fixPath cfg c g rep p) front with
      | false => rfl
      | true => rw [h1 front hval] at hfalse; exact absurd hfalse (by simp)
    · exact h2 p hmem hs front hf hst

theorem foldl_fixed {α β : Type} (f : β → α → β) (l : List α) (b : β)
    (h : ∀ a ∈ l, f b a = b) : l.foldl f b = b := by
  induction l with
  | nil => rfl
  | cons a l ih =>
    rw [List.foldl_cons, h a (List.mem_cons_self _ _)]
    exact ih (fun x hx => h x (List.mem_cons_of_mem _ hx))

theorem forall₂_mem_right {α β : Type} (R : α → β → Prop) (l1 : List α) (l2 : List β)
    (h : List.Forall₂ R l1 l2) : ∀ b ∈ l2, ∃ a ∈ l1, R a b := by
  induction h with
  | nil => intro b hb; simp at hb
  | cons hab _ ih =>
    intro b hb
    rcases List.mem_cons.1 hb with rfl | hmem
    · exact ⟨_, List.mem_cons_self _ _, hab⟩
    · obtain ⟨a, ha, hr⟩ := ih b hmem
      exact ⟨a, List.mem_cons_of_mem _ ha, hr⟩

theorem forall₂_and {α β : Type} (R S : α → β → Prop) (l1 : List α) (l2 : List β)
    (h1 : List.Forall₂ R l1 l2) (h2 : List.Forall₂ S l1 l2) :
    List.Forall₂ (fun a b => R a b ∧ S a b) l1 l2 := by
  induction h1 with
  | nil => exact List.Forall₂.nil
  | cons hab _ ih =>
    cases h2 with
    | cons hs hrest => exact List.Forall₂.cons ⟨hab, hs⟩ (ih hrest)

theorem subtract_inner {E : Type} [DecidableEq E] (sub : E → Int) (l : List E) (cov : E → Int) :
    (∀ x, 0 ≤ cov x →
      0 ≤ l.foldl (fun c e => Function.update c e (max 0 (c e - sub e))) cov x) ∧
    (∀ x ∈ l, 0 ≤ l.foldl (fun c e => Function.update c e (max 0 (c e - sub e))) cov x) := by
  induction l generalizing cov with
  | nil => exact ⟨fun _ h => h, by simp⟩
  | cons a l ih =>
    obtain ⟨h1, h2⟩ := ih (Function.update cov a (max 0 (cov a - sub a)))
    rw [List.foldl_cons]
    have hstep : ∀ x, 0 ≤ cov x → 0 ≤ Function.update cov a (max 0 (cov a - sub a)) x := by
      intro x hx
      by_cases hxa : x = a
      · subst hxa; rw [Function.update_same]; exact le_max_left _ _
      · rw [Function.update_noteq hxa]; exact hx
    refine ⟨fun x hx => h1 x (hstep x hx), ?_⟩
    intro x hx
    rcases List.mem_cons.1 hx with rfl | hmem
    · apply h1
      rw [Function.update_same]
      exact le_max_left _ _
    · exact h2 x hmem

theorem subtractPath_nonneg {E : Type} [DecidableEq E] (sub : E → Int)
    (cov : E → Int) (path : UnbranchingPath E) :
    (∀ x, 0 ≤ cov x → 0 ≤ subtractPath sub cov path x) ∧
    (path.isLooped = false → ∀ x ∈ path.path, 0 ≤ subtractPath sub cov path x) := by
  unfold subtractPath
  by_cases hl : path.isLooped = true
  · simp [hl]
  · simp only [hl, Bool.false_eq_true, if_false]
    exact ⟨(subtract_inner sub path.path cov).1, fun _ => (subtract_inner sub path.path cov).2⟩

theorem subtract_fold {E : Type} [DecidableEq E] (sub : E → Int)
    (l : List (UnbranchingPath E)) (cov : E → Int) :
    (∀ x, 0 ≤ cov x → 0 ≤ l.foldl (subtractPath sub) cov x) ∧
    (∀ p ∈ l, p.isLooped = false → ∀ x ∈ p.path, 0 ≤ l.foldl (subtractPath sub) cov x) := by
  induction l generalizing cov with
  | nil => exact ⟨fun _ h => h, by simp⟩
  | cons a l ih =>
    obtain ⟨h1, h2⟩ := ih (subtractPath sub cov a)
    rw [List.foldl_cons]
    refine ⟨fun x hx => h1 x ((subtractPath_nonneg sub cov a).1 x hx), ?_⟩
    intro p hp hl x hx
    rcases List.mem_cons.1 hp with rfl | hmem
    · exact h1 x ((subtractPath_nonneg sub cov p).2 hl x hx)
    · exact h2 p hmem hl x hx

theorem subtract_zero_inner {E : Type} [DecidableEq E] (l : List E) (cov : E → Int)
    (h : ∀ x ∈ l, 0 ≤ cov x) :
    l.foldl (fun c e => Function.update c e (max 0 (c e - (fun _ => (0 : Int)) e))) cov = cov := by
  apply foldl_fixed
  intro a ha
  have : max 0 (cov a - 0) = cov a := by
    rw [sub_zero]; exact max_eq_right (h a ha)
  simp only [this, Function.update_eq_self]

theorem subtractPath_zero {E : Type} [DecidableEq E] (cov : E → Int) (path : UnbranchingPath E)
    (h : path.isLooped = false → ∀ x ∈ path.path, 0 ≤ cov x) :
    subtractPath (fun _ => 0) cov path = cov := by
  unfold subtractPath
  by_cases hl : path.isLooped = true
  · simp [hl]
  · simp only [hl, Bool.false_eq_true, if_false]
    exact subtract_zero_inner path.path cov (h (by simpa using hl))

theorem fixPath_noop {E : Type} [DecidableEq E] (cfg : Settings) (c : E → E)
    (g : RepeatGraph E) (rep : E → Bool) (path : UnbranchingPath E)
    (h : ∀ front, path.id.strand = true → path.path.head? = some front →
      staticFix cfg g path front = true → rep front = false) :
    fixPath cfg c g rep path = rep := by
  unfold fixPath
  by_cases hs : path.id.strand = true
  swap
  · simp only [Bool.not_eq_true] at hs
    simp [hs]
  simp only [hs, Bool.not_true, Bool.false_eq_true, if_false]
  cases hf : path.path.head? with
  | none => rfl
  | some front =>
    simp only
    rw [fixCondition_eq]
    by_cases hst : staticFix cfg g path front = true
    · rw [h front hs hf hst]
      simp
    · simp only [Bool.not_eq_true] at hst
      rw [hst]
      simp

theorem staticFix_congr {E : Type} (cfg : Settings) (g : RepeatGraph E)
    (p q : UnbranchingPath E) (front : E) (hw : SameWalk p q)
    (hv : cfg.unevenCoverage = true ∨ SameVerdict cfg p q) :
    staticFix cfg g q front = staticFix cfg g p front := by
  unfold staticFix
  obtain ⟨_, _, hlen, _⟩ := hw
  rw [hlen]
  rcases hv with hu | hv
  · simp [hu]
  · have : decide (q.meanCoverage > cfg.uniqueCovThreshold)
        = decide (p.meanCoverage > cfg.uniqueCovThreshold) := by
      unfold SameVerdict at hv
      by_cases hp : p.meanCoverage > cfg.uniqueCovThreshold
      · simp [hp, hv.2 hp]
      · have hq : ¬ q.meanCoverage > cfg.uniqueCovThreshold := fun h => hp (hv.1 h)
        simp [hp, hq]
    rw [this]

/-- Claim C7, as amended: let `finalizeGraph` run, the subtracted-coverage map be reset to
empty, and `finalizeGraph` run again on unbranching paths that describe the same walks.
Then every edge keeps its `meanCoverage`; and if the assembly is uneven-coverage, or no
path has changed its `highCoverage` verdict through the subtraction, the second run
returns the graph unchanged (same `repetitive` flags and same `meanCoverage`). -/
theorem finalizeGraph_idempotent_stable {E : Type} [DecidableEq E] (cfg : Settings)
    (complementEdge : E → E) (substractedCoverage : E → Int)
    (paths0 paths1 : List (UnbranchingPath E)) (g : RepeatGraph E)
    (hwalk : List.Forall₂ SameWalk paths0 paths1) :
    (finalizeGraph cfg complementEdge (fun _ => 0) paths1
        (finalizeGraph cfg complementEdge substractedCoverage paths0 g)).meanCoverage
      = (finalizeGraph cfg complementEdge substractedCoverage paths0 g).meanCoverage ∧
    ((cfg.unevenCoverage = true ∨ List.Forall₂ (SameVerdict cfg) paths0 paths1) →
      finalizeGraph cfg complementEdge (fun _ => 0) paths1
          (finalizeGraph cfg complementEdge substractedCoverage paths0 g)
        = finalizeGraph cfg complementEdge substractedCoverage paths0 g) := by
  have hcov : paths1.foldl (subtractPath (fun _ => 0))
      (paths0.foldl (subtractPath substractedCoverage) g.meanCoverage)
      = paths0.foldl (subtractPath substractedCoverage) g.meanCoverage := by
    apply foldl_fixed
    intro p1 hp1
    apply subtractPath_zero
    intro hl x hx
    obtain ⟨p0, hp0, hw⟩ := forall₂_mem_right _ _ _ hwalk p1 hp1
    obtain ⟨_, hpath, _, hloop⟩ := hw
    rw [hpath] at hx
    rw [hloop] at hl
    exact (subtract_fold substractedCoverage paths0 g.meanCoverage).2 p0 hp0 hl x hx
  refine ⟨hcov, ?_⟩
  intro hstable
  have hflags : paths1.foldl (fixPath cfg complementEdge g)
      (paths0.foldl (fixPath cfg complementEdge g) g.repetitive)
      = paths0.foldl (fixPath cfg complementEdge g) g.repetitive := by
    apply foldl_fixed
    intro p1 hp1
    have hboth : List.Forall₂ (fun p q => SameWalk p q ∧
        (cfg.unevenCoverage = true ∨ SameVerdict cfg p q)) paths0 paths1 := by
      rcases hstable with hu | hv
      · exact hwalk.imp (fun _ _ h => ⟨h, Or.inl hu⟩)
      · exact (forall₂_and _ _ _ _ hwalk hv).imp (fun _ _ h => ⟨h.1, Or.inr h.2⟩)
    obtain ⟨p0, hp0, hw, hv⟩ := forall₂_mem_right _ _ _ hboth p1 hp1
    apply fixPath_noop
    intro front hs hf hst
    have hst0 : staticFix cfg g p0 front = true := by
      rw [← staticFix_congr cfg g p0 p1 front hw hv]; exact hst
    have hs0 : p0.id.strand = true := by rw [← hw.1]; exact hs
    have hf0 : p0.path.head? = some front := by rw [← hw.2.1]; exact hf
    exact (fix_fold cfg complementEdge g paths0 g.repetitive).2 p0 hp0 hs0 front hf0 hst0
  show ({ (finalizeGraph cfg complementEdge substractedCoverage paths0 g) with
      repetitive := paths1.foldl (fixPath cfg complementEdge g)
        (paths0.foldl (fixPath cfg complementEdge g) g.repetitive),
      meanCoverage := paths1.foldl (subtractPath (fun _ => 0))
        (paths0.foldl (subtractPath substractedCoverage) g.meanCoverage) } : RepeatGraph E)
    = finalizeGraph cfg complementEdge substractedCoverage paths0 g
  rw [hflags, hcov]
  rfl

/-! ### `getConnections` -/

theorem front_of_snoc {E : Type} (currentAln : GraphAlignment E) (aln : EdgeAlignment E) :
    (currentAln ++ [aln]).head? = some (((currentAln ++ [aln]).head?).getD aln) ∧
    (((currentAln ++ [aln]).head?).getD aln = aln ∨
      ((currentAln ++ [aln]).head?).getD aln ∈ currentAln) := by
  cases currentAln with
  | nil => simp
  | cons a l => simp

theorem readLoop_paired {E : Type} [DecidableEq E] (g : RepeatGraph E)
    (curRange : OverlapRange → Int) (isBifurcation : Nat → Bool)
    (complementPath : GraphPath E → GraphPath E) (alignments : List (GraphAlignment E))
    (readPath : GraphAlignment E) (hread : readPath ∈ alignments) :
    ∀ (hits : List (EdgeAlignment E)) (currentAln : GraphAlignment E) (readStart : Int)
      (acc : List (Connection E)),
      (∀ h ∈ hits, h ∈ readPath) → (∀ h ∈ currentAln, h ∈ readPath) →
      PairedList curRange complementPath alignments acc →
      PairedList curRange complementPath alignments
        (readLoop g curRange isBifurcation complementPath hits currentAln readStart acc) := by
  intro hits
  induction hits with
  | nil => intro currentAln readStart acc _ _ hacc; exact hacc
  | cons aln rest ih =>
    intro currentAln readStart acc hhits hcur hacc
    have hrest : ∀ h ∈ rest, h ∈ readPath := fun h hh => hhits h (List.mem_cons_of_mem _ hh)
    have haln : aln ∈ readPath := hhits aln (List.mem_cons_self _ _)
    have hsingle : ∀ h ∈ [aln], h ∈ readPath := by
      intro h hh
      rw [List.mem_singleton] at hh
      rw [hh]; exact haln
    have hcur1 : ∀ h ∈ currentAln ++ [aln], h ∈ readPath := by
      intro h hh
      rcases List.mem_append.1 hh with h1 | h1
      · exact hcur h h1
      · exact hsingle h h1
    simp only [readLoop]
    generalize (if currentAln.isEmpty = true then initReadStart aln.overlap else readStart) = rs1
    split
    · exact ih currentAln readStart acc hrest hcur hacc
    · split
      · split
        · exact ih _ _ acc hrest hsingle hacc
        · split
          · exact hacc
          · apply ih _ _ _ hrest hsingle
            apply PairedList.snoc _ _ _ hacc
            obtain ⟨hhead, hfront⟩ := front_of_snoc currentAln aln
            have hfrontmem : ((currentAln ++ [aln]).head?).getD aln ∈ readPath := by
              rcases hfront with h | h
              · rw [h]; exact haln
              · exact hcur _ h
            refine ⟨readPath, hread, _, hfrontmem, aln, haln, ?_, ?_, rfl, rfl, rfl, rfl, rfl,
              rfl, rfl⟩
            · show (List.map (fun a => a.edge) (currentAln ++ [aln])).head?
                = some (((currentAln ++ [aln]).head?).getD aln).edge
              cases currentAln <;> rfl
            · show (List.map (fun a => a.edge) (currentAln ++ [aln])).getLast? = some aln.edge
              rw [List.map_append, List.map_singleton, List.getLast?_concat]
      · exact ih _ _ acc hrest hcur1 hacc

theorem getConnections_paired {E : Type} [DecidableEq E] (g : RepeatGraph E)
    (curRange : OverlapRange → Int) (isBifurcation : Nat → Bool)
    (complementPath : GraphPath E → GraphPath E) (alignments : List (GraphAlignment E)) :
    PairedList curRange complementPath alignments
      (getConnections g curRange isBifurcation complementPath alignments) := by
  unfold getConnections
  have hgen : ∀ (reads : List (GraphAlignment E)) (acc : List (Connection E)),
      (∀ r ∈ reads, r ∈ alignments) → PairedList curRange complementPath alignments acc →
      PairedList curRange complementPath alignments
        (reads.foldl (fun readConnections readPath =>
          readLoop g curRange isBifurcation complementPath readPath [] 0 readConnections) acc) := by
    intro reads
    induction reads with
    | nil => intro acc _ hacc; exact hacc
    | cons r reads ih =>
      intro acc hmem hacc
      rw [List.foldl_cons]
      apply ih _ (fun x hx => hmem x (List.mem_cons_of_mem _ hx))
      exact readLoop_paired g curRange isBifurcation complementPath alignments r
        (hmem r (List.mem_cons_self _ _)) r [] 0 acc (fun _ h => h) (by simp) hacc
  exact hgen alignments [] (fun _ h => h) PairedList.nil

theorem pairedList_index {E : Type} (curRange : OverlapRange → Int)
    (complementPath : GraphPath E → GraphPath E) (alignments : List (GraphAlignment E))
    (l : List (Connection E)) (h : PairedList curRange complementPath alignments l) :
    l.length % 2 = 0 ∧
    ∀ k, 2 * k + 1 < l.length → ∃ c d, l[2 * k]? = some c ∧ l[2 * k + 1]? = some d ∧
      TwinPair curRange complementPath alignments c d := by
  induction h with
  | nil => exact ⟨rfl, fun k hk => by simp at hk⟩
  | snoc l c d _ htwin ih =>
    obtain ⟨heven, hidx⟩ := ih
    refine ⟨by simp only [List.length_append, List.length_cons, List.length_nil]; omega, ?_⟩
    intro k hk
    simp only [List.length_append, List.length_cons, List.length_nil] at hk
    by_cases hlt : 2 * k + 1 < l.length
    · obtain ⟨c2, d2, h1, h2, h3⟩ := hidx k hlt
      refine ⟨c2, d2, ?_, ?_, h3⟩
      · rw [List.getElem?_append_left (by omega)]; exact h1
      · rw [List.getElem?_append_left hlt]; exact h2
    · have hk2 : 2 * k = l.length := by omega
      refine ⟨c, d, ?_, ?_, htwin⟩
      · rw [List.getElem?_append_right (by omega), hk2]; simp
      · rw [List.getElem?_append_right (by omega), hk2]; simp

/-- Claim C1: `getConnections` emits Connections in reverse-complement pairs. For every
graph and every set of read alignments the returned list has even length, and for every
`k` the elements at the indices `2k` and `2k+1` are a Connection and its twin: the twin
has the complement path, the complemented read id, start `curLen - end - 1` and end
`curLen - start - 1` with `curLen` of the closing hit, and both carry the flank score
`min(curRange(first hit), curRange(last hit))`. -/
theorem getConnections_twins {E : Type} [DecidableEq E] (g : RepeatGraph E)
    (curRange : OverlapRange → Int) (isBifurcation : Nat → Bool)
    (complementPath : GraphPath E → GraphPath E) (alignments : List (GraphAlignment E)) :
    (getConnections g curRange isBifurcation complementPath alignments).length % 2 = 0 ∧
    ∀ k, 2 * k + 1 < (getConnections g curRange isBifurcation complementPath alignments).length →
      ∃ c d, (getConnections g curRange isBifurcation complementPath alignments)[2 * k]? = some c ∧
        (getConnections g curRange isBifurcation complementPath alignments)[2 * k + 1]? = some d ∧
        TwinPair curRange complementPath alignments c d :=
  pairedList_index curRange complementPath alignments _
    (getConnections_paired g curRange isBifurcation complementPath alignments)

/-! ### `resolveConnections`: the transition graph -/

theorem Id.rc_rc (i : Id) : i.rc.rc = i := by
  cases i with
  | mk num fwd => simp [Id.rc]

theorem Id.rc_ne (i : Id) : i.rc ≠ i := by
  cases i with
  | mk num fwd => cases fwd <;> simp [Id.rc]

theorem ensureNode_mem (tg : TransitionGraph) (i x : Id) :
    x ∈ (tg.ensureNode i).lemonToAsm ↔ x ∈ tg.lemonToAsm ∨ x = i := by
  unfold TransitionGraph.ensureNode
  by_cases h : i ∈ tg.lemonToAsm
  · rw [if_pos h]
    constructor
    · intro hx; exact Or.inl hx
    · rintro (hx | hx)
      · exact hx
      · rw [hx]; exact h
  · rw [if_neg h]
    simp

theorem ensureNode_nodup (tg : TransitionGraph) (i : Id) (h : tg.lemonToAsm.Nodup) :
    (tg.ensureNode i).lemonToAsm.Nodup := by
  unfold TransitionGraph.ensureNode
  by_cases hi : i ∈ tg.lemonToAsm
  · rw [if_pos hi]; exact h
  · rw [if_neg hi]
    show (tg.lemonToAsm ++ [i]).Nodup
    rw [List.nodup_append]
    refine ⟨h, List.nodup_singleton i, ?_⟩
    intro x hx hx2
    rw [List.mem_singleton] at hx2
    subst hx2
    exact hi hx

theorem addConnection_nodes {E : Type} (g : RepeatGraph E) (tg : TransitionGraph)
    (c : Connection E) :
    (tg.lemonToAsm.Nodup → (addConnection g tg c).lemonToAsm.Nodup) ∧
    ∀ x, x ∈ (addConnection g tg c).lemonToAsm ↔
      x ∈ tg.lemonToAsm ∨
        ∃ f b, anchors g c = some (f, b) ∧ f ≠ b ∧ f ≠ b.rc ∧ (x = f ∨ x = b.rc) := by
  unfold addConnection
  cases ha : anchors g c with
  | none => exact ⟨fun h => h, fun x => by simp⟩
  | some fb =>
    obtain ⟨f, b⟩ := fb
    simp only
    by_cases hskip : f = b ∨ f = b.rc
    · rw [if_pos hskip]
      refine ⟨fun h => h, fun x => ?_⟩
      constructor
      · intro hx; exact Or.inl hx
      · rintro (hx | ⟨f2, b2, heq, h1, h2, _⟩)
        · exact hx
        · simp only [Option.some.injEq, Prod.mk.injEq] at heq
          obtain ⟨rfl, rfl⟩ := heq
          rcases hskip with h | h
          · exact absurd h h1
          · exact absurd h h2
    · rw [if_neg hskip]
      refine ⟨fun h => ensureNode_nodup _ _ (ensureNode_nodup _ _ h), fun x => ?_⟩
      show x ∈ ((TransitionGraph.ensureNode _ f).ensureNode b.rc).lemonToAsm ↔ _
      rw [ensureNode_mem, ensureNode_mem]
      simp only [not_or] at hskip
      constructor
      · rintro ((hx | hx) | hx)
        · exact Or.inl hx
        · exact Or.inr ⟨f, b, rfl, hskip.1, hskip.2, Or.inl hx⟩
        · exact Or.inr ⟨f, b, rfl, hskip.1, hskip.2, Or.inr hx⟩
      · rintro (hx | ⟨f2, b2, heq, _, _, hx⟩)
        · exact Or.inl (Or.inl hx)
        · simp only [Option.some.injEq, Prod.mk.injEq] at heq
          obtain ⟨rfl, rfl⟩ := heq
          rcases hx with hx | hx
          · exact Or.inl (Or.inr hx)
          · exact Or.inr hx

theorem buildTransitions_fold {E : Type} (g : RepeatGraph E) (connections : List (Connection E))
    (tg : TransitionGraph) :
    (tg.lemonToAsm.Nodup → (connections.foldl (addConnection g) tg).lemonToAsm.Nodup) ∧
    ∀ x, x ∈ (connections.foldl (addConnection g) tg).lemonToAsm ↔
      x ∈ tg.lemonToAsm ∨
        ∃ c ∈ connections, ∃ f b, anchors g c = some (f, b) ∧ f ≠ b ∧ f ≠ b.rc ∧
          (x = f ∨ x = b.rc) := by
  induction connections generalizing tg with
  | nil => exact ⟨fun h => h, fun x => by simp⟩
  | cons c rest ih =>
    obtain ⟨hn1, hm1⟩ := addConnection_nodes g tg c
    obtain ⟨hn2, hm2⟩ := ih (addConnection g tg c)
    rw [List.foldl_cons]
    refine ⟨fun h => hn2 (hn1 h), fun x => ?_⟩
    rw [hm2 x, hm1 x]
    constructor
    · rintro ((hx | ⟨f, b, h⟩) | ⟨c2, hc2, h⟩)
      · exact Or.inl hx
      · exact Or.inr ⟨c, List.mem_cons_self _ _, f, b, h⟩
      · exact Or.inr ⟨c2, List.mem_cons_of_mem _ hc2, h⟩
    · rintro (hx | ⟨c2, hc2, h⟩)
      · exact Or.inl (Or.inl hx)
      · rcases List.mem_cons.1 hc2 with rfl | hmem
        · exact Or.inl (Or.inr h)
        · exact Or.inr ⟨c2, hmem, h⟩

theorem buildTransitions_nodup {E : Type} (g : RepeatGraph E)
    (connections : List (Connection E)) :
    (buildTransitions g connections).lemonToAsm.Nodup :=
  (buildTransitions_fold g connections ⟨[], [], fun _ => 0, fun _ => 0⟩).1 List.nodup_nil

theorem buildTransitions_mem {E : Type} (g : RepeatGraph E)
    (connections : List (Connection E)) (x : Id) :
    x ∈ (buildTransitions g connections).lemonToAsm ↔
      ∃ c ∈ connections, ∃ f b, anchors g c = some (f, b) ∧ f ≠ b ∧ f ≠ b.rc ∧
        (x = f ∨ x = b.rc) := by
  unfold buildTransitions
  rw [(buildTransitions_fold g connections ⟨[], [], fun _ => 0, fun _ => 0⟩).2 x]
  simp

/-! ### `resolveConnections`: the selected Connections -/

theorem spanning_nodeIds {E : Type} (g : RepeatGraph E) (connections : List (Connection E))
    (l r : Id) (c : Connection E) (h : c ∈ spanning g connections l r) :
    nodeIds g c = [l, r] ∨ nodeIds g c = [r, l] := by
  unfold spanning at h
  rw [List.mem_filter] at h
  obtain ⟨_, hp⟩ := h
  unfold nodeIds
  cases ha : anchors g c with
  | none => rw [ha] at hp; simp at hp
  | some fb =>
    obtain ⟨f, b⟩ := fb
    rw [ha] at hp
    simp only [Bool.or_eq_true, Bool.and_eq_true, decide_eq_true_eq] at hp
    rcases hp with ⟨h1, h2⟩ | ⟨h1, h2⟩
    · left; rw [h1, h2]; simp only [Id.rc_rc]
    · right; rw [h1, h2]; simp only [Id.rc_rc]

theorem emitStep_cases {E : Type} (g : RepeatGraph E) (connections : List (Connection E))
    (sortConns : List (Connection E) → List (Connection E)) (tg : TransitionGraph)
    (mate : Nat → Option Nat) (minSup : ℚ) (st : EmitState E) (n : Nat) :
    ((emitStep g connections sortConns tg mate minSup st n).uniqueConnections
        = st.uniqueConnections ∧
      ∀ x ∈ st.usedEdges, x ∈ (emitStep g connections sortConns tg mate minSup st n).usedEdges) ∨
    ∃ m l r c, mate n = some m ∧ tg.lemonToAsm[n]? = some l ∧ tg.lemonToAsm[m]? = some r ∧
      l ∉ st.usedEdges ∧ c ∈ sortConns (spanning g connections l r) ∧
      (emitStep g connections sortConns tg mate minSup st n).uniqueConnections
        = st.uniqueConnections ++ [c] ∧
      (emitStep g connections sortConns tg mate minSup st n).usedEdges = r :: st.usedEdges := by
  unfold emitStep
  cases hm : mate n with
  | none => left; exact ⟨rfl, fun _ h => h⟩
  | some m =>
    simp only
    cases hl : tg.lemonToAsm[n]? with
    | none => left; exact ⟨rfl, fun _ h => h⟩
    | some l =>
      cases hr : tg.lemonToAsm[m]? with
      | none => left; exact ⟨rfl, fun _ h => h⟩
      | some r =>
        simp only
        by_cases hused : l ∈ st.usedEdges
        · rw [if_pos hused]
          left; exact ⟨rfl, fun _ h => h⟩
        · rw [if_neg hused]
          split
          · left; exact ⟨rfl, fun x h => List.mem_cons_of_mem _ h⟩
          · split
            · left; exact ⟨rfl, fun x h => List.mem_cons_of_mem _ h⟩
            · split
              · rename_i c hc
                right
                exact ⟨m, l, r, c, rfl, by first | exact hl | rfl, hr, hused,
                  List.getElem?_mem hc, rfl, rfl⟩
              · left; exact ⟨rfl, fun x h => List.mem_cons_of_mem _ h⟩

theorem nodup_getElem?_inj {α : Type} (l : List α) (h : l.Nodup) (i j : Nat) (x : α)
    (hi : l[i]? = some x) (hj : l[j]? = some x) : i = j := by
  obtain ⟨hi1, hi2⟩ := List.getElem?_eq_some.1 hi
  obtain ⟨hj1, hj2⟩ := List.getElem?_eq_some.1 hj
  exact (List.Nodup.getElem_inj_iff h).1 (hi2.trans hj2.symm)

/-- The invariant of the emit loop: every selected Connection belongs to a visited
matched pair whose right identity is in `usedEdges`, and its two node ids are the two
identities of the pair. -/
theorem emit_fold {E : Type} (g : RepeatGraph E) (connections : List (Connection E))
    (sortConns : List (Connection E) → List (Connection E)) (tg : TransitionGraph)
    (mate : Nat → Option Nat) (minSup : ℚ)
    (hsort : ∀ l c, c ∈ sortConns l → c ∈ l)
    (hsym : ∀ n m, mate n = some m → mate m = some n) (hnodup : tg.lemonToAsm.Nodup)
    (order visited : List Nat) (st : EmitState E)
    (hord : order.Nodup) (hfresh : ∀ n ∈ order, n ∉ visited)
    (hI : ∀ c ∈ st.uniqueConnections, ∃ n m l r, n ∈ visited ∧ mate n = some m ∧
      tg.lemonToAsm[n]? = some l ∧ tg.lemonToAsm[m]? = some r ∧ r ∈ st.usedEdges ∧
      (nodeIds g c = [l, r] ∨ nodeIds g c = [r, l]))
    (hP : st.uniqueConnections.Pairwise (fun c d => List.Disjoint (nodeIds g c) (nodeIds g d))) :
    (order.foldl (emitStep g connections sortConns tg mate minSup) st).uniqueConnections.Pairwise
      (fun c d => List.Disjoint (nodeIds g c) (nodeIds g d)) := by
  induction order generalizing visited st with
  | nil => exact hP
  | cons n rest ih =>
    rw [List.foldl_cons]
    rw [List.nodup_cons] at hord
    have hn : n ∉ visited := hfresh n (List.mem_cons_self _ _)
    apply ih (n :: visited) _ hord.2
    · intro k hk hkv
      rcases List.mem_cons.1 hkv with rfl | hkv
      · exact hord.1 hk
      · exact hfresh k (List.mem_cons_of_mem _ hk) hkv
    · rcases emitStep_cases g connections sortConns tg mate minSup st n with
        ⟨heq, hmono⟩ | ⟨m, l, r, c, hm, hl, hr, hused, hc, heq, hu⟩
      · rw [heq]
        intro c hc
        obtain ⟨n2, m2, l2, r2, h1, h2, h3, h4, h5, h6⟩ := hI c hc
        exact ⟨n2, m2, l2, r2, List.mem_cons_of_mem _ h1, h2, h3, h4, hmono _ h5, h6⟩
      · rw [heq, hu]
        intro c2 hc2
        rcases List.mem_append.1 hc2 with hc2 | hc2
        · obtain ⟨n2, m2, l2, r2, h1, h2, h3, h4, h5, h6⟩ := hI c2 hc2
          exact ⟨n2, m2, l2, r2, List.mem_cons_of_mem _ h1, h2, h3, h4,
            List.mem_cons_of_mem _ h5, h6⟩
        · rw [List.mem_singleton] at hc2
          subst hc2
          exact ⟨n, m, l, r, List.mem_cons_self _ _, hm, hl, hr, List.mem_cons_self _ _,
            spanning_nodeIds g connections l r _ (hsort _ _ hc)⟩
    · rcases emitStep_cases g connections sortConns tg mate minSup st n with
        ⟨heq, _⟩ | ⟨m, l, r, c, hm, hl, hr, hused, hc, heq, _⟩
      · rw [heq]; exact hP
      · rw [heq, List.pairwise_append]
        refine ⟨hP, List.pairwise_singleton _ _, ?_⟩
        intro c2 hc2 d hd
        rw [List.mem_singleton] at hd
        subst hd
        obtain ⟨n2, m2, l2, r2, h1, h2, h3, h4, h5, h6⟩ := hI c2 hc2
        have hnn : n2 ≠ n := fun h => hn (h ▸ h1)
        have hll : l2 ≠ l := by
          intro h
          rw [h] at h3
          exact hnn (nodup_getElem?_inj _ hnodup _ _ _ h3 hl)
        have hrl : r2 ≠ l := fun h => hused (h ▸ h5)
        have hrr : r2 ≠ r := by
          intro h
          rw [h] at h4
          have hmm : m2 = m := nodup_getElem?_inj _ hnodup _ _ _ h4 hr
          have e1 := hsym _ _ h2
          have e2 := hsym _ _ hm
          rw [hmm, e2] at e1
          exact hnn (Option.some.inj e1).symm
        have hlr : l2 ≠ r := by
          intro h
          rw [h] at h3
          have hnm : n2 = m := nodup_getElem?_inj _ hnodup _ _ _ h3 hr
          have e2 := hsym _ _ hm
          rw [hnm, e2] at h2
          have hmn : n = m2 := Option.some.inj h2
          rw [← hmn, hl] at h4
          exact hrl (Option.some.inj h4).symm
        have hd := spanning_nodeIds g connections l r _ (hsort _ _ hc)
        intro x hx1 hx2
        rcases h6 with h6 | h6 <;> rcases hd with hd | hd <;>
          · rw [h6] at hx1
            rw [hd] at hx2
            simp only [List.mem_cons, List.mem_singleton, List.not_mem_nil, or_false] at hx1 hx2
            rcases hx1 with rfl | rfl <;> rcases hx2 with h | h <;>
              first
                | exact hll h
                | exact hrl h
                | exact hrr h
                | exact hlr h

theorem emitStep_select {E : Type} (g : RepeatGraph E) (connections : List (Connection E))
    (sortConns : List (Connection E) → List (Connection E)) (tg : TransitionGraph)
    (mate : Nat → Option Nat) (minSup : ℚ) (st : EmitState E) (n m : Nat) (l r : Id)
    (c : Connection E)
    (hm : mate n = some m) (hl : tg.lemonToAsm[n]? = some l) (hr : tg.lemonToAsm[m]? = some r)
    (hused : l ∉ st.usedEdges)
    (hfloor : belowFloor (match getEdge tg.edges n m with
        | some e => e.2.2
        | none => 0) (tg.leftCoverage l + tg.rightCoverage r) minSup = false)
    (hne : (spanning g connections l r).isEmpty = false)
    (hc : (sortConns (spanning g connections l r))[(spanning g connections l r).length / 2]?
      = some c) :
    emitStep g connections sortConns tg mate minSup st n
      = ⟨r :: st.usedEdges, st.uniqueConnections ++ [c], st.unresolvedLinks⟩ := by
  unfold emitStep
  simp only [hm, hl, hr, hused, if_false, hfloor, hne, Bool.false_eq_true, hc]

theorem emitStep_skip {E : Type} (g : RepeatGraph E) (connections : List (Connection E))
    (sortConns : List (Connection E) → List (Connection E)) (tg : TransitionGraph)
    (mate : Nat → Option Nat) (minSup : ℚ) (st : EmitState E) (n m : Nat) (l r : Id)
    (hm : mate n = some m) (hl : tg.lemonToAsm[n]? = some l) (hr : tg.lemonToAsm[m]? = some r)
    (hused : l ∈ st.usedEdges) :
    emitStep g connections sortConns tg mate minSup st n = st := by
  unfold emitStep
  simp only [hm, hl, hr, hused, if_true]

/-- Claim C4, as amended: no identity serves twice as a transition-graph node of the
selected Connections. For every Connection list, every matching that is symmetric and
every visiting order without repetition, two different selected Connections have
disjoint node pairs `front.edgeId`, `back.edgeId.rc()`. -/
theorem selected_nodes_disjoint {E : Type} (g : RepeatGraph E)
    (complementPath : GraphPath E → GraphPath E)
    (sortConns : List (Connection E) → List (Connection E))
    (mate : Nat → Option Nat) (order : List Nat) (connections : List (Connection E))
    (minSup : ℚ)
    (hsort : ∀ l c, c ∈ sortConns l → c ∈ l)
    (hsym : ∀ n m, mate n = some m → mate m = some n) (hord : order.Nodup) :
    ∀ (i j : Nat) (c1 c2 : Connection E), i < j →
      (resolveConnections g complementPath sortConns mate order connections
        minSup).emitted.uniqueConnections[i]? = some c1 →
      (resolveConnections g complementPath sortConns mate order connections
        minSup).emitted.uniqueConnections[j]? = some c2 →
      List.Disjoint (nodeIds g c1) (nodeIds g c2) := by
  have hP := emit_fold g connections sortConns (buildTransitions g connections) mate minSup
    hsort hsym (buildTransitions_nodup g connections) order [] ⟨[], [], 0⟩ hord
    (fun _ _ h => by simp at h) (fun c hc => by simp at hc) List.Pairwise.nil
  intro i j c1 c2 hij h1 h2
  obtain ⟨hi, hi2⟩ := List.getElem?_eq_some.1 h1
  obtain ⟨hj, hj2⟩ := List.getElem?_eq_some.1 h2
  have := (List.pairwise_iff_getElem.1 hP) i j hi hj hij
  rw [← hi2, ← hj2]
  exact this

theorem sortByLength_mem {E : Type} (l : List (Connection E)) (c : Connection E)
    (h : c ∈ sortByLength l) : c ∈ l :=
  (List.perm_insertionSort _ l).mem_iff.1 h

/-! ### Single-precision arithmetic -/

theorem bitsBelow_le (fuel : Nat) : ∀ n, n ≤ fuel → n ≠ 0 → 2 ^ bitsBelow fuel n ≤ n := by
  induction fuel with
  | zero => intro n h h0; omega
  | succ fuel ih =>
    intro n h h0
    unfold bitsBelow
    by_cases h2 : n < 2
    · rw [if_pos h2]; simp; omega
    · rw [if_neg h2]
      have := ih (n / 2) (by omega) (by omega)
      rw [pow_succ]
      omega

theorem bitsBelow_lt (fuel : Nat) : ∀ n, n ≤ fuel → n < 2 ^ (bitsBelow fuel n + 1) := by
  induction fuel with
  | zero => intro n h; simp [bitsBelow]; omega
  | succ fuel ih =>
    intro n h
    unfold bitsBelow
    by_cases h2 : n < 2
    · rw [if_pos h2]; simp; omega
    · rw [if_neg h2]
      have := ih (n / 2) (by omega)
      rw [pow_succ]
      omega

theorem zpow_split (k : Int) :
    (2 : ℚ) ^ k = (2 : ℚ) ^ k.toNat / (2 : ℚ) ^ (-k).toNat := by
  rcases le_total 0 k with h | h
  · have h1 : (-k).toNat = 0 := by omega
    rw [h1, pow_zero, div_one]
    conv_lhs => rw [← Int.toNat_of_nonneg h]
    rw [zpow_natCast]
  · have h1 : k.toNat = 0 := by omega
    have h2 : k = -((-k).toNat : Int) := by omega
    rw [h1, pow_zero]
    conv_lhs => rw [h2]
    rw [zpow_neg, zpow_natCast, one_div]

theorem scaled_le_iff (n d : Nat) (k : Int) :
    d * 2 ^ k.toNat ≤ n * 2 ^ (-k).toNat ↔ (d : ℚ) * (2 : ℚ) ^ k ≤ (n : ℚ) := by
  rw [zpow_split k]
  have hp : (0 : ℚ) < (2 : ℚ) ^ (-k).toNat := by positivity
  rw [← mul_div_assoc, div_le_iff₀ hp]
  constructor
  · intro h; exact_mod_cast h
  · intro h; exact_mod_cast h

theorem floorLog2_spec (n d : Nat) (hn : 0 < n) (hd : 0 < d) :
    (d : ℚ) * (2 : ℚ) ^ floorLog2 n d ≤ (n : ℚ) ∧
      (n : ℚ) < (d : ℚ) * (2 : ℚ) ^ (floorLog2 n d + 1) := by
  have ha1 : ((2 : ℚ) ^ bitsBelow n n) ≤ (n : ℚ) := by
    exact_mod_cast bitsBelow_le n n (le_refl _) (by omega)
  have ha2 : (n : ℚ) < (2 : ℚ) ^ (bitsBelow n n + 1) := by
    exact_mod_cast bitsBelow_lt n n (le_refl _)
  have hb1 : ((2 : ℚ) ^ bitsBelow d d) ≤ (d : ℚ) := by
    exact_mod_cast bitsBelow_le d d (le_refl _) (by omega)
  have hb2 : (d : ℚ) < (2 : ℚ) ^ (bitsBelow d d + 1) := by
    exact_mod_cast bitsBelow_lt d d (le_refl _)
  have h2 : (2 : ℚ) ≠ 0 := by norm_num
  have hk1 : (2 : ℚ) ^ ((bitsBelow n n : Int) - (bitsBelow d d : Int) - 1 + 1)
      = (2 : ℚ) ^ bitsBelow n n / (2 : ℚ) ^ bitsBelow d d := by
    rw [sub_add_cancel, zpow_sub₀ h2, zpow_natCast, zpow_natCast]
  have hk0 : (2 : ℚ) ^ ((bitsBelow n n : Int) - (bitsBelow d d : Int) - 1)
      = (2 : ℚ) ^ bitsBelow n n / (2 : ℚ) ^ (bitsBelow d d + 1) := by
    rw [sub_sub, zpow_sub₀ h2, zpow_natCast]
    congr 1
    exact_mod_cast rfl
  have hk2 : (2 : ℚ) ^ ((bitsBelow n n : Int) - (bitsBelow d d : Int) + 1)
      = (2 : ℚ) ^ (bitsBelow n n + 1) / (2 : ℚ) ^ bitsBelow d d := by
    have : ((bitsBelow n n : Int) - (bitsBelow d d : Int) + 1)
        = ((bitsBelow n n + 1 : Nat) : Int) - (bitsBelow d d : Int) := by push_cast; ring
    rw [this, zpow_sub₀ h2, zpow_natCast, zpow_natCast]
  have hpb : (0 : ℚ) < (2 : ℚ) ^ bitsBelow d d := by positivity
  have hpb1 : (0 : ℚ) < (2 : ℚ) ^ (bitsBelow d d + 1) := by positivity
  have hdq : (0 : ℚ) < (d : ℚ) := by exact_mod_cast hd
  unfold floorLog2
  simp only
  by_cases htest : d * 2 ^ ((bitsBelow n n : Int) - (bitsBelow d d : Int)).toNat
      ≤ n * 2 ^ (-((bitsBelow n n : Int) - (bitsBelow d d : Int))).toNat
  · rw [if_pos htest]
    refine ⟨(scaled_le_iff n d _).1 htest, ?_⟩
    rw [hk2, mul_div_assoc']
    rw [lt_div_iff₀ hpb]
    calc (n : ℚ) * 2 ^ bitsBelow d d ≤ (n : ℚ) * (d : ℚ) := by
          apply mul_le_mul_of_nonneg_left hb1; positivity
      _ = (d : ℚ) * (n : ℚ) := by ring
      _ < (d : ℚ) * 2 ^ (bitsBelow n n + 1) := by
          apply mul_lt_mul_of_pos_left ha2 hdq
  · rw [if_neg htest]
    have hlt : (n : ℚ) < (d : ℚ) * (2 : ℚ) ^ ((bitsBelow n n : Int) - (bitsBelow d d : Int)) := by
      rw [← not_le]
      exact fun h => htest ((scaled_le_iff n d _).2 h)
    refine ⟨?_, by rw [sub_add_cancel]; exact hlt⟩
    rw [hk0, mul_div_assoc', div_le_iff₀ hpb1]
    calc (d : ℚ) * 2 ^ bitsBelow n n ≤ (d : ℚ) * (n : ℚ) := by
          apply mul_le_mul_of_nonneg_left ha1; positivity
      _ = (n : ℚ) * (d : ℚ) := by ring
      _ ≤ (n : ℚ) * 2 ^ (bitsBelow d d + 1) := by
          apply mul_le_mul_of_nonneg_left (le_of_lt hb2); positivity

theorem roundHalfEven_ge (n d : Nat) : n / d ≤ roundHalfEven n d := by
  unfold roundHalfEven
  split_ifs <;> omega

theorem roundHalfEven_near (n d : Nat) (hd : 0 < d) :
    |((roundHalfEven n d : Nat) : ℚ) - (n : ℚ) / (d : ℚ)| ≤ 1 / 2 := by
  have hdq : (0 : ℚ) < (d : ℚ) := by exact_mod_cast hd
  have hdm : ((n / d : Nat) : ℚ) * (d : ℚ) + ((n % d : Nat) : ℚ) = (n : ℚ) := by
    have := Nat.div_add_mod n d
    have h2 : (d : ℚ) * ((n / d : Nat) : ℚ) + ((n % d : Nat) : ℚ) = (n : ℚ) := by
      exact_mod_cast this
    linarith
  have hr : ((n % d : Nat) : ℚ) < (d : ℚ) := by exact_mod_cast Nat.mod_lt n hd
  have hr0 : (0 : ℚ) ≤ ((n % d : Nat) : ℚ) := by positivity
  have key : (n : ℚ) / (d : ℚ) = ((n / d : Nat) : ℚ) + ((n % d : Nat) : ℚ) / (d : ℚ) := by
    field_simp
    linarith
  rw [key, abs_le]
  unfold roundHalfEven
  split_ifs with h1 h2 h3
  · have h1q : 2 * ((n % d : Nat) : ℚ) < (d : ℚ) := by exact_mod_cast h1
    have : ((n % d : Nat) : ℚ) / (d : ℚ) < 1 / 2 := by
      rw [div_lt_iff₀ hdq]; linarith
    have h0 : (0 : ℚ) ≤ ((n % d : Nat) : ℚ) / (d : ℚ) := by positivity
    constructor <;> linarith
  · have h2q : (d : ℚ) < 2 * ((n % d : Nat) : ℚ) := by exact_mod_cast h2
    have : 1 / 2 < ((n % d : Nat) : ℚ) / (d : ℚ) := by
      rw [lt_div_iff₀ hdq]; linarith
    have h0 : ((n % d : Nat) : ℚ) / (d : ℚ) < 1 := by
      rw [div_lt_iff₀ hdq]; linarith
    push_cast
    constructor <;> linarith
  · have he : 2 * (n % d) = d := by omega
    have heq : 2 * ((n % d : Nat) : ℚ) = (d : ℚ) := by exact_mod_cast he
    have : ((n % d : Nat) : ℚ) / (d : ℚ) = 1 / 2 := by
      rw [div_eq_iff (ne_of_gt hdq)]; linarith
    constructor <;> linarith
  · have he : 2 * (n % d) = d := by omega
    have heq : 2 * ((n % d : Nat) : ℚ) = (d : ℚ) := by exact_mod_cast he
    have : ((n % d : Nat) : ℚ) / (d : ℚ) = 1 / 2 := by
      rw [div_eq_iff (ne_of_gt hdq)]; linarith
    push_cast
    constructor <;> linarith

theorem f32Quot_scaled (n d : Nat) (hd : 0 < d) (e : Int) :
    ((n * 2 ^ (-e).toNat : Nat) : ℚ) / ((d * 2 ^ e.toNat : Nat) : ℚ)
      = (n : ℚ) / (d : ℚ) / (2 : ℚ) ^ e := by
  have hdq : (d : ℚ) ≠ 0 := by exact_mod_cast (ne_of_gt hd)
  rw [zpow_split e]
  push_cast
  field_simp

theorem f32Quot_error (n d : Nat) (hn : 0 < n) (hd : 0 < d) :
    |(f32Quot n d).toRat - (n : ℚ) / (d : ℚ)| ≤ (n : ℚ) / (d : ℚ) / 2 ^ 24 := by
  obtain ⟨hlo, _⟩ := floorLog2_spec n d hn hd
  have hdq : (0 : ℚ) < (d : ℚ) := by exact_mod_cast hd
  have hden : 0 < d * 2 ^ (floorLog2 n d - 23).toNat := by positivity
  have hnear := roundHalfEven_near (n * 2 ^ (-(floorLog2 n d - 23)).toNat)
    (d * 2 ^ (floorLog2 n d - 23).toNat) hden
  rw [f32Quot_scaled n d hd] at hnear
  have hpe : (0 : ℚ) < (2 : ℚ) ^ (floorLog2 n d - 23) := by positivity
  have hE : (2 : ℚ) ^ (floorLog2 n d - 23) = (2 : ℚ) ^ floorLog2 n d / 2 ^ 23 := by
    rw [zpow_sub₀ (by norm_num : (2 : ℚ) ≠ 0)]
    norm_num
  have hbound : (2 : ℚ) ^ (floorLog2 n d - 23) ≤ (n : ℚ) / (d : ℚ) / 2 ^ 23 := by
    rw [hE]
    apply div_le_div_of_nonneg_right _ (by positivity)
    rw [le_div_iff₀ hdq]
    linarith
  unfold f32Quot F32.toRat
  simp only
  have hrew : ∀ a x p : ℚ, 0 < p → a * p - x = (a - x / p) * p := by
    intro a x p hp
    rw [sub_mul, div_mul_cancel₀ _ (ne_of_gt hp)]
  have hcast : (((roundHalfEven (n * 2 ^ (-(floorLog2 n d - 23)).toNat)
      (d * 2 ^ (floorLog2 n d - 23).toNat) : Nat) : Int) : ℚ)
      = ((roundHalfEven (n * 2 ^ (-(floorLog2 n d - 23)).toNat)
      (d * 2 ^ (floorLog2 n d - 23).toNat) : Nat) : ℚ) := by norm_cast
  rw [hcast, hrew _ _ _ hpe, abs_mul, abs_of_pos hpe]
  calc _ ≤ 1 / 2 * (2 : ℚ) ^ (floorLog2 n d - 23) :=
        mul_le_mul_of_nonneg_right hnear (le_of_lt hpe)
    _ ≤ 1 / 2 * ((n : ℚ) / (d : ℚ) / 2 ^ 23) :=
        mul_le_mul_of_nonneg_left hbound (by norm_num)
    _ = (n : ℚ) / (d : ℚ) / 2 ^ 24 := by ring

theorem f32Quot_mant_pos (n d : Nat) (hn : 0 < n) (hd : 0 < d) : 0 < (f32Quot n d).mant := by
  obtain ⟨hlo, _⟩ := floorLog2_spec n d hn hd
  unfold f32Quot
  simp only
  have hle : (d * 2 ^ 23) * 2 ^ (floorLog2 n d - 23).toNat
      ≤ n * 2 ^ (-(floorLog2 n d - 23)).toNat := by
    rw [scaled_le_iff]
    have hE : (2 : ℚ) ^ (floorLog2 n d - 23) = (2 : ℚ) ^ floorLog2 n d / 2 ^ 23 := by
      rw [zpow_sub₀ (by norm_num : (2 : ℚ) ≠ 0)]
      norm_num
    have hcast : ((d * 2 ^ 23 : Nat) : ℚ) = (d : ℚ) * 2 ^ 23 := by norm_cast
    have : (d : ℚ) * 2 ^ 23 * ((2 : ℚ) ^ floorLog2 n d / 2 ^ 23)
        = (d : ℚ) * (2 : ℚ) ^ floorLog2 n d := by ring
    rw [hcast, hE, this]
    exact hlo
  have hden : 0 < d * 2 ^ (floorLog2 n d - 23).toNat := by positivity
  have hq : 2 ^ 23 ≤ n * 2 ^ (-(floorLog2 n d - 23)).toNat / (d * 2 ^ (floorLog2 n d - 23).toNat) := by
    rw [Nat.le_div_iff_mul_le hden]
    calc 2 ^ 23 * (d * 2 ^ (floorLog2 n d - 23).toNat)
        = (d * 2 ^ 23) * 2 ^ (floorLog2 n d - 23).toNat := by ring
      _ ≤ _ := hle
  have := roundHalfEven_ge (n * 2 ^ (-(floorLog2 n d - 23)).toNat)
    (d * 2 ^ (floorLog2 n d - 23).toNat)
  have h23 : 0 < 2 ^ 23 := by positivity
  omega

theorem f32Quot_self (k : Nat) (hk : 0 < k) : f32Quot k k = ⟨2 ^ 23, -23⟩ := by
  have hE : floorLog2 k k = 0 := by
    unfold floorLog2
    simp
  unfold f32Quot
  simp only [hE]
  have h1 : (-((0 : Int) - 23)).toNat = 23 := by decide
  have h2 : ((0 : Int) - 23).toNat = 0 := by decide
  rw [h1, h2]
  have hr : roundHalfEven (k * 2 ^ 23) (k * 2 ^ 0) = 2 ^ 23 := by
    unfold roundHalfEven
    have hm : k * 2 ^ 23 % (k * 2 ^ 0) = 0 := by
      rw [pow_zero, mul_one]; exact Nat.mul_mod_right k _
    have hd : k * 2 ^ 23 / (k * 2 ^ 0) = 2 ^ 23 := by
      rw [pow_zero, mul_one]; exact Nat.mul_div_cancel_left _ hk
    rw [hm, hd]
    have : 2 * 0 < k * 2 ^ 0 := by omega
    rw [if_pos this]
  rw [hr]
  norm_num

theorem f32OfInt_pos (x : Int) (hx : 0 < x) :
    f32OfInt x = f32Quot x.natAbs 1 ∧ 0 < (f32OfInt x).mant := by
  have hne : x ≠ 0 := ne_of_gt hx
  have hs : x.sign = 1 := Int.sign_eq_one_of_pos hx
  have hn : 0 < x.natAbs := Int.natAbs_pos.2 hne
  have h1 : f32OfInt x = f32Quot x.natAbs 1 := by
    unfold f32OfInt
    rw [if_neg hne, hs, one_mul]
  exact ⟨h1, by rw [h1]; exact f32Quot_mant_pos _ 1 hn (by decide)⟩

theorem f32Div_pos (a b : F32) (ha : 0 < a.mant) (hb : 0 < b.mant) :
    (f32Div a b).toRat
      = (f32Quot a.mant.natAbs b.mant.natAbs).toRat * ((2 : ℚ) ^ a.exp / (2 : ℚ) ^ b.exp) := by
  unfold f32Div
  rw [if_neg (ne_of_gt ha), Int.sign_eq_one_of_pos ha, Int.sign_eq_one_of_pos hb]
  unfold F32.toRat
  simp only [one_mul]
  rw [zpow_sub₀ (by norm_num : (2 : ℚ) ≠ 0), zpow_add₀ (by norm_num : (2 : ℚ) ≠ 0)]
  ring

theorem confidence_self (n : Int) (hn : 0 < n) : (confidence n n).toRat = 1 := by
  obtain ⟨_, hpos⟩ := f32OfInt_pos n hn
  unfold confidence
  rw [f32Div_pos _ _ hpos hpos, f32Quot_self _ (Int.natAbs_pos.2 (ne_of_gt hpos))]
  have h2 : (2 : ℚ) ^ (f32OfInt n).exp ≠ 0 := by positivity
  rw [div_self h2]
  unfold F32.toRat
  norm_num

theorem natAbs_cast (x : Int) (hx : 0 < x) : ((x.natAbs : Nat) : ℚ) = (x : ℚ) := by
  have h := Int.natAbs_of_nonneg (le_of_lt hx)
  calc ((x.natAbs : Nat) : ℚ) = (((x.natAbs : Nat) : Int) : ℚ) := (Int.cast_natCast _).symm
    _ = (x : ℚ) := by rw [h]

theorem f32OfInt_exact (x : Int) (hx : 0 < x) (hlt : x < 2 ^ 24) : (f32OfInt x).toRat = (x : ℚ) := by
  obtain ⟨h1, _⟩ := f32OfInt_pos x hx
  have hn : 0 < x.natAbs := Int.natAbs_pos.2 (ne_of_gt hx)
  have hcast : ((x.natAbs : Nat) : ℚ) = (x : ℚ) := natAbs_cast x hx
  obtain ⟨hlo, _⟩ := floorLog2_spec x.natAbs 1 hn (by decide)
  rw [hcast] at hlo
  have hE : floorLog2 x.natAbs 1 < 24 := by
    by_contra hge
    rw [not_lt] at hge
    have h1 : (2 : ℚ) ^ (24 : Int) ≤ (2 : ℚ) ^ floorLog2 x.natAbs 1 :=
      zpow_le_zpow_right₀ (by norm_num) hge
    have h2 : (x : ℚ) < 2 ^ 24 := by exact_mod_cast hlt
    have h3 : (2 : ℚ) ^ (24 : Int) = 2 ^ 24 := by norm_num
    rw [h3] at h1
    simp only [Nat.cast_one, one_mul] at hlo
    linarith
  rw [h1]
  unfold f32Quot F32.toRat
  simp only
  have he : (floorLog2 x.natAbs 1 - 23).toNat = 0 := by omega
  rw [he]
  have hr : ∀ m : Nat, roundHalfEven m (1 * 2 ^ 0) = m := by
    intro m
    unfold roundHalfEven
    simp only [pow_zero, mul_one, Nat.mod_one, Nat.div_one]
    simp
  rw [hr]
  rw [zpow_split (floorLog2 x.natAbs 1 - 23), he]
  rw [Int.cast_natCast, Nat.cast_mul, Nat.cast_pow, hcast]
  have hp : (2 : ℚ) ^ (-(floorLog2 x.natAbs 1 - 23)).toNat ≠ 0 := by positivity
  field_simp

theorem confidence_error (sup denom : Int) (hs : 0 < sup) (hd : 0 < denom)
    (hs2 : sup < 2 ^ 24) (hd2 : denom < 2 ^ 24) :
    |(confidence sup denom).toRat - (sup : ℚ) / (denom : ℚ)|
      ≤ (sup : ℚ) / (denom : ℚ) / 2 ^ 24 := by
  obtain ⟨_, hps⟩ := f32OfInt_pos sup hs
  obtain ⟨_, hpd⟩ := f32OfInt_pos denom hd
  have hvs := f32OfInt_exact sup hs hs2
  have hvd := f32OfInt_exact denom hd hd2
  have herr := f32Quot_error (f32OfInt sup).mant.natAbs (f32OfInt denom).mant.natAbs
    (Int.natAbs_pos.2 (ne_of_gt hps)) (Int.natAbs_pos.2 (ne_of_gt hpd))
  have hcs : (((f32OfInt sup).mant.natAbs : Nat) : ℚ) = ((f32OfInt sup).mant : ℚ) :=
    natAbs_cast _ hps
  have hcd : (((f32OfInt denom).mant.natAbs : Nat) : ℚ) = ((f32OfInt denom).mant : ℚ) :=
    natAbs_cast _ hpd
  rw [hcs, hcd] at herr
  unfold confidence
  rw [f32Div_pos _ _ hps hpd]
  unfold F32.toRat at hvs hvd
  have hpe : (0 : ℚ) < (2 : ℚ) ^ (f32OfInt sup).exp / (2 : ℚ) ^ (f32OfInt denom).exp := by
    positivity
  have hmd : ((f32OfInt denom).mant : ℚ) ≠ 0 := by
    have : (0 : ℚ) < ((f32OfInt denom).mant : ℚ) := by exact_mod_cast hpd
    exact ne_of_gt this
  have hratio : (sup : ℚ) / (denom : ℚ)
      = ((f32OfInt sup).mant : ℚ) / ((f32OfInt denom).mant : ℚ)
        * ((2 : ℚ) ^ (f32OfInt sup).exp / (2 : ℚ) ^ (f32OfInt denom).exp) := by
    rw [← hvs, ← hvd]
    have h2 : (2 : ℚ) ^ (f32OfInt denom).exp ≠ 0 := by positivity
    field_simp
  rw [hratio, ← sub_mul, abs_mul, abs_of_pos hpe]
  calc _ ≤ ((f32OfInt sup).mant : ℚ) / ((f32OfInt denom).mant : ℚ) / 2 ^ 24
        * ((2 : ℚ) ^ (f32OfInt sup).exp / (2 : ℚ) ^ (f32OfInt denom).exp) :=
        mul_le_mul_of_nonneg_right herr (le_of_lt hpe)
    _ = _ := by ring

theorem belowFloor_full (n : Int) (minSup : ℚ) (hn : 0 < n) (hle : minSup ≤ 1) :
    belowFloor n n minSup = false := by
  unfold belowFloor
  rw [decide_eq_false_iff_not]
  rintro ⟨_, hlt⟩
  rw [confidence_self n hn] at hlt
  linarith

/-! ### Scenario S1: two anchors bridged by ten reads -/

set_option maxRecDepth 100000 in
theorem bridge_transitions :
    (buildTransitions idGraph bridgeConnections).lemonToAsm = [⟨1, true⟩, ⟨2, false⟩] ∧
    (buildTransitions idGraph bridgeConnections).edges = [(0, 1, 20)] ∧
    (buildTransitions idGraph bridgeConnections).leftCoverage ⟨1, true⟩ = 10 ∧
    (buildTransitions idGraph bridgeConnections).rightCoverage ⟨2, false⟩ = 10 ∧
    (buildTransitions idGraph bridgeConnections).leftCoverage ⟨2, false⟩ = 10 ∧
    (buildTransitions idGraph bridgeConnections).rightCoverage ⟨1, true⟩ = 10 ∧
    (spanning idGraph bridgeConnections ⟨1, true⟩ ⟨2, false⟩).length = 20 ∧
    (spanning idGraph bridgeConnections ⟨2, false⟩ ⟨1, true⟩).length = 20 := by
  decide

theorem pairMate_matching : IsMatching (buildTransitions idGraph bridgeConnections) pairMate := by
  intro n m h
  obtain ⟨hnodes, hedges, _⟩ := bridge_transitions
  rw [hnodes, hedges]
  unfold pairMate at h ⊢
  rcases n with _ | _ | n
  · simp only [List.getD_cons_zero, Option.some.injEq] at h
    subst h
    decide
  · simp only [List.getD_cons_succ, List.getD_cons_zero, Option.some.injEq] at h
    subst h
    decide
  · simp at h

theorem bridge_mate (mate : Nat → Option Nat)
    (hmax : IsMaxWeightMatching (buildTransitions idGraph bridgeConnections) mate) :
    mate 0 = some 1 ∧ mate 1 = some 0 := by
  have h0 : mate 0 = some 1 := by
    by_contra hne
    have hle := hmax.2 pairMate pairMate_matching
    unfold matchingWeight at hle
    rw [bridge_transitions.2.1] at hle
    simp [hne, pairMate] at hle
  exact ⟨h0, (hmax.1 0 1 h0).1⟩

theorem bridge_resolved (sortConns : List (Connection (Fin 6)) → List (Connection (Fin 6)))
    (mate : Nat → Option Nat) (order : List Nat) (minSup : ℚ)
    (hmax : IsMaxWeightMatching (buildTransitions idGraph bridgeConnections) mate)
    (hlen : ∀ l, (sortConns l).length = l.length)
    (horder : order = [0, 1] ∨ order = [1, 0]) (hmin : minSup ≤ 1) :
    (resolveConnections idGraph sixComplementPath sortConns mate order bridgeConnections
      minSup).returned = 1 := by
  obtain ⟨hnodes, hedges, hl1, hr2, hl2, hr1, hsp1, hsp2⟩ := bridge_transitions
  obtain ⟨hm0, hm1⟩ := bridge_mate mate hmax
  have hn0 : (buildTransitions idGraph bridgeConnections).lemonToAsm[0]? = some ⟨1, true⟩ := by
    rw [hnodes]; rfl
  have hn1 : (buildTransitions idGraph bridgeConnections).lemonToAsm[1]? = some ⟨2, false⟩ := by
    rw [hnodes]; rfl
  have hc1 : ∃ c, (sortConns (spanning idGraph bridgeConnections ⟨1, true⟩ ⟨2, false⟩))[
      (spanning idGraph bridgeConnections ⟨1, true⟩ ⟨2, false⟩).length / 2]? = some c := by
    refine ⟨_, List.getElem?_eq_getElem ?_⟩
    rw [hlen, hsp1]; decide
  have hc2 : ∃ c, (sortConns (spanning idGraph bridgeConnections ⟨2, false⟩ ⟨1, true⟩))[
      (spanning idGraph bridgeConnections ⟨2, false⟩ ⟨1, true⟩).length / 2]? = some c := by
    refine ⟨_, List.getElem?_eq_getElem ?_⟩
    rw [hlen, hsp2]; decide
  obtain ⟨c1, hc1⟩ := hc1
  obtain ⟨c2, hc2⟩ := hc2
  have hne1 : (spanning idGraph bridgeConnections ⟨1, true⟩ ⟨2, false⟩).isEmpty = false := by
    cases hs : spanning idGraph bridgeConnections ⟨1, true⟩ ⟨2, false⟩ with
    | nil => rw [hs] at hsp1; simp at hsp1
    | cons a l => rfl
  have hne2 : (spanning idGraph bridgeConnections ⟨2, false⟩ ⟨1, true⟩).isEmpty = false := by
    cases hs : spanning idGraph bridgeConnections ⟨2, false⟩ ⟨1, true⟩ with
    | nil => rw [hs] at hsp2; simp at hsp2
    | cons a l => rfl
  have hf1 : belowFloor (match getEdge (buildTransitions idGraph bridgeConnections).edges 0 1 with
      | some e => e.2.2
      | none => 0)
      ((buildTransitions idGraph bridgeConnections).leftCoverage ⟨1, true⟩ +
        (buildTransitions idGraph bridgeConnections).rightCoverage ⟨2, false⟩) minSup = false := by
    rw [hedges, hl1, hr2]
    exact belowFloor_full 20 minSup (by decide) hmin
  have hf2 : belowFloor (match getEdge (buildTransitions idGraph bridgeConnections).edges 1 0 with
      | some e => e.2.2
      | none => 0)
      ((buildTransitions idGraph bridgeConnections).leftCoverage ⟨2, false⟩ +
        (buildTransitions idGraph bridgeConnections).rightCoverage ⟨1, true⟩) minSup = false := by
    rw [hedges, hl2, hr1]
    exact belowFloor_full 20 minSup (by decide) hmin
  unfold resolveConnections
  simp only
  rcases horder with rfl | rfl
  · simp only [List.foldl_cons, List.foldl_nil]
    rw [emitStep_select idGraph bridgeConnections sortConns _ mate minSup _ 0 1 ⟨1, true⟩
      ⟨2, false⟩ c1 hm0 hn0 hn1 (by simp) hf1 hne1 hc1]
    rw [emitStep_skip idGraph bridgeConnections sortConns _ mate minSup _ 1 0 ⟨2, false⟩
      ⟨1, true⟩ hm1 hn1 hn0 (by simp)]
    rfl
  · simp only [List.foldl_cons, List.foldl_nil]
    rw [emitStep_select idGraph bridgeConnections sortConns _ mate minSup _ 1 0 ⟨2, false⟩
      ⟨1, true⟩ c2 hm1 hn1 hn0 (by simp) hf2 hne2 hc2]
    rw [emitStep_skip idGraph bridgeConnections sortConns _ mate minSup _ 0 1 ⟨1, true⟩
      ⟨2, false⟩ hm0 hn0 hn1 (by simp)]
    rfl

theorem pairMate_max :
    IsMaxWeightMatching (buildTransitions idGraph bridgeConnections) pairMate := by
  refine ⟨pairMate_matching, ?_⟩
  intro other _
  unfold matchingWeight
  rw [bridge_transitions.2.1]
  by_cases h : other 0 = some 1
  · simp [h, pairMate]
  · simp [h, pairMate]

/-- Claim C3, as amended: the nodes of the transition graph are the identities
`front.edgeId` and `back.edgeId.rc()` of the Connections whose anchors have neither the
same nor complementary ids; the twin of a Connection has the same two node identities (in
the other order), so it adds no node. In scenario S1 (two anchors `+1` and `+2` bridged
through one repeat by 10 reads, each Connection with its twin) the graph has the 2 nodes
`+1` and `-2` joined by 1 edge of weight 20, and for every matching of maximum weight,
either visiting order and every floor up to 1 one match is selected and 1 is returned. -/
theorem transition_nodes_of_anchors {E : Type} (g : RepeatGraph E)
    (connections : List (Connection E)) :
    (∀ x, x ∈ (buildTransitions g connections).lemonToAsm ↔
      ∃ c ∈ connections, ∃ f b, anchors g c = some (f, b) ∧ f ≠ b ∧ f ≠ b.rc ∧
        (x = f ∨ x = b.rc)) ∧
    (∀ (c d : Connection E) (f b : Id), anchors g c = some (f, b) →
      anchors g d = some (b.rc, f.rc) → nodeIds g d = (nodeIds g c).reverse) ∧
    ((buildTransitions idGraph bridgeConnections).lemonToAsm = [⟨1, true⟩, ⟨2, false⟩] ∧
      (buildTransitions idGraph bridgeConnections).edges = [(0, 1, 20)] ∧
      ∀ (sortConns : List (Connection (Fin 6)) → List (Connection (Fin 6)))
        (mate : Nat → Option Nat) (order : List Nat) (minSup : ℚ),
        IsMaxWeightMatching (buildTransitions idGraph bridgeConnections) mate →
        (∀ l, (sortConns l).length = l.length) →
        (order = [0, 1] ∨ order = [1, 0]) → minSup ≤ 1 →
        (resolveConnections idGraph sixComplementPath sortConns mate order bridgeConnections
          minSup).returned = 1) := by
  refine ⟨buildTransitions_mem g connections, ?_, bridge_transitions.1, bridge_transitions.2.1, ?_⟩
  · intro c d f b hc hd
    unfold nodeIds
    rw [hc, hd]
    simp [Id.rc_rc]
  · intro sortConns mate order minSup hmax hlen horder hmin
    exact bridge_resolved sortConns mate order minSup hmax hlen horder hmin

/-! ### The chain `C -> A -> B` -/

set_option maxRecDepth 100000 in
theorem chain_transitions :
    (buildTransitions idGraph chainConnections).lemonToAsm
      = [⟨3, true⟩, ⟨1, false⟩, ⟨1, true⟩, ⟨2, false⟩] ∧
    (buildTransitions idGraph chainConnections).edges = [(0, 1, 2), (2, 3, 2)] ∧
    (buildTransitions idGraph chainConnections).leftCoverage ⟨3, true⟩ = 1 ∧
    (buildTransitions idGraph chainConnections).rightCoverage ⟨1, false⟩ = 1 ∧
    (buildTransitions idGraph chainConnections).leftCoverage ⟨1, true⟩ = 1 ∧
    (buildTransitions idGraph chainConnections).rightCoverage ⟨2, false⟩ = 1 ∧
    (sortByLength (spanning idGraph chainConnections ⟨3, true⟩ ⟨1, false⟩))[
      (spanning idGraph chainConnections ⟨3, true⟩ ⟨1, false⟩).length / 2]?
      = some (twinOf sixComplementPath 5000 cToA) ∧
    (sortByLength (spanning idGraph chainConnections ⟨1, true⟩ ⟨2, false⟩))[
      (spanning idGraph chainConnections ⟨1, true⟩ ⟨2, false⟩).length / 2]?
      = some (twinOf sixComplementPath 5000 aToB) ∧
    (spanning idGraph chainConnections ⟨3, true⟩ ⟨1, false⟩).isEmpty = false ∧
    (spanning idGraph chainConnections ⟨1, true⟩ ⟨2, false⟩).isEmpty = false := by
  decide

theorem chain_selected :
    (resolveConnections idGraph sixComplementPath sortByLength chainMate [0, 1, 2, 3]
      chainConnections (1 / 10)).emitted.uniqueConnections
      = [twinOf sixComplementPath 5000 cToA, twinOf sixComplementPath 5000 aToB] := by
  obtain ⟨hnodes, hedges, hl3, hr1, hl1, hr2, hc1, hc2, hne1, hne2⟩ := chain_transitions
  have hn0 : (buildTransitions idGraph chainConnections).lemonToAsm[0]? = some ⟨3, true⟩ := by
    rw [hnodes]; rfl
  have hn1 : (buildTransitions idGraph chainConnections).lemonToAsm[1]? = some ⟨1, false⟩ := by
    rw [hnodes]; rfl
  have hn2 : (buildTransitions idGraph chainConnections).lemonToAsm[2]? = some ⟨1, true⟩ := by
    rw [hnodes]; rfl
  have hn3 : (buildTransitions idGraph chainConnections).lemonToAsm[3]? = some ⟨2, false⟩ := by
    rw [hnodes]; rfl
  have hf1 : belowFloor (match getEdge (buildTransitions idGraph chainConnections).edges 0 1 with
      | some e => e.2.2
      | none => 0)
      ((buildTransitions idGraph chainConnections).leftCoverage ⟨3, true⟩ +
        (buildTransitions idGraph chainConnections).rightCoverage ⟨1, false⟩) (1 / 10) = false := by
    rw [hedges, hl3, hr1]
    exact belowFloor_full 2 (1 / 10) (by decide) (by norm_num)
  have hf2 : belowFloor (match getEdge (buildTransitions idGraph chainConnections).edges 2 3 with
      | some e => e.2.2
      | none => 0)
      ((buildTransitions idGraph chainConnections).leftCoverage ⟨1, true⟩ +
        (buildTransitions idGraph chainConnections).rightCoverage ⟨2, false⟩) (1 / 10) = false := by
    rw [hedges, hl1, hr2]
    exact belowFloor_full 2 (1 / 10) (by decide) (by norm_num)
  unfold resolveConnections
  simp only [List.foldl_cons, List.foldl_nil]
  rw [emitStep_select idGraph chainConnections sortByLength _ chainMate (1 / 10) _ 0 1 ⟨3, true⟩
    ⟨1, false⟩ _ rfl hn0 hn1 (by simp) hf1 hne1 hc1]
  rw [emitStep_skip idGraph chainConnections sortByLength _ chainMate (1 / 10) _ 1 0 ⟨1, false⟩
    ⟨3, true⟩ rfl hn1 hn0 (by simp)]
  rw [emitStep_select idGraph chainConnections sortByLength _ chainMate (1 / 10) _ 2 3 ⟨1, true⟩
    ⟨2, false⟩ _ rfl hn2 hn3 (by simp) hf2 hne2 hc2]
  rw [emitStep_skip idGraph chainConnections sortByLength _ chainMate (1 / 10) _ 3 2 ⟨2, false⟩
    ⟨1, true⟩ rfl hn3 hn2 (by simp)]
  rfl

theorem chainMate_symm : ∀ n m, chainMate n = some m → chainMate m = some n := by
  intro n m h
  unfold chainMate at h ⊢
  rcases n with _ | _ | _ | _ | n
  · simp only [List.getD_cons_zero, Option.some.injEq] at h; subst h; rfl
  · simp only [List.getD_cons_succ, List.getD_cons_zero, Option.some.injEq] at h; subst h; rfl
  · simp only [List.getD_cons_succ, List.getD_cons_zero, Option.some.injEq] at h; subst h; rfl
  · simp only [List.getD_cons_succ, List.getD_cons_zero, Option.some.injEq] at h; subst h; rfl
  · simp at h

theorem chainMate_max :
    IsMaxWeightMatching (buildTransitions idGraph chainConnections) chainMate := by
  obtain ⟨hnodes, hedges, _⟩ := chain_transitions
  constructor
  · intro n m h
    refine ⟨chainMate_symm n m h, ?_⟩
    rw [hnodes, hedges]
    unfold chainMate at h
    rcases n with _ | _ | _ | _ | n
    · simp only [List.getD_cons_zero, Option.some.injEq] at h; subst h; decide
    · simp only [List.getD_cons_succ, List.getD_cons_zero, Option.some.injEq] at h; subst h; decide
    · simp only [List.getD_cons_succ, List.getD_cons_zero, Option.some.injEq] at h; subst h; decide
    · simp only [List.getD_cons_succ, List.getD_cons_zero, Option.some.injEq] at h; subst h; decide
    · simp at h
  · intro other _
    unfold matchingWeight
    rw [hedges]
    by_cases h1 : other 0 = some 1 <;> by_cases h2 : other 2 = some 3 <;>
      simp [h1, h2, chainMate]

/-! ### `resolveRepeats` without Connections -/

theorem emitStep_no_nodes {E : Type} (g : RepeatGraph E) (connections : List (Connection E))
    (sortConns : List (Connection E) → List (Connection E)) (tg : TransitionGraph)
    (mate : Nat → Option Nat) (minSup : ℚ) (st : EmitState E) (n : Nat)
    (h : tg.lemonToAsm = []) :
    emitStep g connections sortConns tg mate minSup st n = st := by
  unfold emitStep
  cases mate n with
  | none => rfl
  | some m => simp [h]

theorem resolveConnections_nil {E : Type} (g : RepeatGraph E)
    (complementPath : GraphPath E → GraphPath E)
    (sortConns : List (Connection E) → List (Connection E))
    (mate : Nat → Option Nat) (order : List Nat) (minSup : ℚ) :
    (resolveConnections g complementPath sortConns mate order [] minSup).operations = [] ∧
    (resolveConnections g complementPath sortConns mate order [] minSup).returned = 0 := by
  have hfold : order.foldl (emitStep g [] sortConns (buildTransitions g []) mate minSup)
      ⟨[], [], 0⟩ = ⟨[], [], 0⟩ := by
    apply foldl_fixed
    intro n _
    exact emitStep_no_nodes g [] sortConns _ mate minSup _ n rfl
  unfold resolveConnections
  simp only [hfold]
  exact ⟨rfl, rfl⟩

theorem scanNode_nothing_resolved {E : Type} (view : GraphView E)
    (complementPath : GraphPath E → GraphPath E) (fuel : Nat) (toRemove : List Nat) (node : Nat)
    (hres : ∀ e, view.graph.resolved e = false) (hpass : ∀ n, view.isResolved n = false)
    (hout : view.neighbors node = [] → view.graph.outEdges node ≠ []) :
    scanNode view complementPath (fuel + 1) toRemove node = some toRemove := by
  have hcond : ((view.neighbors node).isEmpty &&
      (view.graph.outEdges node).all (shouldRemove view)) = false := by
    cases hn : view.neighbors node with
    | cons a l => rfl
    | nil =>
      cases ho : view.graph.outEdges node with
      | nil => exact absurd ho (hout hn)
      | cons e l => simp [shouldRemove, hres e]
  unfold scanNode
  simp only [hcond, Bool.false_eq_true, if_false]
  split
  · rfl
  · cases hd : nextEdge view node with
    | none => rfl
    | some direction =>
      simp only [traverse, hpass, Bool.false_eq_true, if_false]
      simp [shouldRemove, hres direction]

theorem nodesToRemove_nothing_resolved {E : Type} (view : GraphView E)
    (complementPath : GraphPath E → GraphPath E)
    (hres : ∀ e, view.graph.resolved e = false) (hpass : ∀ n, view.isResolved n = false)
    (hout : ∀ n ∈ view.graph.iterNodes, view.neighbors n = [] → view.graph.outEdges n ≠ []) :
    nodesToRemove view complementPath = some [] := by
  unfold nodesToRemove
  have hgen : ∀ (l : List Nat), (∀ n ∈ l, n ∈ view.graph.iterNodes) →
      l.foldlM (scanNode view complementPath (view.graph.iterNodes.length + 1)) [] = some [] := by
    intro l
    induction l with
    | nil => intro _; rfl
    | cons a l ih =>
      intro hl
      rw [List.foldlM_cons, scanNode_nothing_resolved view complementPath _ [] a hres hpass
        (hout a (hl a (List.mem_cons_self _ _)))]
      exact ih (fun n hn => hl n (List.mem_cons_of_mem _ hn))
  exact hgen _ (fun _ h => h)

/-- Claim C6, as amended: when `getConnections` yields no Connection, `resolveRepeats`
returns 0, allocates no new edge id and requests no `separatePath`; the only requests it
makes are `removeNode` for the nodes that `clearResolvedRepeats` finds on the graph as it
was, followed by `updateAlignments`, `fixChimericJunctions`, `updateAlignments`. If no edge
is marked resolved, no node is resolved and every node without neighbours has an outgoing
edge, it returns without removing any node. -/
theorem resolveRepeats_no_connections {E : Type} [DecidableEq E] (view : GraphView E)
    (curRange : OverlapRange → Int) (isBifurcation : Nat → Bool)
    (complementPath : GraphPath E → GraphPath E)
    (sortConns : List (Connection E) → List (Connection E))
    (mate : Nat → Option Nat) (order : List Nat)
    (rewired : List (GraphOp E) → GraphView E)
    (alignments : List (GraphAlignment E)) (minSup : ℚ)
    (hconn : getConnections view.graph curRange isBifurcation complementPath alignments = [])
    (hrew : rewired [] = view) :
    resolveRepeats view curRange isBifurcation complementPath sortConns mate order rewired
        alignments minSup
      = (nodesToRemove view complementPath).map (fun toRemove =>
          { returned := 0,
            operations := toRemove.map GraphOp.removeNode ++
              [GraphOp.updateAlignments, GraphOp.fixChimericJunctions,
                GraphOp.updateAlignments] }) ∧
    ((∀ e, view.graph.resolved e = false) → (∀ n, view.isResolved n = false) →
      (∀ n ∈ view.graph.iterNodes, view.neighbors n = [] → view.graph.outEdges n ≠ []) →
      resolveRepeats view curRange isBifurcation complementPath sortConns mate order rewired
          alignments minSup
        = some { returned := 0,
                 operations := [GraphOp.updateAlignments, GraphOp.fixChimericJunctions,
                   GraphOp.updateAlignments] }) := by
  obtain ⟨hops, hret⟩ := resolveConnections_nil view.graph complementPath sortConns mate order
    minSup
  have hmain : resolveRepeats view curRange isBifurcation complementPath sortConns mate order
      rewired alignments minSup
      = (nodesToRemove view complementPath).map (fun toRemove =>
          { returned := 0,
            operations := toRemove.map GraphOp.removeNode ++
              [GraphOp.updateAlignments, GraphOp.fixChimericJunctions,
                GraphOp.updateAlignments] }) := by
    unfold resolveRepeats
    simp only [hconn, hops, hret, hrew]
    unfold clearResolvedRepeats
    cases nodesToRemove view complementPath with
    | none => rfl
    | some toRemove => simp
  refine ⟨hmain, ?_⟩
  intro hres hpass hout
  rw [hmain, nodesToRemove_nothing_resolved view complementPath hres hpass hout]
  rfl

/-! ### `checkByReadExtension`: where the scan of one alignment ends -/

theorem scanHits_before_start {E : Type} [DecidableEq E] (g : RepeatGraph E) (checkEdge : E)
    (first last : OverlapRange) (pre rest : List (EdgeAlignment E)) (leftFlank leftCoord : Int)
    (hpre : ∀ h ∈ pre, h.edge ≠ checkEdge) :
    scanHits g checkEdge first last (pre ++ rest) false leftFlank leftCoord
      = scanHits g checkEdge first last rest false leftFlank leftCoord := by
  induction pre with
  | nil => rfl
  | cons h pre ih =>
    have hne : h.edge ≠ checkEdge := hpre h (List.mem_cons_self _ _)
    rw [List.cons_append, scanHits]
    simp only [Bool.not_false, Bool.true_and, decide_eq_true_eq, hne, if_false, Bool.false_and,
      Bool.false_eq_true]
    exact ih (fun x hx => hpre x (List.mem_cons_of_mem _ hx))

theorem scanHits_at_start {E : Type} [DecidableEq E] (g : RepeatGraph E) (checkEdge : E)
    (first last : OverlapRange) (c : EdgeAlignment E) (rest : List (EdgeAlignment E))
    (leftFlank leftCoord : Int) (hc : c.edge = checkEdge) :
    scanHits g checkEdge first last (c :: rest) false leftFlank leftCoord
      = scanHits g checkEdge first last rest true (c.overlap.curEnd - first.curBegin)
          c.overlap.curEnd := by
  rw [scanHits]
  simp [hc]

theorem scanHits_through_repeats {E : Type} [DecidableEq E] (g : RepeatGraph E) (checkEdge : E)
    (first last : OverlapRange) (mid rest : List (EdgeAlignment E)) (leftFlank leftCoord : Int)
    (hmid : ∀ h ∈ mid, g.repetitive h.edge = true) :
    scanHits g checkEdge first last (mid ++ rest) true leftFlank leftCoord
      = scanHits g checkEdge first last rest true leftFlank leftCoord := by
  induction mid with
  | nil => rfl
  | cons h mid ih =>
    have hr : g.repetitive h.edge = true := hmid h (List.mem_cons_self _ _)
    rw [List.cons_append, scanHits]
    simp only [Bool.not_true, Bool.false_and, Bool.false_eq_true, if_false, hr, Bool.true_and]
    exact ih (fun x hx => hmid x (List.mem_cons_of_mem _ hx))

theorem scanHits_at_unique {E : Type} [DecidableEq E] (g : RepeatGraph E) (checkEdge : E)
    (first last : OverlapRange) (u : EdgeAlignment E) (post : List (EdgeAlignment E))
    (leftFlank leftCoord : Int) (hu : g.repetitive u.edge = false) :
    scanHits g checkEdge first last (u :: post) true leftFlank leftCoord
      = if g.edgeId u.edge ≠ g.edgeId checkEdge ∧ g.edgeId u.edge ≠ (g.edgeId checkEdge).rc then
          ScanResult.credited u.edge (min leftFlank (last.curEnd - u.overlap.curBegin))
            (u.overlap.curBegin - leftCoord)
        else ScanResult.blocked := by
  rw [scanHits]
  simp [hu]

theorem scanAlignment_eq {E : Type} [DecidableEq E] (g : RepeatGraph E) (checkEdge : E)
    (aln : GraphAlignment E) (hne : aln ≠ []) :
    ∃ first last, scanAlignment g checkEdge aln
      = scanHits g checkEdge first last aln false 0 0 := by
  unfold scanAlignment
  cases aln with
  | nil => exact absurd rfl hne
  | cons a l =>
    cases hl : (a :: l).getLast? with
    | none => simp at hl
    | some b => exact ⟨a.overlap, b.overlap, rfl⟩

/-- Claim C20, as amended: in an alignment that holds `checkEdge`, the scan of
`checkByReadExtension` runs on from the first occurrence of `checkEdge` over repetitive
hits and ends at the first non-repetitive hit, whatever its id. That hit is credited with
the alignment if its `edgeId` differs from `checkEdge.edgeId` and from its reverse
complement; if it carries one of these two ids the scan ends there all the same and the
alignment is credited to no edge. An alignment with only repetitive hits after the first
occurrence is credited to no edge. -/
theorem scan_ends_at_first_unique {E : Type} [DecidableEq E] (g : RepeatGraph E) (checkEdge : E)
    (pre mid : List (EdgeAlignment E)) (c : EdgeAlignment E)
    (hpre : ∀ h ∈ pre, h.edge ≠ checkEdge) (hc : c.edge = checkEdge)
    (hmid : ∀ h ∈ mid, g.repetitive h.edge = true) :
    (∀ (u : EdgeAlignment E) (post : List (EdgeAlignment E)), g.repetitive u.edge = false →
      creditedEdge g checkEdge (pre ++ c :: (mid ++ u :: post))
        = if g.edgeId u.edge ≠ g.edgeId checkEdge ∧ g.edgeId u.edge ≠ (g.edgeId checkEdge).rc
          then some u.edge else none) ∧
    creditedEdge g checkEdge (pre ++ c :: mid) = none := by
  constructor
  · intro u post hu
    obtain ⟨first, last, heq⟩ := scanAlignment_eq g checkEdge (pre ++ c :: (mid ++ u :: post))
      (by simp)
    unfold creditedEdge
    rw [heq, scanHits_before_start g checkEdge first last pre _ 0 0 hpre,
      scanHits_at_start g checkEdge first last c _ 0 0 hc,
      scanHits_through_repeats g checkEdge first last mid _ _ _ hmid,
      scanHits_at_unique g checkEdge first last u post _ _ hu]
    by_cases hid : g.edgeId u.edge ≠ g.edgeId checkEdge ∧
        g.edgeId u.edge ≠ (g.edgeId checkEdge).rc
    · rw [if_pos hid, if_pos hid]
    · rw [if_neg hid, if_neg hid]
  · obtain ⟨first, last, heq⟩ := scanAlignment_eq g checkEdge (pre ++ c :: mid) (by simp)
    unfold creditedEdge
    have hmid2 : scanHits g checkEdge first last (mid ++ []) true
        (c.overlap.curEnd - first.curBegin) c.overlap.curEnd
        = scanHits g checkEdge first last [] true (c.overlap.curEnd - first.curBegin)
          c.overlap.curEnd :=
      scanHits_through_repeats g checkEdge first last mid [] _ _ hmid
    rw [List.append_nil] at hmid2
    rw [heq, scanHits_before_start g checkEdge first last pre _ 0 0 hpre,
      scanHits_at_start g checkEdge first last c _ 0 0 hc, hmid2]
    rfl

/-! ### `resolveConnections`: the confidence floor -/

theorem belowFloor_false_iff (sup denom : Int) (minSup : ℚ) :
    belowFloor sup denom minSup = false ↔
      (denom ≠ 0 → minSup ≤ (confidence sup denom).toRat) := by
  unfold belowFloor
  rw [decide_eq_false_iff_not]
  constructor
  · intro h hd
    by_contra hlt
    exact h ⟨hd, lt_of_not_ge hlt⟩
  · rintro h ⟨hd, hlt⟩
    exact absurd (h hd) (not_le.2 hlt)

theorem confidence_bounds (sup denom : Int) (hs : 0 < sup) (hd : 0 < denom)
    (hs2 : sup < 2 ^ 24) (hd2 : denom < 2 ^ 24) :
    (sup : ℚ) / (denom : ℚ) * (1 - 1 / 2 ^ 24) ≤ (confidence sup denom).toRat ∧
      (confidence sup denom).toRat ≤ (sup : ℚ) / (denom : ℚ) * (1 + 1 / 2 ^ 24) := by
  have h := abs_le.1 (confidence_error sup denom hs hd hs2 hd2)
  constructor
  · linarith [h.1]
  · linarith [h.2]

theorem emitStep_below {E : Type} (g : RepeatGraph E) (connections : List (Connection E))
    (sortConns : List (Connection E) → List (Connection E)) (tg : TransitionGraph)
    (mate : Nat → Option Nat) (minSup : ℚ) (st : EmitState E) (n m : Nat) (l r : Id)
    (hm : mate n = some m) (hl : tg.lemonToAsm[n]? = some l) (hr : tg.lemonToAsm[m]? = some r)
    (hused : l ∉ st.usedEdges)
    (hfloor : belowFloor (pairSupport tg n m) (tg.leftCoverage l + tg.rightCoverage r) minSup
      = true) :
    emitStep g connections sortConns tg mate minSup st n
      = ⟨r :: st.usedEdges, st.uniqueConnections, st.unresolvedLinks + 1⟩ := by
  unfold pairSupport at hfloor
  unfold emitStep
  simp only [hm, hl, hr, hused, if_false, hfloor, if_true]

theorem emitStep_floor_cases {E : Type} (g : RepeatGraph E) (connections : List (Connection E))
    (sortConns : List (Connection E) → List (Connection E)) (tg : TransitionGraph)
    (mate : Nat → Option Nat) (minSup : ℚ) (st : EmitState E) (n : Nat) :
    (emitStep g connections sortConns tg mate minSup st n).uniqueConnections
        = st.uniqueConnections ∨
    ∃ m l r c, mate n = some m ∧ tg.lemonToAsm[n]? = some l ∧ tg.lemonToAsm[m]? = some r ∧
      belowFloor (pairSupport tg n m) (tg.leftCoverage l + tg.rightCoverage r) minSup = false ∧
      c ∈ sortConns (spanning g connections l r) ∧
      (emitStep g connections sortConns tg mate minSup st n).uniqueConnections
        = st.uniqueConnections ++ [c] := by
  unfold emitStep pairSupport
  cases hm : mate n with
  | none => left; rfl
  | some m =>
    simp only
    cases hl : tg.lemonToAsm[n]? with
    | none => left; rfl
    | some l =>
      cases hr : tg.lemonToAsm[m]? with
      | none => left; rfl
      | some r =>
        simp only
        by_cases hused : l ∈ st.usedEdges
        · rw [if_pos hused]
          left; rfl
        · rw [if_neg hused]
          cases hfl : belowFloor (match getEdge tg.edges n m with
              | some e => e.2.2
              | none => 0) (tg.leftCoverage l + tg.rightCoverage r) minSup with
          | true => left; rfl
          | false =>
            simp only [Bool.false_eq_true, if_false]
            split
            · left; rfl
            · split
              · rename_i c hc
                right
                exact ⟨m, l, r, c, rfl, by first | exact hl | rfl, hr, hfl,
                  List.getElem?_mem hc, rfl⟩
              · left; rfl

theorem emit_fold_floor {E : Type} (g : RepeatGraph E) (connections : List (Connection E))
    (sortConns : List (Connection E) → List (Connection E)) (tg : TransitionGraph)
    (mate : Nat → Option Nat) (minSup : ℚ) (order : List Nat) (st : EmitState E) :
    ∀ c ∈ (order.foldl (emitStep g connections sortConns tg mate minSup) st).uniqueConnections,
      c ∈ st.uniqueConnections ∨
      ∃ n m l r, n ∈ order ∧ mate n = some m ∧ tg.lemonToAsm[n]? = some l ∧
        tg.lemonToAsm[m]? = some r ∧
        belowFloor (pairSupport tg n m) (tg.leftCoverage l + tg.rightCoverage r) minSup
          = false ∧
        c ∈ sortConns (spanning g connections l r) := by
  induction order generalizing st with
  | nil => intro c hc; exact Or.inl hc
  | cons n rest ih =>
    intro c hc
    rw [List.foldl_cons] at hc
    rcases ih _ c hc with h | ⟨n2, m, l, r, hn2, h⟩
    · rcases emitStep_floor_cases g connections sortConns tg mate minSup st n with
        heq | ⟨m, l, r, c2, hm, hl, hr, hfl, hc2, heq⟩
      · rw [heq] at h; exact Or.inl h
      · rw [heq] at h
        rcases List.mem_append.1 h with h | h
        · exact Or.inl h
        · rw [List.mem_singleton] at h
          subst h
          exact Or.inr ⟨n, m, l, r, List.mem_cons_self _ _, hm, hl, hr, hfl, hc2⟩
    · exact Or.inr ⟨n2, m, l, r, List.mem_cons_of_mem _ hn2, h⟩

/-- Claim C12, as amended: `resolveConnections` enforces the confidence floor on the
`float` quotient. Every selected Connection belongs to a matched pair whose `confidence`,
the `float` nearest to `support / (leftCoverage[leftId] + rightCoverage[rightId])`, is at
least `minSupport` (for a non-zero divisor), and then, for counters below `2 ^ 24`, the
exact quotient is at least `minSupport / (1 + 2 ^ -24)`. A visited pair whose `confidence`
is below `minSupport`, in particular one whose exact quotient is below
`minSupport / (1 + 2 ^ -24)`, is counted in `unresolvedLinks` and adds no selected
Connection, hence no new edge id, no `separatePath` and nothing to the return value,
which is the number of selected Connections. With support 5 against coverages 100 + 100
the test `confidence < minSupport` succeeds for every floor from 0.1 on. -/
theorem confidence_floor {E : Type} (g : RepeatGraph E)
    (complementPath : GraphPath E → GraphPath E)
    (sortConns : List (Connection E) → List (Connection E))
    (mate : Nat → Option Nat) (order : List Nat) (connections : List (Connection E))
    (minSup : ℚ) :
    (∀ c ∈ (resolveConnections g complementPath sortConns mate order connections
        minSup).emitted.uniqueConnections,
      ∃ n m l r, n ∈ order ∧ mate n = some m ∧
        (buildTransitions g connections).lemonToAsm[n]? = some l ∧
        (buildTransitions g connections).lemonToAsm[m]? = some r ∧
        c ∈ sortConns (spanning g connections l r) ∧
        ((buildTransitions g connections).leftCoverage l +
            (buildTransitions g connections).rightCoverage r ≠ 0 →
          minSup ≤ (confidence (pairSupport (buildTransitions g connections) n m)
            ((buildTransitions g connections).leftCoverage l +
              (buildTransitions g connections).rightCoverage r)).toRat) ∧
        (0 < pairSupport (buildTransitions g connections) n m →
          pairSupport (buildTransitions g connections) n m < 2 ^ 24 →
          0 < (buildTransitions g connections).leftCoverage l +
            (buildTransitions g connections).rightCoverage r →
          (buildTransitions g connections).leftCoverage l +
            (buildTransitions g connections).rightCoverage r < 2 ^ 24 →
          minSup ≤ (pairSupport (buildTransitions g connections) n m : ℚ) /
            (((buildTransitions g connections).leftCoverage l +
              (buildTransitions g connections).rightCoverage r : Int) : ℚ)
              * (1 + 1 / 2 ^ 24))) ∧
    (∀ (st : EmitState E) (n m : Nat) (l r : Id), mate n = some m →
      (buildTransitions g connections).lemonToAsm[n]? = some l →
      (buildTransitions g connections).lemonToAsm[m]? = some r →
      l ∉ st.usedEdges →
      (buildTransitions g connections).leftCoverage l +
        (buildTransitions g connections).rightCoverage r ≠ 0 →
      (confidence (pairSupport (buildTransitions g connections) n m)
          ((buildTransitions g connections).leftCoverage l +
            (buildTransitions g connections).rightCoverage r)).toRat < minSup →
      emitStep g connections sortConns (buildTransitions g connections) mate minSup st n
        = ⟨r :: st.usedEdges, st.uniqueConnections, st.unresolvedLinks + 1⟩) ∧
    (∀ (st : EmitState E) (n m : Nat) (l r : Id), mate n = some m →
      (buildTransitions g connections).lemonToAsm[n]? = some l →
      (buildTransitions g connections).lemonToAsm[m]? = some r →
      l ∉ st.usedEdges →
      0 < pairSupport (buildTransitions g connections) n m →
      pairSupport (buildTransitions g connections) n m < 2 ^ 24 →
      0 < (buildTransitions g connections).leftCoverage l +
        (buildTransitions g connections).rightCoverage r →
      (buildTransitions g connections).leftCoverage l +
        (buildTransitions g connections).rightCoverage r < 2 ^ 24 →
      (pairSupport (buildTransitions g connections) n m : ℚ) /
          (((buildTransitions g connections).leftCoverage l +
            (buildTransitions g connections).rightCoverage r : Int) : ℚ)
            * (1 + 1 / 2 ^ 24) < minSup →
      emitStep g connections sortConns (buildTransitions g connections) mate minSup st n
        = ⟨r :: st.usedEdges, st.uniqueConnections, st.unresolvedLinks + 1⟩) ∧
    ((resolveConnections g complementPath sortConns mate order connections minSup).returned
        = (resolveConnections g complementPath sortConns mate order connections
            minSup).emitted.uniqueConnections.length ∧
      (resolveConnections g complementPath sortConns mate order connections minSup).operations
        = rewire complementPath (resolveConnections g complementPath sortConns mate order
            connections minSup).emitted.uniqueConnections) ∧
    (∀ floor : ℚ, 1 / 10 ≤ floor → belowFloor 5 (100 + 100) floor = true) := by
  refine ⟨?_, ?_, ?_, ⟨rfl, rfl⟩, ?_⟩
  · intro c hc
    rcases emit_fold_floor g connections sortConns (buildTransitions g connections) mate minSup
      order ⟨[], [], 0⟩ c hc with h | ⟨n, m, l, r, hn, hm, hl, hr, hfl, hmem⟩
    · simp at h
    · have hge := (belowFloor_false_iff _ _ _).1 hfl
      refine ⟨n, m, l, r, hn, hm, hl, hr, hmem, hge, ?_⟩
      intro hs hs2 hd hd2
      exact le_trans (hge (ne_of_gt hd)) (confidence_bounds _ _ hs hd hs2 hd2).2
  · intro st n m l r hm hl hr hused hden hlt
    apply emitStep_below g connections sortConns _ mate minSup st n m l r hm hl hr hused
    unfold belowFloor
    rw [decide_eq_true_iff]
    exact ⟨hden, hlt⟩
  · intro st n m l r hm hl hr hused hs hs2 hd hd2 hlt
    apply emitStep_below g connections sortConns _ mate minSup st n m l r hm hl hr hused
    unfold belowFloor
    rw [decide_eq_true_iff]
    exact ⟨ne_of_gt hd, lt_of_le_of_lt (confidence_bounds _ _ hs hd hs2 hd2).2 hlt⟩
  · intro floor hfloor
    unfold belowFloor
    rw [decide_eq_true_iff]
    refine ⟨by decide, ?_⟩
    have hc : confidence 5 (100 + 100) = ⟨13421773, -29⟩ := by decide
    rw [hc]
    unfold F32.toRat
    have : ((13421773 : Int) : ℚ) * (2 : ℚ) ^ (-29 : Int) < 1 / 10 := by norm_num
    exact lt_of_lt_of_le this hfloor

/-! ### `getConnections`: the steps of the loop over one read -/

theorem readLoop_skip {E : Type} [DecidableEq E] (g : RepeatGraph E)
    (curRange : OverlapRange → Int) (isBifurcation : Nat → Bool)
    (complementPath : GraphPath E → GraphPath E) (aln : EdgeAlignment E)
    (rest : List (EdgeAlignment E)) (readStart : Int) (acc : List (Connection E))
    (h : safeEdge g aln.edge = false) :
    readLoop g curRange isBifurcation complementPath (aln :: rest) [] readStart acc
      = readLoop g curRange isBifurcation complementPath rest [] readStart acc := by
  rw [readLoop]
  simp [h]

theorem readLoop_start {E : Type} [DecidableEq E] (g : RepeatGraph E)
    (curRange : OverlapRange → Int) (isBifurcation : Nat → Bool)
    (complementPath : GraphPath E → GraphPath E) (aln : EdgeAlignment E)
    (rest : List (EdgeAlignment E)) (readStart : Int) (acc : List (Connection E))
    (h : safeEdge g aln.edge = true) :
    readLoop g curRange isBifurcation complementPath (aln :: rest) [] readStart acc
      = readLoop g curRange isBifurcation complementPath rest [aln]
          (initReadStart aln.overlap) acc := by
  rw [readLoop]
  simp [h]

theorem readLoop_extend {E : Type} [DecidableEq E] (g : RepeatGraph E)
    (curRange : OverlapRange → Int) (isBifurcation : Nat → Bool)
    (complementPath : GraphPath E → GraphPath E) (aln front : EdgeAlignment E)
    (mid rest : List (EdgeAlignment E)) (readStart : Int) (acc : List (Connection E))
    (h : (safeEdge g aln.edge && decide (front.edge ≠ aln.edge)) = false) :
    readLoop g curRange isBifurcation complementPath (aln :: rest) (front :: mid) readStart acc
      = readLoop g curRange isBifurcation complementPath rest (front :: mid ++ [aln])
          readStart acc := by
  rw [readLoop]
  simp only [List.isEmpty_cons, Bool.false_and, Bool.false_eq_true, if_false, List.cons_append,
    List.head?_cons, Option.getD_some, h]

theorem readLoop_unreliable {E : Type} [DecidableEq E] (g : RepeatGraph E)
    (curRange : OverlapRange → Int) (isBifurcation : Nat → Bool)
    (complementPath : GraphPath E → GraphPath E) (aln front : EdgeAlignment E)
    (mid rest : List (EdgeAlignment E)) (readStart : Int) (acc : List (Connection E))
    (h : (safeEdge g aln.edge && decide (front.edge ≠ aln.edge)) = true)
    (hrel : reliableConnection g isBifurcation front aln = false) :
    readLoop g curRange isBifurcation complementPath (aln :: rest) (front :: mid) readStart acc
      = readLoop g curRange isBifurcation complementPath rest [aln]
          (initReadStart aln.overlap) acc := by
  rw [readLoop]
  simp only [List.isEmpty_cons, Bool.false_and, Bool.false_eq_true, if_false, List.cons_append,
    List.head?_cons, Option.getD_some, h, hrel, Bool.not_false, if_true]

theorem readLoop_break {E : Type} [DecidableEq E] (g : RepeatGraph E)
    (curRange : OverlapRange → Int) (isBifurcation : Nat → Bool)
    (complementPath : GraphPath E → GraphPath E) (aln front : EdgeAlignment E)
    (mid rest : List (EdgeAlignment E)) (readStart : Int) (acc : List (Connection E))
    (h : (safeEdge g aln.edge && decide (front.edge ≠ aln.edge)) = true)
    (hrel : reliableConnection g isBifurcation front aln = true)
    (hbad : (decide (readStart < 0) ||
      decide (max (readStart + MAGIC_100 - 1) (aln.overlap.curBegin - aln.overlap.extBegin)
        ≥ aln.overlap.curLen)) = true) :
    readLoop g curRange isBifurcation complementPath (aln :: rest) (front :: mid) readStart acc
      = acc := by
  rw [readLoop]
  simp only [List.isEmpty_cons, Bool.false_and, Bool.false_eq_true, if_false, List.cons_append,
    List.head?_cons, Option.getD_some, h, hrel, Bool.not_true, if_true, hbad]

theorem readLoop_emit {E : Type} [DecidableEq E] (g : RepeatGraph E)
    (curRange : OverlapRange → Int) (isBifurcation : Nat → Bool)
    (complementPath : GraphPath E → GraphPath E) (aln front : EdgeAlignment E)
    (mid rest : List (EdgeAlignment E)) (readStart : Int) (acc : List (Connection E))
    (h : (safeEdge g aln.edge && decide (front.edge ≠ aln.edge)) = true)
    (hrel : reliableConnection g isBifurcation front aln = true)
    (hgood : (decide (readStart < 0) ||
      decide (max (readStart + MAGIC_100 - 1) (aln.overlap.curBegin - aln.overlap.extBegin)
        ≥ aln.overlap.curLen)) = false) :
    readLoop g curRange isBifurcation complementPath (aln :: rest) (front :: mid) readStart acc
      = readLoop g curRange isBifurcation complementPath rest [aln]
          (initReadStart aln.overlap)
          (acc ++ [⟨(front :: mid ++ [aln]).map (fun a => a.edge),
              ⟨aln.overlap.curId, readStart,
                max (readStart + MAGIC_100 - 1) (aln.overlap.curBegin - aln.overlap.extBegin)⟩,
              min (curRange front.overlap) (curRange aln.overlap)⟩,
            ⟨complementPath ((front :: mid ++ [aln]).map (fun a => a.edge)),
              ⟨aln.overlap.curId.rc,
                aln.overlap.curLen -
                  max (readStart + MAGIC_100 - 1) (aln.overlap.curBegin - aln.overlap.extBegin)
                  - 1,
                aln.overlap.curLen - readStart - 1⟩,
              min (curRange front.overlap) (curRange aln.overlap)⟩]) := by
  rw [readLoop]
  simp only [List.isEmpty_cons, Bool.false_and, Bool.false_eq_true, if_false, List.cons_append,
    List.head?_cons, Option.getD_some, h, hrel, Bool.not_true, if_true, hgood]

theorem readState_skip {E : Type} [DecidableEq E] (g : RepeatGraph E)
    (isBifurcation : Nat → Bool) (aln : EdgeAlignment E)
    (rest : List (EdgeAlignment E)) (readStart : Int)
    (h : safeEdge g aln.edge = false) :
    readState g isBifurcation (aln :: rest) [] readStart
      = readState g isBifurcation rest [] readStart := by
  rw [readState]
  simp [h]

theorem readState_start {E : Type} [DecidableEq E] (g : RepeatGraph E)
    (isBifurcation : Nat → Bool) (aln : EdgeAlignment E)
    (rest : List (EdgeAlignment E)) (readStart : Int)
    (h : safeEdge g aln.edge = true) :
    readState g isBifurcation (aln :: rest) [] readStart
      = readState g isBifurcation rest [aln] (initReadStart aln.overlap) := by
  rw [readState]
  simp [h]

theorem readState_extend {E : Type} [DecidableEq E] (g : RepeatGraph E)
    (isBifurcation : Nat → Bool) (aln front : EdgeAlignment E)
    (mid rest : List (EdgeAlignment E)) (readStart : Int)
    (h : (safeEdge g aln.edge && decide (front.edge ≠ aln.edge)) = false) :
    readState g isBifurcation (aln :: rest) (front :: mid) readStart
      = readState g isBifurcation rest (front :: mid ++ [aln]) readStart := by
  rw [readState]
  simp only [List.isEmpty_cons, Bool.false_and, Bool.false_eq_true, if_false, List.cons_append,
    List.head?_cons, Option.getD_some, h]

theorem readState_unreliable {E : Type} [DecidableEq E] (g : RepeatGraph E)
    (isBifurcation : Nat → Bool) (aln front : EdgeAlignment E)
    (mid rest : List (EdgeAlignment E)) (readStart : Int)
    (h : (safeEdge g aln.edge && decide (front.edge ≠ aln.edge)) = true)
    (hrel : reliableConnection g isBifurcation front aln = false) :
    readState g isBifurcation (aln :: rest) (front :: mid) readStart
      = readState g isBifurcation rest [aln] (initReadStart aln.overlap) := by
  rw [readState]
  simp only [List.isEmpty_cons, Bool.false_and, Bool.false_eq_true, if_false, List.cons_append,
    List.head?_cons, Option.getD_some, h, hrel, Bool.not_false, if_true]

theorem readState_break {E : Type} [DecidableEq E] (g : RepeatGraph E)
    (isBifurcation : Nat → Bool) (aln front : EdgeAlignment E)
    (mid rest : List (EdgeAlignment E)) (readStart : Int)
    (h : (safeEdge g aln.edge && decide (front.edge ≠ aln.edge)) = true)
    (hrel : reliableConnection g isBifurcation front aln = true)
    (hbad : (decide (readStart < 0) ||
      decide (max (readStart + MAGIC_100 - 1) (aln.overlap.curBegin - aln.overlap.extBegin)
        ≥ aln.overlap.curLen)) = true) :
    readState g isBifurcation (aln :: rest) (front :: mid) readStart = none := by
  rw [readState]
  simp only [List.isEmpty_cons, Bool.false_and, Bool.false_eq_true, if_false, List.cons_append,
    List.head?_cons, Option.getD_some, h, hrel, Bool.not_true, if_true, hbad]

theorem readState_emit {E : Type} [DecidableEq E] (g : RepeatGraph E)
    (isBifurcation : Nat → Bool) (aln front : EdgeAlignment E)
    (mid rest : List (EdgeAlignment E)) (readStart : Int)
    (h : (safeEdge g aln.edge && decide (front.edge ≠ aln.edge)) = true)
    (hrel : reliableConnection g isBifurcation front aln = true)
    (hgood : (decide (readStart < 0) ||
      decide (max (readStart + MAGIC_100 - 1) (aln.overlap.curBegin - aln.overlap.extBegin)
        ≥ aln.overlap.curLen)) = false) :
    readState g isBifurcation (aln :: rest) (front :: mid) readStart
      = readState g isBifurcation rest [aln] (initReadStart aln.overlap) := by
  rw [readState]
  simp only [List.isEmpty_cons, Bool.false_and, Bool.false_eq_true, if_false, List.cons_append,
    List.head?_cons, Option.getD_some, h, hrel, Bool.not_true, if_true, hgood]

/-- The loop over `pre ++ post` is the loop over `post` started from the loop variables
left by `pre`; after a `break` inside `pre` nothing of `post` is looked at. -/
theorem readLoop_append {E : Type} [DecidableEq E] (g : RepeatGraph E)
    (curRange : OverlapRange → Int) (isBifurcation : Nat → Bool)
    (complementPath : GraphPath E → GraphPath E) (post : List (EdgeAlignment E)) :
    ∀ (pre : List (EdgeAlignment E)) (currentAln : GraphAlignment E) (readStart : Int)
      (acc : List (Connection E)),
      readLoop g curRange isBifurcation complementPath (pre ++ post) currentAln readStart acc
        = match readState g isBifurcation pre currentAln readStart with
          | some st => readLoop g curRange isBifurcation complementPath post st.1 st.2
              (readLoop g curRange isBifurcation complementPath pre currentAln readStart acc)
          | none => readLoop g curRange isBifurcation complementPath pre currentAln readStart
              acc := by
  intro pre
  induction pre with
  | nil =>
    intro currentAln readStart acc
    simp only [List.nil_append, readState, readLoop]
  | cons aln rest ih =>
    intro currentAln readStart acc
    rw [List.cons_append]
    cases currentAln with
    | nil =>
      cases hs : safeEdge g aln.edge with
      | false =>
        rw [readLoop_skip _ _ _ _ _ _ _ _ hs, readLoop_skip _ _ _ _ _ _ _ _ hs,
          readState_skip _ _ _ _ _ hs]
        exact ih _ _ _
      | true =>
        rw [readLoop_start _ _ _ _ _ _ _ _ hs, readLoop_start _ _ _ _ _ _ _ _ hs,
          readState_start _ _ _ _ _ hs]
        exact ih _ _ _
    | cons front mid =>
      cases h : (safeEdge g aln.edge && decide (front.edge ≠ aln.edge)) with
      | false =>
        rw [readLoop_extend _ _ _ _ _ _ _ _ _ _ h, readLoop_extend _ _ _ _ _ _ _ _ _ _ h,
          readState_extend _ _ _ _ _ _ _ h]
        exact ih _ _ _
      | true =>
        cases hrel : reliableConnection g isBifurcation front aln with
        | false =>
          rw [readLoop_unreliable _ _ _ _ _ _ _ _ _ _ h hrel,
            readLoop_unreliable _ _ _ _ _ _ _ _ _ _ h hrel,
            readState_unreliable _ _ _ _ _ _ _ h hrel]
          exact ih _ _ _
        | true =>
          cases hbad : (decide (readStart < 0) ||
            decide (max (readStart + MAGIC_100 - 1)
              (aln.overlap.curBegin - aln.overlap.extBegin) ≥ aln.overlap.curLen)) with
          | true =>
            rw [readLoop_break _ _ _ _ _ _ _ _ _ _ h hrel hbad,
              readLoop_break _ _ _ _ _ _ _ _ _ _ h hrel hbad,
              readState_break _ _ _ _ _ _ _ h hrel hbad]
          | false =>
            rw [readLoop_emit _ _ _ _ _ _ _ _ _ _ h hrel hbad,
              readLoop_emit _ _ _ _ _ _ _ _ _ _ h hrel hbad,
              readState_emit _ _ _ _ _ _ _ h hrel hbad]
            exact ih _ _ _

theorem readLoop_offending {E : Type} [DecidableEq E] (g : RepeatGraph E)
    (curRange : OverlapRange → Int) (isBifurcation : Nat → Bool)
    (complementPath : GraphPath E → GraphPath E) (aln : EdgeAlignment E)
    (post : List (EdgeAlignment E)) (currentAln : GraphAlignment E) (readStart : Int)
    (acc : List (Connection E))
    (hoff : offendingHit g isBifurcation currentAln readStart aln = true) :
    readLoop g curRange isBifurcation complementPath (aln :: post) currentAln readStart acc
      = acc := by
  cases currentAln with
  | nil => simp [offendingHit] at hoff
  | cons front mid =>
    simp only [offendingHit, Bool.and_eq_true] at hoff
    obtain ⟨⟨⟨hs, hne⟩, hrel⟩, hbad⟩ := hoff
    exact readLoop_break _ _ _ _ _ _ _ _ _ _ (by rw [hs, hne]; rfl) hrel hbad

theorem getConnections_append {E : Type} [DecidableEq E] (g : RepeatGraph E)
    (curRange : OverlapRange → Int) (isBifurcation : Nat → Bool)
    (complementPath : GraphPath E → GraphPath E) (before : List (GraphAlignment E))
    (read : GraphAlignment E) (after : List (GraphAlignment E)) :
    getConnections g curRange isBifurcation complementPath (before ++ read :: after)
      = after.foldl (fun readConnections readPath =>
          readLoop g curRange isBifurcation complementPath readPath [] 0 readConnections)
        (readLoop g curRange isBifurcation complementPath read [] 0
          (getConnections g curRange isBifurcation complementPath before)) := by
  unfold getConnections
  rw [List.foldl_append, List.foldl_cons]

/-! ### `getConnections`: what holds of every emitted pair -/

theorem pairsOf_index {α : Type} (P : α → α → Prop) (l : List α) (h : PairsOf P l) :
    l.length % 2 = 0 ∧
    ∀ k, 2 * k < l.length → ∃ c d, l[2 * k]? = some c ∧ l[2 * k + 1]? = some d ∧ P c d := by
  induction h with
  | nil => exact ⟨rfl, fun k hk => by simp at hk⟩
  | snoc l c d _ hP ih =>
    obtain ⟨heven, hidx⟩ := ih
    refine ⟨by simp only [List.length_append, List.length_cons, List.length_nil]; omega, ?_⟩
    intro k hk
    simp only [List.length_append, List.length_cons, List.length_nil] at hk
    by_cases hlt : 2 * k < l.length
    · obtain ⟨c2, d2, h1, h2, h3⟩ := hidx k hlt
      refine ⟨c2, d2, ?_, ?_, h3⟩
      · rw [List.getElem?_append_left hlt]; exact h1
      · rw [List.getElem?_append_left (by omega)]; exact h2
    · have hk2 : 2 * k = l.length := by omega
      refine ⟨c, d, ?_, ?_, hP⟩
      · rw [List.getElem?_append_right (by omega), hk2]; simp
      · rw [List.getElem?_append_right (by omega), hk2]; simp

theorem pairsOf_even {α : Type} (P : α → α → Prop) (l : List α) (h : PairsOf P l)
    (k : Nat) (c : α) (hc : l[2 * k]? = some c) : ∃ d, l[2 * k + 1]? = some d ∧ P c d := by
  have hlt : 2 * k < l.length := by
    by_contra hge
    rw [List.getElem?_eq_none (Nat.le_of_not_lt hge)] at hc
    exact Option.noConfusion hc
  obtain ⟨c2, d2, h1, h2, h3⟩ := (pairsOf_index P l h).2 k hlt
  rw [hc] at h1
  cases h1
  exact ⟨d2, h2, h3⟩

theorem pairsOf_odd {α : Type} (P : α → α → Prop) (l : List α) (h : PairsOf P l)
    (k : Nat) (d : α) (hd : l[2 * k + 1]? = some d) : ∃ c, l[2 * k]? = some c ∧ P c d := by
  have hlt : 2 * k + 1 < l.length := by
    by_contra hge
    rw [List.getElem?_eq_none (Nat.le_of_not_lt hge)] at hd
    exact Option.noConfusion hd
  obtain ⟨c2, d2, h1, h2, h3⟩ := (pairsOf_index P l h).2 k (by omega)
  rw [hd] at h2
  cases h2
  exact ⟨c2, h1, h3⟩

theorem readLoop_emitted {E : Type} [DecidableEq E] (g : RepeatGraph E)
    (curRange : OverlapRange → Int) (isBifurcation : Nat → Bool)
    (complementPath : GraphPath E → GraphPath E) (alignments : List (GraphAlignment E))
    (readPath : GraphAlignment E) (hread : readPath ∈ alignments) :
    ∀ (hits : List (EdgeAlignment E)) (currentAln : GraphAlignment E) (readStart : Int)
      (acc : List (Connection E)) (pre : List (EdgeAlignment E)),
      readPath = pre ++ (currentAln ++ hits) → CurOk g currentAln readStart →
      PairsOf (EmittedPair g curRange isBifurcation complementPath alignments) acc →
      PairsOf (EmittedPair g curRange isBifurcation complementPath alignments)
        (readLoop g curRange isBifurcation complementPath hits currentAln readStart acc) := by
  intro hits
  induction hits with
  | nil => intro currentAln readStart acc pre _ _ hacc; exact hacc
  | cons aln rest ih =>
    intro currentAln readStart acc pre hsplit hok hacc
    cases currentAln with
    | nil =>
      cases hs : safeEdge g aln.edge with
      | false =>
        rw [readLoop_skip _ _ _ _ _ _ _ _ hs]
        exact ih [] readStart acc (pre ++ [aln]) (by rw [hsplit]; simp) trivial hacc
      | true =>
        rw [readLoop_start _ _ _ _ _ _ _ _ hs]
        exact ih [aln] _ acc pre (by rw [hsplit]; simp)
          ⟨hs, rfl, fun a ha => absurd ha (List.not_mem_nil a)⟩ hacc
    | cons front mid =>
      obtain ⟨hfront, hrs, hmid⟩ := hok
      cases h : (safeEdge g aln.edge && decide (front.edge ≠ aln.edge)) with
      | false =>
        rw [readLoop_extend _ _ _ _ _ _ _ _ _ _ h]
        refine ih (front :: mid ++ [aln]) readStart acc pre (by rw [hsplit]; simp)
          ⟨hfront, hrs, ?_⟩ hacc
        intro a ha hsafe
        rcases List.mem_append.1 ha with h1 | h1
        · exact hmid a h1 hsafe
        · rw [List.mem_singleton] at h1
          subst h1
          rw [hsafe, Bool.true_and, decide_eq_false_iff_not, not_not] at h
          exact h.symm
      | true =>
        have hsafe : safeEdge g aln.edge = true := by
          rw [Bool.and_eq_true] at h; exact h.1
        have hne : front.edge ≠ aln.edge := by
          rw [Bool.and_eq_true, decide_eq_true_eq] at h; exact h.2
        have hsplit2 : readPath = (pre ++ front :: mid) ++ ([aln] ++ rest) := by
          rw [hsplit]; simp
        have hok2 : CurOk g [aln] (initReadStart aln.overlap) :=
          ⟨hsafe, rfl, fun a ha => absurd ha (List.not_mem_nil a)⟩
        cases hrel : reliableConnection g isBifurcation front aln with
        | false =>
          rw [readLoop_unreliable _ _ _ _ _ _ _ _ _ _ h hrel]
          exact ih [aln] _ acc _ hsplit2 hok2 hacc
        | true =>
          cases hbad : (decide (readStart < 0) ||
            decide (max (readStart + MAGIC_100 - 1)
              (aln.overlap.curBegin - aln.overlap.extBegin) ≥ aln.overlap.curLen)) with
          | true =>
            rw [readLoop_break _ _ _ _ _ _ _ _ _ _ h hrel hbad]
            exact hacc
          | false =>
            rw [readLoop_emit _ _ _ _ _ _ _ _ _ _ h hrel hbad]
            refine ih [aln] _ _ _ hsplit2 hok2 (PairsOf.snoc _ _ _ hacc ?_)
            rw [Bool.or_eq_false_iff, decide_eq_false_iff_not, decide_eq_false_iff_not,
              not_lt, ge_iff_le, not_le] at hbad
            exact ⟨readPath, hread, front, mid, aln, readStart, _,
              ⟨pre, rest, by rw [hsplit]; simp⟩, hfront, hsafe, hne, hmid, hrel, hrs, rfl,
              hbad.1, hbad.2, rfl, rfl⟩

theorem getConnections_emitted {E : Type} [DecidableEq E] (g : RepeatGraph E)
    (curRange : OverlapRange → Int) (isBifurcation : Nat → Bool)
    (complementPath : GraphPath E → GraphPath E) (alignments : List (GraphAlignment E)) :
    PairsOf (EmittedPair g curRange isBifurcation complementPath alignments)
      (getConnections g curRange isBifurcation complementPath alignments) := by
  unfold getConnections
  have hgen : ∀ (reads : List (GraphAlignment E)) (acc : List (Connection E)),
      (∀ r ∈ reads, r ∈ alignments) →
      PairsOf (EmittedPair g curRange isBifurcation complementPath alignments) acc →
      PairsOf (EmittedPair g curRange isBifurcation complementPath alignments)
        (reads.foldl (fun readConnections readPath =>
          readLoop g curRange isBifurcation complementPath readPath [] 0 readConnections) acc) := by
    intro reads
    induction reads with
    | nil => intro acc _ hacc; exact hacc
    | cons r reads ih =>
      intro acc hmem hacc
      rw [List.foldl_cons]
      apply ih _ (fun x hx => hmem x (List.mem_cons_of_mem _ hx))
      exact readLoop_emitted g curRange isBifurcation complementPath alignments r
        (hmem r (List.mem_cons_self _ _)) r [] 0 acc [] (by simp) trivial hacc
  exact hgen alignments [] (fun _ h => h) PairsOf.nil

theorem emittedPair_shape {E : Type} (g : RepeatGraph E) (curRange : OverlapRange → Int)
    (isBifurcation : Nat → Bool) (complementPath : GraphPath E → GraphPath E)
    (alignments : List (GraphAlignment E)) (c d : Connection E)
    (h : EmittedPair g curRange isBifurcation complementPath alignments c d) :
    ∃ (f : E) (mid : List E) (l : E), c.path = f :: (mid ++ [l]) ∧
      g.repetitive f = false ∧ g.repetitive l = false ∧ f ≠ l ∧
      (∀ e ∈ mid, g.repetitive e = true ∨ e = f) ∧
      isBifurcation (g.nodeRight f) = true ∧ isBifurcation (g.nodeLeft l) = true ∧
      ¬ (g.resolved f = true ∧ g.resolved l = true) ∧
      g.rightLink f = none ∧ g.leftLink l = none := by
  obtain ⟨readPath, _, front, mid, last, readStart, readEnd, _, hfront, hlast, hne, hmid, hrel,
    _, _, _, _, hc, _⟩ := h
  refine ⟨front.edge, mid.map (fun a => a.edge), last.edge, ?_, ?_, ?_, hne, ?_, ?_⟩
  · rw [hc]; simp
  · simpa [safeEdge] using hfront
  · simpa [safeEdge] using hlast
  · intro e he
    obtain ⟨a, ha, rfl⟩ := List.mem_map.1 he
    cases hrep : g.repetitive a.edge with
    | true => exact Or.inl rfl
    | false => exact Or.inr (hmid a ha (by simp [safeEdge, hrep]))
  · unfold reliableConnection at hrel
    simp at hrel
    obtain ⟨⟨⟨h1, h2⟩, h3⟩, h4, h5⟩ := hrel
    refine ⟨h1, h2, ?_, h4, h5⟩
    rintro ⟨hf, hl⟩
    rcases h3 with h3 | h3
    · rw [hf] at h3; exact Bool.noConfusion h3
    · rw [hl] at h3; exact Bool.noConfusion h3

theorem emittedPair_coords {E : Type} (g : RepeatGraph E) (curRange : OverlapRange → Int)
    (isBifurcation : Nat → Bool) (complementPath : GraphPath E → GraphPath E)
    (alignments : List (GraphAlignment E)) (c d : Connection E)
    (h : EmittedPair g curRange isBifurcation complementPath alignments c d) :
    ∃ readPath ∈ alignments, ∃ last ∈ readPath, c.path.getLast? = some last.edge ∧
      (0 ≤ c.readSeq.start ∧ c.readSeq.end_ ≤ last.overlap.curLen - 1 ∧
        99 ≤ c.readSeq.end_ - c.readSeq.start) ∧
      (0 ≤ d.readSeq.start ∧ d.readSeq.end_ ≤ last.overlap.curLen - 1 ∧
        99 ≤ d.readSeq.end_ - d.readSeq.start) := by
  obtain ⟨readPath, hread, front, mid, last, readStart, readEnd, hinfix, _, _, _, _, _,
    _, hend, hlo, hhi, hc, hd⟩ := h
  have hlast : last ∈ readPath := by
    obtain ⟨s, t, hst⟩ := hinfix
    rw [← hst]
    simp
  have hspan : readStart + 99 ≤ readEnd := by
    rw [hend]
    unfold MAGIC_100
    omega
  refine ⟨readPath, hread, last, hlast, ?_, ?_, ?_⟩
  · rw [hc]
    show (List.map (fun a => a.edge) (front :: mid ++ [last])).getLast? = some last.edge
    rw [List.map_append, List.map_singleton, List.getLast?_concat]
  · rw [hc]
    refine ⟨hlo, ?_, ?_⟩
    · show readEnd ≤ last.overlap.curLen - 1
      omega
    · show 99 ≤ readEnd - readStart
      omega
  · rw [hd]
    refine ⟨?_, ?_, ?_⟩
    · show 0 ≤ last.overlap.curLen - readEnd - 1
      omega
    · show last.overlap.curLen - readStart - 1 ≤ last.overlap.curLen - 1
      omega
    · show 99 ≤ last.overlap.curLen - readStart - 1 - (last.overlap.curLen - readEnd - 1)
      omega

theorem getConnections_resolved_pair {E : Type} [DecidableEq E] (g : RepeatGraph E)
    (curRange : OverlapRange → Int) (isBifurcation : Nat → Bool)
    (complementPath : GraphPath E → GraphPath E) (first last : EdgeAlignment E)
    (hf : g.resolved first.edge = true) (hl : g.resolved last.edge = true) :
    getConnections g curRange isBifurcation complementPath [[first, last]] = [] := by
  unfold getConnections
  rw [List.foldl_cons, List.foldl_nil]
  cases hs : safeEdge g first.edge with
  | false =>
    rw [readLoop_skip _ _ _ _ _ _ _ _ hs]
    cases hs2 : safeEdge g last.edge with
    | false => rw [readLoop_skip _ _ _ _ _ _ _ _ hs2]; rfl
    | true => rw [readLoop_start _ _ _ _ _ _ _ _ hs2]; rfl
  | true =>
    rw [readLoop_start _ _ _ _ _ _ _ _ hs]
    cases h : (safeEdge g last.edge && decide (first.edge ≠ last.edge)) with
    | false => rw [readLoop_extend _ _ _ _ _ _ _ _ _ _ h]; rfl
    | true =>
      have hrel : reliableConnection g isBifurcation first last = false := by
        unfold reliableConnection
        rw [hf, hl]
        simp
      rw [readLoop_unreliable _ _ _ _ _ _ _ _ _ _ h hrel]
      rfl

/-- Claim C14: `getConnections` emits only reliable Connections. For every forward
Connection of the result (even index), with `f` the first and `l` the last edge of its
path, `f.nodeRight` and `l.nodeLeft` are bifurcations, `f` and `l` are not both resolved,
`f` has no `rightLink` and `l` has no `leftLink`. In particular a read of two hits whose
edges are both resolved yields no Connection. -/
theorem getConnections_reliable {E : Type} [DecidableEq E] (g : RepeatGraph E)
    (curRange : OverlapRange → Int) (isBifurcation : Nat → Bool)
    (complementPath : GraphPath E → GraphPath E) (alignments : List (GraphAlignment E)) :
    (∀ (k : Nat) (c : Connection E),
      (getConnections g curRange isBifurcation complementPath alignments)[2 * k]? = some c →
      ∃ f l, c.path.head? = some f ∧ c.path.getLast? = some l ∧
        isBifurcation (g.nodeRight f) = true ∧ isBifurcation (g.nodeLeft l) = true ∧
        ¬ (g.resolved f = true ∧ g.resolved l = true) ∧
        g.rightLink f = none ∧ g.leftLink l = none) ∧
    (∀ (first last : EdgeAlignment E),
      g.resolved first.edge = true → g.resolved last.edge = true →
      getConnections g curRange isBifurcation complementPath [[first, last]] = []) := by
  refine ⟨?_, fun first last hf hl =>
    getConnections_resolved_pair g curRange isBifurcation complementPath first last hf hl⟩
  intro k c hc
  obtain ⟨d, _, hP⟩ := pairsOf_even _ _
    (getConnections_emitted g curRange isBifurcation complementPath alignments) k c hc
  obtain ⟨f, mid, l, hpath, _, _, _, _, h1, h2, h3, h4, h5⟩ :=
    emittedPair_shape g curRange isBifurcation complementPath alignments c d hP
  refine ⟨f, l, ?_, ?_, h1, h2, h3, h4, h5⟩
  · rw [hpath]; rfl
  · rw [hpath, ← List.cons_append, List.getLast?_concat]

/-- Claim C15: every Connection emitted by `getConnections`, forward or twin, carries
in-range read coordinates. With `last` the closing hit (the hit on the last edge of the
forward Connection of the pair) and `curLen` its read length, `0 <= readSeq.start`,
`readSeq.end <= curLen - 1` and `readSeq.end - readSeq.start >= 99`, in unbounded
integers. -/
theorem getConnections_coordinates {E : Type} [DecidableEq E] (g : RepeatGraph E)
    (curRange : OverlapRange → Int) (isBifurcation : Nat → Bool)
    (complementPath : GraphPath E → GraphPath E) (alignments : List (GraphAlignment E))
    (i : Nat) (c : Connection E)
    (hc : (getConnections g curRange isBifurcation complementPath alignments)[i]? = some c) :
    ∃ readPath ∈ alignments, ∃ last ∈ readPath, ∃ forward,
      (getConnections g curRange isBifurcation complementPath alignments)[2 * (i / 2)]?
        = some forward ∧
      forward.path.getLast? = some last.edge ∧
      0 ≤ c.readSeq.start ∧ c.readSeq.end_ ≤ last.overlap.curLen - 1 ∧
      99 ≤ c.readSeq.end_ - c.readSeq.start := by
  have hpairs := getConnections_emitted g curRange isBifurcation complementPath alignments
  rcases Nat.mod_two_eq_zero_or_one i with hi | hi
  · have hi2 : 2 * (i / 2) = i := by omega
    rw [hi2]
    rw [← hi2] at hc
    obtain ⟨d, _, hP⟩ := pairsOf_even _ _ hpairs (i / 2) c hc
    obtain ⟨readPath, hread, last, hlast, hend, hcb, _⟩ :=
      emittedPair_coords g curRange isBifurcation complementPath alignments c d hP
    rw [hi2] at hc
    exact ⟨readPath, hread, last, hlast, c, hc, hend, hcb⟩
  · have hi2 : 2 * (i / 2) + 1 = i := by omega
    rw [← hi2] at hc
    obtain ⟨c2, hc2, hP⟩ := pairsOf_odd _ _ hpairs (i / 2) c hc
    obtain ⟨readPath, hread, last, hlast, hend, _, hdb⟩ :=
      emittedPair_coords g curRange isBifurcation complementPath alignments c2 c hP
    exact ⟨readPath, hread, last, hlast, c2, hc2, hend, hdb⟩

/-- Claim C16, as the code has it: every forward Connection emitted by `getConnections`
has a path `f :: mid ++ [l]` of at least two edges whose first and last edges are not
repetitive and differ, and every interior edge is repetitive or is the first edge `f`
again (a further hit on the edge of `currentAln.front()` does not close the path). -/
theorem forward_path_shape {E : Type} [DecidableEq E] (g : RepeatGraph E)
    (curRange : OverlapRange → Int) (isBifurcation : Nat → Bool)
    (complementPath : GraphPath E → GraphPath E) (alignments : List (GraphAlignment E))
    (k : Nat) (c : Connection E)
    (hc : (getConnections g curRange isBifurcation complementPath alignments)[2 * k]?
      = some c) :
    ∃ (f : E) (mid : List E) (l : E), c.path = f :: (mid ++ [l]) ∧ 2 ≤ c.path.length ∧
      g.repetitive f = false ∧ g.repetitive l = false ∧ f ≠ l ∧
      ∀ e ∈ mid, g.repetitive e = true ∨ e = f := by
  obtain ⟨d, _, hP⟩ := pairsOf_even _ _
    (getConnections_emitted g curRange isBifurcation complementPath alignments) k c hc
  obtain ⟨f, mid, l, hpath, hf, hl, hne, hmid, _⟩ :=
    emittedPair_shape g curRange isBifurcation complementPath alignments c d hP
  refine ⟨f, mid, l, hpath, ?_, hf, hl, hne, hmid⟩
  rw [hpath]
  simp only [List.length_cons, List.length_append, List.length_nil]
  omega

/-- Claim C19: on malformed bridging coordinates `getConnections` aborts only the
current read. If the hits `pre` of a read leave the loop variables `currentAln` and
`readStart` (no `break` so far) and the next hit `aln` closes a reliable Connection with
`readStart < 0` or `readEnd >= curLen`, then the loop over the whole read
`pre ++ aln :: post` emits exactly what the loop over `pre` emits, and the result of
`getConnections` is the one obtained when the read ends just before `aln`, whatever the
reads before and after it. -/
theorem malformed_aborts_read {E : Type} [DecidableEq E] (g : RepeatGraph E)
    (curRange : OverlapRange → Int) (isBifurcation : Nat → Bool)
    (complementPath : GraphPath E → GraphPath E)
    (before after : List (GraphAlignment E)) (pre post : List (EdgeAlignment E))
    (aln : EdgeAlignment E) (currentAln : GraphAlignment E) (readStart : Int)
    (hstate : readState g isBifurcation pre [] 0 = some (currentAln, readStart))
    (hoff : offendingHit g isBifurcation currentAln readStart aln = true) :
    (∀ acc, readLoop g curRange isBifurcation complementPath (pre ++ aln :: post) [] 0 acc
      = readLoop g curRange isBifurcation complementPath pre [] 0 acc) ∧
    getConnections g curRange isBifurcation complementPath
        (before ++ (pre ++ aln :: post) :: after)
      = getConnections g curRange isBifurcation complementPath (before ++ pre :: after) := by
  have hread : ∀ acc,
      readLoop g curRange isBifurcation complementPath (pre ++ aln :: post) [] 0 acc
        = readLoop g curRange isBifurcation complementPath pre [] 0 acc := by
    intro acc
    rw [readLoop_append, hstate]
    exact readLoop_offending g curRange isBifurcation complementPath aln post currentAln
      readStart _ hoff
  refine ⟨hread, ?_⟩
  rw [getConnections_append, getConnections_append, hread]

/-! ### `finalizeGraph`: the flags that change -/

theorem fixPath_spec {E : Type} [DecidableEq E] (cfg : Settings) (c : E → E)
    (g : RepeatGraph E) (rep : E → Bool) (p : UnbranchingPath E) :
    fixPath cfg c g rep p
      = fun x => if specQualifies cfg g rep p && specTouches c p x then false else rep x := by
  unfold fixPath specQualifies
  cases hs : p.id.strand with
  | false => simp
  | true =>
    cases hf : p.path.head? with
    | none => simp
    | some front =>
      simp only [Bool.not_true, Bool.false_eq_true, if_false, Bool.true_and]
      cases hq : fixCondition cfg g rep p front with
      | false =>
        unfold fixCondition at hq
        rw [hq]
        simp
      | true =>
        rw [if_pos rfl, clear_fold_eq]
        unfold fixCondition at hq
        rw [hq]
        funext x
        unfold specTouches
        by_cases h1 : x ∈ p.path <;> by_cases h2 : x ∈ p.path.map c <;> simp [h1, h2]

theorem specQualifies_frame {E : Type} [DecidableEq E] (cfg : Settings) (c : E → E)
    (g : RepeatGraph E) (rep : E → Bool) (a p : UnbranchingPath E)
    (hind : Independent c a p) :
    specQualifies cfg g (fixPath cfg c g rep a) p = specQualifies cfg g rep p := by
  unfold specQualifies
  cases hs : p.id.strand with
  | false => rfl
  | true =>
    cases hf : p.path.head? with
    | none => rfl
    | some front =>
      have hfront : fixPath cfg c g rep a front = rep front := by
        rw [fixPath_spec]
        cases hq : specQualifies cfg g rep a with
        | false => simp
        | true =>
          have hsa : a.id.strand = true := by
            unfold specQualifies at hq
            rw [Bool.and_eq_true] at hq
            exact hq.1
          have hmem : front ∈ p.path := List.mem_of_mem_head? hf
          have h1 : front ∉ a.path := fun h => (hind hsa hs front h).1 hmem
          have h2 : front ∉ a.path.map c := by
            intro h
            obtain ⟨e, he, hce⟩ := List.mem_map.1 h
            exact (hind hsa hs e he).2 (hce ▸ hmem)
          simp [specTouches, h1, h2]
      simp only [hfront]

theorem any_congr_mem {α : Type} (l : List α) (f f2 : α → Bool)
    (h : ∀ a ∈ l, f a = f2 a) : l.any f = l.any f2 := by
  induction l with
  | nil => rfl
  | cons a l ih =>
    rw [List.any_cons, List.any_cons, h a (List.mem_cons_self _ _),
      ih (fun b hb => h b (List.mem_cons_of_mem _ hb))]

theorem fix_fold_spec {E : Type} [DecidableEq E] (cfg : Settings) (c : E → E)
    (g : RepeatGraph E) (l : List (UnbranchingPath E)) :
    ∀ (rep : E → Bool), l.Pairwise (Independent c) →
      l.foldl (fixPath cfg c g) rep = specFinalFlags cfg c l g rep := by
  induction l with
  | nil =>
    intro rep _
    funext x
    simp [specFinalFlags]
  | cons a l ih =>
    intro rep hpw
    rw [List.pairwise_cons] at hpw
    rw [List.foldl_cons, ih _ hpw.2]
    funext x
    unfold specFinalFlags
    rw [List.any_cons]
    have hany : l.any (fun p => specQualifies cfg g (fixPath cfg c g rep a) p &&
          specTouches c p x)
        = l.any (fun p => specQualifies cfg g rep p && specTouches c p x) := by
      apply any_congr_mem
      intro p hp
      rw [specQualifies_frame cfg c g rep a p (hpw.1 p hp)]
    rw [hany, fixPath_spec]
    beta_reduce
    generalize l.any (fun p => specQualifies cfg g rep p && specTouches c p x) = b1
    generalize (specQualifies cfg g rep a && specTouches c a x) = b2
    cases b1 <;> cases b2 <;> simp

/-- Claim C17: `finalizeGraph` changes `repetitive` flags only by clearing them on
qualifying paths. For unbranching paths whose forward-strand members are pairwise
independent (no shared edge, no complement of an edge of one on another): every edge
that lies on, or is the complement of an edge on, a forward-strand path whose first edge
is not self-complement and is repetitive, whose length is greater than
`unique_edge_length`, and for which the assembly is uneven-coverage or `meanCoverage` is
not above the threshold, has `repetitive = false` after the call; every edge touched by
no such path keeps its flag; and (for any paths) no flag goes from false to true. -/
theorem finalizeGraph_clears_qualifying {E : Type} [DecidableEq E] (cfg : Settings)
    (complementEdge : E → E) (substractedCoverage : E → Int)
    (paths : List (UnbranchingPath E)) (g : RepeatGraph E) :
    (paths.Pairwise (Independent complementEdge) →
      (∀ p ∈ paths, p.id.strand = true → ∀ front, p.path.head? = some front →
        g.selfComplement front = false → g.repetitive front = true →
        p.length > cfg.uniqueEdgeLength →
        (cfg.unevenCoverage = true ∨ ¬ p.meanCoverage > cfg.uniqueCovThreshold) →
        ∀ e ∈ p.path,
          (finalizeGraph cfg complementEdge substractedCoverage paths g).repetitive e = false ∧
          (finalizeGraph cfg complementEdge substractedCoverage paths g).repetitive
            (complementEdge e) = false) ∧
      (∀ x, (∀ p ∈ paths, specQualifies cfg g g.repetitive p = true →
          x ∉ p.path ∧ ∀ e ∈ p.path, x ≠ complementEdge e) →
        (finalizeGraph cfg complementEdge substractedCoverage paths g).repetitive x
          = g.repetitive x) ∧
      (finalizeGraph cfg complementEdge substractedCoverage paths g).repetitive
        = specFinalFlags cfg complementEdge paths g g.repetitive) ∧
    (∀ x, g.repetitive x = false →
      (finalizeGraph cfg complementEdge substractedCoverage paths g).repetitive x = false) := by
  refine ⟨?_, ?_⟩
  · intro hpw
    have hspec : (finalizeGraph cfg complementEdge substractedCoverage paths g).repetitive
        = specFinalFlags cfg complementEdge paths g g.repetitive :=
      fix_fold_spec cfg complementEdge g paths g.repetitive hpw
    refine ⟨?_, ?_, hspec⟩
    · intro p hp hs front hf hsc hrep hlen hcov e he
      have hq : specQualifies cfg g g.repetitive p = true := by
        unfold specQualifies
        rw [hs, hf]
        simp only [Bool.true_and, hsc, hrep, Bool.not_false, decide_eq_true hlen]
        rcases hcov with hu | hc
        · rw [hu]; rfl
        · rw [decide_eq_false hc]; simp
      rw [hspec]
      constructor
      · unfold specFinalFlags
        rw [if_pos]
        rw [List.any_eq_true]
        exact ⟨p, hp, by simp [hq, specTouches, he]⟩
      · unfold specFinalFlags
        rw [if_pos]
        rw [List.any_eq_true]
        refine ⟨p, hp, ?_⟩
        have hmem : complementEdge e ∈ p.path.map complementEdge := List.mem_map.2 ⟨e, he, rfl⟩
        simp only [hq, specTouches, Bool.true_and, Bool.or_eq_true, decide_eq_true_eq]
        exact Or.inr hmem
    · intro x hx
      rw [hspec]
      unfold specFinalFlags
      rw [if_neg]
      rw [List.any_eq_true]
      rintro ⟨p, hp, hpx⟩
      rw [Bool.and_eq_true] at hpx
      obtain ⟨h1, h2⟩ := hx p hp hpx.1
      have ht := hpx.2
      unfold specTouches at ht
      rw [Bool.or_eq_true, decide_eq_true_eq, decide_eq_true_eq] at ht
      rcases ht with ht | ht
      · exact h1 ht
      · obtain ⟨e, he, hce⟩ := List.mem_map.1 ht
        exact h2 e he hce.symm
  · intro x hx
    cases hval : (finalizeGraph cfg complementEdge substractedCoverage paths g).repetitive x with
    | false => rfl
    | true =>
      have := (fix_fold cfg complementEdge g paths g.repetitive).1 x hval
      rw [hx] at this
      exact Bool.noConfusion this

/-! ### `resolveSimpleRepeats`: the disjoint sets -/

theorem labelsAfter_snoc (pairs : List (Nat × Nat)) (a b : Nat) :
    labelsAfter (pairs ++ [(a, b)]) = unionSet (labelsAfter pairs) a b := by
  unfold labelsAfter
  rw [List.foldl_append]
  rfl

theorem linked_mono (pairs more : List (Nat × Nat)) (a b : Nat) (h : linked pairs a b) :
    linked (pairs ++ more) a b := by
  rcases h with h | h
  · exact Or.inl (List.mem_append_left _ h)
  · exact Or.inr (List.mem_append_left _ h)

/-- Two positions carry the same label only if a chain of `unionSet` calls joins them,
and the two positions of every call carry the same label. -/
theorem labels_invariant (pairs : List (Nat × Nat)) :
    (∀ p q, labelsAfter pairs p = labelsAfter pairs q →
      Relation.ReflTransGen (linked pairs) p q) ∧
    (∀ ab ∈ pairs, labelsAfter pairs ab.1 = labelsAfter pairs ab.2) := by
  refine List.reverseRecOn pairs ?_ ?_
  · refine ⟨?_, fun ab h => absurd h (List.not_mem_nil _)⟩
    intro p q h
    have hpq : p = q := h
    rw [hpq]
  · intro U ab ih
    obtain ⟨a, b⟩ := ab
    obtain ⟨hs, hc⟩ := ih
    have hmono : ∀ x y, Relation.ReflTransGen (linked U) x y →
        Relation.ReflTransGen (linked (U ++ [(a, b)])) x y :=
      fun x y h => Relation.ReflTransGen.mono (fun u v huv => linked_mono U [(a, b)] u v huv) h
    have hab : linked (U ++ [(a, b)]) a b := Or.inl (by simp)
    have hba : linked (U ++ [(a, b)]) b a := Or.inr (by simp)
    rw [labelsAfter_snoc]
    constructor
    · intro p q h
      simp only [unionSet] at h
      by_cases hp : labelsAfter U p = labelsAfter U b <;>
        by_cases hq : labelsAfter U q = labelsAfter U b
      · exact hmono _ _ (hs p q (hp.trans hq.symm))
      · rw [if_pos hp, if_neg hq] at h
        exact ((hmono _ _ (hs p b hp)).tail hba).trans (hmono _ _ (hs a q h))
      · rw [if_neg hp, if_pos hq] at h
        exact ((hmono _ _ (hs p a h)).tail hab).trans (hmono _ _ (hs b q hq.symm))
      · rw [if_neg hp, if_neg hq] at h
        exact hmono _ _ (hs p q h)
    · intro cd hcd
      rcases List.mem_append.1 hcd with h | h
      · have := hc cd h
        simp only [unionSet]
        rw [this]
      · rw [List.mem_singleton] at h
        subst h
        simp [unionSet]

theorem linked_same_label (pairs : List (Nat × Nat)) (a b : Nat) (h : linked pairs a b) :
    labelsAfter pairs a = labelsAfter pairs b := by
  rcases h with h | h
  · exact (labels_invariant pairs).2 (a, b) h
  · exact ((labels_invariant pairs).2 (b, a) h).symm

theorem first_step {α : Type} (r : α → α → Prop) (p q : α)
    (h : Relation.ReflTransGen r p q) : p ≠ q → ∃ c, c ≠ p ∧ r p c := by
  induction h using Relation.ReflTransGen.head_induction_on with
  | refl => intro h; exact absurd rfl h
  | @head a c hac _ ih =>
    intro hne
    by_cases hca : c = a
    · subst hca; exact ih hne
    · exact ⟨c, hca, hac⟩

/-- In a set of exactly two positions the two have been passed together to
`unionSet`. -/
theorem pair_class_linked (pairs : List (Nat × Nat)) (p q : Nat) (hne : p ≠ q)
    (hlab : labelsAfter pairs p = labelsAfter pairs q)
    (honly : ∀ c, linked pairs p c → labelsAfter pairs c = labelsAfter pairs p → c = p ∨ c = q) :
    linked pairs p q := by
  obtain ⟨c, hcp, hlink⟩ := first_step _ p q ((labels_invariant pairs).1 p q hlab) hne
  rcases honly c hlink (linked_same_label pairs p c hlink).symm with h | h
  · exact absurd h hcp
  · rw [← h]; exact hlink

/-- When the calls pair the positions off, a chain of calls is a single call. -/
theorem pairing_chain (pairs : List (Nat × Nat)) (hpair : IsPairing pairs) (p q : Nat)
    (h : Relation.ReflTransGen (linked pairs) p q) : p = q ∨ linked pairs p q := by
  induction h with
  | refl => exact Or.inl rfl
  | @tail b c _ hbc ih =>
    rcases ih with rfl | hpb
    · exact Or.inr hbc
    · left
      rcases hpb with h1 | h1 <;> rcases hbc with h2 | h2
      · exact ((hpair _ h2 _ h1).2.2 rfl).elim
      · exact (hpair _ h1 _ h2).2.1 rfl
      · exact (hpair _ h1 _ h2).1 rfl
      · exact ((hpair _ h1 _ h2).2.2 rfl).elim

theorem pairing_class (pairs : List (Nat × Nat)) (hpair : IsPairing pairs) (p q : Nat) :
    labelsAfter pairs p = labelsAfter pairs q ↔ p = q ∨ linked pairs p q := by
  constructor
  · intro h
    exact pairing_chain pairs hpair p q ((labels_invariant pairs).1 p q h)
  · rintro (rfl | h)
    · rfl
    · exact linked_same_label pairs p q h

/-! ### `resolveSimpleRepeats`: positions of the edges -/

theorem assignElements_spec {E : Type} [DecidableEq E] (l : List E) :
    ∀ (m : E → Nat) (start : Nat) (e : E), l.Nodup →
      assignElements m start l e = if e ∈ l then start + List.indexOf e l else m e := by
  induction l with
  | nil => intro m start e _; simp [assignElements]
  | cons a l ih =>
    intro m start e hnd
    rw [List.nodup_cons] at hnd
    rw [assignElements, ih _ _ _ hnd.2]
    by_cases hea : e = a
    · subst hea
      rw [if_neg hnd.1, Function.update_same, if_pos (List.mem_cons_self _ _),
        List.indexOf_cons_self]
      rfl
    · by_cases hel : e ∈ l
      · rw [if_pos hel, if_pos (List.mem_cons_of_mem _ hel),
          List.indexOf_cons_ne _ (fun h => hea h.symm)]
        omega
      · rw [if_neg hel, Function.update_noteq hea, if_neg]
        intro h
        rcases List.mem_cons.1 h with h | h
        · exact hea h
        · exact hel h

theorem edgeToElement_spec {E : Type} [DecidableEq E] (inputs outputs : List E)
    (hI : inputs.Nodup) (hO : outputs.Nodup) (e : E) :
    edgeToElement inputs outputs e
      = if e ∈ outputs then inputs.length + List.indexOf e outputs
        else if e ∈ inputs then List.indexOf e inputs else 0 := by
  unfold edgeToElement
  rw [assignElements_spec outputs _ _ _ hO, assignElements_spec inputs _ _ _ hI]
  simp

/-- The element of an edge of `inputs` or `outputs` is a position of `allElements` that
holds this edge. -/
theorem edgeToElement_holds {E : Type} [DecidableEq E] (inputs outputs : List E)
    (hI : inputs.Nodup) (hO : outputs.Nodup) (e : E) (he : e ∈ inputs ∨ e ∈ outputs) :
    edgeToElement inputs outputs e < (inputs ++ outputs).length ∧
    (inputs ++ outputs)[edgeToElement inputs outputs e]? = some e := by
  rw [edgeToElement_spec inputs outputs hI hO]
  by_cases hout : e ∈ outputs
  · rw [if_pos hout]
    have hlt : List.indexOf e outputs < outputs.length := List.indexOf_lt_length.2 hout
    refine ⟨by rw [List.length_append]; omega, ?_⟩
    rw [List.getElem?_append_right (by omega)]
    have : inputs.length + List.indexOf e outputs - inputs.length = List.indexOf e outputs := by
      omega
    rw [this]
    exact List.getElem?_indexOf hout
  · rw [if_neg hout]
    have hin : e ∈ inputs := he.resolve_right hout
    rw [if_pos hin]
    have hlt : List.indexOf e inputs < inputs.length := List.indexOf_lt_length.2 hin
    refine ⟨by rw [List.length_append]; omega, ?_⟩
    rw [List.getElem?_append_left hlt]
    exact List.getElem?_indexOf hin

theorem mem_unionPairs {E : Type} [DecidableEq E] (alnIndex : E → List (GraphAlignment E))
    (inputs outputs : List E) (a b : Nat) :
    (a, b) ∈ unionPairs alnIndex inputs outputs ↔
      ∃ i ∈ inputs, ∃ o ∈ outputs, connections alnIndex outputs i o ≥ MIN_JCT_SUPPORT ∧
        a = edgeToElement inputs outputs i ∧ b = edgeToElement inputs outputs o := by
  unfold unionPairs
  simp only [List.mem_flatMap, List.mem_map, List.mem_filter, decide_eq_true_eq, Prod.mk.injEq]
  constructor
  · rintro ⟨i, hi, o, ⟨ho, hsup⟩, ha, hb⟩
    exact ⟨i, hi, o, ho, hsup, ha.symm, hb.symm⟩
  · rintro ⟨i, hi, o, ho, hsup, ha, hb⟩
    exact ⟨i, hi, o, ⟨ho, hsup⟩, ha.symm, hb.symm⟩

/-! ### `resolveSimpleRepeats`: clusters and what they emit -/

theorem filterMap_get_length {E : Type} (elems : List E) (L : List Nat)
    (h : ∀ p ∈ L, p < elems.length) :
    (L.filterMap (fun p => elems[p]?)).length = L.length := by
  induction L with
  | nil => rfl
  | cons a L ih =>
    have ha : a < elems.length := h a (List.mem_cons_self _ _)
    rw [List.filterMap_cons, List.getElem?_eq_getElem ha]
    simp only [List.length_cons]
    rw [ih (fun p hp => h p (List.mem_cons_of_mem _ hp))]

theorem cluster_of_two {E : Type} (elems : List E) (label : Nat → Nat) (r : Nat) (x y : E)
    (h : ((List.range elems.length).filter (fun p => decide (label p = r))).filterMap
      (fun p => elems[p]?) = [x, y]) :
    ∃ p q, p ≠ q ∧ p < elems.length ∧ q < elems.length ∧ label p = r ∧ label q = r ∧
      elems[p]? = some x ∧ elems[q]? = some y ∧
      ∀ z, z < elems.length → label z = r → z = p ∨ z = q := by
  have hmem : ∀ z, z ∈ (List.range elems.length).filter (fun p => decide (label p = r)) ↔
      z < elems.length ∧ label z = r := by
    intro z
    rw [List.mem_filter, List.mem_range, decide_eq_true_eq]
  have hnd : ((List.range elems.length).filter (fun p => decide (label p = r))).Nodup :=
    (List.nodup_range _).filter _
  have hlen : ((List.range elems.length).filter (fun p => decide (label p = r))).length = 2 := by
    rw [← filterMap_get_length elems _ (fun p hp => ((hmem p).1 hp).1), h]
    rfl
  obtain ⟨p, q, hL⟩ := List.length_eq_two.1 hlen
  rw [hL] at h hnd
  have hp := (hmem p).1 (by rw [hL]; simp)
  have hq := (hmem q).1 (by rw [hL]; simp)
  have hpq : p ≠ q := by
    intro hpq
    rw [hpq] at hnd
    simp at hnd
  rw [List.filterMap_cons, List.getElem?_eq_getElem hp.1, List.filterMap_cons,
    List.getElem?_eq_getElem hq.1, List.filterMap_nil] at h
  simp only [List.cons.injEq, and_true] at h
  refine ⟨p, q, hpq, hp.1, hq.1, hp.2, hq.2, ?_, ?_, ?_⟩
  · rw [List.getElem?_eq_getElem hp.1, h.1]
  · rw [List.getElem?_eq_getElem hq.1, h.2]
  · intro z hz hlz
    have hzm := (hmem z).2 ⟨hz, hlz⟩
    rw [hL] at hzm
    simpa using hzm

theorem clusterEnds_pair {E : Type} [DecidableEq E] (inputs outputs : List E) (x y : E) :
    clusterEnds inputs outputs [x, y]
      = (if y ∈ inputs then some y else if x ∈ inputs then some x else none,
         if y ∈ outputs then some y else if x ∈ outputs then some x else none) := by
  simp [clusterEnds]

theorem clusterConnection_some {E : Type} [DecidableEq E]
    (alnIndex : E → List (GraphAlignment E)) (inputs outputs : List E)
    (pathToResolve : UnbranchingPath E) (cl : List E) (c : Connection E)
    (h : clusterConnection alnIndex inputs outputs pathToResolve cl = some c) :
    ∃ x y u v, cl = [x, y] ∧ u ≠ v ∧
      c = ⟨[u] ++ pathToResolve.path ++ [v], bridgingReads alnIndex outputs u v, 0⟩ ∧
      (if y ∈ inputs then some y else if x ∈ inputs then some x else none) = some u ∧
      (if y ∈ outputs then some y else if x ∈ outputs then some x else none) = some v := by
  by_cases hlen : cl.length = 2
  · obtain ⟨x, y, rfl⟩ := List.length_eq_two.1 hlen
    unfold clusterConnection at h
    rw [clusterEnds_pair] at h
    cases hu : (if y ∈ inputs then some y else if x ∈ inputs then some x else none) with
    | none => rw [hu] at h; simp at h
    | some u =>
      cases hv : (if y ∈ outputs then some y else if x ∈ outputs then some x else none) with
      | none => rw [hu, hv] at h; simp at h
      | some v =>
        rw [hu, hv] at h
        simp only at h
        by_cases huv : u = v
        · rw [if_neg (not_not.2 huv)] at h
          exact Option.noConfusion h
        · rw [if_pos huv] at h
          exact ⟨x, y, u, v, rfl, huv, (Option.some.inj h).symm, hu, hv⟩
  · unfold clusterConnection clusterEnds at h
    rw [if_neg hlen] at h
    exact Option.noConfusion h

/-- A cluster of `groupBySet` that makes the loop push a Connection is a supported pair:
the Connection runs from an edge of `inputs` to a different edge of `outputs` that the
read evidence joins at least `MIN_JCT_SUPPORT` times. -/
theorem clusterConnection_supported {E : Type} [DecidableEq E]
    (alnIndex : E → List (GraphAlignment E)) (inputs outputs : List E)
    (hI : inputs.Nodup) (hO : outputs.Nodup)
    (pathToResolve : UnbranchingPath E) (cl : List E)
    (hcl : cl ∈ groupBySet (inputs ++ outputs) (labelsAfter (unionPairs alnIndex inputs outputs)))
    (c : Connection E)
    (hc : clusterConnection alnIndex inputs outputs pathToResolve cl = some c) :
    ∃ i o, i ∈ inputs ∧ o ∈ outputs ∧ i ≠ o ∧
      connections alnIndex outputs i o ≥ MIN_JCT_SUPPORT ∧
      c = ⟨[i] ++ pathToResolve.path ++ [o], bridgingReads alnIndex outputs i o, 0⟩ := by
  obtain ⟨x, y, u, v, hxy, huv, hcv, hu, hv⟩ :=
    clusterConnection_some alnIndex inputs outputs pathToResolve cl c hc
  unfold groupBySet at hcl
  obtain ⟨r, _, hr⟩ := List.mem_map.1 hcl
  rw [hxy] at hr
  obtain ⟨p, q, hpq, hp, hq, hlp, hlq, hxp, hyq, honly⟩ := cluster_of_two _ _ r x y hr
  have hlink : linked (unionPairs alnIndex inputs outputs) p q := by
    apply pair_class_linked _ p q hpq (hlp.trans hlq.symm)
    intro z hz hlz
    apply honly z _ (hlz.trans hlp)
    rcases hz with hz | hz
    · obtain ⟨i, hi, o, ho, _, _, hb⟩ := (mem_unionPairs alnIndex inputs outputs p z).1 hz
      rw [hb]
      exact (edgeToElement_holds inputs outputs hI hO o (Or.inr ho)).1
    · obtain ⟨i, hi, o, ho, _, ha, _⟩ := (mem_unionPairs alnIndex inputs outputs z p).1 hz
      rw [ha]
      exact (edgeToElement_holds inputs outputs hI hO i (Or.inl hi)).1
  have hcases : ∃ i o, i ∈ inputs ∧ o ∈ outputs ∧ i ≠ o ∧
      connections alnIndex outputs i o ≥ MIN_JCT_SUPPORT ∧
      ((x = i ∧ y = o) ∨ (x = o ∧ y = i)) := by
    rcases hlink with h | h
    · obtain ⟨i, hi, o, ho, hsup, ha, hb⟩ := (mem_unionPairs alnIndex inputs outputs p q).1 h
      have h1 := (edgeToElement_holds inputs outputs hI hO i (Or.inl hi)).2
      have h2 := (edgeToElement_holds inputs outputs hI hO o (Or.inr ho)).2
      rw [← ha, hxp] at h1
      rw [← hb, hyq] at h2
      refine ⟨i, o, hi, ho, ?_, hsup, Or.inl ⟨Option.some.inj h1, Option.some.inj h2⟩⟩
      intro hio
      rw [hio] at ha
      exact hpq (ha.trans hb.symm)
    · obtain ⟨i, hi, o, ho, hsup, ha, hb⟩ := (mem_unionPairs alnIndex inputs outputs q p).1 h
      have h1 := (edgeToElement_holds inputs outputs hI hO i (Or.inl hi)).2
      have h2 := (edgeToElement_holds inputs outputs hI hO o (Or.inr ho)).2
      rw [← ha, hyq] at h1
      rw [← hb, hxp] at h2
      refine ⟨i, o, hi, ho, ?_, hsup, Or.inr ⟨Option.some.inj h2, Option.some.inj h1⟩⟩
      intro hio
      rw [hio] at ha
      exact hpq (hb.trans ha.symm)
  obtain ⟨i, o, hi, ho, hio, hsup, hxy2⟩ := hcases
  refine ⟨i, o, hi, ho, hio, hsup, ?_⟩
  rcases hxy2 with ⟨rfl, rfl⟩ | ⟨rfl, rfl⟩
  · rw [if_pos ho] at hv
    have hvo : y = v := Option.some.inj hv
    by_cases hoI : y ∈ inputs
    · rw [if_pos hoI] at hu
      exact absurd ((Option.some.inj hu).symm.trans hvo) huv
    · rw [if_neg hoI, if_pos hi] at hu
      rw [hcv, ← Option.some.inj hu, ← hvo]
  · rw [if_pos hi] at hu
    have hui : y = u := Option.some.inj hu
    by_cases hiO : y ∈ outputs
    · rw [if_pos hiO] at hv
      exact absurd (hui.symm.trans (Option.some.inj hv)) huv
    · rw [if_neg hiO, if_pos ho] at hv
      rw [hcv, ← Option.some.inj hv, ← hui]

theorem candidate_some {E : Type} (g : RepeatGraph E) (setOrder : List E → List E)
    (p : UnbranchingPath E) (inputs outputs : List E)
    (h : candidate g setOrder p = some (inputs, outputs)) :
    p.id.strand = true ∧ ∃ front back, p.path.head? = some front ∧
      p.path.getLast? = some back ∧ g.selfComplement front = false ∧
      inputs = setOrder (g.inEdges (g.nodeLeft front)) ∧
      outputs = setOrder (g.outEdges (g.nodeRight back)) ∧
      (g.outEdges (g.nodeLeft front)).length = 1 ∧
      (g.inEdges (g.nodeRight back)).length = 1 ∧
      inputs.length = outputs.length ∧ 1 < inputs.length := by
  unfold candidate at h
  cases hs : p.id.strand with
  | false => rw [hs] at h; simp at h
  | true =>
    rw [hs] at h
    simp only [Bool.not_true, Bool.false_eq_true, if_false] at h
    cases hf : p.path.head? with
    | none => rw [hf] at h; simp at h
    | some front =>
      cases hb : p.path.getLast? with
      | none => rw [hf, hb] at h; simp at h
      | some back =>
        rw [hf, hb] at h
        simp only at h
        cases hsc : g.selfComplement front with
        | true => rw [hsc] at h; simp at h
        | false =>
          rw [hsc] at h
          simp only [Bool.false_eq_true, if_false] at h
          split at h
          · exact Option.noConfusion h
          · rename_i hcond
            simp only [not_or, not_not, not_le] at hcond
            have hio := Option.some.inj h
            rw [Prod.mk.injEq] at hio
            obtain ⟨h1, h2, h3, h4⟩ := hcond
            refine ⟨rfl, front, back, rfl, rfl, hsc, hio.1.symm, hio.2.symm, h1, h2, ?_, ?_⟩
            · rw [← hio.1, ← hio.2]; exact h3
            · rw [← hio.1]; exact h4

theorem pathConnections_supported {E : Type} [DecidableEq E] (g : RepeatGraph E)
    (alnIndex : E → List (GraphAlignment E)) (setOrder : List E → List E)
    (mapOrder : List (List E) → List (List E)) (hset : IsSetOrder setOrder)
    (hmap : IsMapOrder mapOrder) (p : UnbranchingPath E) (c : Connection E)
    (hc : c ∈ pathConnections g alnIndex setOrder mapOrder p) :
    ∃ front back inputConn outputConn, p.path.head? = some front ∧
      p.path.getLast? = some back ∧
      inputConn ∈ g.inEdges (g.nodeLeft front) ∧
      outputConn ∈ g.outEdges (g.nodeRight back) ∧ inputConn ≠ outputConn ∧
      connections alnIndex (setOrder (g.outEdges (g.nodeRight back))) inputConn outputConn
        ≥ MIN_JCT_SUPPORT ∧
      c = ⟨[inputConn] ++ p.path ++ [outputConn],
        bridgingReads alnIndex (setOrder (g.outEdges (g.nodeRight back))) inputConn outputConn,
        0⟩ := by
  unfold pathConnections at hc
  cases hcand : candidate g setOrder p with
  | none => rw [hcand] at hc; exact absurd hc (List.not_mem_nil c)
  | some io =>
    obtain ⟨inputs, outputs⟩ := io
    rw [hcand] at hc
    simp only at hc
    obtain ⟨_, front, back, hf, hb, _, hI, hO, _, _, _, _⟩ :=
      candidate_some g setOrder p inputs outputs hcand
    obtain ⟨cl, hcl, hemit⟩ := List.mem_filterMap.1 hc
    have hcl2 := (hmap _).subset hcl
    have hIn : inputs.Nodup := by rw [hI]; exact (hset _).1
    have hOn : outputs.Nodup := by rw [hO]; exact (hset _).1
    obtain ⟨i, o, hi, ho, hio, hsup, hcv⟩ :=
      clusterConnection_supported alnIndex inputs outputs hIn hOn p cl hcl2 c hemit
    refine ⟨front, back, i, o, hf, hb, ?_, ?_, hio, ?_, ?_⟩
    · rw [hI] at hi; exact ((hset _).2 i).1 hi
    · rw [hO] at ho; exact ((hset _).2 o).1 ho
    · rw [← hO]; exact hsup
    · rw [← hO]; exact hcv

/-- Claim C18: every Connection emitted by `resolveSimpleRepeats` is a supported,
non-loop input/output pair. Whatever the iteration orders of the unordered containers,
each Connection of `resolvedConnections` belongs to a path `p` of `unbranchingPaths`; its
path is `[input] ++ p.path ++ [output]` with `input` an incoming edge of the left node of
`p`, `output` an outgoing edge of its right node, `input != output`, and the pair was
recorded at least `MIN_JCT_SUPPORT = 2` times in the read evidence; it carries the last
bridging read recorded for the pair and flank score 0. In particular the first and the
last edge of an emitted path differ: an edge that is both the input and the output is
never resolved. -/
theorem simple_connections_supported {E : Type} [DecidableEq E] (g : RepeatGraph E)
    (complementPath : GraphPath E → GraphPath E) (alnIndex : E → List (GraphAlignment E))
    (setOrder : List E → List E) (mapOrder : List (List E) → List (List E))
    (unbranchingPaths : List (UnbranchingPath E))
    (hset : IsSetOrder setOrder) (hmap : IsMapOrder mapOrder) :
    ∀ c ∈ (resolveSimpleRepeats g complementPath alnIndex setOrder mapOrder
        unbranchingPaths).resolvedConnections,
      (∃ p ∈ unbranchingPaths, ∃ front back inputConn outputConn,
        p.path.head? = some front ∧ p.path.getLast? = some back ∧
        c.path = [inputConn] ++ p.path ++ [outputConn] ∧
        inputConn ∈ g.inEdges (g.nodeLeft front) ∧
        outputConn ∈ g.outEdges (g.nodeRight back) ∧ inputConn ≠ outputConn ∧
        connections alnIndex (setOrder (g.outEdges (g.nodeRight back))) inputConn outputConn
          ≥ MIN_JCT_SUPPORT ∧
        MIN_JCT_SUPPORT = 2 ∧
        c.readSeq = bridgingReads alnIndex (setOrder (g.outEdges (g.nodeRight back)))
          inputConn outputConn ∧
        c.flankScore = 0) ∧
      c.path.head? ≠ c.path.getLast? := by
  intro c hc
  obtain ⟨p, hp, hcp⟩ := List.mem_flatMap.1 hc
  obtain ⟨front, back, i, o, hf, hb, hi, ho, hio, hsup, hcv⟩ :=
    pathConnections_supported g alnIndex setOrder mapOrder hset hmap p c hcp
  refine ⟨⟨p, hp, front, back, i, o, hf, hb, by rw [hcv], hi, ho, hio, hsup, rfl, by rw [hcv],
    by rw [hcv]⟩, ?_⟩
  rw [hcv]
  show ([i] ++ p.path ++ [o]).head? ≠ ([i] ++ p.path ++ [o]).getLast?
  rw [List.getLast?_concat]
  intro h
  exact hio (Option.some.inj h)

/-! ### `resolveSimpleRepeats`: a perfect pairing -/

theorem length_one_unique {α : Type} (l : List α) (h : l.length = 1) (x y : α)
    (hx : x ∈ l) (hy : y ∈ l) : x = y := by
  obtain ⟨a, rfl⟩ := List.length_eq_one.1 h
  rw [List.mem_singleton] at hx hy
  rw [hx, hy]

theorem length_one_exists {α : Type} (l : List α) (h : l.length = 1) : ∃ a, a ∈ l := by
  obtain ⟨a, rfl⟩ := List.length_eq_one.1 h
  exact ⟨a, List.mem_singleton.2 rfl⟩

theorem pairedOutput_spec {E : Type} [DecidableEq E] (alnIndex : E → List (GraphAlignment E))
    (inputs outputs : List E) (hpp : PerfectPairing alnIndex inputs outputs) (i : E)
    (hi : i ∈ inputs) :
    pairedOutput alnIndex outputs i ∈ outputs ∧
    connections alnIndex outputs i (pairedOutput alnIndex outputs i) ≥ MIN_JCT_SUPPORT := by
  obtain ⟨o, ho⟩ := length_one_exists _ (hpp.2.1 i hi)
  rw [List.mem_filter] at ho
  unfold pairedOutput
  cases hfind : outputs.find? (fun outEdge =>
      decide (connections alnIndex outputs i outEdge ≥ MIN_JCT_SUPPORT)) with
  | none =>
    rw [List.find?_eq_none] at hfind
    exact absurd ho.2 (hfind o ho.1)
  | some o2 =>
    have h1 := List.find?_some hfind
    have h2 := List.mem_of_find?_eq_some hfind
    exact ⟨h2, by simpa using h1⟩

theorem pos_input {E : Type} [DecidableEq E] (inputs outputs : List E)
    (hI : inputs.Nodup) (hO : outputs.Nodup) (i : E) (hi : i ∈ inputs) (hno : i ∉ outputs) :
    edgeToElement inputs outputs i = List.indexOf i inputs ∧
    edgeToElement inputs outputs i < inputs.length := by
  rw [edgeToElement_spec inputs outputs hI hO, if_neg hno, if_pos hi]
  exact ⟨rfl, List.indexOf_lt_length.2 hi⟩

theorem pos_output {E : Type} [DecidableEq E] (inputs outputs : List E)
    (hI : inputs.Nodup) (hO : outputs.Nodup) (o : E) (ho : o ∈ outputs) :
    edgeToElement inputs outputs o = inputs.length + List.indexOf o outputs ∧
    inputs.length ≤ edgeToElement inputs outputs o := by
  rw [edgeToElement_spec inputs outputs hI hO, if_pos ho]
  exact ⟨rfl, Nat.le_add_right _ _⟩

theorem unionPairs_pairing {E : Type} [DecidableEq E] (alnIndex : E → List (GraphAlignment E))
    (inputs outputs : List E) (hI : inputs.Nodup) (hO : outputs.Nodup)
    (hpp : PerfectPairing alnIndex inputs outputs) :
    IsPairing (unionPairs alnIndex inputs outputs) := by
  intro ab hab cd hcd
  obtain ⟨a, b⟩ := ab
  obtain ⟨c, d⟩ := cd
  obtain ⟨i, hi, o, ho, hsup, ha, hb⟩ := (mem_unionPairs alnIndex inputs outputs a b).1 hab
  obtain ⟨i2, hi2, o2, ho2, hsup2, hc, hd⟩ := (mem_unionPairs alnIndex inputs outputs c d).1 hcd
  have hpi := pos_input inputs outputs hI hO i hi (hpp.1 i hi)
  have hpi2 := pos_input inputs outputs hI hO i2 hi2 (hpp.1 i2 hi2)
  have hpo := pos_output inputs outputs hI hO o ho
  have hpo2 := pos_output inputs outputs hI hO o2 ho2
  refine ⟨?_, ?_, ?_⟩
  · intro hac
    have hac2 : a = c := hac
    have hii : i = i2 := by
      apply (List.indexOf_inj hi hi2).1
      rw [← hpi.1, ← hpi2.1, ← ha, ← hc, hac2]
    subst hii
    have hoo : o = o2 := length_one_unique _ (hpp.2.1 i hi) o o2
      (List.mem_filter.2 ⟨ho, by simpa using hsup⟩)
      (List.mem_filter.2 ⟨ho2, by simpa using hsup2⟩)
    show b = d
    rw [hb, hd, hoo]
  · intro hbd
    have hbd2 : b = d := hbd
    have hoo : o = o2 := by
      apply (List.indexOf_inj ho ho2).1
      have : edgeToElement inputs outputs o = edgeToElement inputs outputs o2 := by
        rw [← hb, ← hd, hbd2]
      rw [hpo.1, hpo2.1] at this
      omega
    subst hoo
    have hii : i = i2 := length_one_unique _ (hpp.2.2 o ho) i i2
      (List.mem_filter.2 ⟨hi, by simpa using hsup⟩)
      (List.mem_filter.2 ⟨hi2, by simpa using hsup2⟩)
    show a = c
    rw [ha, hc, hii]
  · intro had
    have had2 : a = d := had
    have h1 := hpi.2
    have h2 := hpo2.2
    rw [← ha] at h1
    rw [← hd] at h2
    omega

theorem pair_in_unionPairs {E : Type} [DecidableEq E] (alnIndex : E → List (GraphAlignment E))
    (inputs outputs : List E) (hpp : PerfectPairing alnIndex inputs outputs) (i : E)
    (hi : i ∈ inputs) :
    (edgeToElement inputs outputs i,
      edgeToElement inputs outputs (pairedOutput alnIndex outputs i))
      ∈ unionPairs alnIndex inputs outputs := by
  obtain ⟨ho, hsup⟩ := pairedOutput_spec alnIndex inputs outputs hpp i hi
  exact (mem_unionPairs alnIndex inputs outputs _ _).2 ⟨i, hi, _, ho, hsup, rfl, rfl⟩

/-- The set of the element of an input holds this element and the element of its paired
output, and nothing else. -/
theorem class_of_input {E : Type} [DecidableEq E] (alnIndex : E → List (GraphAlignment E))
    (inputs outputs : List E) (hI : inputs.Nodup) (hO : outputs.Nodup)
    (hpp : PerfectPairing alnIndex inputs outputs) (i : E) (hi : i ∈ inputs) (z : Nat) :
    labelsAfter (unionPairs alnIndex inputs outputs) z
        = labelsAfter (unionPairs alnIndex inputs outputs) (edgeToElement inputs outputs i) ↔
      z = edgeToElement inputs outputs i ∨
      z = edgeToElement inputs outputs (pairedOutput alnIndex outputs i) := by
  have hpair := unionPairs_pairing alnIndex inputs outputs hI hO hpp
  have hin := pair_in_unionPairs alnIndex inputs outputs hpp i hi
  rw [pairing_class _ hpair]
  constructor
  · rintro (h | h | h)
    · exact Or.inl h
    · exact ((hpair _ hin _ h).2.2 rfl).elim
    · exact Or.inr ((hpair _ h _ hin).1 rfl)
  · rintro (h | h)
    · exact Or.inl h
    · right
      right
      rw [h]
      exact hin

theorem filter_range_pair (n a b : Nat) (P : Nat → Bool) (hab : a < b) (hb : b < n)
    (hP : ∀ z, z < n → (P z = true ↔ z = a ∨ z = b)) :
    (List.range n).filter P = [a, b] := by
  have hperm : ((List.range n).filter P).Perm [a, b] := by
    apply (List.perm_ext_iff_of_nodup ((List.nodup_range n).filter _) ?_).2
    · intro z
      rw [List.mem_filter, List.mem_range]
      constructor
      · rintro ⟨hz, hPz⟩
        rcases (hP z hz).1 hPz with h | h
        · rw [h]; simp
        · rw [h]; simp
      · intro hz
        simp only [List.mem_cons, List.mem_singleton, List.not_mem_nil, or_false] at hz
        have hzn : z < n := by
          rcases hz with h | h <;> omega
        exact ⟨hzn, (hP z hzn).2 hz⟩
    · simp only [List.nodup_cons, List.mem_singleton, List.not_mem_nil, not_false_eq_true,
        List.nodup_nil, and_true]
      omega
  have hs1 : ((List.range n).filter P).Sorted (fun x y => x < y) :=
    (List.pairwise_lt_range n).filter _
  have hs2 : ([a, b] : List Nat).Sorted (fun x y => x < y) := by
    simp [List.Sorted, hab]
  exact List.eq_of_perm_of_sorted hperm hs1 hs2

theorem cluster_of_input {E : Type} [DecidableEq E] (alnIndex : E → List (GraphAlignment E))
    (inputs outputs : List E) (hI : inputs.Nodup) (hO : outputs.Nodup)
    (hpp : PerfectPairing alnIndex inputs outputs) (i : E) (hi : i ∈ inputs) :
    ((List.range (inputs ++ outputs).length).filter (fun p =>
        decide (labelsAfter (unionPairs alnIndex inputs outputs) p
          = labelsAfter (unionPairs alnIndex inputs outputs)
              (edgeToElement inputs outputs i)))).filterMap
      (fun p => (inputs ++ outputs)[p]?)
      = [i, pairedOutput alnIndex outputs i] := by
  obtain ⟨ho, _⟩ := pairedOutput_spec alnIndex inputs outputs hpp i hi
  have hpi := pos_input inputs outputs hI hO i hi (hpp.1 i hi)
  have hpo := pos_output inputs outputs hI hO _ ho
  have hi2 := edgeToElement_holds inputs outputs hI hO i (Or.inl hi)
  have ho2 := edgeToElement_holds inputs outputs hI hO _ (Or.inr ho)
  rw [filter_range_pair _ (edgeToElement inputs outputs i)
    (edgeToElement inputs outputs (pairedOutput alnIndex outputs i)) _
    (by omega) ho2.1
    (fun z _ => by
      rw [decide_eq_true_eq]
      exact class_of_input alnIndex inputs outputs hI hO hpp i hi z)]
  rw [List.filterMap_cons, hi2.2, List.filterMap_cons, ho2.2, List.filterMap_nil]

theorem clusterConnection_paired {E : Type} [DecidableEq E]
    (alnIndex : E → List (GraphAlignment E)) (inputs outputs : List E)
    (hpp : PerfectPairing alnIndex inputs outputs) (p : UnbranchingPath E) (i : E)
    (hi : i ∈ inputs) :
    clusterConnection alnIndex inputs outputs p [i, pairedOutput alnIndex outputs i]
      = some (pairedConnection alnIndex outputs p i) := by
  obtain ⟨ho, _⟩ := pairedOutput_spec alnIndex inputs outputs hpp i hi
  have hoI : pairedOutput alnIndex outputs i ∉ inputs := fun h => hpp.1 _ h ho
  have hne : i ≠ pairedOutput alnIndex outputs i := by
    intro h
    rw [← h] at ho
    exact hpp.1 i hi ho
  unfold clusterConnection
  rw [clusterEnds_pair, if_neg hoI, if_pos hi, if_pos ho]
  simp only
  rw [if_pos hne]
  rfl

theorem representatives_perm {E : Type} [DecidableEq E]
    (alnIndex : E → List (GraphAlignment E)) (inputs outputs : List E)
    (hI : inputs.Nodup) (hO : outputs.Nodup)
    (hpp : PerfectPairing alnIndex inputs outputs) :
    (((List.range (inputs ++ outputs).length).map
        (labelsAfter (unionPairs alnIndex inputs outputs))).dedup).Perm
      (inputs.map (fun i => labelsAfter (unionPairs alnIndex inputs outputs)
        (edgeToElement inputs outputs i))) := by
  apply (List.perm_ext_iff_of_nodup (List.nodup_dedup _) ?_).2
  · intro r
    rw [List.mem_dedup, List.mem_map, List.mem_map]
    constructor
    · rintro ⟨z, hz, rfl⟩
      rw [List.mem_range, List.length_append] at hz
      by_cases hzI : z < inputs.length
      · refine ⟨inputs[z], List.getElem_mem hzI, ?_⟩
        have hmem : inputs[z] ∈ inputs := List.getElem_mem hzI
        rw [(pos_input inputs outputs hI hO _ hmem (hpp.1 _ hmem)).1,
          List.indexOf_getElem hI z hzI]
      · have hk : z - inputs.length < outputs.length := by omega
        have hmem : outputs[z - inputs.length] ∈ outputs := List.getElem_mem hk
        obtain ⟨i, hi⟩ := length_one_exists _ (hpp.2.2 _ hmem)
        rw [List.mem_filter, decide_eq_true_eq] at hi
        refine ⟨i, hi.1, ?_⟩
        have hpos : edgeToElement inputs outputs outputs[z - inputs.length] = z := by
          rw [(pos_output inputs outputs hI hO _ hmem).1, List.indexOf_getElem hO _ hk]
          omega
        have hin : (edgeToElement inputs outputs i,
            edgeToElement inputs outputs outputs[z - inputs.length])
            ∈ unionPairs alnIndex inputs outputs :=
          (mem_unionPairs alnIndex inputs outputs _ _).2 ⟨i, hi.1, _, hmem, hi.2, rfl, rfl⟩
        have := (labels_invariant (unionPairs alnIndex inputs outputs)).2 _ hin
        simp only at this
        rw [this, hpos]
    · rintro ⟨i, hi, rfl⟩
      exact ⟨_, List.mem_range.2 (edgeToElement_holds inputs outputs hI hO i (Or.inl hi)).1, rfl⟩
  · apply List.Nodup.map_on _ hI
    intro i hi i2 hi2 hlab
    have hcls := (class_of_input alnIndex inputs outputs hI hO hpp i2 hi2
      (edgeToElement inputs outputs i)).1 hlab
    have hpi := pos_input inputs outputs hI hO i hi (hpp.1 i hi)
    have hpi2 := pos_input inputs outputs hI hO i2 hi2 (hpp.1 i2 hi2)
    rcases hcls with h | h
    · apply (List.indexOf_inj hi hi2).1
      rw [← hpi.1, ← hpi2.1, h]
    · have hpo := pos_output inputs outputs hI hO _
        (pairedOutput_spec alnIndex inputs outputs hpp i2 hi2).1
      omega

theorem filterMap_eq_map_of_mem {α β : Type} (l : List α) (f : α → Option β) (g : α → β)
    (h : ∀ a ∈ l, f a = some (g a)) : l.filterMap f = l.map g := by
  induction l with
  | nil => rfl
  | cons a l ih =>
    rw [List.filterMap_cons, h a (List.mem_cons_self _ _), List.map_cons,
      ih (fun b hb => h b (List.mem_cons_of_mem _ hb))]

/-- For a perfectly paired candidate the loop over `clusters` pushes, in some order, one
Connection for every input: the one to its paired output. -/
theorem clusters_paired {E : Type} [DecidableEq E] (alnIndex : E → List (GraphAlignment E))
    (inputs outputs : List E) (hI : inputs.Nodup) (hO : outputs.Nodup)
    (hpp : PerfectPairing alnIndex inputs outputs)
    (mapOrder : List (List E) → List (List E)) (hmap : IsMapOrder mapOrder)
    (p : UnbranchingPath E) :
    ((mapOrder (groupBySet (inputs ++ outputs)
        (labelsAfter (unionPairs alnIndex inputs outputs)))).filterMap
      (clusterConnection alnIndex inputs outputs p)).Perm
      (inputs.map (pairedConnection alnIndex outputs p)) := by
  refine ((hmap _).filterMap _).trans ?_
  unfold groupBySet
  refine (((representatives_perm alnIndex inputs outputs hI hO hpp).map _).filterMap _).trans ?_
  rw [List.map_map, List.filterMap_map]
  rw [filterMap_eq_map_of_mem inputs _ (pairedConnection alnIndex outputs p)]
  intro i hi
  simp only [Function.comp]
  rw [cluster_of_input alnIndex inputs outputs hI hO hpp i hi]
  exact clusterConnection_paired alnIndex inputs outputs hpp p i hi

theorem rewire_newEdgeId_count {E : Type} [DecidableEq E]
    (complementPath : GraphPath E → GraphPath E) (l : List (Connection E)) :
    (rewire complementPath l).count GraphOp.newEdgeId = l.length := by
  induction l with
  | nil => rfl
  | cons c l ih =>
    have hcons : rewire complementPath (c :: l)
        = [GraphOp.newEdgeId,
            GraphOp.addEdgeSequence c.readSeq.readId c.readSeq.start c.readSeq.length,
            GraphOp.separatePath c.path false,
            GraphOp.separatePath (complementPath c.path) true] ++ rewire complementPath l := by
      unfold rewire
      rw [List.flatMap_cons]
    rw [hcons, List.count_append, ih]
    simp [List.count_cons]
    omega

theorem rewire_separates {E : Type} (complementPath : GraphPath E → GraphPath E)
    (l : List (Connection E)) (c : Connection E) (hc : c ∈ l) :
    GraphOp.separatePath c.path false ∈ rewire complementPath l ∧
    GraphOp.separatePath (complementPath c.path) true ∈ rewire complementPath l := by
  unfold rewire
  constructor
  · exact List.mem_flatMap.2 ⟨c, hc, by simp⟩
  · exact List.mem_flatMap.2 ⟨c, hc, by simp⟩

/-- Claim C13: `resolveSimpleRepeats` resolves every pair when the read evidence is a
perfect pairing. For a candidate path with the sets `inputs` and `outputs` (of equal size
at least 2) that share no edge, if every input has exactly one output recorded with it at
least `MIN_JCT_SUPPORT` times and every output exactly one such input, then the
Connections pushed for the candidate are, in some order, exactly one
`[input] ++ pathToResolve.path ++ [output]` per input with its paired output, so
`inputs.length` of them; they are counted in the return value, every counted Connection
gets one request for a new edge id, and each of them is passed to `separatePath` with
its complement; this holds for every iteration order of the unordered containers. -/
theorem simple_perfect_pairing {E : Type} [DecidableEq E] (g : RepeatGraph E)
    (complementPath : GraphPath E → GraphPath E) (alnIndex : E → List (GraphAlignment E))
    (setOrder : List E → List E) (mapOrder : List (List E) → List (List E))
    (hset : IsSetOrder setOrder) (hmap : IsMapOrder mapOrder)
    (p : UnbranchingPath E) (inputs outputs : List E)
    (hcand : candidate g setOrder p = some (inputs, outputs))
    (hpp : PerfectPairing alnIndex inputs outputs) :
    2 ≤ inputs.length ∧ outputs.length = inputs.length ∧
    (pathConnections g alnIndex setOrder mapOrder p).Perm
      (inputs.map (pairedConnection alnIndex outputs p)) ∧
    (pathConnections g alnIndex setOrder mapOrder p).length = inputs.length ∧
    (∀ i ∈ inputs, pairedOutput alnIndex outputs i ∈ outputs ∧
      connections alnIndex outputs i (pairedOutput alnIndex outputs i) ≥ MIN_JCT_SUPPORT ∧
      (pairedConnection alnIndex outputs p i).path
        = [i] ++ p.path ++ [pairedOutput alnIndex outputs i]) ∧
    (∀ before after : List (UnbranchingPath E),
      (resolveSimpleRepeats g complementPath alnIndex setOrder mapOrder
          (before ++ p :: after)).returned
        = (resolveSimpleRepeats g complementPath alnIndex setOrder mapOrder before).returned
          + inputs.length
          + (resolveSimpleRepeats g complementPath alnIndex setOrder mapOrder after).returned ∧
      (resolveSimpleRepeats g complementPath alnIndex setOrder mapOrder
          (before ++ p :: after)).operations.count GraphOp.newEdgeId
        = (resolveSimpleRepeats g complementPath alnIndex setOrder mapOrder
          (before ++ p :: after)).returned ∧
      ∀ i ∈ inputs,
        pairedConnection alnIndex outputs p i ∈
          (resolveSimpleRepeats g complementPath alnIndex setOrder mapOrder
            (before ++ p :: after)).resolvedConnections ∧
        GraphOp.separatePath (pairedConnection alnIndex outputs p i).path false ∈
          (resolveSimpleRepeats g complementPath alnIndex setOrder mapOrder
            (before ++ p :: after)).operations ∧
        GraphOp.separatePath (complementPath (pairedConnection alnIndex outputs p i).path) true ∈
          (resolveSimpleRepeats g complementPath alnIndex setOrder mapOrder
            (before ++ p :: after)).operations) := by
  obtain ⟨_, front, back, _, _, _, hI, hO, _, _, hlen, hgt⟩ :=
    candidate_some g setOrder p inputs outputs hcand
  have hIn : inputs.Nodup := by rw [hI]; exact (hset _).1
  have hOn : outputs.Nodup := by rw [hO]; exact (hset _).1
  have hperm : (pathConnections g alnIndex setOrder mapOrder p).Perm
      (inputs.map (pairedConnection alnIndex outputs p)) := by
    unfold pathConnections
    rw [hcand]
    exact clusters_paired alnIndex inputs outputs hIn hOn hpp mapOrder hmap p
  have hcount : (pathConnections g alnIndex setOrder mapOrder p).length = inputs.length := by
    rw [hperm.length_eq, List.length_map]
  refine ⟨hgt, hlen.symm, hperm, hcount, ?_, ?_⟩
  · intro i hi
    obtain ⟨h1, h2⟩ := pairedOutput_spec alnIndex inputs outputs hpp i hi
    exact ⟨h1, h2, rfl⟩
  · intro before after
    have hres : (resolveSimpleRepeats g complementPath alnIndex setOrder mapOrder
          (before ++ p :: after)).resolvedConnections
        = (resolveSimpleRepeats g complementPath alnIndex setOrder mapOrder
            before).resolvedConnections
          ++ (pathConnections g alnIndex setOrder mapOrder p
          ++ (resolveSimpleRepeats g complementPath alnIndex setOrder mapOrder
            after).resolvedConnections) := by
      unfold resolveSimpleRepeats
      simp only [List.flatMap_append, List.flatMap_cons]
    refine ⟨?_, ?_, ?_⟩
    · show (resolveSimpleRepeats g complementPath alnIndex setOrder mapOrder
          (before ++ p :: after)).resolvedConnections.length = _
      rw [hres, List.length_append, List.length_append, hcount]
      show _ = (resolveSimpleRepeats g complementPath alnIndex setOrder mapOrder
          before).resolvedConnections.length + inputs.length
        + (resolveSimpleRepeats g complementPath alnIndex setOrder mapOrder
          after).resolvedConnections.length
      omega
    · show (rewire complementPath _ ++ [GraphOp.updateAlignments]).count GraphOp.newEdgeId = _
      have h0 : ([GraphOp.updateAlignments] : List (GraphOp E)).count GraphOp.newEdgeId = 0 := by
        simp [List.count_cons]
      rw [List.count_append, rewire_newEdgeId_count, h0]
      rfl
    · intro i hi
      have hmem : pairedConnection alnIndex outputs p i ∈
          (resolveSimpleRepeats g complementPath alnIndex setOrder mapOrder
            (before ++ p :: after)).resolvedConnections := by
        rw [hres]
        apply List.mem_append_right
        apply List.mem_append_left
        exact hperm.symm.subset (List.mem_map.2 ⟨i, hi, rfl⟩)
      obtain ⟨h1, h2⟩ := rewire_separates complementPath _ _ hmem
      exact ⟨hmem, List.mem_append_left _ h1, List.mem_append_left _ h2⟩

/-! ### `resolveConnections`: the selected Connection is the median -/

/-- What a step of the emit loop that selects a Connection has gone through. -/
theorem emitStep_selected_cases {E : Type} (g : RepeatGraph E)
    (connections : List (Connection E))
    (sortConns : List (Connection E) → List (Connection E)) (tg : TransitionGraph)
    (mate : Nat → Option Nat) (minSup : ℚ) (st : EmitState E) (n : Nat) :
    (emitStep g connections sortConns tg mate minSup st n).uniqueConnections
        = st.uniqueConnections ∨
    ∃ m l r c, mate n = some m ∧ tg.lemonToAsm[n]? = some l ∧ tg.lemonToAsm[m]? = some r ∧
      l ∉ st.usedEdges ∧
      belowFloor (pairSupport tg n m) (tg.leftCoverage l + tg.rightCoverage r) minSup = false ∧
      (sortConns (spanning g connections l r))[(spanning g connections l r).length / 2]?
        = some c ∧
      (emitStep g connections sortConns tg mate minSup st n).uniqueConnections
        = st.uniqueConnections ++ [c] := by
  unfold emitStep pairSupport
  cases hm : mate n with
  | none => left; rfl
  | some m =>
    simp only
    cases hl : tg.lemonToAsm[n]? with
    | none => left; rfl
    | some l =>
      cases hr : tg.lemonToAsm[m]? with
      | none => left; rfl
      | some r =>
        simp only
        by_cases hused : l ∈ st.usedEdges
        · rw [if_pos hused]
          left; rfl
        · rw [if_neg hused]
          cases hfl : belowFloor (match getEdge tg.edges n m with
              | some e => e.2.2
              | none => 0) (tg.leftCoverage l + tg.rightCoverage r) minSup with
          | true => left; rfl
          | false =>
            simp only [Bool.false_eq_true, if_false]
            split
            · left; rfl
            · split
              · rename_i c hc
                right
                exact ⟨m, l, r, c, rfl, by first | exact hl | rfl, hr, hused, hfl, hc, rfl⟩
              · left; rfl

theorem emit_fold_selected {E : Type} (g : RepeatGraph E) (connections : List (Connection E))
    (sortConns : List (Connection E) → List (Connection E)) (tg : TransitionGraph)
    (mate : Nat → Option Nat) (minSup : ℚ) (order : List Nat) (st : EmitState E) :
    ∀ c ∈ (order.foldl (emitStep g connections sortConns tg mate minSup) st).uniqueConnections,
      c ∈ st.uniqueConnections ∨
      ∃ n m l r, n ∈ order ∧ mate n = some m ∧ tg.lemonToAsm[n]? = some l ∧
        tg.lemonToAsm[m]? = some r ∧
        belowFloor (pairSupport tg n m) (tg.leftCoverage l + tg.rightCoverage r) minSup
          = false ∧
        (sortConns (spanning g connections l r))[(spanning g connections l r).length / 2]?
          = some c := by
  induction order generalizing st with
  | nil => intro c hc; exact Or.inl hc
  | cons n rest ih =>
    intro c hc
    rw [List.foldl_cons] at hc
    rcases ih _ c hc with h | ⟨n2, m, l, r, hn2, h⟩
    · rcases emitStep_selected_cases g connections sortConns tg mate minSup st n with
        heq | ⟨m, l, r, c2, hm, hl, hr, _, hfl, hc2, heq⟩
      · rw [heq] at h; exact Or.inl h
      · rw [heq] at h
        rcases List.mem_append.1 h with h | h
        · exact Or.inl h
        · rw [List.mem_singleton] at h
          subst h
          exact Or.inr ⟨n, m, l, r, List.mem_cons_self _ _, hm, hl, hr, hfl, hc2⟩
    · exact Or.inr ⟨n2, m, l, r, List.mem_cons_of_mem _ hn2, h⟩

/-- In a list sorted by `len`, at most `k` elements are strictly below the element at
index `k` and at most `length - 1 - k` strictly above it. -/
theorem sorted_index_counts {α : Type} (len : α → Int) (s : List α)
    (hs : s.Sorted (fun c d => len c ≤ len d)) (k : Nat) (c : α) (hk : s[k]? = some c) :
    (s.filter (fun d => decide (len d < len c))).length ≤ k ∧
    (s.filter (fun d => decide (len c < len d))).length ≤ s.length - 1 - k := by
  obtain ⟨hlt, hget⟩ := List.getElem?_eq_some.1 hk
  have hsplit : s = s.take k ++ c :: s.drop (k + 1) := by
    rw [← hget]
    exact (List.take_append_drop k s).symm.trans (by rw [List.drop_eq_getElem_cons hlt])
  have hs2 : (s.take k ++ c :: s.drop (k + 1)).Pairwise (fun c d => len c ≤ len d) := by
    rw [← hsplit]; exact hs
  rw [List.pairwise_append, List.pairwise_cons] at hs2
  obtain ⟨_, ⟨hdrop, _⟩, hcross⟩ := hs2
  have hlow : (c :: s.drop (k + 1)).filter (fun d => decide (len d < len c)) = [] := by
    rw [List.filter_eq_nil_iff]
    intro d hd
    rw [decide_eq_true_eq, not_lt]
    rcases List.mem_cons.1 hd with h | h
    · rw [h]
    · exact hdrop d h
  have hhigh : (s.take k).filter (fun d => decide (len c < len d)) = [] := by
    rw [List.filter_eq_nil_iff]
    intro d hd
    rw [decide_eq_true_eq, not_lt]
    exact hcross d hd c (List.mem_cons_self _ _)
  have htake : (s.take k).length = k := by
    rw [List.length_take]; omega
  have hdroplen : (s.drop (k + 1)).length = s.length - 1 - k := by
    rw [List.length_drop]; omega
  constructor
  · have h1 : (s.filter (fun d => decide (len d < len c))).length
        = ((s.take k).filter (fun d => decide (len d < len c))).length := by
      conv_lhs => rw [hsplit]
      rw [List.filter_append, hlow, List.append_nil]
    rw [h1]
    exact (List.length_filter_le _ _).trans (le_of_eq htake)
  · have h1 : (s.filter (fun d => decide (len c < len d))).length
        = ((s.drop (k + 1)).filter (fun d => decide (len c < len d))).length := by
      conv_lhs => rw [hsplit]
      rw [List.filter_append, hhigh, List.nil_append, List.filter_cons]
      simp
    rw [h1]
    exact (List.length_filter_le _ _).trans (le_of_eq hdroplen)

/-- The facts about the element at index `n / 2` of the sorted spanning set, stated on
the spanning set itself. -/
theorem median_of_sorted {E : Type} (sortConns : List (Connection E) → List (Connection E))
    (hsort : IsLengthSort sortConns) (sp : List (Connection E)) (c : Connection E)
    (hc : (sortConns sp)[sp.length / 2]? = some c) :
    c ∈ sp ∧
    ((sp.map (fun d => d.readSeq.length)).insertionSort (fun a b => a ≤ b))[sp.length / 2]?
      = some c.readSeq.length ∧
    (sp.filter (fun d => decide (d.readSeq.length < c.readSeq.length))).length
      ≤ sp.length / 2 ∧
    (sp.filter (fun d => decide (c.readSeq.length < d.readSeq.length))).length
      ≤ sp.length - 1 - sp.length / 2 := by
  obtain ⟨hperm, hsorted⟩ := hsort sp
  obtain ⟨h1, h2⟩ := sorted_index_counts (fun d => d.readSeq.length) (sortConns sp) hsorted
    (sp.length / 2) c hc
  refine ⟨hperm.subset (List.getElem?_mem hc), ?_, ?_, ?_⟩
  · have hmapsorted : ((sortConns sp).map (fun d => d.readSeq.length)).Sorted
        (fun a b => a ≤ b) := by
      unfold List.Sorted
      rw [List.pairwise_map]
      exact hsorted
    have hmapperm : ((sortConns sp).map (fun d => d.readSeq.length)).Perm
        ((sp.map (fun d => d.readSeq.length)).insertionSort (fun a b => a ≤ b)) :=
      (hperm.map _).trans (List.perm_insertionSort _ _).symm
    have heq := List.eq_of_perm_of_sorted hmapperm hmapsorted
      (List.sorted_insertionSort (fun a b : Int => a ≤ b) _)
    rw [← heq, List.getElem?_map, hc]
    rfl
  · rw [← (hperm.filter _).length_eq]
    exact h1
  · rw [← (hperm.filter _).length_eq]
    rw [hperm.length_eq] at h2
    exact h2

theorem sortByLength_isLengthSort {E : Type} :
    IsLengthSort (sortByLength : List (Connection E) → List (Connection E)) := by
  intro l
  refine ⟨List.perm_insertionSort _ l, ?_⟩
  haveI : IsTotal (Connection E) (fun c d => c.readSeq.length ≤ d.readSeq.length) :=
    ⟨fun a b => le_total _ _⟩
  haveI : IsTrans (Connection E) (fun c d => c.readSeq.length ≤ d.readSeq.length) :=
    ⟨fun a b c h1 h2 => le_trans h1 h2⟩
  exact List.sorted_insertionSort _ l

/-- Claim C21: the Connection that `resolveConnections` selects for a matched pair that
passes the confidence floor is the median of the pair's spanning set. When `std::sort`
sorts by ascending `readSeq.length()`, every selected Connection belongs to a visited
matched pair that passed the floor, is a member of the pair's spanning set, its
`readSeq.length()` is the element at index `n / 2` of the spanning set's lengths sorted
ascending (`n` the size of the spanning set), at most `n / 2` spanning Connections are
strictly shorter and at most `n - 1 - n / 2` strictly longer. -/
theorem selected_is_median {E : Type} (g : RepeatGraph E)
    (complementPath : GraphPath E → GraphPath E)
    (sortConns : List (Connection E) → List (Connection E))
    (mate : Nat → Option Nat) (order : List Nat) (connections : List (Connection E))
    (minSup : ℚ) (hsort : IsLengthSort sortConns) (c : Connection E)
    (hc : c ∈ (resolveConnections g complementPath sortConns mate order connections
      minSup).emitted.uniqueConnections) :
    ∃ n m l r, n ∈ order ∧ mate n = some m ∧
      (buildTransitions g connections).lemonToAsm[n]? = some l ∧
      (buildTransitions g connections).lemonToAsm[m]? = some r ∧
      belowFloor (pairSupport (buildTransitions g connections) n m)
        ((buildTransitions g connections).leftCoverage l +
          (buildTransitions g connections).rightCoverage r) minSup = false ∧
      c ∈ spanning g connections l r ∧
      (((spanning g connections l r).map (fun d => d.readSeq.length)).insertionSort
        (fun a b => a ≤ b))[(spanning g connections l r).length / 2]?
        = some c.readSeq.length ∧
      ((spanning g connections l r).filter
        (fun d => decide (d.readSeq.length < c.readSeq.length))).length
        ≤ (spanning g connections l r).length / 2 ∧
      ((spanning g connections l r).filter
        (fun d => decide (c.readSeq.length < d.readSeq.length))).length
        ≤ (spanning g connections l r).length - 1 - (spanning g connections l r).length / 2 := by
  rcases emit_fold_selected g connections sortConns (buildTransitions g connections) mate minSup
    order ⟨[], [], 0⟩ c hc with h | ⟨n, m, l, r, hn, hm, hl, hr, hfl, hidx⟩
  · simp at h
  · obtain ⟨h1, h2, h3, h4⟩ := median_of_sorted sortConns hsort _ c hidx
    exact ⟨n, m, l, r, hn, hm, hl, hr, hfl, h1, h2, h3, h4⟩

/-! ### `clearResolvedRepeats`: only justified nodes are removed -/

theorem mem_insertNode (toRemove : List Nat) (node x : Nat) :
    x ∈ insertNode toRemove node ↔ x ∈ toRemove ∨ x = node := by
  unfold insertNode
  by_cases h : node ∈ toRemove
  · rw [if_pos h]
    constructor
    · intro hx; exact Or.inl hx
    · rintro (hx | hx)
      · exact hx
      · rw [hx]; exact h
  · rw [if_neg h, List.mem_append, List.mem_singleton]

theorem insertNode_all (P : Nat → Prop) (toRemove : List Nat) (node : Nat)
    (hr : ∀ y ∈ toRemove, P y) (hn : P node) : ∀ y ∈ insertNode toRemove node, P y := by
  intro y hy
  rcases (mem_insertNode toRemove node y).1 hy with h | h
  · exact hr y h
  · rw [h]; exact hn

theorem nextEdge_spec {E : Type} (view : GraphView E) (node : Nat) (e : E)
    (h : nextEdge view node = some e) :
    e ∈ view.graph.outEdges node ∧ view.isLooped e = false := by
  unfold nextEdge at h
  refine ⟨List.mem_of_find?_eq_some h, ?_⟩
  have := List.find?_some h
  simpa using this

theorem traverse_follows {E : Type} (view : GraphView E) :
    ∀ (fuel curNode : Nat) (traversed result : GraphPath E) (last : Nat),
      traverse view fuel curNode traversed = some (result, last) →
      ∃ rest, result = traversed ++ rest ∧ Follows view curNode rest last := by
  intro fuel
  induction fuel with
  | zero => intro curNode traversed result last h; simp [traverse] at h
  | succ fuel ih =>
    intro curNode traversed result last h
    rw [traverse] at h
    cases hres : view.isResolved curNode with
    | false =>
      rw [hres] at h
      simp only [Bool.false_eq_true, if_false, Option.some.injEq, Prod.mk.injEq] at h
      refine ⟨[], by rw [List.append_nil]; exact h.1.symm, ?_⟩
      rw [← h.2]
      exact Follows.stop curNode hres
    | true =>
      rw [hres] at h
      simp only [if_true] at h
      cases hnext : nextEdge view curNode with
      | none => rw [hnext] at h; exact Option.noConfusion h
      | some e =>
        rw [hnext] at h
        obtain ⟨rest, hrest, hfol⟩ := ih _ _ _ _ h
        refine ⟨e :: rest, ?_, Follows.step curNode e rest last hres hnext hfol⟩
        rw [hrest, List.append_assoc]
        rfl

theorem rangeFold_all {β : Type} (P : Nat → Prop) (f : List Nat → β → List Nat)
    (Q : β → Prop) (hf : ∀ r i, (∀ y ∈ r, P y) → Q i → ∀ y ∈ f r i, P y) (l : List β) :
    ∀ r, (∀ y ∈ r, P y) → (∀ i ∈ l, Q i) → ∀ y ∈ l.foldl f r, P y := by
  induction l with
  | nil => intro r hr _; exact hr
  | cons a l ih =>
    intro r hr hl
    rw [List.foldl_cons]
    exact ih _ (hf r a hr (hl a (List.mem_cons_self _ _)))
      (fun i hi => hl i (List.mem_cons_of_mem _ hi))

theorem removeChain_all {E : Type} (P : Nat → Prop) (view : GraphView E)
    (traversed complPath : GraphPath E) (removeLast : Bool) (toRemove : List Nat)
    (hR : ∀ y ∈ toRemove, P y)
    (hchain : ∀ x, ChainNode view traversed complPath removeLast x → P x) :
    ∀ y ∈ removeChain view traversed complPath removeLast toRemove, P y := by
  have s1 : ∀ y ∈ (match traversed.head? with
      | some e => insertNode toRemove (view.graph.nodeLeft e)
      | none => toRemove), P y := by
    cases h : traversed.head? with
    | none => exact hR
    | some e => exact insertNode_all P _ _ hR (hchain _ (Or.inl ⟨e, h, rfl⟩))
  have s2 : ∀ r, (∀ y ∈ r, P y) → ∀ y ∈ (match removeLast, complPath.head? with
      | true, some e => insertNode r (view.graph.nodeLeft e)
      | _, _ => r), P y := by
    intro r hr
    cases hl : removeLast with
    | false => exact hr
    | true =>
      cases h : complPath.head? with
      | none => exact hr
      | some e =>
        exact insertNode_all P _ _ hr (hchain _ (Or.inr (Or.inl ⟨hl, e, h, rfl⟩)))
  have s3 : ∀ r, (∀ y ∈ r, P y) → ∀ y ∈ (List.range (traversed.length - 1)).foldl
      (fun r i =>
        let ra := match traversed[i]? with
          | some e => insertNode r (view.graph.nodeRight e)
          | none => r
        match complPath[i]? with
        | some e => insertNode ra (view.graph.nodeRight e)
        | none => ra) r, P y := by
    intro r hr
    apply rangeFold_all P _ (fun i => i < traversed.length - 1) _ _ r hr
      (fun i hi => List.mem_range.1 hi)
    intro r2 i hr2 hi
    have ha : ∀ y ∈ (match traversed[i]? with
        | some e => insertNode r2 (view.graph.nodeRight e)
        | none => r2), P y := by
      cases h : traversed[i]? with
      | none => exact hr2
      | some e =>
        exact insertNode_all P _ _ hr2 (hchain _ (Or.inr (Or.inr (Or.inl ⟨i, e, hi, h, rfl⟩))))
    cases h : complPath[i]? with
    | none => exact ha
    | some e =>
      exact insertNode_all P _ _ ha
        (hchain _ (Or.inr (Or.inr (Or.inr (Or.inl ⟨i, e, hi, h, rfl⟩)))))
  have s4 : ∀ r, (∀ y ∈ r, P y) → ∀ y ∈ (match removeLast, traversed.getLast? with
      | true, some e => insertNode r (view.graph.nodeRight e)
      | _, _ => r), P y := by
    intro r hr
    cases hl : removeLast with
    | false => exact hr
    | true =>
      cases h : traversed.getLast? with
      | none => exact hr
      | some e =>
        exact insertNode_all P _ _ hr
          (hchain _ (Or.inr (Or.inr (Or.inr (Or.inr (Or.inl ⟨hl, e, h, rfl⟩))))))
  have s5 : ∀ r, (∀ y ∈ r, P y) → ∀ y ∈ (match complPath.getLast? with
      | some e => insertNode r (view.graph.nodeRight e)
      | none => r), P y := by
    intro r hr
    cases h : complPath.getLast? with
    | none => exact hr
    | some e =>
      exact insertNode_all P _ _ hr
        (hchain _ (Or.inr (Or.inr (Or.inr (Or.inr (Or.inr ⟨e, h, rfl⟩))))))
  exact s5 _ (s4 _ (s3 _ (s2 _ s1)))

theorem scanNode_justified {E : Type} (view : GraphView E)
    (complementPath : GraphPath E → GraphPath E) (fuel : Nat) (toRemove result : List Nat)
    (node : Nat) (hnode : node ∈ view.graph.iterNodes)
    (hR : ∀ y ∈ toRemove, Justified view complementPath y)
    (h : scanNode view complementPath fuel toRemove node = some result) :
    ∀ y ∈ result, Justified view complementPath y := by
  have h1 : ∀ y ∈ (if ((view.neighbors node).isEmpty &&
      (view.graph.outEdges node).all (shouldRemove view)) = true
      then insertNode toRemove node else toRemove), Justified view complementPath y := by
    by_cases hcond : ((view.neighbors node).isEmpty &&
        (view.graph.outEdges node).all (shouldRemove view)) = true
    · rw [if_pos hcond]
      rw [Bool.and_eq_true, List.all_eq_true] at hcond
      exact insertNode_all _ _ _ hR (Or.inl ⟨hcond.1, fun e he => hcond.2 e he⟩)
    · rw [if_neg hcond]
      exact hR
  unfold scanNode at h
  simp only at h
  generalize (if ((view.neighbors node).isEmpty &&
      (view.graph.outEdges node).all (shouldRemove view)) = true
      then insertNode toRemove node else toRemove) = R1 at h h1
  cases hend : view.isEnd node with
  | false =>
    rw [hend] at h
    simp only [Bool.not_false, if_true, Option.some.injEq] at h
    rw [← h]; exact h1
  | true =>
    rw [hend] at h
    simp only [Bool.not_true, Bool.false_eq_true, if_false] at h
    cases hnext : nextEdge view node with
    | none =>
      rw [hnext] at h
      simp only [Option.some.injEq] at h
      rw [← h]; exact h1
    | some direction =>
      rw [hnext] at h
      simp only at h
      cases htr : traverse view fuel (view.graph.nodeRight direction) [direction] with
      | none => rw [htr] at h; exact Option.noConfusion h
      | some tc =>
        obtain ⟨traversed, curNode⟩ := tc
        rw [htr] at h
        simp only at h
        obtain ⟨rest, hrest, hfol⟩ := traverse_follows view _ _ _ _ _ htr
        by_cases hall : traversed.all (shouldRemove view) = true
        · rw [if_pos hall, Option.some.injEq] at h
          rw [← h]
          apply removeChain_all _ view traversed (complementPath traversed) _ R1 h1
          intro x hx
          right
          rw [hrest] at hx hall
          rw [List.all_eq_true] at hall
          exact ⟨node, hnode, direction, rest, curNode, hend, hnext, hfol,
            fun e he => hall e he, hx⟩
        · rw [if_neg hall, Option.some.injEq] at h
          rw [← h]; exact h1

theorem nodesToRemove_justified {E : Type} (view : GraphView E)
    (complementPath : GraphPath E → GraphPath E) (fuel : Nat) (l : List Nat) :
    ∀ (toRemove result : List Nat), (∀ n ∈ l, n ∈ view.graph.iterNodes) →
      (∀ y ∈ toRemove, Justified view complementPath y) →
      l.foldlM (scanNode view complementPath fuel) toRemove = some result →
      ∀ y ∈ result, Justified view complementPath y := by
  induction l with
  | nil =>
    intro toRemove result _ hR h
    have : toRemove = result := Option.some.inj h
    rw [← this]; exact hR
  | cons a l ih =>
    intro toRemove result hl hR h
    rw [List.foldlM_cons] at h
    cases hs : scanNode view complementPath fuel toRemove a with
    | none => rw [hs] at h; exact Option.noConfusion h
    | some R1 =>
      rw [hs] at h
      exact ih R1 result (fun n hn => hl n (List.mem_cons_of_mem _ hn))
        (scanNode_justified view complementPath fuel toRemove R1 a
          (hl a (List.mem_cons_self _ _)) hR hs) h

theorem scanNode_unresolved {E : Type} (view : GraphView E)
    (complementPath : GraphPath E → GraphPath E) (fuel : Nat) (toRemove : List Nat)
    (node : Nat) (direction : E) (traversed : GraphPath E) (curNode : Nat)
    (hend : view.isEnd node = true) (hnext : nextEdge view node = some direction)
    (htr : traverse view fuel (view.graph.nodeRight direction) [direction]
      = some (traversed, curNode))
    (hsome : ∃ e ∈ traversed, view.graph.resolved e = false) :
    scanNode view complementPath fuel toRemove node
      = some (if ((view.neighbors node).isEmpty &&
          (view.graph.outEdges node).all (shouldRemove view)) = true
          then insertNode toRemove node else toRemove) := by
  have hall : traversed.all (shouldRemove view) = false := by
    obtain ⟨e, he, hres⟩ := hsome
    rw [List.all_eq_false]
    exact ⟨e, he, by simp [shouldRemove, hres]⟩
  unfold scanNode
  simp only [hend, Bool.not_true, Bool.false_eq_true, if_false, hnext, htr, hall]

/-- Claim C22: `clearResolvedRepeats` removes only nodes justified by resolved edges.
When it returns, every node passed to `removeNode` either has no neighbours and only
resolved outgoing edges, or is a node of the chain of a traversal that starts with
`nextEdge` at an end node, follows `nextEdge` (an outgoing edge that is not looped)
through resolved nodes and consists of resolved edges only; in such a chain the right node
of the last edge and the left node of the first edge of the complement are there only if
the node at which the traversal stops is an end node. A traversal that holds an edge that
is not resolved inserts nothing: the scan of its start node leaves `toRemove` as the
test for separated nodes left it. -/
theorem removes_only_justified {E : Type} (view : GraphView E)
    (complementPath : GraphPath E → GraphPath E) (operations : List (GraphOp E))
    (h : clearResolvedRepeats view complementPath = some operations) :
    (∀ node, GraphOp.removeNode node ∈ operations → Justified view complementPath node) ∧
    (∀ node e, nextEdge view node = some e →
      e ∈ view.graph.outEdges node ∧ view.isLooped e = false) ∧
    (∀ (fuel : Nat) (toRemove : List Nat) (node : Nat) (direction : E)
      (traversed : GraphPath E) (curNode : Nat),
      view.isEnd node = true → nextEdge view node = some direction →
      traverse view fuel (view.graph.nodeRight direction) [direction]
        = some (traversed, curNode) →
      (∃ e ∈ traversed, view.graph.resolved e = false) →
      scanNode view complementPath fuel toRemove node
        = some (if ((view.neighbors node).isEmpty &&
            (view.graph.outEdges node).all (shouldRemove view)) = true
            then insertNode toRemove node else toRemove)) := by
  refine ⟨?_, fun node e hn => nextEdge_spec view node e hn,
    fun fuel toRemove node direction traversed curNode hend hnext htr hsome =>
      scanNode_unresolved view complementPath fuel toRemove node direction traversed curNode
        hend hnext htr hsome⟩
  intro node hmem
  unfold clearResolvedRepeats at h
  cases hn : nodesToRemove view complementPath with
  | none => rw [hn] at h; exact Option.noConfusion h
  | some toRemove =>
    rw [hn] at h
    simp only [Option.map_some', Option.some.injEq] at h
    rw [← h] at hmem
    have hin : node ∈ toRemove := by
      rcases List.mem_append.1 hmem with hm | hm
      · obtain ⟨x, hx, hxe⟩ := List.mem_map.1 hm
        cases hxe
        exact hx
      · rw [List.mem_singleton] at hm
        exact GraphOp.noConfusion hm
    unfold nodesToRemove at hn
    exact nodesToRemove_justified view complementPath _ _ [] toRemove (fun _ hx => hx)
      (fun y hy => absurd hy (List.not_mem_nil y)) hn node hin

/-! ### `resolveConnections`: edge weights and coverage counters as counts -/

theorem joins_same (n1 n2 a b : Nat) (e : Nat × Nat × Int)
    (h : (a = n1 ∧ b = n2) ∨ (a = n2 ∧ b = n1)) : joins a b e = joins n1 n2 e := by
  rcases h with ⟨rfl, rfl⟩ | ⟨rfl, rfl⟩
  · rfl
  · unfold joins
    rw [Bool.or_comm]

theorem joins_both (n1 n2 a b : Nat) (e : Nat × Nat × Int) (h1 : joins n1 n2 e = true)
    (h2 : joins a b e = true) : (a = n1 ∧ b = n2) ∨ (a = n2 ∧ b = n1) := by
  unfold joins at h1 h2
  simp only [Bool.or_eq_true, Bool.and_eq_true, decide_eq_true_eq] at h1 h2
  omega

theorem getEdge_increment (n1 n2 a b : Nat) (edges : List (Nat × Nat × Int)) :
    getEdge (incrementEdge n1 n2 edges) a b
      = if (a = n1 ∧ b = n2) ∨ (a = n2 ∧ b = n1)
        then (getEdge edges a b).map (fun e => (e.1, e.2.1, e.2.2 + 1))
        else getEdge edges a b := by
  unfold getEdge
  induction edges with
  | nil => simp [incrementEdge]
  | cons e rest ih =>
    rw [incrementEdge]
    by_cases hsame : (a = n1 ∧ b = n2) ∨ (a = n2 ∧ b = n1)
    · rw [if_pos hsame] at ih ⊢
      have hj : ∀ e2 : Nat × Nat × Int, joins a b e2 = joins n1 n2 e2 :=
        fun e2 => joins_same n1 n2 a b e2 hsame
      cases hje : joins n1 n2 e with
      | true =>
        simp only [if_true]
        have h1 : joins a b (e.1, e.2.1, e.2.2 + 1) = true := by
          rw [hj]; unfold joins at hje ⊢; exact hje
        rw [List.find?_cons, h1, List.find?_cons, hj e, hje]
        rfl
      | false =>
        simp only [Bool.false_eq_true, if_false]
        rw [List.find?_cons, hj e, hje, List.find?_cons, hj e, hje]
        exact ih
    · rw [if_neg hsame] at ih ⊢
      cases hje : joins n1 n2 e with
      | true =>
        simp only [if_true]
        have h0 : joins a b e = false := by
          cases hab : joins a b e with
          | false => rfl
          | true => exact absurd (joins_both n1 n2 a b e hje hab) hsame
        have h1 : joins a b (e.1, e.2.1, e.2.2 + 1) = false := by
          unfold joins at h0 ⊢; exact h0
        rw [List.find?_cons, h1, List.find?_cons, h0]
      | false =>
        simp only [Bool.false_eq_true, if_false]
        rw [List.find?_cons, List.find?_cons, ih]

theorem increment_append_none (n1 n2 : Nat) (w : Int) (edges : List (Nat × Nat × Int))
    (h : getEdge edges n1 n2 = none) :
    incrementEdge n1 n2 (edges ++ [(n1, n2, w)]) = edges ++ [(n1, n2, w + 1)] := by
  unfold getEdge at h
  induction edges with
  | nil =>
    have hj : joins n1 n2 (n1, n2, w) = true := by simp [joins]
    simp [incrementEdge, hj]
  | cons e rest ih =>
    rw [List.find?_cons] at h
    cases hje : joins n1 n2 e with
    | true => rw [hje] at h; exact Option.noConfusion h
    | false =>
      rw [hje] at h
      rw [List.cons_append, incrementEdge, hje]
      simp only [Bool.false_eq_true, if_false]
      rw [ih h, List.cons_append]

theorem incrementEdge_mem (n1 n2 : Nat) (edges : List (Nat × Nat × Int))
    (e2 : Nat × Nat × Int) (h : e2 ∈ incrementEdge n1 n2 edges) :
    ∃ e ∈ edges, e2.1 = e.1 ∧ e2.2.1 = e.2.1 ∧ e.2.2 ≤ e2.2.2 := by
  induction edges with
  | nil => simp [incrementEdge] at h
  | cons e rest ih =>
    rw [incrementEdge] at h
    by_cases hje : joins n1 n2 e = true
    · rw [if_pos hje] at h
      rcases List.mem_cons.1 h with h | h
      · refine ⟨e, List.mem_cons_self _ _, ?_, ?_, ?_⟩
        · rw [h]
        · rw [h]
        · rw [h]; show e.2.2 ≤ e.2.2 + 1; omega
      · exact ⟨e2, List.mem_cons_of_mem _ h, rfl, rfl, le_refl _⟩
    · rw [if_neg hje] at h
      rcases List.mem_cons.1 h with h | h
      · exact ⟨e, List.mem_cons_self _ _, by rw [h], by rw [h], by rw [h]⟩
      · obtain ⟨e3, he3, h3⟩ := ih h
        exact ⟨e3, List.mem_cons_of_mem _ he3, h3⟩

/-- The weight found between two nodes after the last statements of the build loop for
the nodes `n1` and `n2`: one more between `n1` and `n2`, unchanged elsewhere. -/
theorem pairSupport_bump (tg tg2 : TransitionGraph) (n1 n2 : Nat)
    (h : tg2.edges = bumpEdge tg.edges n1 n2) (a b : Nat) :
    pairSupport tg2 a b
      = pairSupport tg a b + if (a = n1 ∧ b = n2) ∨ (a = n2 ∧ b = n1) then 1 else 0 := by
  unfold pairSupport bumpEdge at *
  rw [h]
  cases hfound : getEdge tg.edges n1 n2 with
  | none =>
    simp only [Option.isSome_none, Bool.false_eq_true, if_false]
    have hinc : incrementEdge n1 n2 (tg.edges ++ [(n1, n2, 0)]) = tg.edges ++ [(n1, n2, 1)] := by
      rw [increment_append_none n1 n2 0 tg.edges hfound]
      rfl
    rw [hinc]
    by_cases hsame : (a = n1 ∧ b = n2) ∨ (a = n2 ∧ b = n1)
    · rw [if_pos hsame]
      have hj : joins a b = joins n1 n2 := funext (fun e2 => joins_same n1 n2 a b e2 hsame)
      have hold : getEdge tg.edges a b = none := by
        unfold getEdge at hfound ⊢
        rw [hj]; exact hfound
      have hnew : getEdge (tg.edges ++ [(n1, n2, 1)]) a b = some (n1, n2, 1) := by
        unfold getEdge at hold ⊢
        rw [List.find?_append, hold, hj]
        have hjn : joins n1 n2 (n1, n2, 1) = true := by simp [joins]
        rw [List.find?_cons, hjn]
        rfl
      rw [hnew, hold]
      rfl
    · rw [if_neg hsame]
      have hnew : getEdge (tg.edges ++ [(n1, n2, 1)]) a b = getEdge tg.edges a b := by
        unfold getEdge
        rw [List.find?_append]
        have hjn : joins a b (n1, n2, 1) = false := by
          cases hab : joins a b (n1, n2, 1) with
          | false => rfl
          | true =>
            exact absurd (joins_both n1 n2 a b _ (by simp [joins]) hab) hsame
        rw [List.find?_cons, hjn]
        cases List.find? (joins a b) tg.edges <;> rfl
      rw [hnew, add_zero]
  | some e0 =>
    simp only [Option.isSome_some, if_true]
    rw [getEdge_increment]
    by_cases hsame : (a = n1 ∧ b = n2) ∨ (a = n2 ∧ b = n1)
    · rw [if_pos hsame, if_pos hsame]
      have hj : joins a b = joins n1 n2 := funext (fun e2 => joins_same n1 n2 a b e2 hsame)
      have hold : getEdge tg.edges a b = some e0 := by
        unfold getEdge at hfound ⊢
        rw [hj]; exact hfound
      rw [hold]
      rfl
    · rw [if_neg hsame, if_neg hsame, add_zero]

theorem bump_range (edges : List (Nat × Nat × Int)) (n1 n2 N : Nat)
    (hR : ∀ e ∈ edges, e.1 < N ∧ e.2.1 < N ∧ 1 ≤ e.2.2) (h1 : n1 < N) (h2 : n2 < N) :
    ∀ e ∈ bumpEdge edges n1 n2, e.1 < N ∧ e.2.1 < N ∧ 1 ≤ e.2.2 := by
  intro e he
  unfold bumpEdge at he
  cases hfound : getEdge edges n1 n2 with
  | none =>
    rw [hfound] at he
    simp only [Option.isSome_none, Bool.false_eq_true, if_false] at he
    rw [increment_append_none n1 n2 0 edges hfound] at he
    rcases List.mem_append.1 he with h | h
    · exact hR e h
    · rw [List.mem_singleton] at h
      rw [h]
      exact ⟨h1, h2, le_of_eq (zero_add (1 : Int)).symm⟩
  | some e0 =>
    rw [hfound] at he
    simp only [Option.isSome_some, if_true] at he
    obtain ⟨e3, he3, ha, hb, hw⟩ := incrementEdge_mem n1 n2 edges e he
    obtain ⟨r1, r2, r3⟩ := hR e3 he3
    exact ⟨by omega, by omega, by omega⟩

theorem ensureNode_fields (tg : TransitionGraph) (i : Id) :
    (tg.ensureNode i).edges = tg.edges ∧ (tg.ensureNode i).leftCoverage = tg.leftCoverage ∧
    (tg.ensureNode i).rightCoverage = tg.rightCoverage ∧
    ∃ ext, (tg.ensureNode i).lemonToAsm = tg.lemonToAsm ++ ext := by
  unfold TransitionGraph.ensureNode
  by_cases h : i ∈ tg.lemonToAsm
  · rw [if_pos h]
    exact ⟨rfl, rfl, rfl, [], (List.append_nil _).symm⟩
  · rw [if_neg h]
    exact ⟨rfl, rfl, rfl, [i], rfl⟩

/-- The build loop for a Connection that is not skipped, field by field. -/
theorem addConnection_counted {E : Type} (g : RepeatGraph E) (tg : TransitionGraph)
    (c : Connection E) (f b : Id) (ha : anchors g c = some (f, b))
    (hns : ¬ (f = b ∨ f = b.rc)) :
    (∃ ext, (addConnection g tg c).lemonToAsm = tg.lemonToAsm ++ ext) ∧
    f ∈ (addConnection g tg c).lemonToAsm ∧ b.rc ∈ (addConnection g tg c).lemonToAsm ∧
    (addConnection g tg c).edges = bumpEdge tg.edges
      (List.indexOf f (addConnection g tg c).lemonToAsm)
      (List.indexOf b.rc (addConnection g tg c).lemonToAsm) ∧
    (addConnection g tg c).leftCoverage
      = Function.update tg.leftCoverage f (tg.leftCoverage f + 1) ∧
    (addConnection g tg c).rightCoverage
      = Function.update tg.rightCoverage b.rc (tg.rightCoverage b.rc + 1) := by
  have hmem := (addConnection_nodes g tg c).2
  have hf : f ∈ (addConnection g tg c).lemonToAsm :=
    (hmem f).2 (Or.inr ⟨f, b, ha, fun h => hns (Or.inl h), fun h => hns (Or.inr h), Or.inl rfl⟩)
  have hb : b.rc ∈ (addConnection g tg c).lemonToAsm :=
    (hmem b.rc).2
      (Or.inr ⟨f, b, ha, fun h => hns (Or.inl h), fun h => hns (Or.inr h), Or.inr rfl⟩)
  refine ⟨?_, hf, hb, ?_⟩
  · unfold addConnection
    rw [ha]
    simp only
    rw [if_neg hns]
    obtain ⟨_, _, _, ext1, h1⟩ := ensureNode_fields
      { tg with
        leftCoverage := Function.update tg.leftCoverage f (tg.leftCoverage f + 1),
        rightCoverage := Function.update tg.rightCoverage b.rc (tg.rightCoverage b.rc + 1) } f
    obtain ⟨_, _, _, ext2, h2⟩ := ensureNode_fields (TransitionGraph.ensureNode
      { tg with
        leftCoverage := Function.update tg.leftCoverage f (tg.leftCoverage f + 1),
        rightCoverage := Function.update tg.rightCoverage b.rc (tg.rightCoverage b.rc + 1) } f)
      b.rc
    refine ⟨ext1 ++ ext2, ?_⟩
    show (TransitionGraph.ensureNode (TransitionGraph.ensureNode _ f) b.rc).lemonToAsm = _
    rw [h2, h1, List.append_assoc]
  · unfold addConnection
    rw [ha]
    simp only
    rw [if_neg hns]
    obtain ⟨e1, l1, r1, _⟩ := ensureNode_fields
      { tg with
        leftCoverage := Function.update tg.leftCoverage f (tg.leftCoverage f + 1),
        rightCoverage := Function.update tg.rightCoverage b.rc (tg.rightCoverage b.rc + 1) } f
    obtain ⟨e2, l2, r2, _⟩ := ensureNode_fields (TransitionGraph.ensureNode
      { tg with
        leftCoverage := Function.update tg.leftCoverage f (tg.leftCoverage f + 1),
        rightCoverage := Function.update tg.rightCoverage b.rc (tg.rightCoverage b.rc + 1) } f)
      b.rc
    refine ⟨?_, ?_, ?_⟩
    · show bumpEdge (TransitionGraph.ensureNode (TransitionGraph.ensureNode _ f) b.rc).edges _ _
        = _
      rw [e2, e1]
      rfl
    · show (TransitionGraph.ensureNode (TransitionGraph.ensureNode _ f) b.rc).leftCoverage = _
      rw [l2, l1]
    · show (TransitionGraph.ensureNode (TransitionGraph.ensureNode _ f) b.rc).rightCoverage = _
      rw [r2, r1]

/-- The build loop for a Connection that is skipped (or has no edge). -/
theorem addConnection_skipped {E : Type} (g : RepeatGraph E) (tg : TransitionGraph)
    (c : Connection E)
    (h : anchors g c = none ∨ ∃ f b, anchors g c = some (f, b) ∧ (f = b ∨ f = b.rc)) :
    addConnection g tg c = tg ∧ (∀ x, countsLeft g x c = false) ∧
    (∀ y, countsRight g y c = false) ∧ (∀ x y, bridges g x y c = false) := by
  rcases h with h | ⟨f, b, h, hskip⟩
  · refine ⟨?_, ?_, ?_, ?_⟩
    · unfold addConnection; rw [h]
    · intro x; unfold countsLeft; rw [h]
    · intro y; unfold countsRight; rw [h]
    · intro x y; unfold bridges runsBetween; rw [h]; rfl
  · have hd : (decide (f = b) || decide (f = b.rc)) = true := by
      rw [Bool.or_eq_true, decide_eq_true_eq, decide_eq_true_eq]; exact hskip
    refine ⟨?_, ?_, ?_, ?_⟩
    · unfold addConnection; rw [h]; simp only; rw [if_pos hskip]
    · intro x; unfold countsLeft; rw [h]; simp only; rw [hd]; rfl
    · intro y; unfold countsRight; rw [h]; simp only; rw [hd]; rfl
    · intro x y; unfold bridges runsBetween; rw [h]; simp only; rw [hd]; rfl

theorem counted_eval {E : Type} (g : RepeatGraph E) (c : Connection E) (f b : Id)
    (ha : anchors g c = some (f, b)) (hns : ¬ (f = b ∨ f = b.rc)) :
    (∀ x, countsLeft g x c = decide (f = x)) ∧ (∀ y, countsRight g y c = decide (b.rc = y)) ∧
    (∀ x y, runsBetween g x y c = (decide (f = x) && decide (b.rc = y))) := by
  have hd : (decide (f = b) || decide (f = b.rc)) = false := by
    rw [Bool.or_eq_false_iff, decide_eq_false_iff_not, decide_eq_false_iff_not]
    exact ⟨fun h => hns (Or.inl h), fun h => hns (Or.inr h)⟩
  refine ⟨?_, ?_, ?_⟩
  · intro x; unfold countsLeft; rw [ha]; simp only; rw [hd]; rfl
  · intro y; unfold countsRight; rw [ha]; simp only; rw [hd]; rfl
  · intro x y; unfold runsBetween; rw [ha]; simp only; rw [hd]; rfl

theorem anchors_cases {E : Type} (g : RepeatGraph E) (c : Connection E) :
    (anchors g c = none ∨ ∃ f b, anchors g c = some (f, b) ∧ (f = b ∨ f = b.rc)) ∨
    ∃ f b, anchors g c = some (f, b) ∧ ¬ (f = b ∨ f = b.rc) := by
  cases ha : anchors g c with
  | none => exact Or.inl (Or.inl rfl)
  | some fb =>
    obtain ⟨f, b⟩ := fb
    by_cases hs : f = b ∨ f = b.rc
    · exact Or.inl (Or.inr ⟨f, b, rfl, hs⟩)
    · exact Or.inr ⟨f, b, rfl, hs⟩

theorem bridges_mem {E : Type} (g : RepeatGraph E) (connections : List (Connection E))
    (x y : Id) (c : Connection E) (hc : c ∈ connections) (hb : bridges g x y c = true) :
    x ∈ (buildTransitions g connections).lemonToAsm ∧
    y ∈ (buildTransitions g connections).lemonToAsm := by
  rcases anchors_cases g c with h | ⟨f, b, ha, hns⟩
  · rw [(addConnection_skipped g ⟨[], [], fun _ => 0, fun _ => 0⟩ c h).2.2.2 x y] at hb
    exact Bool.noConfusion hb
  · unfold bridges at hb
    rw [(counted_eval g c f b ha hns).2.2, (counted_eval g c f b ha hns).2.2] at hb
    simp only [Bool.or_eq_true, Bool.and_eq_true, decide_eq_true_eq] at hb
    have h1 : f ≠ b := fun h => hns (Or.inl h)
    have h2 : f ≠ b.rc := fun h => hns (Or.inr h)
    rw [buildTransitions_mem, buildTransitions_mem]
    rcases hb with ⟨hx, hy⟩ | ⟨hy, hx⟩
    · exact ⟨⟨c, hc, f, b, ha, h1, h2, Or.inl hx.symm⟩, ⟨c, hc, f, b, ha, h1, h2, Or.inr hy.symm⟩⟩
    · exact ⟨⟨c, hc, f, b, ha, h1, h2, Or.inr hx.symm⟩, ⟨c, hc, f, b, ha, h1, h2, Or.inl hy.symm⟩⟩

theorem pairSupport_out_of_range (tg : TransitionGraph) (N : Nat)
    (hR : ∀ e ∈ tg.edges, e.1 < N ∧ e.2.1 < N ∧ 1 ≤ e.2.2) (a b : Nat) (h : N ≤ a ∨ N ≤ b) :
    pairSupport tg a b = 0 := by
  have hnone : getEdge tg.edges a b = none := by
    unfold getEdge
    rw [List.find?_eq_none]
    intro e he hj
    obtain ⟨r1, r2, _⟩ := hR e he
    unfold joins at hj
    simp only [Bool.or_eq_true, Bool.and_eq_true, decide_eq_true_eq] at hj
    omega
  unfold pairSupport
  rw [hnone]

theorem buildTransitions_snoc {E : Type} (g : RepeatGraph E)
    (connections : List (Connection E)) (c : Connection E) :
    buildTransitions g (connections ++ [c])
      = addConnection g (buildTransitions g connections) c := by
  unfold buildTransitions
  rw [List.foldl_append]
  rfl

/-- The transition graph in terms of the Connection list: each coverage counter is the
number of Connections that the build loop counts for it, the weight found between two
nodes is the number of Connections that run between them (in either direction), and
every edge joins two existing nodes and has a positive weight. -/
theorem transitions_counts {E : Type} (g : RepeatGraph E) (connections : List (Connection E)) :
    (∀ x, (buildTransitions g connections).leftCoverage x
      = (connections.countP (countsLeft g x) : Int)) ∧
    (∀ y, (buildTransitions g connections).rightCoverage y
      = (connections.countP (countsRight g y) : Int)) ∧
    (∀ a b x y, (buildTransitions g connections).lemonToAsm[a]? = some x →
      (buildTransitions g connections).lemonToAsm[b]? = some y →
      pairSupport (buildTransitions g connections) a b
        = (connections.countP (bridges g x y) : Int)) ∧
    (∀ e ∈ (buildTransitions g connections).edges,
      e.1 < (buildTransitions g connections).lemonToAsm.length ∧
      e.2.1 < (buildTransitions g connections).lemonToAsm.length ∧ 1 ≤ e.2.2) := by
  refine List.reverseRecOn connections ?_ ?_
  · refine ⟨fun x => rfl, fun y => rfl, ?_, ?_⟩
    · intro a b x y ha
      exact absurd ha (by simp [buildTransitions])
    · intro e he
      exact absurd he (by simp [buildTransitions])
  · intro cs c ih
    obtain ⟨ihL, ihR, ihW, ihE⟩ := ih
    rcases anchors_cases g c with hskip | ⟨f, b, ha, hns⟩
    · obtain ⟨hsame, hl, hr, hbr⟩ := addConnection_skipped g (buildTransitions g cs) c hskip
      rw [buildTransitions_snoc, hsame]
      refine ⟨?_, ?_, ?_, ihE⟩
      · intro x
        rw [ihL x, List.countP_append, List.countP_singleton, hl x]
        simp
      · intro y
        rw [ihR y, List.countP_append, List.countP_singleton, hr y]
        simp
      · intro a b x y hax hby
        rw [ihW a b x y hax hby, List.countP_append, List.countP_singleton, hbr x y]
        simp
    · obtain ⟨⟨ext, hids⟩, hfmem, hbmem, hedges, hlc, hrc⟩ :=
        addConnection_counted g (buildTransitions g cs) c f b ha hns
      obtain ⟨evL, evR, evB⟩ := counted_eval g c f b ha hns
      have hnd : (buildTransitions g (cs ++ [c])).lemonToAsm.Nodup :=
        buildTransitions_nodup g (cs ++ [c])
      rw [buildTransitions_snoc] at hnd ⊢
      refine ⟨?_, ?_, ?_, ?_⟩
      · intro x
        rw [hlc, List.countP_append, List.countP_singleton, evL x]
        by_cases hx : f = x
        · subst hx
          rw [Function.update_same, ihL f]
          simp
        · rw [Function.update_noteq (fun h => hx h.symm), ihL x]
          simp [hx]
      · intro y
        rw [hrc, List.countP_append, List.countP_singleton, evR y]
        by_cases hy : b.rc = y
        · subst hy
          rw [Function.update_same, ihR b.rc]
          simp
        · rw [Function.update_noteq (fun h => hy h.symm), ihR y]
          simp [hy]
      · intro a b2 x y hax hby
        rw [pairSupport_bump (buildTransitions g cs) _ _ _ hedges a b2]
        have hidx : ∀ (k : Nat) (z w : Id),
            (addConnection g (buildTransitions g cs) c).lemonToAsm[k]? = some z →
            w ∈ (addConnection g (buildTransitions g cs) c).lemonToAsm →
            (k = List.indexOf w (addConnection g (buildTransitions g cs) c).lemonToAsm ↔
              z = w) := by
          intro k z w hk hw
          have hw2 := List.getElem?_indexOf hw
          constructor
          · intro h
            rw [← h, hk] at hw2
            exact Option.some.inj hw2
          · intro h
            rw [h] at hk
            exact nodup_getElem?_inj _ hnd _ _ w hk hw2
        have hold : pairSupport (buildTransitions g cs) a b2
            = (cs.countP (bridges g x y) : Int) := by
          by_cases hin : a < (buildTransitions g cs).lemonToAsm.length ∧
              b2 < (buildTransitions g cs).lemonToAsm.length
          · apply ihW a b2 x y
            · rw [hids, List.getElem?_append_left hin.1] at hax; exact hax
            · rw [hids, List.getElem?_append_left hin.2] at hby; exact hby
          · rw [pairSupport_out_of_range _ _ ihE a b2 (by omega)]
            have hzero : cs.countP (bridges g x y) = 0 := by
              rw [List.countP_eq_zero]
              intro c2 hc2 hb2
              obtain ⟨hx, hy⟩ := bridges_mem g cs x y c2 hc2 hb2
              have hxa := List.getElem?_indexOf hx
              have hyb := List.getElem?_indexOf hy
              have hxl := List.indexOf_lt_length.2 hx
              have hyl := List.indexOf_lt_length.2 hy
              have hxa2 : (addConnection g (buildTransitions g cs) c).lemonToAsm[
                  List.indexOf x (buildTransitions g cs).lemonToAsm]? = some x := by
                rw [hids, List.getElem?_append_left hxl]; exact hxa
              have hyb2 : (addConnection g (buildTransitions g cs) c).lemonToAsm[
                  List.indexOf y (buildTransitions g cs).lemonToAsm]? = some y := by
                rw [hids, List.getElem?_append_left hyl]; exact hyb
              have e1 := nodup_getElem?_inj _ hnd _ _ x hax hxa2
              have e2 := nodup_getElem?_inj _ hnd _ _ y hby hyb2
              omega
            rw [hzero]
            rfl
        rw [hold, List.countP_append, List.countP_singleton]
        have hiff : ((a = List.indexOf f (addConnection g (buildTransitions g cs) c).lemonToAsm ∧
            b2 = List.indexOf b.rc (addConnection g (buildTransitions g cs) c).lemonToAsm) ∨
            (a = List.indexOf b.rc (addConnection g (buildTransitions g cs) c).lemonToAsm ∧
            b2 = List.indexOf f (addConnection g (buildTransitions g cs) c).lemonToAsm)) ↔
            bridges g x y c = true := by
          rw [hidx a x f hax hfmem, hidx b2 y b.rc hby hbmem, hidx a x b.rc hax hbmem,
            hidx b2 y f hby hfmem]
          unfold bridges
          rw [evB, evB]
          simp only [Bool.or_eq_true, Bool.and_eq_true, decide_eq_true_eq]
          constructor
          · rintro (⟨h1, h2⟩ | ⟨h1, h2⟩)
            · exact Or.inl ⟨h1.symm, h2.symm⟩
            · exact Or.inr ⟨h2.symm, h1.symm⟩
          · rintro (⟨h1, h2⟩ | ⟨h1, h2⟩)
            · exact Or.inl ⟨h1.symm, h2.symm⟩
            · exact Or.inr ⟨h2.symm, h1.symm⟩
        by_cases hbr : bridges g x y c = true
        · rw [if_pos (hiff.2 hbr), if_pos hbr]
          push_cast
          rfl
        · rw [if_neg (fun h => hbr (hiff.1 h)), if_neg hbr]
          simp
      · rw [hedges]
        apply bump_range
        · intro e he
          obtain ⟨r1, r2, r3⟩ := ihE e he
          rw [hids, List.length_append]
          exact ⟨by omega, by omega, r3⟩
        · exact List.indexOf_lt_length.2 hfmem
        · exact List.indexOf_lt_length.2 hbmem

theorem Id.rc_eq_iff (a b : Id) : a.rc = b ↔ a = b.rc := by
  constructor
  · intro h; rw [← h, Id.rc_rc]
  · intro h; rw [h, Id.rc_rc]

theorem filter_const_length {α β : Type} (ks : List α) (c : β) (p : β → Bool) :
    ((ks.map (fun _ => c)).filter p).length = if p c = true then ks.length else 0 := by
  induction ks with
  | nil => simp
  | cons k ks ih =>
    rw [List.map_cons, List.filter_cons]
    by_cases hp : p c = true
    · rw [if_pos hp] at ih ⊢
      rw [if_pos hp, List.length_cons, ih, List.length_cons]
    · rw [if_neg hp] at ih ⊢
      rw [if_neg hp, ih]

theorem spanning_cons {E : Type} (g : RepeatGraph E) (c : Connection E)
    (connections : List (Connection E)) (l r : Id) :
    spanning g (c :: connections) l r = spanning g [c] l r ++ spanning g connections l r := by
  unfold spanning connectIndex
  rw [List.flatMap_cons, List.filter_append, List.flatMap_cons, List.flatMap_nil,
    List.append_nil]

/-- One Connection stands in the spanning set of the nodes `l` and `r` once if the build
loop has counted it for the edge between them, and not at all otherwise. -/
theorem spanning_single {E : Type} (g : RepeatGraph E) (c : Connection E) (l r : Id)
    (hlr : l ≠ r) (hlrc : l ≠ r.rc) :
    (spanning g [c] l r).length = if bridges g l r c = true then 1 else 0 := by
  have hrl : r ≠ l := fun h => hlr h.symm
  have hrcl : r.rc ≠ l := fun h => hlrc h.symm
  have hlrc2 : l.rc ≠ r := fun h => hlrc ((Id.rc_eq_iff l r).1 h)
  unfold spanning connectIndex
  rw [List.flatMap_cons, List.flatMap_nil, List.append_nil]
  cases ha : anchors g c with
  | none =>
    have hb : bridges g l r c = false :=
      (addConnection_skipped g ⟨[], [], fun _ => 0, fun _ => 0⟩ c (Or.inl ha)).2.2.2 l r
    rw [hb]
    rfl
  | some fb =>
    obtain ⟨f, b⟩ := fb
    simp only
    rw [filter_const_length, ha]
    simp only
    by_cases hP1 : f = l ∧ b = r.rc
    · obtain ⟨rfl, rfl⟩ := hP1
      have hns : ¬ (f = r.rc ∨ f = r.rc.rc) := by
        rw [Id.rc_rc]
        rintro (h | h)
        · exact hlrc h
        · exact hlr h
      have hb : bridges g f r c = true := by
        unfold bridges
        rw [(counted_eval g c f r.rc ha hns).2.2]
        simp [Id.rc_rc]
      rw [hb]
      simp [Id.rc_rc, Id.rc_ne, hrl, hrcl]
    · by_cases hP2 : f = r ∧ b = l.rc
      · obtain ⟨rfl, rfl⟩ := hP2
        have hns : ¬ (f = l.rc ∨ f = l.rc.rc) := by
          rw [Id.rc_rc]
          rintro (h | h)
          · exact hlrc2 h.symm
          · exact hrl h
        have hb : bridges g l f c = true := by
          unfold bridges
          rw [(counted_eval g c f l.rc ha hns).2.2, (counted_eval g c f l.rc ha hns).2.2]
          simp [Id.rc_rc]
        rw [hb]
        simp [Id.rc_rc, Id.rc_ne, hrl, hrcl, hlr, hlrc]
      · have hb : bridges g l r c = false := by
          rcases anchors_cases g c with h | ⟨f2, b2, ha2, hns⟩
          · exact (addConnection_skipped g ⟨[], [], fun _ => 0, fun _ => 0⟩ c h).2.2.2 l r
          · rw [ha] at ha2
            simp only [Option.some.injEq, Prod.mk.injEq] at ha2
            obtain ⟨rfl, rfl⟩ := ha2
            unfold bridges
            rw [(counted_eval g c f b ha hns).2.2, (counted_eval g c f b ha hns).2.2]
            cases hv : (decide (f = l) && decide (b.rc = r) ||
                decide (f = r) && decide (b.rc = l)) with
            | false => rfl
            | true =>
              simp only [Bool.or_eq_true, Bool.and_eq_true, decide_eq_true_eq] at hv
              rcases hv with ⟨h1, h2⟩ | ⟨h1, h2⟩
              · exact absurd ⟨h1, (Id.rc_eq_iff b r).1 h2⟩ hP1
              · exact absurd ⟨h1, (Id.rc_eq_iff b l).1 h2⟩ hP2
        rw [hb]
        have hfalse : (decide (f = l) && decide (b = r.rc) ||
            decide (f = r) && decide (b = l.rc)) = false := by
          cases hv : (decide (f = l) && decide (b = r.rc) ||
              decide (f = r) && decide (b = l.rc)) with
          | false => rfl
          | true =>
            simp only [Bool.or_eq_true, Bool.and_eq_true, decide_eq_true_eq] at hv
            rcases hv with h | h
            · exact absurd h hP1
            · exact absurd h hP2
        simp only [hfalse, Bool.false_eq_true, if_false]

theorem spanning_length {E : Type} (g : RepeatGraph E) (connections : List (Connection E))
    (l r : Id) (hlr : l ≠ r) (hlrc : l ≠ r.rc) :
    (spanning g connections l r).length = connections.countP (bridges g l r) := by
  induction connections with
  | nil => rfl
  | cons c cs ih =>
    rw [spanning_cons, List.length_append, ih, spanning_single g c l r hlr hlrc,
      List.countP_cons]
    omega

theorem bridges_distinct {E : Type} (g : RepeatGraph E) (l r : Id) (c : Connection E)
    (h : bridges g l r c = true) : l ≠ r ∧ l ≠ r.rc := by
  rcases anchors_cases g c with hs | ⟨f, b, ha, hns⟩
  · rw [(addConnection_skipped g ⟨[], [], fun _ => 0, fun _ => 0⟩ c hs).2.2.2 l r] at h
    exact Bool.noConfusion h
  · unfold bridges at h
    rw [(counted_eval g c f b ha hns).2.2, (counted_eval g c f b ha hns).2.2] at h
    simp only [Bool.or_eq_true, Bool.and_eq_true, decide_eq_true_eq] at h
    have h1 : f ≠ b := fun h => hns (Or.inl h)
    have h2 : f ≠ b.rc := fun h => hns (Or.inr h)
    rcases h with ⟨hf, hb⟩ | ⟨hf, hb⟩
    · subst hf
      subst hb
      exact ⟨h2, fun h => h1 (by rw [h, Id.rc_rc])⟩
    · subst hf
      subst hb
      refine ⟨fun h => h2 h.symm, fun h => ?_⟩
      have hbf := (Id.rc_eq_iff b f.rc).1 h
      rw [Id.rc_rc] at hbf
      exact h1 hbf.symm

/-- For a matched pair the spanning set has as many Connections as the weight of the
edge between the two nodes, and this weight is positive. -/
theorem matched_spanning {E : Type} (g : RepeatGraph E) (connections : List (Connection E))
    (mate : Nat → Option Nat) (n m : Nat)
    (hmatch : IsMatching (buildTransitions g connections) mate) (hm : mate n = some m) :
    ∃ l r, (buildTransitions g connections).lemonToAsm[n]? = some l ∧
      (buildTransitions g connections).lemonToAsm[m]? = some r ∧
      ((spanning g connections l r).length : Int)
        = pairSupport (buildTransitions g connections) n m ∧
      1 ≤ pairSupport (buildTransitions g connections) n m ∧
      pairSupport (buildTransitions g connections) n m
        = (connections.countP (bridges g l r) : Int) ∧ l ≠ r := by
  obtain ⟨_, hn, hm2, hedge⟩ := hmatch n m hm
  obtain ⟨_, _, hW, hE⟩ := transitions_counts g connections
  have hl : (buildTransitions g connections).lemonToAsm[n]?
      = some ((buildTransitions g connections).lemonToAsm[n]) := List.getElem?_eq_getElem hn
  have hr : (buildTransitions g connections).lemonToAsm[m]?
      = some ((buildTransitions g connections).lemonToAsm[m]) := List.getElem?_eq_getElem hm2
  have hw := hW n m _ _ hl hr
  have hpos : 1 ≤ pairSupport (buildTransitions g connections) n m := by
    unfold pairSupport
    cases hfound : getEdge (buildTransitions g connections).edges n m with
    | none => rw [hfound] at hedge; exact Bool.noConfusion hedge
    | some e =>
      unfold getEdge at hfound
      exact (hE e (List.mem_of_find?_eq_some hfound)).2.2
  have hcount : 0 < connections.countP (bridges g
      ((buildTransitions g connections).lemonToAsm[n])
      ((buildTransitions g connections).lemonToAsm[m])) := by
    rw [hw] at hpos
    exact_mod_cast hpos
  obtain ⟨c, _, hc⟩ := List.countP_pos_iff.1 hcount
  obtain ⟨hlr, hlrc⟩ := bridges_distinct g _ _ c hc
  refine ⟨_, _, hl, hr, ?_, hpos, hw, hlr⟩
  rw [spanning_length g connections _ _ hlr hlrc, hw]

/-- Claim C23: the branch `Empty spanning connections` of `resolveConnections` is not
reachable. For every Connection list and every matching that pairs only nodes joined by
an edge of the transition graph, each matched pair `(leftId, rightId)` has a spanning set
in `connectIndex[leftId]` with exactly as many Connections as the weight (support) of the
edge between the two nodes, which is at least 1; so the visit of a matched pair whose
left identity is not yet used and that passes the confidence floor selects exactly one
Connection, a member of the spanning set (`std::sort` rearranges its input). -/
theorem spanning_never_empty {E : Type} (g : RepeatGraph E)
    (connections : List (Connection E)) (mate : Nat → Option Nat) (n m : Nat)
    (hmatch : IsMatching (buildTransitions g connections) mate) (hm : mate n = some m) :
    ∃ l r, (buildTransitions g connections).lemonToAsm[n]? = some l ∧
      (buildTransitions g connections).lemonToAsm[m]? = some r ∧
      ((spanning g connections l r).length : Int)
        = pairSupport (buildTransitions g connections) n m ∧
      1 ≤ pairSupport (buildTransitions g connections) n m ∧
      (spanning g connections l r).isEmpty = false ∧
      (∀ c ∈ spanning g connections l r, c ∈ connectIndex g connections l) ∧
      ∀ (sortConns : List (Connection E) → List (Connection E)) (minSup : ℚ)
        (st : EmitState E), (∀ x, (sortConns x).Perm x) → l ∉ st.usedEdges →
        belowFloor (pairSupport (buildTransitions g connections) n m)
          ((buildTransitions g connections).leftCoverage l +
            (buildTransitions g connections).rightCoverage r) minSup = false →
        ∃ c ∈ spanning g connections l r,
          emitStep g connections sortConns (buildTransitions g connections) mate minSup st n
            = ⟨r :: st.usedEdges, st.uniqueConnections ++ [c], st.unresolvedLinks⟩ := by
  obtain ⟨l, r, hl, hr, hlen, hpos, _, _⟩ := matched_spanning g connections mate n m hmatch hm
  have hlenpos : 0 < (spanning g connections l r).length := by
    have : (1 : Int) ≤ ((spanning g connections l r).length : Int) := by rw [hlen]; exact hpos
    exact_mod_cast this
  have hne : (spanning g connections l r).isEmpty = false := by
    cases hs : spanning g connections l r with
    | nil => rw [hs] at hlenpos; exact absurd hlenpos (by simp)
    | cons a rest => rfl
  refine ⟨l, r, hl, hr, hlen, hpos, hne, ?_, ?_⟩
  · intro c hc
    unfold spanning at hc
    exact (List.mem_filter.1 hc).1
  · intro sortConns minSup st hperm hused hfloor
    have hidx : (spanning g connections l r).length / 2
        < (sortConns (spanning g connections l r)).length := by
      rw [(hperm _).length_eq]
      exact Nat.div_lt_self hlenpos (by decide)
    refine ⟨(sortConns (spanning g connections l r))[(spanning g connections l r).length / 2],
      (hperm _).subset (List.getElem_mem _), ?_⟩
    exact emitStep_select g connections sortConns _ mate minSup st n m l r _ hm hl hr hused
      hfloor hne (List.getElem?_eq_getElem hidx)

/-! ### `resolveConnections`: the confidence as a ratio -/

theorem Id.rc_inj (a b : Id) : a.rc = b.rc ↔ a = b := by
  constructor
  · intro h
    have := (Id.rc_eq_iff a b.rc).1 h
    rw [Id.rc_rc] at this
    exact this
  · intro h; rw [h]

/-- A Connection runs from `x` to `y` exactly if its twin runs from `y` to `x`. -/
theorem runsBetween_twin {E : Type} (g : RepeatGraph E) (c d : Connection E)
    (h : anchors g d = twinAnchors (anchors g c)) (x y : Id) :
    runsBetween g x y d = runsBetween g y x c := by
  unfold runsBetween
  cases ha : anchors g c with
  | none =>
    rw [ha] at h
    rw [h]
    rfl
  | some fb =>
    obtain ⟨f, b⟩ := fb
    rw [ha] at h
    rw [h]
    simp only [twinAnchors, Option.map_some', Id.rc_rc]
    have e1 : decide (b.rc = f.rc) = decide (f = b) := by
      rw [decide_eq_decide, Id.rc_inj]
      exact eq_comm
    have e2 : decide (b.rc = f) = decide (f = b.rc) := by
      rw [decide_eq_decide]
      exact eq_comm
    rw [e1, e2, Bool.and_comm (decide (b.rc = x))]

theorem twinPaired_balanced {E : Type} (g : RepeatGraph E) (x y : Id) :
    ∀ (n : Nat) (connections : List (Connection E)), connections.length ≤ n →
      twinPaired g connections = true →
      connections.countP (runsBetween g x y) = connections.countP (runsBetween g y x) := by
  intro n
  induction n with
  | zero =>
    intro cs hlen _
    have : cs = [] := List.length_eq_zero.1 (Nat.le_zero.1 hlen)
    rw [this]
    rfl
  | succ n ih =>
    intro cs hlen htw
    match cs, hlen, htw with
    | [], _, _ => rfl
    | [_], _, htw => exact Bool.noConfusion htw
    | c :: d :: rest, hlen, htw =>
      rw [twinPaired, Bool.and_eq_true, decide_eq_true_eq] at htw
      have hrest := ih rest (by simp only [List.length_cons] at hlen; omega) htw.2
      rw [List.countP_cons, List.countP_cons, List.countP_cons, List.countP_cons, hrest,
        runsBetween_twin g c d htw.1 x y, runsBetween_twin g c d htw.1 y x]
      omega

theorem countP_or_exclusive {α : Type} (p q : α → Bool) (l : List α)
    (h : ∀ a ∈ l, ¬ (p a = true ∧ q a = true)) :
    l.countP (fun a => p a || q a) = l.countP p + l.countP q := by
  induction l with
  | nil => rfl
  | cons a l ih =>
    rw [List.countP_cons, List.countP_cons, List.countP_cons,
      ih (fun b hb => h b (List.mem_cons_of_mem _ hb))]
    have ha := h a (List.mem_cons_self _ _)
    cases hp : p a <;> cases hq : q a <;> simp [hp, hq] at ha ⊢ <;> omega

theorem runsBetween_counts {E : Type} (g : RepeatGraph E) (x y : Id) (c : Connection E)
    (h : runsBetween g x y c = true) : countsLeft g x c = true ∧ countsRight g y c = true := by
  unfold runsBetween at h
  unfold countsLeft countsRight
  cases ha : anchors g c with
  | none => rw [ha] at h; exact Bool.noConfusion h
  | some fb =>
    obtain ⟨f, b⟩ := fb
    rw [ha] at h
    simp only [Bool.and_eq_true] at h ⊢
    exact ⟨⟨h.1, h.2.1⟩, ⟨h.1, h.2.2⟩⟩

theorem runsBetween_exclusive {E : Type} (g : RepeatGraph E) (x y : Id) (hxy : x ≠ y)
    (c : Connection E) : ¬ (runsBetween g x y c = true ∧ runsBetween g y x c = true) := by
  rintro ⟨h1, h2⟩
  unfold runsBetween at h1 h2
  cases ha : anchors g c with
  | none => rw [ha] at h1; exact Bool.noConfusion h1
  | some fb =>
    obtain ⟨f, b⟩ := fb
    rw [ha] at h1 h2
    simp only [Bool.and_eq_true, decide_eq_true_eq] at h1 h2
    exact hxy (h1.2.1.symm.trans h2.2.1)

/-- Claim C24: the confidence computed by `resolveConnections` is a well-defined ratio in
(0, 1]. The list it is called with is the value of `getConnections()`, in which every
Connection is followed by its reverse-complement twin (`twinPaired`); on such a list, for
a matching that pairs only nodes joined by an edge of the transition graph and a matched
pair `(leftId, rightId)`,
`leftCoverage[leftId] + rightCoverage[rightId] > 0` and
`1 <= support <= leftCoverage[leftId] + rightCoverage[rightId]` in exact integers, so the
quotient is positive and at most 1. -/
theorem confidence_is_ratio {E : Type} (g : RepeatGraph E)
    (connections : List (Connection E)) (mate : Nat → Option Nat) (n m : Nat) (l r : Id)
    (htwin : twinPaired g connections = true)
    (hmatch : IsMatching (buildTransitions g connections) mate) (hm : mate n = some m)
    (hl : (buildTransitions g connections).lemonToAsm[n]? = some l)
    (hr : (buildTransitions g connections).lemonToAsm[m]? = some r) :
    0 < (buildTransitions g connections).leftCoverage l +
      (buildTransitions g connections).rightCoverage r ∧
    1 ≤ pairSupport (buildTransitions g connections) n m ∧
    pairSupport (buildTransitions g connections) n m
      ≤ (buildTransitions g connections).leftCoverage l +
        (buildTransitions g connections).rightCoverage r ∧
    (0 : ℚ) < (pairSupport (buildTransitions g connections) n m : ℚ) /
      (((buildTransitions g connections).leftCoverage l +
        (buildTransitions g connections).rightCoverage r : Int) : ℚ) ∧
    (pairSupport (buildTransitions g connections) n m : ℚ) /
      (((buildTransitions g connections).leftCoverage l +
        (buildTransitions g connections).rightCoverage r : Int) : ℚ) ≤ 1 := by
  obtain ⟨l2, r2, hl2, hr2, _, hpos, hw, hlr⟩ :=
    matched_spanning g connections mate n m hmatch hm
  rw [hl] at hl2
  rw [hr] at hr2
  cases hl2
  cases hr2
  obtain ⟨hL, hR, _, _⟩ := transitions_counts g connections
  have hsplit : connections.countP (bridges g l r)
      = connections.countP (runsBetween g l r) + connections.countP (runsBetween g r l) :=
    countP_or_exclusive (runsBetween g l r) (runsBetween g r l) connections
      (fun c _ => runsBetween_exclusive g l r hlr c)
  have hbal := twinPaired_balanced g l r connections.length connections (le_refl _) htwin
  have hleft : connections.countP (runsBetween g l r) ≤ connections.countP (countsLeft g l) :=
    List.countP_mono_left (fun c _ hc => (runsBetween_counts g l r c hc).1)
  have hright : connections.countP (runsBetween g l r) ≤ connections.countP (countsRight g r) :=
    List.countP_mono_left (fun c _ hc => (runsBetween_counts g l r c hc).2)
  have hle : pairSupport (buildTransitions g connections) n m
      ≤ (buildTransitions g connections).leftCoverage l +
        (buildTransitions g connections).rightCoverage r := by
    rw [hw, hL l, hR r, hsplit, ← hbal]
    have h1 : (connections.countP (runsBetween g l r) : Int)
        ≤ (connections.countP (countsLeft g l) : Int) := by exact_mod_cast hleft
    have h2 : (connections.countP (runsBetween g l r) : Int)
        ≤ (connections.countP (countsRight g r) : Int) := by exact_mod_cast hright
    push_cast
    omega
  have hden : 0 < (buildTransitions g connections).leftCoverage l +
      (buildTransitions g connections).rightCoverage r := by omega
  have hdenq : (0 : ℚ) < (((buildTransitions g connections).leftCoverage l +
      (buildTransitions g connections).rightCoverage r : Int) : ℚ) := by exact_mod_cast hden
  have hsupq : (0 : ℚ) < (pairSupport (buildTransitions g connections) n m : ℚ) := by
    have : (0 : Int) < pairSupport (buildTransitions g connections) n m := by omega
    exact_mod_cast this
  refine ⟨hden, hpos, hle, div_pos hsupq hdenq, ?_⟩
  rw [div_le_one hdenq]
  exact_mod_cast hle

/-! ### `findRepeats`: the propagation reaches a fixed point -/

theorem passThrough_of_lists {E : Type} (g : RepeatGraph E) (n : Nat) (a b : E)
    (hi : g.inEdges n = [a]) (ho : g.outEdges n = [b]) : passThrough g n = true := by
  unfold passThrough
  rw [hi, ho]
  rfl

theorem walk_closed {E : Type} [DecidableEq E] (next : (E → Bool) → E → Option E)
    (Fwd Bwd : (E → Bool) → E → Prop)
    (hstop : ∀ rep cur, rep cur = true → next rep cur = none → Fwd rep cur)
    (hmove : ∀ rep cur e, rep cur = true → next rep cur = some e →
      ∀ rep2 : E → Bool, (∀ x, rep x = true → rep2 x = true) → rep2 e = true →
        Fwd rep2 cur ∧ Bwd rep2 e) :
    ∀ (fuel : Nat) (rep rep2 : E → Bool) (cur : E), walk next fuel rep cur = some rep2 →
      Fwd rep2 cur ∧
        ∀ x, rep2 x = true → rep x = true ∨ x = cur ∨ (Fwd rep2 x ∧ Bwd rep2 x) := by
  intro fuel
  induction fuel with
  | zero => intro rep rep2 cur h; simp [walk] at h
  | succ fuel ih =>
    intro rep rep2 cur h
    simp only [walk] at h
    have hcur : Function.update rep cur true cur = true := by simp
    have hup : ∀ x, Function.update rep cur true x = true → rep x = true ∨ x = cur := by
      intro x hx
      by_cases hxc : x = cur
      · exact Or.inr hxc
      · rw [Function.update_noteq hxc] at hx; exact Or.inl hx
    cases hn : next (Function.update rep cur true) cur with
    | none =>
      rw [hn] at h
      simp only [Option.some.injEq] at h
      subst h
      refine ⟨hstop _ _ hcur hn, ?_⟩
      intro x hx
      rcases hup x hx with h1 | h1
      · exact Or.inl h1
      · exact Or.inr (Or.inl h1)
    | some e =>
      rw [hn] at h
      obtain ⟨hfe, hrest⟩ := ih _ _ _ h
      obtain ⟨hre, hmono⟩ := walk_mono next _ _ _ _ h
      obtain ⟨hfc, hbe⟩ := hmove _ _ _ hcur hn rep2 hmono hre
      refine ⟨hfc, ?_⟩
      intro x hx
      rcases hrest x hx with h1 | h1 | h1
      · rcases hup x h1 with h2 | h2
        · exact Or.inl h2
        · exact Or.inr (Or.inl h2)
      · subst h1
        exact Or.inr (Or.inr ⟨hfe, hbe⟩)
      · exact Or.inr (Or.inr h1)

theorem propagateFrom_closed {E : Type} [DecidableEq E] (g : RepeatGraph E)
    (R L : (E → Bool) → E → Prop)
    (hR : ∀ (rep rep2 : E → Bool) x, (∀ e, rep e = true → rep2 e = true) → R rep x → R rep2 x)
    (hL : ∀ (rep rep2 : E → Bool) x, (∀ e, rep e = true → rep2 e = true) → L rep x → L rep2 x)
    (hstopR : ∀ rep cur, rep cur = true → nextRight g rep cur = none → R rep cur)
    (hmoveR : ∀ rep cur e, rep cur = true → nextRight g rep cur = some e →
      ∀ rep2 : E → Bool, (∀ x, rep x = true → rep2 x = true) → rep2 e = true →
        R rep2 cur ∧ L rep2 e)
    (hstopL : ∀ rep cur, rep cur = true → nextLeft g rep cur = none → L rep cur)
    (hmoveL : ∀ rep cur e, rep cur = true → nextLeft g rep cur = some e →
      ∀ rep2 : E → Bool, (∀ x, rep x = true → rep2 x = true) → rep2 e = true →
        L rep2 cur ∧ R rep2 e)
    (fuel : Nat) (rep rep2 : E → Bool) (edge : E) (rest : List E)
    (hinv : ∀ x, rep x = true → x ∈ edge :: rest ∨ (R rep x ∧ L rep x))
    (h : propagateFrom g fuel rep edge = some rep2) :
    ∀ x, rep2 x = true → x ∈ rest ∨ (R rep2 x ∧ L rep2 x) := by
  unfold propagateFrom at h
  by_cases hr : rep edge = true
  · simp only [hr, Bool.not_true, Bool.false_eq_true, if_false] at h
    cases h1 : walk (nextRight g) fuel rep edge with
    | none => rw [h1] at h; simp at h
    | some repA =>
      rw [h1] at h
      simp only [Option.some_bind] at h
      obtain ⟨hRA, hrestA⟩ := walk_closed (nextRight g) R L hstopR hmoveR fuel rep repA edge h1
      obtain ⟨hL2, hrest2⟩ := walk_closed (nextLeft g) L R hstopL hmoveL fuel repA rep2 edge h
      obtain ⟨_, hmonoA⟩ := walk_mono _ _ _ _ _ h1
      obtain ⟨_, hmono2⟩ := walk_mono _ _ _ _ _ h
      have hedge : R rep2 edge ∧ L rep2 edge := ⟨hR _ _ _ hmono2 hRA, hL2⟩
      intro x hx
      by_cases hxe : x = edge
      · subst hxe; exact Or.inr hedge
      · rcases hrest2 x hx with h2 | h2 | h2
        · rcases hrestA x h2 with h3 | h3 | h3
          · rcases hinv x h3 with h4 | h4
            · rcases List.mem_cons.1 h4 with h5 | h5
              · exact absurd h5 hxe
              · exact Or.inl h5
            · exact Or.inr ⟨hR _ _ _ (fun e he => hmono2 e (hmonoA e he)) h4.1,
                hL _ _ _ (fun e he => hmono2 e (hmonoA e he)) h4.2⟩
          · exact absurd h3 hxe
          · exact Or.inr ⟨hR _ _ _ hmono2 h3.1, hL _ _ _ hmono2 h3.2⟩
        · exact absurd h2 hxe
        · exact Or.inr ⟨h2.2, h2.1⟩
  · have hf : rep edge = false := by simpa using hr
    simp only [hf, Bool.not_false, if_true, Option.some.injEq] at h
    subst h
    intro x hx
    rcases hinv x hx with h4 | h4
    · rcases List.mem_cons.1 h4 with h5 | h5
      · subst h5; rw [hf] at hx; exact Bool.noConfusion hx
      · exact Or.inl h5
    · exact Or.inr h4

theorem propagate_closed {E : Type} [DecidableEq E] (g : RepeatGraph E)
    (R L : (E → Bool) → E → Prop)
    (hR : ∀ (rep rep2 : E → Bool) x, (∀ e, rep e = true → rep2 e = true) → R rep x → R rep2 x)
    (hL : ∀ (rep rep2 : E → Bool) x, (∀ e, rep e = true → rep2 e = true) → L rep x → L rep2 x)
    (hstopR : ∀ rep cur, rep cur = true → nextRight g rep cur = none → R rep cur)
    (hmoveR : ∀ rep cur e, rep cur = true → nextRight g rep cur = some e →
      ∀ rep2 : E → Bool, (∀ x, rep x = true → rep2 x = true) → rep2 e = true →
        R rep2 cur ∧ L rep2 e)
    (hstopL : ∀ rep cur, rep cur = true → nextLeft g rep cur = none → L rep cur)
    (hmoveL : ∀ rep cur e, rep cur = true → nextLeft g rep cur = some e →
      ∀ rep2 : E → Bool, (∀ x, rep x = true → rep2 x = true) → rep2 e = true →
        L rep2 cur ∧ R rep2 e)
    (hall : ∀ e, e ∈ g.iterEdges) (rep rep2 : E → Bool) (h : propagate g rep = some rep2) :
    ∀ x, rep2 x = true → R rep2 x ∧ L rep2 x := by
  have key : ∀ (l : List E) (r r2 : E → Bool),
      (∀ x, r x = true → x ∈ l ∨ (R r x ∧ L r x)) →
      l.foldlM (propagateFrom g (g.iterEdges.length + 1)) r = some r2 →
      ∀ x, r2 x = true → R r2 x ∧ L r2 x := by
    intro l
    induction l with
    | nil =>
      intro r r2 hinv hf x hx
      simp only [List.foldlM_nil] at hf
      have hrr : r = r2 := Option.some.inj hf
      subst hrr
      rcases hinv x hx with h1 | h1
      · simp at h1
      · exact h1
    | cons a l ih =>
      intro r r2 hinv hf
      rw [List.foldlM_cons] at hf
      cases h1 : propagateFrom g (g.iterEdges.length + 1) r a with
      | none => rw [h1] at hf; simp at hf
      | some r1 =>
        rw [h1] at hf
        exact ih r1 r2 (propagateFrom_closed g R L hR hL hstopR hmoveR hstopL hmoveL _ r r1 a l
          hinv h1) hf
  exact key g.iterEdges rep rep2 (fun x _ => Or.inl (hall x)) h

/-- The rightward condition of the fixed point at edge `x`: if its right node has one
incoming and one outgoing edge, the outgoing edge is flagged. -/
theorem nextRight_stop_pass {E : Type} (g : RepeatGraph E) (rep : E → Bool) (cur : E)
    (h : nextRight g rep cur = none) (a y : E) (hi : g.inEdges (g.nodeRight cur) = [a])
    (ho : g.outEdges (g.nodeRight cur) = [y]) : rep y = true := by
  unfold nextRight at h
  rw [hi, ho] at h
  simp only at h
  by_cases hy : rep y = true
  · exact hy
  · have hf : rep y = false := by simpa using hy
    rw [hf] at h
    simp at h

theorem nextLeft_stop_pass {E : Type} (g : RepeatGraph E) (rep : E → Bool) (cur : E)
    (h : nextLeft g rep cur = none) (y b : E) (hi : g.inEdges (g.nodeLeft cur) = [y])
    (ho : g.outEdges (g.nodeLeft cur) = [b]) : rep y = true := by
  unfold nextLeft at h
  rw [hi, ho] at h
  simp only at h
  by_cases hy : rep y = true
  · exact hy
  · have hf : rep y = false := by simpa using hy
    rw [hf] at h
    simp at h

theorem viaLink_eq_some {E : Type} (rep : E → Bool) (link : Option E) (e : E)
    (h : viaLink rep link = some e) : link = some e := by
  unfold viaLink at h
  cases link with
  | none => simp at h
  | some l =>
    simp only [Option.filter] at h
    split at h
    · exact h
    · simp at h

theorem nextRight_cases {E : Type} (g : RepeatGraph E) (rep : E → Bool) (cur e : E)
    (h : nextRight g rep cur = some e) :
    (∃ a, g.inEdges (g.nodeRight cur) = [a] ∧ g.outEdges (g.nodeRight cur) = [e]) ∨
      g.rightLink cur = some e := by
  unfold nextRight at h
  split at h
  · rename_i a out hi ho
    split at h
    · simp only [Option.some.injEq] at h
      subst h
      exact Or.inl ⟨a, hi, ho⟩
    · exact Or.inr (viaLink_eq_some rep _ e h)
  · exact Or.inr (viaLink_eq_some rep _ e h)

theorem nextLeft_cases {E : Type} (g : RepeatGraph E) (rep : E → Bool) (cur e : E)
    (h : nextLeft g rep cur = some e) :
    (∃ b, g.inEdges (g.nodeLeft cur) = [e] ∧ g.outEdges (g.nodeLeft cur) = [b]) ∨
      g.leftLink cur = some e := by
  unfold nextLeft at h
  split at h
  · rename_i inc b hi ho
    split at h
    · simp only [Option.some.injEq] at h
      subst h
      exact Or.inl ⟨b, hi, ho⟩
    · exact Or.inr (viaLink_eq_some rep _ e h)
  · exact Or.inr (viaLink_eq_some rep _ e h)

theorem nextRight_move_pass {E : Type} (g : RepeatGraph E) (rep : E → Bool) (cur e : E)
    (h : nextRight g rep cur = some e) (rep2 : E → Bool)
    (hmono : ∀ x, rep x = true → rep2 x = true) (he : rep2 e = true)
    (a y : E) (hi : g.inEdges (g.nodeRight cur) = [a])
    (ho : g.outEdges (g.nodeRight cur) = [y]) : rep2 y = true := by
  unfold nextRight at h
  rw [hi, ho] at h
  simp only at h
  by_cases hy : rep y = true
  · exact hmono y hy
  · have hf : rep y = false := by simpa using hy
    rw [hf] at h
    simp only [Bool.not_false, if_true, Option.some.injEq] at h
    subst h
    exact he

theorem nextLeft_move_pass {E : Type} (g : RepeatGraph E) (rep : E → Bool) (cur e : E)
    (h : nextLeft g rep cur = some e) (rep2 : E → Bool)
    (hmono : ∀ x, rep x = true → rep2 x = true) (he : rep2 e = true)
    (y b : E) (hi : g.inEdges (g.nodeLeft cur) = [y])
    (ho : g.outEdges (g.nodeLeft cur) = [b]) : rep2 y = true := by
  unfold nextLeft at h
  rw [hi, ho] at h
  simp only at h
  by_cases hy : rep y = true
  · exact hmono y hy
  · have hf : rep y = false := by simpa using hy
    rw [hf] at h
    simp only [Bool.not_false, if_true, Option.some.injEq] at h
    subst h
    exact he

/-- An edge the rightward walk moves to has a settled left side: its left node is either
the pass-through node the walk came through, or the node at which a link arrives. -/
theorem nextRight_arrival {E : Type} (g : RepeatGraph E) (hends : EndsAgree g)
    (hlink : LinksArriveAtBranching g) (rep : E → Bool) (cur e : E)
    (h : nextRight g rep cur = some e) (y b : E) (hi : g.inEdges (g.nodeLeft e) = [y])
    (ho : g.outEdges (g.nodeLeft e) = [b]) : y = cur := by
  rcases nextRight_cases g rep cur e h with ⟨a, hia, hoa⟩ | hl
  · have hnode : g.nodeLeft e = g.nodeRight cur :=
      hends.2.1 cur e (by rw [hoa]; exact List.mem_singleton_self e)
    rw [hnode, hia] at hi
    have hcur := (hends.1 cur).1
    rw [hia, List.mem_singleton] at hcur
    have hay : a = y := by
      simpa using hi
    rw [← hay, hcur]
  · have hpt := hlink.1 cur e hl
    rw [passThrough_of_lists g _ y b hi ho] at hpt
    exact Bool.noConfusion hpt

theorem nextLeft_arrival {E : Type} (g : RepeatGraph E) (hends : EndsAgree g)
    (hlink : LinksArriveAtBranching g) (rep : E → Bool) (cur e : E)
    (h : nextLeft g rep cur = some e) (a y : E) (hi : g.inEdges (g.nodeRight e) = [a])
    (ho : g.outEdges (g.nodeRight e) = [y]) : y = cur := by
  rcases nextLeft_cases g rep cur e h with ⟨b, hib, hob⟩ | hl
  · have hnode : g.nodeRight e = g.nodeLeft cur :=
      hends.2.2 cur e (by rw [hib]; exact List.mem_singleton_self e)
    rw [hnode, hob] at ho
    have hcur := (hends.1 cur).2
    rw [hob, List.mem_singleton] at hcur
    have hby : b = y := by
      simpa using ho
    rw [← hby, hcur]
  · have hpt := hlink.2 cur e hl
    rw [passThrough_of_lists g _ a y hi ho] at hpt
    exact Bool.noConfusion hpt

theorem propagate_pass_closed {E : Type} [DecidableEq E] (g : RepeatGraph E)
    (hall : ∀ e, e ∈ g.iterEdges) (hends : EndsAgree g) (hlink : LinksArriveAtBranching g)
    (rep rep2 : E → Bool) (h : propagate g rep = some rep2) :
    ∀ x, rep2 x = true →
      (∀ a y, g.inEdges (g.nodeRight x) = [a] → g.outEdges (g.nodeRight x) = [y] →
        rep2 y = true) ∧
      (∀ y b, g.inEdges (g.nodeLeft x) = [y] → g.outEdges (g.nodeLeft x) = [b] →
        rep2 y = true) := by
  apply propagate_closed g
    (fun r x => ∀ a y, g.inEdges (g.nodeRight x) = [a] → g.outEdges (g.nodeRight x) = [y] →
      r y = true)
    (fun r x => ∀ y b, g.inEdges (g.nodeLeft x) = [y] → g.outEdges (g.nodeLeft x) = [b] →
      r y = true)
    (fun r r2 x hm hx a y hi ho => hm y (hx a y hi ho))
    (fun r r2 x hm hx y b hi ho => hm y (hx y b hi ho))
    (fun r cur _ hn a y hi ho => nextRight_stop_pass g r cur hn a y hi ho)
    (fun r cur e hc hn r2 hm he =>
      ⟨fun a y hi ho => nextRight_move_pass g r cur e hn r2 hm he a y hi ho,
        fun y b hi ho => by
          rw [nextRight_arrival g hends hlink r cur e hn y b hi ho]
          exact hm cur hc⟩)
    (fun r cur _ hn y b hi ho => nextLeft_stop_pass g r cur hn y b hi ho)
    (fun r cur e hc hn r2 hm he =>
      ⟨fun y b hi ho => nextLeft_move_pass g r cur e hn r2 hm he y b hi ho,
        fun a y hi ho => by
          rw [nextLeft_arrival g hends hlink r cur e hn a y hi ho]
          exact hm cur hc⟩)
    hall rep rep2 h

/-- Claim C11: repeat marks are propagated to a fixed point through pass-through nodes.
On a graph whose `iterEdges()` enumerates every edge, whose edge and node records agree
and whose links flank bubbles (a link arrives at a node that is not a pass-through node),
`findRepeats` returns, and in the graph it returns no repetitive edge `x` is left whose
right node has exactly one incoming and exactly one outgoing edge `y` with `y` not
repetitive, and none whose left node has exactly one incoming edge `y` and exactly one
outgoing edge with `y` not repetitive; this holds for every order of `iterEdges()`. -/
theorem propagation_fixed_point {E : Type} [DecidableEq E] (cfg : Settings)
    (alnIndex : E → List (GraphAlignment E)) (unbranchingPaths : List (UnbranchingPath E))
    (g : RepeatGraph E) (hall : ∀ e, e ∈ g.iterEdges) (hends : EndsAgree g)
    (hlink : LinksArriveAtBranching g) :
    ∃ g1, findRepeats cfg alnIndex unbranchingPaths g = some g1 ∧
      (∀ x a y, g1.repetitive x = true → g1.inEdges (g1.nodeRight x) = [a] →
        g1.outEdges (g1.nodeRight x) = [y] → g1.repetitive y = true) ∧
      (∀ x y b, g1.repetitive x = true → g1.inEdges (g1.nodeLeft x) = [y] →
        g1.outEdges (g1.nodeLeft x) = [b] → g1.repetitive y = true) := by
  obtain ⟨rep2, h2, _⟩ := propagate_some g hall
    (extensionSweep cfg alnIndex unbranchingPaths g
      (unbranchingPaths.foldl (sweepPath cfg alnIndex unbranchingPaths g) (fun _ => false)))
  have hfirst : findRepeats cfg alnIndex unbranchingPaths g
      = some { g with repetitive := rep2 } := by
    unfold findRepeats
    rw [findRepeatsFlags_reset cfg alnIndex unbranchingPaths g hall, h2]
    rfl
  have hclosed := propagate_pass_closed g hall hends hlink _ rep2 h2
  refine ⟨{ g with repetitive := rep2 }, hfirst, ?_, ?_⟩
  · intro x a y hx hi ho
    exact (hclosed x hx).1 a y hi ho
  · intro x y b hx hi ho
    exact (hclosed x hx).2 y b hi ho

/-! ### `findRepeats` and `finalizeGraph`: reverse-complement symmetry -/

theorem foldl_preserves {α β : Type} (P : β → Prop) (f : β → α → β) (l : List α) :
    ∀ b, (∀ b a, a ∈ l → P b → P (f b a)) → P b → P (l.foldl f b) := by
  induction l with
  | nil => intro b _ hb; exact hb
  | cons a l ih =>
    intro b hf hb
    rw [List.foldl_cons]
    exact ih (f b a) (fun b2 a2 ha2 => hf b2 a2 (List.mem_cons_of_mem _ ha2))
      (hf b a (List.mem_cons_self _ _) hb)

theorem markBoth_symmetric {E : Type} [DecidableEq E]
    (unbranchingPaths : List (UnbranchingPath E)) (c : E → E) (hinv : ∀ e, c (c e) = e)
    (hpaths : PathsMirrored unbranchingPaths c) (p : UnbranchingPath E)
    (hp : p ∈ unbranchingPaths) (rep : E → Bool) (hrep : ∀ e, rep (c e) = rep e) :
    ∀ e, markBoth unbranchingPaths rep p (c e) = markBoth unbranchingPaths rep p e := by
  intro e
  rw [markBoth_apply, markBoth_apply, hrep e]
  have h1 : c e ∈ (complPath unbranchingPaths p).path ↔ e ∈ p.path := by
    rw [hpaths p hp (c e), hinv]
  have h2 : c e ∈ p.path ↔ e ∈ (complPath unbranchingPaths p).path := (hpaths p hp e).symm
  by_cases ha : e ∈ p.path <;> by_cases hb : e ∈ (complPath unbranchingPaths p).path <;>
    simp [h1, h2, ha, hb]

theorem sweepPath_symmetric {E : Type} [DecidableEq E] (cfg : Settings)
    (alnIndex : E → List (GraphAlignment E)) (unbranchingPaths : List (UnbranchingPath E))
    (g : RepeatGraph E) (c : E → E) (hinv : ∀ e, c (c e) = e)
    (hpaths : PathsMirrored unbranchingPaths c) (p : UnbranchingPath E)
    (hp : p ∈ unbranchingPaths) (rep : E → Bool) (hrep : ∀ e, rep (c e) = rep e) :
    ∀ e, sweepPath cfg alnIndex unbranchingPaths g rep p (c e)
      = sweepPath cfg alnIndex unbranchingPaths g rep p e := by
  unfold sweepPath
  split
  · exact hrep
  · refine foldl_preserves (fun r : E → Bool => ∀ e, r (c e) = r e)
      (fun r rule => if rule r p then markBoth unbranchingPaths r p else r)
      (sweepRules cfg alnIndex g) rep ?_ hrep
    intro r rule _ hr e
    by_cases hrule : rule r p = true
    · simp only [hrule, if_true]
      exact markBoth_symmetric unbranchingPaths c hinv hpaths p hp r hr e
    · simp only [hrule, if_false]
      exact hr e

theorem extensionPath_symmetric {E : Type} [DecidableEq E] (cfg : Settings)
    (alnIndex : E → List (GraphAlignment E)) (unbranchingPaths : List (UnbranchingPath E))
    (g : RepeatGraph E) (c : E → E) (hinv : ∀ e, c (c e) = e)
    (hpaths : PathsMirrored unbranchingPaths c) (p : UnbranchingPath E)
    (hp : p ∈ unbranchingPaths) (rep : E → Bool) (hrep : ∀ e, rep (c e) = rep e) :
    ∀ e, extensionPath cfg alnIndex unbranchingPaths g rep p (c e)
      = extensionPath cfg alnIndex unbranchingPaths g rep p e := by
  rcases extensionPath_cases cfg alnIndex unbranchingPaths g rep p with h | h
  · rw [h]; exact hrep
  · rw [h]; exact markBoth_symmetric unbranchingPaths c hinv hpaths p hp rep hrep

theorem sweeps_symmetric {E : Type} [DecidableEq E] (cfg : Settings)
    (alnIndex : E → List (GraphAlignment E)) (unbranchingPaths : List (UnbranchingPath E))
    (g : RepeatGraph E) (c : E → E) (hinv : ∀ e, c (c e) = e)
    (hpaths : PathsMirrored unbranchingPaths c) :
    ∀ e, extensionSweep cfg alnIndex unbranchingPaths g
        (unbranchingPaths.foldl (sweepPath cfg alnIndex unbranchingPaths g) (fun _ => false)) (c e)
      = extensionSweep cfg alnIndex unbranchingPaths g
        (unbranchingPaths.foldl (sweepPath cfg alnIndex unbranchingPaths g) (fun _ => false)) e := by
  have h1 : ∀ e, unbranchingPaths.foldl (sweepPath cfg alnIndex unbranchingPaths g)
      (fun _ => false) (c e)
      = unbranchingPaths.foldl (sweepPath cfg alnIndex unbranchingPaths g) (fun _ => false) e := by
    exact foldl_preserves (fun r : E → Bool => ∀ e, r (c e) = r e)
      (sweepPath cfg alnIndex unbranchingPaths g) unbranchingPaths (fun _ => false)
      (fun r p hp hr => sweepPath_symmetric cfg alnIndex unbranchingPaths g c hinv hpaths p hp
        r hr)
      (fun _ => rfl)
  unfold extensionSweep
  refine foldl_preserves (fun r : E → Bool => ∀ e, r (c e) = r e)
    (fun r _ => (sortedPaths unbranchingPaths).foldl
      (extensionPath cfg alnIndex unbranchingPaths g) r)
    (List.range (numIters cfg)) _ ?_ h1
  intro r _ _ hr
  refine foldl_preserves (fun r : E → Bool => ∀ e, r (c e) = r e)
    (extensionPath cfg alnIndex unbranchingPaths g) (sortedPaths unbranchingPaths) r ?_ hr
  intro r2 p hp hr2
  have hp2 : p ∈ unbranchingPaths := by
    unfold sortedPaths at hp
    exact (List.perm_insertionSort _ unbranchingPaths).mem_iff.1 hp
  exact extensionPath_symmetric cfg alnIndex unbranchingPaths g c hinv hpaths p hp2 r2 hr2

theorem links_arrive_of_flank {E : Type} (g : RepeatGraph E) (h : LinksFlankBubbles g) :
    LinksArriveAtBranching g :=
  ⟨fun x y hxy => (h.2 x y hxy).2, fun x y hxy => (h.2 y x ((h.1 y x).2 hxy)).1⟩

theorem nextRight_not_pass {E : Type} (g : RepeatGraph E) (rep : E → Bool) (cur : E)
    (h : passThrough g (g.nodeRight cur) = false) :
    nextRight g rep cur = viaLink rep (g.rightLink cur) := by
  unfold nextRight
  split
  · rename_i a out hi ho
    rw [passThrough_of_lists g _ a out hi ho] at h
    exact Bool.noConfusion h
  · rfl

theorem nextLeft_not_pass {E : Type} (g : RepeatGraph E) (rep : E → Bool) (cur : E)
    (h : passThrough g (g.nodeLeft cur) = false) :
    nextLeft g rep cur = viaLink rep (g.leftLink cur) := by
  unfold nextLeft
  split
  · rename_i inc b hi ho
    rw [passThrough_of_lists g _ inc b hi ho] at h
    exact Bool.noConfusion h
  · rfl

theorem viaLink_none {E : Type} (rep : E → Bool) (y : E) (h : viaLink rep (some y) = none) :
    rep y = true := by
  unfold viaLink at h
  simp only [Option.filter] at h
  by_cases hy : rep y = true
  · exact hy
  · have hf : rep y = false := by simpa using hy
    simp [hf] at h

theorem nextRight_link {E : Type} (g : RepeatGraph E) (hflank : LinksFlankBubbles g)
    (rep : E → Bool) (cur y : E) (hl : g.rightLink cur = some y) :
    (nextRight g rep cur = none → rep y = true) ∧
      (∀ e, nextRight g rep cur = some e → e = y) := by
  rw [nextRight_not_pass g rep cur (hflank.2 cur y hl).1, hl]
  refine ⟨viaLink_none rep y, ?_⟩
  intro e he
  have := viaLink_eq_some rep _ e he
  exact (Option.some.inj this).symm

theorem nextLeft_link {E : Type} (g : RepeatGraph E) (hflank : LinksFlankBubbles g)
    (rep : E → Bool) (cur y : E) (hl : g.leftLink cur = some y) :
    (nextLeft g rep cur = none → rep y = true) ∧
      (∀ e, nextLeft g rep cur = some e → e = y) := by
  have hr : g.rightLink y = some cur := (hflank.1 y cur).2 hl
  rw [nextLeft_not_pass g rep cur (hflank.2 y cur hr).2, hl]
  refine ⟨viaLink_none rep y, ?_⟩
  intro e he
  have := viaLink_eq_some rep _ e he
  exact (Option.some.inj this).symm

/-- An edge the rightward walk moves to has no other `leftLink` than the edge the walk
came from. -/
theorem nextRight_arrival_link {E : Type} (g : RepeatGraph E) (hends : EndsAgree g)
    (hflank : LinksFlankBubbles g) (rep : E → Bool) (cur e : E)
    (h : nextRight g rep cur = some e) (y : E) (hl : g.leftLink e = some y) : y = cur := by
  have hr : g.rightLink y = some e := (hflank.1 y e).2 hl
  rcases nextRight_cases g rep cur e h with ⟨a, hia, hoa⟩ | hlk
  · have hnode : g.nodeLeft e = g.nodeRight cur :=
      hends.2.1 cur e (by rw [hoa]; exact List.mem_singleton_self e)
    have hpt := (hflank.2 y e hr).2
    rw [hnode, passThrough_of_lists g _ a e hia hoa] at hpt
    exact Bool.noConfusion hpt
  · have := (hflank.1 cur e).1 hlk
    rw [hl] at this
    exact Option.some.inj this

theorem nextLeft_arrival_link {E : Type} (g : RepeatGraph E) (hends : EndsAgree g)
    (hflank : LinksFlankBubbles g) (rep : E → Bool) (cur e : E)
    (h : nextLeft g rep cur = some e) (y : E) (hl : g.rightLink e = some y) : y = cur := by
  rcases nextLeft_cases g rep cur e h with ⟨b, hib, hob⟩ | hlk
  · have hnode : g.nodeRight e = g.nodeLeft cur :=
      hends.2.2 cur e (by rw [hib]; exact List.mem_singleton_self e)
    have hpt := (hflank.2 e y hl).1
    rw [hnode, passThrough_of_lists g _ e b hib hob] at hpt
    exact Bool.noConfusion hpt
  · have := (hflank.1 e cur).2 hlk
    rw [hl] at this
    exact Option.some.inj this

theorem propagate_adjacent_closed {E : Type} [DecidableEq E] (g : RepeatGraph E)
    (hall : ∀ e, e ∈ g.iterEdges) (hends : EndsAgree g) (hflank : LinksFlankBubbles g)
    (rep rep2 : E → Bool) (h : propagate g rep = some rep2) :
    ∀ x y, rep2 x = true → Adjacent g x y → rep2 y = true := by
  have hlink := links_arrive_of_flank g hflank
  have hclosed := propagate_closed g
    (fun r x => (∀ a y, g.inEdges (g.nodeRight x) = [a] → g.outEdges (g.nodeRight x) = [y] →
      r y = true) ∧ ∀ y, g.rightLink x = some y → r y = true)
    (fun r x => (∀ y b, g.inEdges (g.nodeLeft x) = [y] → g.outEdges (g.nodeLeft x) = [b] →
      r y = true) ∧ ∀ y, g.leftLink x = some y → r y = true)
    (fun r r2 x hm hx => ⟨fun a y hi ho => hm y (hx.1 a y hi ho), fun y hl => hm y (hx.2 y hl)⟩)
    (fun r r2 x hm hx => ⟨fun y b hi ho => hm y (hx.1 y b hi ho), fun y hl => hm y (hx.2 y hl)⟩)
    (fun r cur _ hn => ⟨fun a y hi ho => nextRight_stop_pass g r cur hn a y hi ho,
      fun y hl => (nextRight_link g hflank r cur y hl).1 hn⟩)
    (fun r cur e hc hn r2 hm he =>
      ⟨⟨fun a y hi ho => nextRight_move_pass g r cur e hn r2 hm he a y hi ho,
          fun y hl => by
            rw [← (nextRight_link g hflank r cur y hl).2 e hn]
            exact he⟩,
        ⟨fun y b hi ho => by
            rw [nextRight_arrival g hends hlink r cur e hn y b hi ho]
            exact hm cur hc,
          fun y hl => by
            rw [nextRight_arrival_link g hends hflank r cur e hn y hl]
            exact hm cur hc⟩⟩)
    (fun r cur _ hn => ⟨fun y b hi ho => nextLeft_stop_pass g r cur hn y b hi ho,
      fun y hl => (nextLeft_link g hflank r cur y hl).1 hn⟩)
    (fun r cur e hc hn r2 hm he =>
      ⟨⟨fun y b hi ho => nextLeft_move_pass g r cur e hn r2 hm he y b hi ho,
          fun y hl => by
            rw [← (nextLeft_link g hflank r cur y hl).2 e hn]
            exact he⟩,
        ⟨fun a y hi ho => by
            rw [nextLeft_arrival g hends hlink r cur e hn a y hi ho]
            exact hm cur hc,
          fun y hl => by
            rw [nextLeft_arrival_link g hends hflank r cur e hn y hl]
            exact hm cur hc⟩⟩)
    hall rep rep2 h
  intro x y hx hadj
  obtain ⟨⟨hrp, hrl⟩, ⟨hlp, hll⟩⟩ := hclosed x hx
  rcases hadj with ⟨a, hi, ho⟩ | ⟨b, hi, ho⟩ | hl | hl
  · exact hrp a y hi ho
  · exact hlp y b hi ho
  · exact hrl y hl
  · exact hll y hl

theorem walk_within {E : Type} [DecidableEq E] (next : (E → Bool) → E → Option E)
    (P : E → Prop) (hP : ∀ rep cur e, next rep cur = some e → P cur → P e) :
    ∀ (fuel : Nat) (rep rep2 : E → Bool) (cur : E), walk next fuel rep cur = some rep2 →
      P cur → (∀ x, rep x = true → P x) → ∀ x, rep2 x = true → P x := by
  intro fuel
  induction fuel with
  | zero => intro rep rep2 cur h; simp [walk] at h
  | succ fuel ih =>
    intro rep rep2 cur h hcur hrep
    simp only [walk] at h
    have hup : ∀ x, Function.update rep cur true x = true → P x := by
      intro x hx
      by_cases hxc : x = cur
      · subst hxc; exact hcur
      · rw [Function.update_noteq hxc] at hx; exact hrep x hx
    cases hn : next (Function.update rep cur true) cur with
    | none =>
      rw [hn] at h
      simp only [Option.some.injEq] at h
      subst h
      exact hup
    | some e =>
      rw [hn] at h
      exact ih _ _ _ h (hP _ _ _ hn hcur) hup

theorem propagate_within {E : Type} [DecidableEq E] (g : RepeatGraph E) (rep0 : E → Bool) :
    ∀ (l : List E) (rep rep2 : E → Bool),
      l.foldlM (propagateFrom g (g.iterEdges.length + 1)) rep = some rep2 →
      (∀ x, rep x = true → Reach g rep0 x) → ∀ x, rep2 x = true → Reach g rep0 x := by
  have hR : ∀ (rep : E → Bool) cur e, nextRight g rep cur = some e →
      Reach g rep0 cur → Reach g rep0 e := by
    intro rep cur e hn hc
    rcases nextRight_cases g rep cur e hn with h | h
    · exact Reach.step cur e hc (Or.inl h)
    · exact Reach.step cur e hc (Or.inr (Or.inr (Or.inl h)))
  have hL : ∀ (rep : E → Bool) cur e, nextLeft g rep cur = some e →
      Reach g rep0 cur → Reach g rep0 e := by
    intro rep cur e hn hc
    rcases nextLeft_cases g rep cur e hn with h | h
    · exact Reach.step cur e hc (Or.inr (Or.inl h))
    · exact Reach.step cur e hc (Or.inr (Or.inr (Or.inr h)))
  intro l
  induction l with
  | nil =>
    intro rep rep2 hf hrep
    simp only [List.foldlM_nil] at hf
    have hrr : rep = rep2 := Option.some.inj hf
    subst hrr
    exact hrep
  | cons a l ih =>
    intro rep rep2 hf hrep
    rw [List.foldlM_cons] at hf
    cases h1 : propagateFrom g (g.iterEdges.length + 1) rep a with
    | none => rw [h1] at hf; simp at hf
    | some r1 =>
      rw [h1] at hf
      apply ih r1 rep2 hf
      unfold propagateFrom at h1
      by_cases hr : rep a = true
      · simp only [hr, Bool.not_true, Bool.false_eq_true, if_false] at h1
        cases h2 : walk (nextRight g) (g.iterEdges.length + 1) rep a with
        | none => rw [h2] at h1; simp at h1
        | some repA =>
          rw [h2] at h1
          simp only [Option.some_bind] at h1
          have hA := walk_within (nextRight g) (Reach g rep0) hR _ rep repA a h2 (hrep a hr) hrep
          exact walk_within (nextLeft g) (Reach g rep0) hL _ repA r1 a h1 (hrep a hr) hA
      · have hf2 : rep a = false := by simpa using hr
        simp only [hf2, Bool.not_false, if_true, Option.some.injEq] at h1
        subst h1
        exact hrep

theorem propagate_eq_reach {E : Type} [DecidableEq E] (g : RepeatGraph E)
    (hall : ∀ e, e ∈ g.iterEdges) (hends : EndsAgree g) (hflank : LinksFlankBubbles g)
    (rep rep2 : E → Bool) (h : propagate g rep = some rep2) :
    ∀ x, rep2 x = true ↔ Reach g rep x := by
  intro x
  constructor
  · exact propagate_within g rep g.iterEdges rep rep2 h (fun y hy => Reach.base y hy) x
  · intro hx
    induction hx with
    | base e he =>
      obtain ⟨r, hr, hmono⟩ := propagate_some g hall rep
      rw [h] at hr
      cases hr
      exact hmono e he
    | step x y _ hadj ih =>
      exact propagate_adjacent_closed g hall hends hflank rep rep2 h x y ih hadj

theorem perm_singleton_map {E : Type} (c : E → E) (l m : List E) (y : E)
    (hp : l.Perm (m.map c)) (hm : m = [y]) : l = [c y] := by
  subst hm
  exact List.perm_singleton.1 hp

theorem adjacent_mirror {E : Type} (g : RepeatGraph E) (c : E → E) (hmir : Mirrored g c)
    (x y : E) (h : Adjacent g x y) : Adjacent g (c x) (c y) := by
  obtain ⟨_, hnodes, hlinks⟩ := hmir
  obtain ⟨h1, h2, h3, h4⟩ := hnodes x
  rcases h with ⟨a, hi, ho⟩ | ⟨b, hi, ho⟩ | hl | hl
  · exact Or.inr (Or.inl ⟨c a, perm_singleton_map c _ _ y h1 ho,
      perm_singleton_map c _ _ a h2 hi⟩)
  · exact Or.inl ⟨c b, perm_singleton_map c _ _ b h3 ho, perm_singleton_map c _ _ y h4 hi⟩
  · right; right; right
    rw [(hlinks x).2, hl]; rfl
  · right; right; left
    rw [(hlinks x).1, hl]; rfl

theorem reach_mirror {E : Type} (g : RepeatGraph E) (c : E → E) (hmir : Mirrored g c)
    (rep : E → Bool) (hrep : ∀ e, rep (c e) = rep e) (x : E) (h : Reach g rep x) :
    Reach g rep (c x) := by
  induction h with
  | base e he => exact Reach.base (c e) (by rw [hrep e]; exact he)
  | step x y _ hadj ih => exact Reach.step (c x) (c y) ih (adjacent_mirror g c hmir x y hadj)

theorem fixPath_symmetric {E : Type} [DecidableEq E] (cfg : Settings) (c : E → E)
    (hinv : ∀ e, c (c e) = e) (g : RepeatGraph E) (p : UnbranchingPath E) (rep : E → Bool)
    (hrep : ∀ e, rep (c e) = rep e) :
    ∀ e, fixPath cfg c g rep p (c e) = fixPath cfg c g rep p e := by
  intro e
  rw [fixPath_spec]
  simp only
  have ht : specTouches c p (c e) = specTouches c p e := by
    unfold specTouches
    have h1 : c e ∈ p.path ↔ e ∈ p.path.map c := by
      constructor
      · intro h; exact List.mem_map.2 ⟨c e, h, hinv e⟩
      · intro h
        obtain ⟨z, hz, hze⟩ := List.mem_map.1 h
        rw [← hze, hinv]; exact hz
    have h2 : c e ∈ p.path.map c ↔ e ∈ p.path := by
      constructor
      · intro h
        obtain ⟨z, hz, hze⟩ := List.mem_map.1 h
        have : z = e := by rw [← hinv z, hze, hinv]
        rw [← this]; exact hz
      · intro h; exact List.mem_map.2 ⟨e, h, rfl⟩
    by_cases ha : e ∈ p.path <;> by_cases hb : e ∈ p.path.map c <;> simp [h1, h2, ha, hb]
  rw [ht, hrep e]

/-- Claim C2: `findRepeats` establishes, and `finalizeGraph` preserves, reverse-complement
symmetry of the `repetitive` flag. On a graph closed under reverse complement (the partner
map is an involution that mirrors the edge lists of the end nodes and the links, and every
unbranching path has its complement path), whose `iterEdges()` enumerates every edge,
whose edge and node records agree and whose links flank bubbles, `findRepeats` returns
and in the graph it returns every edge has the flag of its partner, whatever the
alignments and the order of `iterEdges()`; and `finalizeGraph` turns flags that agree on
every edge and its partner into flags that agree on every edge and its partner. -/
theorem findRepeats_symmetric {E : Type} [DecidableEq E] (cfg : Settings)
    (alnIndex : E → List (GraphAlignment E)) (unbranchingPaths : List (UnbranchingPath E))
    (g : RepeatGraph E) (complementEdge : E → E)
    (hall : ∀ e, e ∈ g.iterEdges) (hends : EndsAgree g) (hflank : LinksFlankBubbles g)
    (hmir : Mirrored g complementEdge) (hpaths : PathsMirrored unbranchingPaths complementEdge) :
    (∃ g1, findRepeats cfg alnIndex unbranchingPaths g = some g1 ∧
      ∀ e, g1.repetitive e = g1.repetitive (complementEdge e)) ∧
    (∀ (g2 : RepeatGraph E) (substractedCoverage : E → Int)
      (paths : List (UnbranchingPath E)),
      (∀ e, g2.repetitive e = g2.repetitive (complementEdge e)) →
      ∀ e, (finalizeGraph cfg complementEdge substractedCoverage paths g2).repetitive e
        = (finalizeGraph cfg complementEdge substractedCoverage paths g2).repetitive
            (complementEdge e)) := by
  have hinv := hmir.1
  constructor
  · obtain ⟨rep2, h2, _⟩ := propagate_some g hall
      (extensionSweep cfg alnIndex unbranchingPaths g
        (unbranchingPaths.foldl (sweepPath cfg alnIndex unbranchingPaths g) (fun _ => false)))
    have hfirst : findRepeats cfg alnIndex unbranchingPaths g
        = some { g with repetitive := rep2 } := by
      unfold findRepeats
      rw [findRepeatsFlags_reset cfg alnIndex unbranchingPaths g hall, h2]
      rfl
    have hsym := sweeps_symmetric cfg alnIndex unbranchingPaths g complementEdge hinv hpaths
    have hreach := propagate_eq_reach g hall hends hflank _ rep2 h2
    refine ⟨{ g with repetitive := rep2 }, hfirst, ?_⟩
    intro e
    show rep2 e = rep2 (complementEdge e)
    have hiff : rep2 e = true ↔ rep2 (complementEdge e) = true := by
      rw [hreach e, hreach (complementEdge e)]
      constructor
      · exact reach_mirror g complementEdge hmir _ hsym e
      · intro h
        have := reach_mirror g complementEdge hmir _ hsym (complementEdge e) h
        rw [hinv] at this
        exact this
    cases h1 : rep2 e <;> cases h2 : rep2 (complementEdge e) <;> simp_all
  · intro g2 substractedCoverage paths hg2 e
    show paths.foldl (fixPath cfg complementEdge g2) g2.repetitive e
      = paths.foldl (fixPath cfg complementEdge g2) g2.repetitive (complementEdge e)
    have := foldl_preserves (fun r : E → Bool => ∀ e, r (complementEdge e) = r e)
      (fixPath cfg complementEdge g2) paths g2.repetitive
      (fun r p _ hr => fixPath_symmetric cfg complementEdge hinv g2 p r hr)
      (fun e => (hg2 e).symm)
    exact (this e).symm

/-! ### The list handed to `resolveConnections` -/

theorem twinPaired_append {E : Type} (g : RepeatGraph E) (m : List (Connection E)) :
    ∀ (n : Nat) (l : List (Connection E)), l.length ≤ n → twinPaired g l = true →
      twinPaired g (l ++ m) = twinPaired g m := by
  intro n
  induction n with
  | zero =>
    intro l hl _
    have : l = [] := List.length_eq_zero.1 (Nat.le_zero.1 hl)
    subst this
    rfl
  | succ n ih =>
    intro l hl ht
    match l, hl, ht with
    | [], _, _ => rfl
    | [_], _, ht => exact Bool.noConfusion ht
    | c :: d :: rest, hl, ht =>
      simp only [twinPaired, Bool.and_eq_true] at ht
      have hrest := ih rest (by simp only [List.length_cons] at hl; omega) ht.2
      show twinPaired g (c :: d :: (rest ++ m)) = twinPaired g m
      simp only [twinPaired, ht.1, Bool.true_and]
      exact hrest

/-- The value of `getConnections()`, the list `resolveRepeats` hands to
`resolveConnections`, is `twinPaired` when the complement of a path starts with the
partner of its last edge and ends with the partner of its first. -/
theorem getConnections_twinPaired {E : Type} [DecidableEq E] (g : RepeatGraph E)
    (curRange : OverlapRange → Int) (isBifurcation : Nat → Bool)
    (complementPath : GraphPath E → GraphPath E) (alignments : List (GraphAlignment E))
    (hcompl : ∀ c d : Connection E, d.path = complementPath c.path →
      anchors g d = twinAnchors (anchors g c)) :
    twinPaired g (getConnections g curRange isBifurcation complementPath alignments) = true := by
  have hgen : ∀ l : List (Connection E), PairedList curRange complementPath alignments l →
      twinPaired g l = true := by
    intro l h
    induction h with
    | nil => rfl
    | snoc l c d _ hcd ih =>
      rw [twinPaired_append g [c, d] l.length l (le_refl _) ih]
      obtain ⟨_, _, _, _, _, _, _, _, _, _, hpath, _⟩ := hcd
      simp only [twinPaired, Bool.and_true, decide_eq_true_eq]
      exact hcompl c d hpath
  exact hgen _ (getConnections_paired g curRange isBifurcation complementPath alignments)

/-! ### Worked inputs -/

theorem resolveRepeats_no_connections_witness :
    resolveRepeats covView (fun o => o.curEnd - o.curBegin) (fun _ => true) covComplementPath
        sortByLength (fun _ => none) [] (fun _ => covView) [] (1 / 10)
      = some { returned := 0,
               operations := [GraphOp.updateAlignments, GraphOp.fixChimericJunctions,
                 GraphOp.updateAlignments] } :=
  (resolveRepeats_no_connections covView (fun o => o.curEnd - o.curBegin) (fun _ => true)
    covComplementPath sortByLength (fun _ => none) [] (fun _ => covView) [] (1 / 10) rfl rfl).2
    (by decide) (fun _ => rfl) (by decide)

/-- Claim C6, the input on which `resolveRepeats` removes nodes although there is no
Connection: on `resolvedView` (an edge from node 0 to node 1 and its partner from node 2
to node 3, both already marked resolved) with no alignment, `getConnections` yields
nothing and `resolveRepeats` returns 0, but `clearResolvedRepeats` finds the resolved
chains and all four nodes are passed to `removeNode`. -/
theorem resolveRepeats_removes_nodes :
    getConnections resolvedView.graph (fun o => o.curEnd - o.curBegin) (fun _ => true)
      covComplementPath [] = [] ∧
    resolveRepeats resolvedView (fun o => o.curEnd - o.curBegin) (fun _ => true)
        covComplementPath sortByLength (fun _ => none) [] (fun _ => resolvedView) [] (1 / 10)
      = some { returned := 0,
               operations := [GraphOp.removeNode 0, GraphOp.removeNode 2, GraphOp.removeNode 1,
                 GraphOp.removeNode 3, GraphOp.updateAlignments, GraphOp.fixChimericJunctions,
                 GraphOp.updateAlignments] } := by
  decide

theorem transition_nodes_of_anchors_witness :
    (resolveConnections idGraph sixComplementPath sortByLength pairMate [0, 1] bridgeConnections
      (1 / 10)).returned = 1 :=
  (transition_nodes_of_anchors idGraph bridgeConnections).2.2.2.2 sortByLength pairMate [0, 1]
    (1 / 10) pairMate_max (fun l => List.length_insertionSort _ l) (Or.inl rfl) (by norm_num)

/-- Claim C3, the input on which the node set is not closed under `rc()`: in scenario S1
the transition graph has the two nodes `+1` and `-2` and one edge of weight 20; `+1` is a
node and `-1` is not. -/
theorem transition_nodes_not_closed :
    (buildTransitions idGraph bridgeConnections).lemonToAsm = [⟨1, true⟩, ⟨2, false⟩] ∧
    (buildTransitions idGraph bridgeConnections).edges = [(0, 1, 20)] ∧
    (⟨1, true⟩ : Id) ∈ (buildTransitions idGraph bridgeConnections).lemonToAsm ∧
    (⟨1, true⟩ : Id).rc ∉ (buildTransitions idGraph bridgeConnections).lemonToAsm := by
  obtain ⟨hnodes, hedges, _⟩ := bridge_transitions
  rw [hnodes, hedges]
  decide

theorem selected_nodes_disjoint_witness :
    List.Disjoint (nodeIds idGraph (twinOf sixComplementPath 5000 cToA))
      (nodeIds idGraph (twinOf sixComplementPath 5000 aToB)) :=
  selected_nodes_disjoint idGraph sixComplementPath sortByLength chainMate [0, 1, 2, 3]
    chainConnections (1 / 10) sortByLength_mem chainMate_symm (by decide) 0 1 _ _ (by decide)
    (by rw [chain_selected]; rfl) (by rw [chain_selected]; rfl)

/-- Claim C4, the input on which two selected Connections share an anchor id: for the
chain `C -> A -> B` (one read over each junction, each Connection with its twin) and the
matching of maximum weight, `resolveConnections` selects the Connection `A' -> C'` for
the first junction and `B' -> A'` for the second; the id `-1` of `A'` is the front anchor
of the first and the back anchor of the second. -/
theorem selected_share_anchor :
    IsMaxWeightMatching (buildTransitions idGraph chainConnections) chainMate ∧
    (resolveConnections idGraph sixComplementPath sortByLength chainMate [0, 1, 2, 3]
      chainConnections (1 / 10)).emitted.uniqueConnections
      = [twinOf sixComplementPath 5000 cToA, twinOf sixComplementPath 5000 aToB] ∧
    anchors idGraph (twinOf sixComplementPath 5000 cToA) = some (⟨1, false⟩, ⟨3, false⟩) ∧
    anchors idGraph (twinOf sixComplementPath 5000 aToB) = some (⟨2, false⟩, ⟨1, false⟩) :=
  ⟨chainMate_max, chain_selected, by decide, by decide⟩

theorem finalizeGraph_idempotent_stable_witness :
    finalizeGraph sampleSettings covComplement (fun _ => 0)
        (covPaths (finalizeGraph sampleSettings covComplement (fun _ => 5)
          (covPaths covGraph) covGraph))
        (finalizeGraph sampleSettings covComplement (fun _ => 5) (covPaths covGraph) covGraph)
      = finalizeGraph sampleSettings covComplement (fun _ => 5) (covPaths covGraph) covGraph :=
  (finalizeGraph_idempotent_stable sampleSettings covComplement (fun _ => 5)
    (covPaths covGraph)
    (covPaths (finalizeGraph sampleSettings covComplement (fun _ => 5)
      (covPaths covGraph) covGraph)) covGraph
    (List.Forall₂.cons ⟨rfl, rfl, rfl, rfl⟩
      (List.Forall₂.cons ⟨rfl, rfl, rfl, rfl⟩ List.Forall₂.nil))).2
    (Or.inr (List.Forall₂.cons (by unfold SameVerdict; decide)
      (List.Forall₂.cons (by unfold SameVerdict; decide) List.Forall₂.nil)))

/-- Claim C7, the input on which a second `finalizeGraph` changes a flag: on `covGraph`
(uniform coverage, threshold 50, `unique_edge_length` 50000) with 20 to subtract from
every edge, the first run keeps edge `0` repetitive because its path has mean coverage
60, above the threshold, and lowers the coverage to 40; after the map is reset the second
run sees mean coverage 40, not above the threshold, and clears the flag. -/
theorem finalizeGraph_not_idempotent :
    (finalizeGraph sampleSettings covComplement (fun _ => 20) (covPaths covGraph)
      covGraph).repetitive 0 = true ∧
    (finalizeGraph sampleSettings covComplement (fun _ => 0)
      (covPaths (finalizeGraph sampleSettings covComplement (fun _ => 20)
        (covPaths covGraph) covGraph))
      (finalizeGraph sampleSettings covComplement (fun _ => 20) (covPaths covGraph)
        covGraph)).repetitive 0 = false := by
  decide

theorem checkForTandemCopies_iff_witness :
    checkForTandemCopies (0 : Fin 6) (List.replicate 5 tandemAlignment) = true ∧
    checkForTandemCopies (0 : Fin 6) (List.replicate 4 tandemAlignment) = false :=
  ⟨(checkForTandemCopies_iff 0 (List.replicate 5 tandemAlignment) (by decide)).2.1 (by decide),
   (checkForTandemCopies_iff 0 (List.replicate 4 tandemAlignment) (by decide)).2.2.1 (by decide)⟩

theorem checkByReadExtension_iff_witness :
    (1 : Int) ≤ 5 ∧ checkByReadExtension linkedGraph 5 0 forkAlignments = true :=
  ⟨by decide, (checkByReadExtension_iff linkedGraph 5 0 forkAlignments (by decide)).1.2 (by decide)⟩

theorem findRepeats_idempotent_witness :
    (∀ e, e ∈ linkedGraph.iterEdges) ∧
    ∃ g1, findRepeats sampleSettings (fun _ => []) linkedPaths linkedGraph = some g1 ∧
      findRepeats sampleSettings (fun _ => []) linkedPaths g1 = some g1 :=
  ⟨by decide,
   (findRepeats_idempotent sampleSettings (fun _ => []) linkedPaths linkedGraph (by decide)).1⟩

theorem findRepeats_marks_qualifying_witness :
    ∃ g1, findRepeats sampleSettings (fun _ => []) linkedPaths linkedGraph = some g1 ∧
      g1.repetitive 0 = true ∧ g1.repetitive 3 = true := by
  obtain ⟨g1, h1, h2⟩ := (findRepeats_marks_qualifying sampleSettings (fun _ => []) linkedPaths
    linkedGraph (by decide) (by decide)).1
  obtain ⟨ha, hb⟩ := h2 ⟨⟨1, true⟩, [0], 1000, 10, false⟩ (by decide) rfl
    (Or.inr (Or.inr (Or.inr (Or.inr (Or.inl ⟨0, by decide, by decide⟩)))))
  exact ⟨g1, h1, ha 0 (by decide), hb 3 (by decide)⟩

/-- The condition on links cannot be dropped from the symmetry of `findRepeats`.
`linkedGraph` is closed under reverse complement (the partner map is an involution that
mirrors edge ids, end nodes, node edge lists, links and the `unreliable` flag, and every
unbranching path has its complement path), but its link joins `x`, which ends in a node
without outgoing edge, to `y`, whose left node is a pass-through node: no bubble lies
between them. There, in the graph returned by `findRepeats`, edge `w' = 4` is repetitive
and its partner `w = 1` is not: the propagation loop reaches `y = 2` through the link of
`x` after it has already passed over `y` in `iterEdges()`, so it never walks left from
`y`, while on the other strand it reaches `y' = 5` before its turn and then walks right
from it to `w'`. -/
theorem unflanked_link_asymmetric :
    ¬ LinksArriveAtBranching linkedGraph ∧
    (∀ e, linkedComplement (linkedComplement e) = e) ∧
    (∀ e, linkedGraph.edgeId (linkedComplement e) = (linkedGraph.edgeId e).rc) ∧
    (∀ e, linkedGraph.nodeLeft (linkedComplement e) = linkedMirror (linkedGraph.nodeRight e) ∧
      linkedGraph.nodeRight (linkedComplement e) = linkedMirror (linkedGraph.nodeLeft e)) ∧
    (∀ n ∈ linkedGraph.iterNodes,
      linkedGraph.inEdges (linkedMirror n) = (linkedGraph.outEdges n).map linkedComplement ∧
      linkedGraph.outEdges (linkedMirror n) = (linkedGraph.inEdges n).map linkedComplement) ∧
    (∀ e, linkedGraph.rightLink (linkedComplement e)
        = (linkedGraph.leftLink e).map linkedComplement ∧
      linkedGraph.leftLink (linkedComplement e)
        = (linkedGraph.rightLink e).map linkedComplement) ∧
    (∀ e, linkedGraph.unreliable (linkedComplement e) = linkedGraph.unreliable e) ∧
    (∀ p ∈ linkedPaths, ∃ q ∈ linkedPaths,
      q.id = p.id.rc ∧ q.path = (p.path.map linkedComplement).reverse) ∧
    ∃ g1, findRepeats sampleSettings (fun _ => []) linkedPaths linkedGraph = some g1 ∧
      g1.repetitive 4 = true ∧ g1.repetitive (linkedComplement 4) = false := by
  refine ⟨by unfold LinksArriveAtBranching; decide, by decide, by decide, by decide, by decide,
    by decide, by decide, by decide, ?_⟩
  have h : (findRepeats sampleSettings (fun _ => []) linkedPaths linkedGraph).map
      (fun g => (g.repetitive 4, g.repetitive (linkedComplement 4))) = some (true, false) := by
    decide
  cases hf : findRepeats sampleSettings (fun _ => []) linkedPaths linkedGraph with
  | none => rw [hf] at h; simp at h
  | some g1 =>
    rw [hf] at h
    simp only [Option.map_some', Option.some.injEq, Prod.mk.injEq] at h
    exact ⟨g1, rfl, h.1, h.2⟩

theorem scan_ends_at_first_unique_witness :
    creditedEdge linkedGraph 0 ([] ++ plainHit 0 :: ([] ++ plainHit 1 :: [])) = some 1 := by
  have h := (scan_ends_at_first_unique linkedGraph 0 [] [] (plainHit 0)
    (by decide) rfl (by decide)).1 (plainHit 1) [] rfl
  rw [h]
  decide

/-- Claim C20, the input on which a hit with the id of `checkEdge` ends the scan: on
`linkedGraph` (no edge repetitive) the alignment `x, x, w` has a second hit on
`checkEdge = x`; it is not repetitive, so the scan ends there and the alignment is
credited to no edge, although `w` is the first non-repetitive edge with another id. The
same happens when the second hit is on the partner `x'`, whose id is the reverse
complement. -/
theorem scan_ends_at_own_id :
    linkedGraph.repetitive 1 = false ∧
    linkedGraph.edgeId 1 ≠ linkedGraph.edgeId 0 ∧
    linkedGraph.edgeId 1 ≠ (linkedGraph.edgeId 0).rc ∧
    creditedEdge linkedGraph 0 [plainHit 0, plainHit 0, plainHit 1] = none ∧
    linkedGraph.edgeId 3 = (linkedGraph.edgeId 0).rc ∧
    creditedEdge linkedGraph 0 [plainHit 0, plainHit 3, plainHit 1] = none := by
  decide

/-- The condition on links cannot be dropped from the fixed point of the propagation
either: in `linkedGraph`, where the link of `x` arrives at the pass-through left node of
`y`, the graph that `findRepeats` returns has `y = 2` repetitive, its left node has the
one incoming edge `w = 1` and the one outgoing edge `y`, and `w` is not repetitive. -/
theorem unflanked_link_not_fixed :
    ∃ g1, findRepeats sampleSettings (fun _ => []) linkedPaths linkedGraph = some g1 ∧
      g1.repetitive 2 = true ∧ g1.inEdges (g1.nodeLeft 2) = [1] ∧
      g1.outEdges (g1.nodeLeft 2) = [2] ∧ g1.repetitive 1 = false := by
  have h : (findRepeats sampleSettings (fun _ => []) linkedPaths linkedGraph).map
      (fun g => (g.repetitive 2, g.inEdges (g.nodeLeft 2), g.outEdges (g.nodeLeft 2),
        g.repetitive 1)) = some (true, [1], [2], false) := by
    decide
  cases hf : findRepeats sampleSettings (fun _ => []) linkedPaths linkedGraph with
  | none => rw [hf] at h; simp at h
  | some g1 =>
    rw [hf] at h
    simp only [Option.map_some', Option.some.injEq, Prod.mk.injEq] at h
    exact ⟨g1, rfl, h.1, h.2.1, h.2.2.1, h.2.2.2⟩

theorem getConnections_reliable_witness :
    (∃ f l, ([0, 0, 1] : GraphPath (Fin 6)).head? = some f ∧
      ([0, 0, 1] : GraphPath (Fin 6)).getLast? = some l ∧
      (fun _ => true) (idGraph.nodeRight f) = true ∧
      (fun _ => true) (idGraph.nodeLeft l) = true ∧
      ¬ (idGraph.resolved f = true ∧ idGraph.resolved l = true) ∧
      idGraph.rightLink f = none ∧ idGraph.leftLink l = none) ∧
    getConnections allResolved spanOf (fun _ => true) sixComplementPath
      [[hitAt 0 0 1000, hitAt 1 2500 3500]] = [] :=
  ⟨(getConnections_reliable idGraph spanOf (fun _ => true) sixComplementPath [copyRead]).1 0
      ⟨[0, 0, 1], ⟨⟨7, true⟩, 1000, 2500⟩, 1000⟩ (by decide),
    (getConnections_reliable allResolved spanOf (fun _ => true) sixComplementPath []).2
      (hitAt 0 0 1000) (hitAt 1 2500 3500) rfl rfl⟩

theorem getConnections_coordinates_witness :
    (getConnections idGraph spanOf (fun _ => true) sixComplementPath [copyRead])[1]?
      = some ⟨[4, 3, 3], ⟨⟨7, false⟩, 2499, 3999⟩, 1000⟩ ∧
    ∃ readPath ∈ [copyRead], ∃ last ∈ readPath, ∃ forward,
      (getConnections idGraph spanOf (fun _ => true) sixComplementPath [copyRead])[2 * (1 / 2)]?
        = some forward ∧
      forward.path.getLast? = some last.edge ∧
      (0 : Int) ≤ 2499 ∧ (3999 : Int) ≤ last.overlap.curLen - 1 ∧ (99 : Int) ≤ 3999 - 2499 :=
  ⟨by decide, getConnections_coordinates idGraph spanOf (fun _ => true) sixComplementPath
    [copyRead] 1 ⟨[4, 3, 3], ⟨⟨7, false⟩, 2499, 3999⟩, 1000⟩ (by decide)⟩

theorem forward_path_shape_witness :
    (getConnections idGraph spanOf (fun _ => true) sixComplementPath [copyRead])[2 * 0]?
      = some ⟨[0, 0, 1], ⟨⟨7, true⟩, 1000, 2500⟩, 1000⟩ ∧
    ∃ (f : Fin 6) (mid : List (Fin 6)) (l : Fin 6),
      ([0, 0, 1] : GraphPath (Fin 6)) = f :: (mid ++ [l]) ∧
      2 ≤ ([0, 0, 1] : GraphPath (Fin 6)).length ∧
      idGraph.repetitive f = false ∧ idGraph.repetitive l = false ∧ f ≠ l ∧
      ∀ e ∈ mid, idGraph.repetitive e = true ∨ e = f :=
  ⟨by decide, forward_path_shape idGraph spanOf (fun _ => true) sixComplementPath [copyRead] 0
    ⟨[0, 0, 1], ⟨⟨7, true⟩, 1000, 2500⟩, 1000⟩ (by decide)⟩

/-- Claim C16, the input on which an interior edge is not repetitive: on `idGraph` (no
edge repetitive, every node a bifurcation) the read that hits `A`, `A`, `B` yields the
forward Connection with the path `A, A, B`; its interior edge `A` is a unique edge. -/
theorem interior_holds_unique_edge :
    getConnections idGraph spanOf (fun _ => true) sixComplementPath [copyRead]
      = [⟨[0, 0, 1], ⟨⟨7, true⟩, 1000, 2500⟩, 1000⟩,
         ⟨[4, 3, 3], ⟨⟨7, false⟩, 2499, 3999⟩, 1000⟩] ∧
    idGraph.repetitive 0 = false := by
  decide

theorem malformed_aborts_read_witness :
    readState idGraph (fun _ => true) copyRead [] 0 = some ([hitAt 1 2500 3500], 3500) ∧
    offendingHit idGraph (fun _ => true) [hitAt 1 2500 3500] 3500 badHit = true ∧
    (∀ acc, readLoop idGraph spanOf (fun _ => true) sixComplementPath
        (copyRead ++ badHit :: [hitAt 0 4000 4500]) [] 0 acc
      = readLoop idGraph spanOf (fun _ => true) sixComplementPath copyRead [] 0 acc) ∧
    getConnections idGraph spanOf (fun _ => true) sixComplementPath
        ([] ++ (copyRead ++ badHit :: [hitAt 0 4000 4500]) :: [copyRead])
      = getConnections idGraph spanOf (fun _ => true) sixComplementPath
          ([] ++ copyRead :: [copyRead]) :=
  ⟨by decide, by decide,
    malformed_aborts_read idGraph spanOf (fun _ => true) sixComplementPath [] [copyRead]
      copyRead [hitAt 0 4000 4500] badHit [hitAt 1 2500 3500] 3500 (by decide) (by decide)⟩

theorem finalizeGraph_clears_qualifying_witness :
    linkedPaths.Pairwise (Independent linkedComplement) ∧
    (finalizeGraph unevenSettings linkedComplement (fun _ => 0) linkedPaths
      allRepeats).repetitive 2 = false ∧
    (finalizeGraph unevenSettings linkedComplement (fun _ => 0) linkedPaths
      allRepeats).repetitive (linkedComplement 2) = false :=
  ⟨by decide,
    ((finalizeGraph_clears_qualifying unevenSettings linkedComplement (fun _ => 0) linkedPaths
      allRepeats).1 (by decide)).1 ⟨⟨2, true⟩, [1, 2], 2000, 10, false⟩ (by decide) rfl 1 rfl
      rfl rfl (by decide) (Or.inl rfl) 2 (by decide)⟩

set_option maxRecDepth 100000 in
theorem star_resolved :
    (resolveSimpleRepeats starGraph List.reverse starIndex List.dedup id
      [starPath]).resolvedConnections = starConnections := by
  decide

set_option maxRecDepth 100000 in
theorem simple_connections_supported_witness :
    (⟨[1, 0, 4], ⟨⟨4, true⟩, 1000, 1100⟩, 0⟩ : Connection (Fin 7)) ∈
      (resolveSimpleRepeats starGraph List.reverse starIndex List.dedup id
        [starPath]).resolvedConnections ∧
    (∃ p ∈ [starPath], ∃ front back inputConn outputConn,
      p.path.head? = some front ∧ p.path.getLast? = some back ∧
      ([1, 0, 4] : GraphPath (Fin 7)) = [inputConn] ++ p.path ++ [outputConn] ∧
      inputConn ∈ starGraph.inEdges (starGraph.nodeLeft front) ∧
      outputConn ∈ starGraph.outEdges (starGraph.nodeRight back) ∧ inputConn ≠ outputConn ∧
      connections starIndex (List.dedup (starGraph.outEdges (starGraph.nodeRight back)))
        inputConn outputConn ≥ MIN_JCT_SUPPORT ∧
      MIN_JCT_SUPPORT = 2 ∧
      (⟨⟨4, true⟩, 1000, 1100⟩ : ReadSequence)
        = bridgingReads starIndex (List.dedup (starGraph.outEdges (starGraph.nodeRight back)))
          inputConn outputConn ∧
      (0 : Int) = 0) ∧
    ([1, 0, 4] : GraphPath (Fin 7)).head? ≠ ([1, 0, 4] : GraphPath (Fin 7)).getLast? :=
  ⟨by decide,
    simple_connections_supported starGraph List.reverse starIndex List.dedup id [starPath]
      (fun l => ⟨List.nodup_dedup l, fun _ => List.mem_dedup⟩) (fun l => List.Perm.refl l)
      ⟨[1, 0, 4], ⟨⟨4, true⟩, 1000, 1100⟩, 0⟩ (by decide)⟩

set_option maxRecDepth 100000 in
theorem simple_perfect_pairing_witness :
    candidate starGraph List.dedup starPath = some ([1, 2, 3], [4, 5, 6]) ∧
    PerfectPairing starIndex [1, 2, 3] [4, 5, 6] ∧
    (pathConnections starGraph starIndex List.dedup id starPath).Perm
      (([1, 2, 3] : List (Fin 7)).map (pairedConnection starIndex [4, 5, 6] starPath)) ∧
    (pathConnections starGraph starIndex List.dedup id starPath).length
      = ([1, 2, 3] : List (Fin 7)).length :=
  ⟨by decide, by decide,
    (simple_perfect_pairing starGraph List.reverse starIndex List.dedup id
      (fun l => ⟨List.nodup_dedup l, fun _ => List.mem_dedup⟩) (fun l => List.Perm.refl l)
      starPath [1, 2, 3] [4, 5, 6] (by decide) (by decide)).2.2.1,
    (simple_perfect_pairing starGraph List.reverse starIndex List.dedup id
      (fun l => ⟨List.nodup_dedup l, fun _ => List.mem_dedup⟩) (fun l => List.Perm.refl l)
      starPath [1, 2, 3] [4, 5, 6] (by decide) (by decide)).2.2.2.1⟩

theorem selected_is_median_witness :
    twinOf sixComplementPath 5000 cToA ∈
      (resolveConnections idGraph sixComplementPath sortByLength chainMate [0, 1, 2, 3]
        chainConnections (1 / 10)).emitted.uniqueConnections ∧
    ∃ n m l r, n ∈ [0, 1, 2, 3] ∧ chainMate n = some m ∧
      (buildTransitions idGraph chainConnections).lemonToAsm[n]? = some l ∧
      (buildTransitions idGraph chainConnections).lemonToAsm[m]? = some r ∧
      belowFloor (pairSupport (buildTransitions idGraph chainConnections) n m)
        ((buildTransitions idGraph chainConnections).leftCoverage l +
          (buildTransitions idGraph chainConnections).rightCoverage r) (1 / 10) = false ∧
      twinOf sixComplementPath 5000 cToA ∈ spanning idGraph chainConnections l r ∧
      (((spanning idGraph chainConnections l r).map (fun d => d.readSeq.length)).insertionSort
        (fun a b => a ≤ b))[(spanning idGraph chainConnections l r).length / 2]?
        = some (twinOf sixComplementPath 5000 cToA).readSeq.length ∧
      ((spanning idGraph chainConnections l r).filter
        (fun d => decide (d.readSeq.length
          < (twinOf sixComplementPath 5000 cToA).readSeq.length))).length
        ≤ (spanning idGraph chainConnections l r).length / 2 ∧
      ((spanning idGraph chainConnections l r).filter
        (fun d => decide ((twinOf sixComplementPath 5000 cToA).readSeq.length
          < d.readSeq.length))).length
        ≤ (spanning idGraph chainConnections l r).length - 1
          - (spanning idGraph chainConnections l r).length / 2 :=
  ⟨by rw [chain_selected]; simp,
    selected_is_median idGraph sixComplementPath sortByLength chainMate [0, 1, 2, 3]
      chainConnections (1 / 10) sortByLength_isLengthSort
      (twinOf sixComplementPath 5000 cToA) (by rw [chain_selected]; simp)⟩

theorem removes_only_justified_witness :
    clearResolvedRepeats resolvedView covComplementPath
      = some [GraphOp.removeNode 0, GraphOp.removeNode 2, GraphOp.removeNode 1,
          GraphOp.removeNode 3, GraphOp.updateAlignments] ∧
    Justified resolvedView covComplementPath 1 :=
  ⟨by decide,
    (removes_only_justified resolvedView covComplementPath
      [GraphOp.removeNode 0, GraphOp.removeNode 2, GraphOp.removeNode 1,
        GraphOp.removeNode 3, GraphOp.updateAlignments] (by decide)).1 1 (by decide)⟩

theorem spanning_never_empty_witness :
    IsMatching (buildTransitions idGraph bridgeConnections) pairMate ∧
    ∃ l r, (buildTransitions idGraph bridgeConnections).lemonToAsm[0]? = some l ∧
      (buildTransitions idGraph bridgeConnections).lemonToAsm[1]? = some r ∧
      ((spanning idGraph bridgeConnections l r).length : Int)
        = pairSupport (buildTransitions idGraph bridgeConnections) 0 1 ∧
      1 ≤ pairSupport (buildTransitions idGraph bridgeConnections) 0 1 ∧
      (spanning idGraph bridgeConnections l r).isEmpty = false ∧
      (∀ c ∈ spanning idGraph bridgeConnections l r, c ∈ connectIndex idGraph bridgeConnections l) ∧
      ∀ (sortConns : List (Connection (Fin 6)) → List (Connection (Fin 6))) (minSup : ℚ)
        (st : EmitState (Fin 6)), (∀ x, (sortConns x).Perm x) → l ∉ st.usedEdges →
        belowFloor (pairSupport (buildTransitions idGraph bridgeConnections) 0 1)
          ((buildTransitions idGraph bridgeConnections).leftCoverage l +
            (buildTransitions idGraph bridgeConnections).rightCoverage r) minSup = false →
        ∃ c ∈ spanning idGraph bridgeConnections l r,
          emitStep idGraph bridgeConnections sortConns (buildTransitions idGraph bridgeConnections)
              pairMate minSup st 0
            = ⟨r :: st.usedEdges, st.uniqueConnections ++ [c], st.unresolvedLinks⟩ :=
  ⟨pairMate_matching,
    spanning_never_empty idGraph bridgeConnections pairMate 0 1 pairMate_matching rfl⟩

set_option maxRecDepth 100000 in
theorem confidence_is_ratio_witness :
    twinPaired idGraph bridgeConnections = true ∧
    IsMatching (buildTransitions idGraph bridgeConnections) pairMate ∧
    0 < (buildTransitions idGraph bridgeConnections).leftCoverage ⟨1, true⟩ +
      (buildTransitions idGraph bridgeConnections).rightCoverage ⟨2, false⟩ ∧
    1 ≤ pairSupport (buildTransitions idGraph bridgeConnections) 0 1 ∧
    pairSupport (buildTransitions idGraph bridgeConnections) 0 1
      ≤ (buildTransitions idGraph bridgeConnections).leftCoverage ⟨1, true⟩ +
        (buildTransitions idGraph bridgeConnections).rightCoverage ⟨2, false⟩ ∧
    (0 : ℚ) < (pairSupport (buildTransitions idGraph bridgeConnections) 0 1 : ℚ) /
      (((buildTransitions idGraph bridgeConnections).leftCoverage ⟨1, true⟩ +
        (buildTransitions idGraph bridgeConnections).rightCoverage ⟨2, false⟩ : Int) : ℚ) ∧
    (pairSupport (buildTransitions idGraph bridgeConnections) 0 1 : ℚ) /
      (((buildTransitions idGraph bridgeConnections).leftCoverage ⟨1, true⟩ +
        (buildTransitions idGraph bridgeConnections).rightCoverage ⟨2, false⟩ : Int) : ℚ) ≤ 1 :=
  ⟨by decide, pairMate_matching,
    confidence_is_ratio idGraph bridgeConnections pairMate 0 1 ⟨1, true⟩ ⟨2, false⟩ (by decide)
      pairMate_matching rfl (by decide) (by decide)⟩

/-! ### The fork at `A`: a quotient that is rounded up to the floor -/

set_option maxRecDepth 100000 in
theorem fork_transitions :
    (buildTransitions idGraph forkConnections).lemonToAsm
      = [⟨1, true⟩, ⟨2, false⟩, ⟨3, false⟩] ∧
    (buildTransitions idGraph forkConnections).edges = [(0, 1, 4), (0, 2, 2)] ∧
    (buildTransitions idGraph forkConnections).leftCoverage ⟨1, true⟩ = 3 ∧
    (buildTransitions idGraph forkConnections).rightCoverage ⟨2, false⟩ = 2 ∧
    pairSupport (buildTransitions idGraph forkConnections) 0 1 = 4 ∧
    (sortByLength (spanning idGraph forkConnections ⟨1, true⟩ ⟨2, false⟩))[
      (spanning idGraph forkConnections ⟨1, true⟩ ⟨2, false⟩).length / 2]?
      = some aToB ∧
    (spanning idGraph forkConnections ⟨1, true⟩ ⟨2, false⟩).isEmpty = false := by
  decide

theorem fork_matching : IsMaxWeightMatching (buildTransitions idGraph forkConnections) pairMate := by
  obtain ⟨hnodes, hedges, _⟩ := fork_transitions
  constructor
  · intro n m h
    rw [hnodes, hedges]
    unfold pairMate at h ⊢
    rcases n with _ | _ | n
    · simp only [List.getD_cons_zero, Option.some.injEq] at h
      subst h
      decide
    · simp only [List.getD_cons_succ, List.getD_cons_zero, Option.some.injEq] at h
      subst h
      decide
    · simp at h
  · intro other _
    unfold matchingWeight
    rw [hedges]
    by_cases h1 : other 0 = some 1 <;> by_cases h2 : other 0 = some 2 <;>
      simp [h1, h2, pairMate]

theorem confidence_four_fifths : (confidence 4 (3 + 2)).toRat = floatFourFifths := by
  have hc : confidence 4 (3 + 2) = ⟨13421773, -24⟩ := by decide
  rw [hc]
  unfold F32.toRat floatFourFifths
  norm_num

/-- Claim C12, the input on which the floor is not the exact one. The list holds two reads
from `A` to `B` and one from `A` to `C`, each Connection followed by its twin; the
transition graph has the nodes `+1`, `-2`, `-3` and the edges `+1 — -2` of weight 4 and
`+1 — -3` of weight 2, and the matching of maximum weight pairs `+1` with `-2`. The pair
has support 4 against `leftCoverage[+1] + rightCoverage[-2] = 3 + 2`, and `minSupport` is
0.8, that is the `float` `13421773 * 2 ^ -24`. In exact rationals 4/5 is below that
value, but `(float)4 / 5` is rounded to the same `float`, the test
`confidence < minSupport` fails, and the pair is selected: 1 is returned and no link is
counted unresolved. -/
theorem confidence_floor_rounded :
    twinPaired idGraph forkConnections = true ∧
    IsMaxWeightMatching (buildTransitions idGraph forkConnections) pairMate ∧
    pairMate 0 = some 1 ∧
    (buildTransitions idGraph forkConnections).lemonToAsm[0]? = some ⟨1, true⟩ ∧
    (buildTransitions idGraph forkConnections).lemonToAsm[1]? = some ⟨2, false⟩ ∧
    pairSupport (buildTransitions idGraph forkConnections) 0 1 = 4 ∧
    (buildTransitions idGraph forkConnections).leftCoverage ⟨1, true⟩ +
      (buildTransitions idGraph forkConnections).rightCoverage ⟨2, false⟩ = 5 ∧
    (confidence 4 5).toRat = floatFourFifths ∧
    ((4 : Int) : ℚ) / ((5 : Int) : ℚ) < floatFourFifths ∧
    (resolveConnections idGraph sixComplementPath sortByLength pairMate [0, 1, 2]
      forkConnections floatFourFifths).emitted.uniqueConnections
      = [aToB] ∧
    (resolveConnections idGraph sixComplementPath sortByLength pairMate [0, 1, 2]
      forkConnections floatFourFifths).returned = 1 ∧
    (resolveConnections idGraph sixComplementPath sortByLength pairMate [0, 1, 2]
      forkConnections floatFourFifths).emitted.unresolvedLinks = 0 := by
  obtain ⟨hnodes, hedges, hl, hr, hsup, hc, hne⟩ := fork_transitions
  have hn0 : (buildTransitions idGraph forkConnections).lemonToAsm[0]? = some ⟨1, true⟩ := by
    rw [hnodes]; rfl
  have hn1 : (buildTransitions idGraph forkConnections).lemonToAsm[1]? = some ⟨2, false⟩ := by
    rw [hnodes]; rfl
  have hf : belowFloor (match getEdge (buildTransitions idGraph forkConnections).edges 0 1 with
      | some e => e.2.2
      | none => 0)
      ((buildTransitions idGraph forkConnections).leftCoverage ⟨1, true⟩ +
        (buildTransitions idGraph forkConnections).rightCoverage ⟨2, false⟩) floatFourFifths
      = false := by
    rw [hedges, hl, hr]
    unfold belowFloor
    rw [decide_eq_false_iff_not]
    rintro ⟨_, hlt⟩
    have h4 : (match getEdge [((0 : Nat), (1 : Nat), (4 : Int)), (0, 2, 2)] 0 1 with
      | some e => e.2.2
      | none => 0) = 4 := by decide
    rw [h4, confidence_four_fifths] at hlt
    exact lt_irrefl _ hlt
  have hrun : List.foldl
      (emitStep idGraph forkConnections sortByLength (buildTransitions idGraph forkConnections)
        pairMate floatFourFifths) ⟨[], [], 0⟩ [0, 1, 2]
      = ⟨[⟨2, false⟩], [aToB], 0⟩ := by
    simp only [List.foldl_cons, List.foldl_nil]
    rw [emitStep_select idGraph forkConnections sortByLength _ pairMate floatFourFifths _ 0 1
      ⟨1, true⟩ ⟨2, false⟩ _ rfl hn0 hn1 (by simp) hf hne hc]
    rw [emitStep_skip idGraph forkConnections sortByLength _ pairMate floatFourFifths _ 1 0
      ⟨2, false⟩ ⟨1, true⟩ rfl hn1 hn0 (by simp)]
    rfl
  refine ⟨by decide, fork_matching, rfl, hn0, hn1, hsup, by rw [hl, hr]; rfl,
    confidence_four_fifths, by unfold floatFourFifths; norm_num, ?_, ?_, ?_⟩
  · unfold resolveConnections
    simp only
    rw [hrun]
  · unfold resolveConnections
    simp only
    rw [hrun]
    rfl
  · unfold resolveConnections
    simp only
    rw [hrun]

set_option maxRecDepth 100000 in
theorem confidence_floor_witness :
    pairMate 0 = some 1 ∧
    (buildTransitions idGraph forkConnections).lemonToAsm[0]? = some ⟨1, true⟩ ∧
    (buildTransitions idGraph forkConnections).lemonToAsm[1]? = some ⟨2, false⟩ ∧
    (buildTransitions idGraph forkConnections).leftCoverage ⟨1, true⟩ +
      (buildTransitions idGraph forkConnections).rightCoverage ⟨2, false⟩ ≠ 0 ∧
    (confidence (pairSupport (buildTransitions idGraph forkConnections) 0 1)
      ((buildTransitions idGraph forkConnections).leftCoverage ⟨1, true⟩ +
        (buildTransitions idGraph forkConnections).rightCoverage ⟨2, false⟩)).toRat < 7 / 8 ∧
    emitStep idGraph forkConnections sortByLength (buildTransitions idGraph forkConnections)
        pairMate (7 / 8) ⟨[], [], 0⟩ 0
      = ⟨[⟨2, false⟩], [], 1⟩ :=
  have hlt : (confidence (pairSupport (buildTransitions idGraph forkConnections) 0 1)
      ((buildTransitions idGraph forkConnections).leftCoverage ⟨1, true⟩ +
        (buildTransitions idGraph forkConnections).rightCoverage ⟨2, false⟩)).toRat < 7 / 8 := by
    rw [fork_transitions.2.2.2.2.1, fork_transitions.2.2.1, fork_transitions.2.2.2.1,
      confidence_four_fifths]
    unfold floatFourFifths
    norm_num
  ⟨rfl, by decide, by decide, by decide, hlt,
    (confidence_floor idGraph sixComplementPath sortByLength pairMate [0, 1, 2] forkConnections
      (7 / 8)).2.1 ⟨[], [], 0⟩ 0 1 ⟨1, true⟩ ⟨2, false⟩ rfl (by decide) (by decide) (by simp)
      (by decide) hlt⟩

/-! ### A bubble flanked by linked edges -/

theorem bubble_ends : EndsAgree bubbleGraph := by
  unfold EndsAgree
  decide

theorem bubble_flank : LinksFlankBubbles bubbleGraph := by
  unfold LinksFlankBubbles
  decide

theorem bubble_arrive : LinksArriveAtBranching bubbleGraph := by
  unfold LinksArriveAtBranching
  decide

set_option maxRecDepth 100000 in
theorem bubble_mirrored : Mirrored bubbleGraph bubbleComplement := by
  unfold Mirrored
  decide

set_option maxRecDepth 100000 in
theorem bubble_paths : PathsMirrored bubblePaths bubbleComplement := by
  unfold PathsMirrored
  decide

set_option maxRecDepth 100000 in
theorem bubble_flags :
    (findRepeats sampleSettings (fun _ => []) bubblePaths bubbleGraph).map
      (fun g => (List.finRange 10).map g.repetitive)
      = some [true, false, false, true, true, true, false, false, true, true] := by
  decide

theorem propagation_fixed_point_witness :
    (∀ e, e ∈ bubbleGraph.iterEdges) ∧ EndsAgree bubbleGraph ∧
    LinksArriveAtBranching bubbleGraph ∧
    ∃ g1, findRepeats sampleSettings (fun _ => []) bubblePaths bubbleGraph = some g1 ∧
      (∀ x a y, g1.repetitive x = true → g1.inEdges (g1.nodeRight x) = [a] →
        g1.outEdges (g1.nodeRight x) = [y] → g1.repetitive y = true) ∧
      (∀ x y b, g1.repetitive x = true → g1.inEdges (g1.nodeLeft x) = [y] →
        g1.outEdges (g1.nodeLeft x) = [b] → g1.repetitive y = true) :=
  ⟨by decide, bubble_ends, bubble_arrive,
    propagation_fixed_point sampleSettings (fun _ => []) bubblePaths bubbleGraph (by decide)
      bubble_ends bubble_arrive⟩

theorem findRepeats_symmetric_witness :
    (∀ e, e ∈ bubbleGraph.iterEdges) ∧ EndsAgree bubbleGraph ∧ LinksFlankBubbles bubbleGraph ∧
    Mirrored bubbleGraph bubbleComplement ∧ PathsMirrored bubblePaths bubbleComplement ∧
    ∃ g1, findRepeats sampleSettings (fun _ => []) bubblePaths bubbleGraph = some g1 ∧
      ∀ e, g1.repetitive e = g1.repetitive (bubbleComplement e) :=
  ⟨by decide, bubble_ends, bubble_flank, bubble_mirrored, bubble_paths,
    (findRepeats_symmetric sampleSettings (fun _ => []) bubblePaths bubbleGraph bubbleComplement
      (by decide) bubble_ends bubble_flank bubble_mirrored bubble_paths).1⟩

end Flye
